import Mathlib

/-!
# blksrv: the NBD request/response engine

A shallow embedding of `src/include/list.h`, `src/include/cache_allocator.h`,
`src/include/nbd_server.h`, `src/src/nbd_server.cc`, `src/examples/ramdisk.cc` and the
start of a loopback device in `src/src/nbd_loopback_server.cc`.

Memory is explicit.  Raw struct memory and data buffers are byte maps
(`Mem`), the embedded list links live in a link memory (`LinkMem`) addressed by
`LinkPtr`, and command objects live in an object store addressed by a natural
number (the address `new NbdCmd()` returned).  Calls that leave the engine
(`read(2)`, `write(2)`, `operator new`) take their result as an argument of the
step; the client's callbacks are the fields of `NbdParams` and thread a backend
state.  `assert`s are not part of the step functions.
-/

namespace Blksrv

set_option autoImplicit false

/-! ## Bytes, raw memory, byte order -/

abbrev Byte := Fin 256

/-- Raw memory of one object, addressed by byte offset. -/
abbrev Mem := Nat → Byte

/-- Store the bytes `bs` at offset `off`. -/
def writeAt (m : Mem) (off : Nat) (bs : List Byte) : Mem :=
  fun i => if off ≤ i then (bs.get? (i - off)).getD (m i) else m i

/-- The `n` bytes found at offset `off`. -/
def readAt (m : Mem) (off n : Nat) : List Byte :=
  (List.range n).map fun k => m (off + k)

/-- Byte order of the host the engine runs on. -/
inductive Endian
  | little
  | big
  deriving DecidableEq, Repr

/-- Value of a byte string read least significant byte first. -/
def leVal : List Byte → Nat
  | [] => 0
  | b :: bs => b.val + 256 * leVal bs

/-- Value of a byte string read most significant byte first. -/
def beVal (bs : List Byte) : Nat := leVal bs.reverse

/-- The `n` low bytes of `v`, least significant first. -/
def leBytes : Nat → Nat → List Byte
  | 0, _ => []
  | n + 1, v => ⟨v % 256, Nat.mod_lt _ (by decide)⟩ :: leBytes n (v / 256)

/-- The `n` low bytes of `v`, most significant first. -/
def beBytes (n v : Nat) : List Byte := (leBytes n v).reverse

/-- An `n`-byte integer field at offset `off`, as the host loads it. -/
def load (e : Endian) (m : Mem) (off n : Nat) : Nat :=
  match e with
  | .little => leVal (readAt m off n)
  | .big => beVal (readAt m off n)

/-- Store `v` into the `n`-byte integer field at offset `off`, as the host does. -/
def store (e : Endian) (m : Mem) (off n v : Nat) : Mem :=
  match e with
  | .little => writeAt m off (leBytes n v)
  | .big => writeAt m off (beBytes n v)

/-- Reverse the `n` bytes of `x`. -/
def bswap (n x : Nat) : Nat := beVal (leBytes n x)

/-- `be32toh` of `<endian.h>`. -/
def be32toh (e : Endian) (x : Nat) : Nat :=
  match e with
  | .little => bswap 4 x
  | .big => x % 2 ^ 32

/-- `htobe32` of `<endian.h>`. -/
def htobe32 (e : Endian) (x : Nat) : Nat :=
  match e with
  | .little => bswap 4 x
  | .big => x % 2 ^ 32

/-- `be64toh` of `<endian.h>`. -/
def be64toh (e : Endian) (x : Nat) : Nat :=
  match e with
  | .little => bswap 8 x
  | .big => x % 2 ^ 64

/-! ## Constants of `<linux/nbd.h>` and `<errno.h>` -/

def NBD_CMD_READ : Nat := 0
def NBD_CMD_WRITE : Nat := 1
def NBD_CMD_DISC : Nat := 2
def NBD_CMD_FLUSH : Nat := 3
def NBD_CMD_TRIM : Nat := 4
def NBD_CMD_FLAG_FUA : Nat := 1 <<< 16
def NBD_REQUEST_MAGIC : Nat := 0x25609513
def NBD_REPLY_MAGIC : Nat := 0x67446698
def EINVAL : Nat := 22
def ENOSPC : Nat := 28

/-- Size of the packed `struct nbd_request`: magic 0, type 4, handle 8, from 16, len 24. -/
def sizeof_req : Nat := 28

/-- Size of `struct nbd_reply`: magic 0, error 4, handle 8. -/
def sizeof_reply : Nat := 16

/-! ## `nbd_server.cc`, anonymous namespace -/

def kMaxNbdIOSize : Nat := 1024 * 1024

def kNbdReqMagic (e : Endian) : Nat := be32toh e NBD_REQUEST_MAGIC

def kNbdReplyMagic (e : Endian) : Nat := be32toh e NBD_REPLY_MAGIC

/-! ## `list.h` -/

/-- Address of a `ListLink`: the `head_` of a list, or the link embedded in an object. -/
inductive LinkPtr
  | null
  | head (l : Nat)
  | node (i : Nat)
  deriving DecidableEq, Repr

structure ListLink where
  next : LinkPtr
  prev : LinkPtr
  deriving DecidableEq, Repr

/-- The memory holding every `ListLink`. -/
abbrev LinkMem := LinkPtr → ListLink

/-- Assignment `p->next = v`. -/
def LinkMem.setNext (m : LinkMem) (p v : LinkPtr) : LinkMem :=
  fun q => if q = p then { m q with next := v } else m q

/-- Assignment `p->prev = v`. -/
def LinkMem.setPrev (m : LinkMem) (p v : LinkPtr) : LinkMem :=
  fun q => if q = p then { m q with prev := v } else m q

/-- `ListLink::Reset`: `next = prev = this`. -/
def LinkMem.Reset (m : LinkMem) (p : LinkPtr) : LinkMem :=
  (m.setPrev p p).setNext p p

/-- A `List<T>` object; its `head_` is the link at address `LinkPtr.head hd`. -/
structure ListT where
  hd : Nat
  size_ : Nat
  off_ : Int
  deriving DecidableEq, Repr

/-- The object a link pointer is embedded in (`((uint8_t *)link) - off_`); only the
link of an object has one. -/
def objOf : LinkPtr → Option Nat
  | .node i => some i
  | _ => none

namespace ListT

/-- `List::PushBack`. -/
def PushBack (L : ListT) (m : LinkMem) (obj : Nat) : LinkMem × ListT :=
  let link := LinkPtr.node obj
  let m1 := m.setPrev link (m (.head L.hd)).prev
  let m2 := m1.setNext link (.head L.hd)
  let m3 := m2.setNext (m2 (.head L.hd)).prev link
  let m4 := m3.setPrev (.head L.hd) link
  (m4, { L with size_ := (L.size_ + 1) % 2 ^ 32 })

/-- `List::PushFront`. -/
def PushFront (L : ListT) (m : LinkMem) (obj : Nat) : LinkMem × ListT :=
  let link := LinkPtr.node obj
  let m1 := m.setNext link (m (.head L.hd)).next
  let m2 := m1.setPrev link (.head L.hd)
  let m3 := m2.setPrev (m2 (.head L.hd)).next link
  let m4 := m3.setNext (.head L.hd) link
  (m4, { L with size_ := (L.size_ + 1) % 2 ^ 32 })

/-- `List::PopFront`. -/
def PopFront (L : ListT) (m : LinkMem) : Option Nat × LinkMem × ListT :=
  if L.size_ = 0 then (none, m, L)
  else
    let link := (m (.head L.hd)).next
    let m1 := m.setPrev (m link).next (.head L.hd)
    let m2 := m1.setNext (.head L.hd) (m1 link).next
    let m3 := m2.Reset link
    (objOf link, m3, { L with size_ := (L.size_ + 2 ^ 32 - 1) % 2 ^ 32 })

/-- `List::Remove`. -/
def Remove (L : ListT) (m : LinkMem) (obj : Nat) : Bool × LinkMem × ListT :=
  let link := LinkPtr.node obj
  if (m link).next = link ∨ (m link).next = .null then (false, m, L)
  else if (m link).prev = link ∨ (m link).prev = .null then (false, m, L)
  else
    let m1 := m.setPrev (m link).next (m link).prev
    let m2 := m1.setNext (m1 link).prev (m1 link).next
    let m3 := m2.Reset link
    (true, m3, { L with size_ := (L.size_ + 2 ^ 32 - 1) % 2 ^ 32 })

end ListT

/-- Link `a` is followed by link `b`: `a->next == b` and `b->prev == a`. -/
def Link (m : LinkMem) (a b : LinkPtr) : Prop :=
  (m a).next = b ∧ (m b).prev = a

instance Link.dec (m : LinkMem) : DecidableRel (Link m) :=
  fun a b => inferInstanceAs (Decidable ((m a).next = b ∧ (m b).prev = a))

/-- The links of the list whose `head_` is at `hd` when it holds the objects `xs`, in
order: `head_` followed by the link of every object. -/
def ptrs (hd : Nat) (xs : List Nat) : List LinkPtr :=
  .head hd :: xs.map .node

/-- The list `L` holds exactly the objects `xs`, in the order of forward iteration
(`First`/`Next`): the links form the ring `head_ → x₁ → … → xₙ → head_` with
matching back pointers, no object occurs twice, and `size_` is their number. -/
def IsList (m : LinkMem) (L : ListT) (xs : List Nat) : Prop :=
  List.Chain' (Link m) (ptrs L.hd xs ++ [.head L.hd]) ∧ xs.Nodup ∧
    L.size_ = xs.length ∧ xs.length < 2 ^ 32

/-- Deciding a chain of links by walking it. -/
def chainDec (m : LinkMem) : (l : List LinkPtr) → Decidable (l.Chain' (Link m))
  | [] => isTrue List.chain'_nil
  | [a] => isTrue (List.chain'_singleton a)
  | a :: b :: l =>
    match Link.dec m a b, chainDec m (b :: l) with
    | isTrue h1, isTrue h2 => isTrue (List.chain'_cons.2 ⟨h1, h2⟩)
    | isFalse h1, _ => isFalse fun h => h1 (List.chain'_cons.1 h).1
    | _, isFalse h2 => isFalse fun h => h2 (List.chain'_cons.1 h).2

instance IsList.dec (m : LinkMem) (L : ListT) (xs : List Nat) : Decidable (IsList m L xs) :=
  @instDecidableAnd _ _ (chainDec m _) inferInstance

/-- The links of the objects `bs` followed by the `head_` at `hd`. -/
def tl (hd : Nat) (bs : List Nat) : List LinkPtr :=
  bs.map .node ++ [.head hd]

/-- The last link of `ptrs hd as`. -/
def lastP (hd : Nat) (as : List Nat) : LinkPtr :=
  (as.getLast?.map .node).getD (.head hd)

/-- The first link of `tl hd bs`. -/
def firstP (hd : Nat) (bs : List Nat) : LinkPtr :=
  (bs.head?.map .node).getD (.head hd)

/-- Side conditions for inserting or unlinking the link `x` between the end `a` of
the chain `A` and the start `b` of the chain `B`. -/
structure Junction (A B : List LinkPtr) (a b x : LinkPtr) : Prop where
  hA : A.getLast? = some a
  hB : B.head? = some b
  hAn : A.Nodup
  hBn : B.Nodup
  hxA : x ∉ A
  hxB : x ∉ B
  hbA : ∀ v ∈ A, A.head? ≠ some v → v ≠ b
  haB : ∀ u ∈ B, B.getLast? ≠ some u → u ≠ a

/-- The link of object `c` is in no list (`next == this` and `prev == this`). -/
def Unlinked (m : LinkMem) (c : Nat) : Prop :=
  m (.node c) = ⟨.node c, .node c⟩

/-! ## `nbd_server.h` -/

def NBDCMD_STATE_RCV_REQ : Nat := 0
def NBDCMD_STATE_RCV_WRITE_DATA : Nat := 1
def NBDCMD_STATE_CMD_SUBMITTED : Nat := 2
def NBDCMD_STATE_SEND_REPLY : Nat := 3
def NBDCMD_STATE_SEND_READ_DATA : Nat := 4

/-- The buffer an I/O cursor points into. -/
inductive Region
  | req
  | reply
  | data
  deriving DecidableEq, Repr

/-- Value of `cur_io_ptr`: a buffer of the command and a byte offset into it. -/
structure IoPtr where
  region : Region
  off : Nat
  deriving DecidableEq, Repr

/-- A block handed out by `alloc_data_mem`: its address, the size asked for, its bytes. -/
structure DataBuf where
  addr : Nat
  size : Nat
  bytes : Mem

/-- Members of `class NbdCmd` other than `link`, which lives in the link memory at
`LinkPtr.node` of the object's address.  `req` and `reply` are the raw memory of
`struct nbd_request` and `struct nbd_reply`. -/
structure NbdCmd where
  req : Mem
  reply : Mem
  data_buf : Option DataBuf
  io_offset : Nat
  cur_io_ptr : IoPtr
  io_size_remaining : Nat
  ret_error : Nat
  server : Bool
  completion_cb : Bool
  cur_state : Nat
  fua : Nat
  io_size : Nat
  arg : Nat
  client_private : Nat

namespace NbdCmd

/-- `NbdCmd::Reset`. -/
def Reset (c : NbdCmd) : NbdCmd :=
  { c with
    cur_state := NBDCMD_STATE_RCV_REQ
    cur_io_ptr := ⟨.req, 0⟩
    io_size_remaining := sizeof_req
    data_buf := none
    ret_error := 0 }

/-- Memory of the buffer a cursor region names. -/
def mem (c : NbdCmd) : Region → Mem
  | .req => c.req
  | .reply => c.reply
  | .data => match c.data_buf with
    | some d => d.bytes
    | none => fun _ => 0

/-- Store bytes through the cursor `p`. -/
def poke (c : NbdCmd) (p : IoPtr) (bs : List Byte) : NbdCmd :=
  match p.region with
  | .req => { c with req := writeAt c.req p.off bs }
  | .reply => { c with reply := writeAt c.reply p.off bs }
  | .data => { c with data_buf := c.data_buf.map fun d => { d with bytes := writeAt d.bytes p.off bs } }

end NbdCmd

/-- What a backend callback did: the backend state and the command it left, and whether
it called `cmd->completion_cb(cmd)` before returning. -/
structure CbResult (β : Type) where
  backend : β
  cmd : NbdCmd
  completed : Bool

/-- `class NbdParams`; `β` is the state the callbacks work on.  `disconnect` is
synchronous and has no completion. -/
structure NbdParams (β : Type) where
  block_size : Nat
  rsvd : Nat
  num_blocks : Nat
  arg : Nat
  alloc_data_mem : β → Nat → Option DataBuf × β
  free_data_mem : β → DataBuf → β
  read : β → NbdCmd → CbResult β
  write : β → NbdCmd → CbResult β
  trim : β → NbdCmd → CbResult β
  flush : β → NbdCmd → CbResult β
  disconnect : Option (β → NbdCmd → β × NbdCmd)

/-- Calls the engine makes on the client, in the order made; an `alloc_data_mem` call
is recorded with the address it returned, if any. -/
inductive Event
  | alloc_data_mem (size : Nat) (ret : Option Nat)
  | free_data_mem (addr : Nat)
  | read (cmd : Nat)
  | write (cmd : Nat)
  | disconnect (cmd : Nat)
  | flush (cmd : Nat)
  | trim (cmd : Nat)
  deriving DecidableEq, Repr

/-- Members of `CacheAllocator<NbdCmd>`. -/
structure CacheAllocator where
  last_time_ : Int
  free_objs_ : ListT
  cur_allocations_ : Nat
  max_allocations_ : Nat
  deriving DecidableEq, Repr

/-- Result of the `read(2)` call of the receive path: the bytes the kernel has for
this call (it stores at most the count asked for; none stands for a return of 0),
`EAGAIN`/`EWOULDBLOCK`, or another error. -/
inductive RecvRes
  | ok (bs : List Byte)
  | again
  | fail

/-- Result of the `write(2)` call of the send path: the count the kernel would accept
(it takes at most the count offered), `EAGAIN`/`EWOULDBLOCK`, or another error. -/
inductive SendRes
  | ok (k : Nat)
  | again
  | fail

/-- Members of `class NbdServer` (`params_` is passed to the functions), followed by
the memory its pointers refer to and by the world outside: the backend state, the
calls made on the client, the bytes the socket accepted and the objects `delete`
was called on. -/
structure NbdServer (β : Type) where
  rcv_running_ : Bool
  send_running_ : Bool
  config_running_ : Bool
  cmd_cache_ : CacheAllocator
  rcv_cmd_ : Option Nat
  send_cmd_ : Option Nat
  send_cmds_ : ListT
  pending_backend_cmds_ : ListT
  fd_ : Int
  shutdown_ : Bool
  shutdown_reason_ : String
  last_config_run_ : Int
  cmds : Nat → NbdCmd
  ncmds : Nat
  links : LinkMem
  backend : β
  trace : List Event
  tx : List Byte
  deleted : List Nat

/-- Replace the object at address `c`. -/
def setCmd {β : Type} (s : NbdServer β) (c : Nat) (cmd : NbdCmd) : NbdServer β :=
  { s with cmds := fun i => if i = c then cmd else s.cmds i }

/-- `alloc_nbd_cmd_` on the memory `raw` that `operator new` returned: the constructor
runs `Reset`, then `arg`, `completion_cb` and `reply.magic` are set. -/
def alloc_nbd_cmd_ (e : Endian) (arg : Nat) (raw : NbdCmd) : NbdCmd :=
  { raw.Reset with
    arg := arg
    completion_cb := true
    reply := store e raw.reply 0 4 (kNbdReplyMagic e) }

namespace CacheAllocator

/-- `CacheAllocator::Alloc` of the engine's cache, whose `alloc_func_` is
`alloc_nbd_cmd_` with `alloc_arg_ = params.arg`; `nw` is what `new NbdCmd()` yields
if it is reached. -/
def Alloc {β : Type} (e : Endian) (arg : Nat) (s : NbdServer β) (nw : Option NbdCmd) :
    Option Nat × NbdServer β :=
  let r := s.cmd_cache_.free_objs_.PopFront s.links
  let s1 := { s with links := r.2.1, cmd_cache_ := { s.cmd_cache_ with free_objs_ := r.2.2 } }
  let bump := fun (t : NbdServer β) =>
    let cur := (t.cmd_cache_.cur_allocations_ + 1) % 2 ^ 32
    { t with cmd_cache_ := { t.cmd_cache_ with
        cur_allocations_ := cur
        max_allocations_ := if cur > t.cmd_cache_.max_allocations_ then cur
                            else t.cmd_cache_.max_allocations_ } }
  match r.1 with
  | some c => (some c, bump s1)
  | none =>
    match nw with
    | none => (none, s1)
    | some raw =>
      let c := s1.ncmds
      let s2 := { setCmd s1 c (alloc_nbd_cmd_ e arg raw) with
                  ncmds := c + 1
                  links := s1.links.Reset (.node c) }
      (some c, bump s2)

/-- `CacheAllocator::Free`. -/
def Free {β : Type} (s : NbdServer β) (c : Nat) : NbdServer β :=
  let r := s.cmd_cache_.free_objs_.PushFront s.links c
  { s with
    links := r.1
    cmd_cache_ := { s.cmd_cache_ with
      free_objs_ := r.2
      cur_allocations_ := (s.cmd_cache_.cur_allocations_ + 2 ^ 32 - 1) % 2 ^ 32 } }

/-- The `for` loop of `HouseKeeping`: up to `n` objects go from the front of
`free_objs_` to the front of the local list `freed`; the loop ends early when
`PopFront` returns `nullptr`. -/
def moveFreed : Nat → LinkMem → ListT → ListT → LinkMem × ListT × ListT
  | 0, m, free, freed => (m, free, freed)
  | n + 1, m, free, freed =>
    match free.PopFront m with
    | (none, m1, free1) => (m1, free1, freed)
    | (some p, m1, free1) =>
      let r := freed.PushFront m1 p
      moveFreed n r.1 free1 r.2

/-- The `while` loop of `HouseKeeping`: `free_func_` is called on every object popped
from `freed` until `PopFront` returns `nullptr`; `called` collects the objects in call
order.  The first argument bounds the number of rounds; `freed.size_` rounds empty
the list. -/
def drainFreed : Nat → LinkMem → ListT → List Nat → LinkMem × ListT × List Nat
  | 0, m, freed, called => (m, freed, called)
  | n + 1, m, freed, called =>
    match freed.PopFront m with
    | (none, m1, freed1) => (m1, freed1, called)
    | (some p, m1, freed1) => drainFreed n m1 freed1 (called ++ [p])

/-- `CacheAllocator::HouseKeeping` on the link memory `m`; `freedHd` is the address of
the `head_` of the local list `freed`.  The last component lists the objects
`free_func_` was called on, in call order.  `unsigned` arithmetic is modulo `2 ^ 32`. -/
def HouseKeeping (C : CacheAllocator) (m : LinkMem) (cur_time : Int) (freedHd : Nat) :
    LinkMem × CacheAllocator × List Nat :=
  if cur_time = C.last_time_ then (m, C, [])
  else
    let C1 := { C with last_time_ := cur_time }
    let backend_allocations := (C1.free_objs_.size_ + C1.cur_allocations_) % 2 ^ 32
    let excess := (backend_allocations + 2 ^ 32 - C1.max_allocations_) % 2 ^ 32
    let C2 := { C1 with max_allocations_ := C1.cur_allocations_ }
    if excess ≤ 2 then (m, C2, [])
    else
      let excess1 := excess >>> 1
      let m0 := m.Reset (.head freedHd)
      let freed : ListT := ⟨freedHd, 0, C2.free_objs_.off_⟩
      let r := moveFreed excess1 m0 C2.free_objs_ freed
      let d := drainFreed r.2.2.size_ r.1 r.2.2 []
      (d.1, { C2 with free_objs_ := r.2.1 }, d.2.2)

end CacheAllocator

namespace NbdServer

variable {β : Type}

/-- `NbdServer::NbdServer`: the three lists are empty, no object exists yet. -/
def ctor (backend : β) : NbdServer β :=
  { rcv_running_ := false
    send_running_ := false
    config_running_ := false
    cmd_cache_ := ⟨0, ⟨2, 0, 0⟩, 0, 0⟩
    rcv_cmd_ := none
    send_cmd_ := none
    send_cmds_ := ⟨0, 0, 0⟩
    pending_backend_cmds_ := ⟨1, 0, 0⟩
    fd_ := -1
    shutdown_ := false
    shutdown_reason_ := ""
    last_config_run_ := 0
    cmds := fun _ => ⟨fun _ => 0, fun _ => 0, none, 0, ⟨.req, 0⟩, 0, 0, false, false, 0, 0, 0, 0, 0⟩
    ncmds := 0
    links := fun p => ⟨p, p⟩
    backend := backend
    trace := []
    tx := []
    deleted := [] }

/-- `NbdServer::New`; `fcntl_err` is the `errno` of a failed `fd_set_nonblock`. -/
def New (sockfd : Int) (backend : β) (fcntl_err : Option Nat) : Except Nat (NbdServer β) :=
  match fcntl_err with
  | some err => .error err
  | none => .ok { ctor backend with fd_ := sockfd }

/-- `NbdServer::MarkShutdown`. -/
def MarkShutdown (s : NbdServer β) (reason : String) : NbdServer β :=
  if s.shutdown_ then s
  else { s with shutdown_ := true, shutdown_reason_ := reason }

/-- `NbdServer::CheckShutdown`; the second component is the caller's `*reason` after
the call. -/
def CheckShutdown (s : NbdServer β) (reason : String) : Bool × String :=
  if s.shutdown_ then (true, s.shutdown_reason_) else (false, reason)

/-- `NbdServer::CompletionCb`. -/
def CompletionCb (e : Endian) (s : NbdServer β) (c : Nat) : NbdServer β :=
  let cmd := s.cmds c
  let cmd1 := { cmd with reply := store e cmd.reply 4 4 (htobe32 e cmd.ret_error) }
  let cmd2 := { cmd1 with reply := writeAt cmd1.reply 8 (readAt cmd1.req 8 8) }
  let cmd3 := { cmd2 with
    cur_state := NBDCMD_STATE_SEND_REPLY
    cur_io_ptr := ⟨.reply, 0⟩
    io_size_remaining := sizeof_reply }
  let s1 := setCmd s c cmd3
  let r := s1.pending_backend_cmds_.Remove s1.links c
  let s2 := { s1 with links := r.2.1, pending_backend_cmds_ := r.2.2 }
  let p := s2.send_cmds_.PushBack s2.links c
  { s2 with links := p.1, send_cmds_ := p.2 }

/-- Call of an asynchronous backend callback `f` on command `c`, recorded as `ev`; a
callback that completed on the caller's stack has run the completion hook. -/
def invoke (e : Endian) (s : NbdServer β) (c : Nat) (ev : Event)
    (f : β → NbdCmd → CbResult β) : NbdServer β :=
  let r := f s.backend (s.cmds c)
  let s1 := { setCmd s c r.cmd with backend := r.backend, trace := s.trace ++ [ev] }
  if r.completed then CompletionCb e s1 c else s1

/-- `NbdServer::PostRcvdCmd`. -/
def PostRcvdCmd (P : NbdParams β) (e : Endian) (s : NbdServer β) : NbdServer β :=
  match s.rcv_cmd_ with
  | none => s
  | some c =>
    let s1 := { s with rcv_cmd_ := none }
    let s2 := setCmd s1 c { s1.cmds c with cur_state := NBDCMD_STATE_CMD_SUBMITTED }
    let ty := load e (s2.cmds c).req 4 4
    let s3 :=
      if ty ≠ NBD_CMD_DISC then
        let p := s2.pending_backend_cmds_.PushBack s2.links c
        { s2 with links := p.1, pending_backend_cmds_ := p.2 }
      else s2
    if ty = NBD_CMD_READ then invoke e s3 c (.read c) P.read
    else if ty = NBD_CMD_WRITE then invoke e s3 c (.write c) P.write
    else if ty = NBD_CMD_DISC then
      let s4 := match P.disconnect with
        | some f =>
          let r := f s3.backend (s3.cmds c)
          { setCmd s3 c r.2 with backend := r.1, trace := s3.trace ++ [.disconnect c] }
        | none => s3
      let s5 := MarkShutdown s4 "Disconnect received"
      CacheAllocator.Free s5 c
    else if ty = NBD_CMD_FLUSH then invoke e s3 c (.flush c) P.flush
    else if ty = NBD_CMD_TRIM then invoke e s3 c (.trim c) P.trim
    else
      CompletionCb e (setCmd s3 c { s3.cmds c with ret_error := EINVAL }) c

/-- First part of `PollRecv`: an empty receive slot is filled from the cache and the
command is reset; `nw` is what `new NbdCmd()` yields if the cache has to call it.  The
result is the value of `rcv_cmd_` (`none` for `nullptr`) and the state. -/
def rcvSlot (P : NbdParams β) (e : Endian) (s : NbdServer β) (nw : Option NbdCmd) :
    Option Nat × NbdServer β :=
  match s.rcv_cmd_ with
  | some c => (some c, s)
  | none =>
    let r := CacheAllocator.Alloc e P.arg s nw
    match r.1 with
    | none => (none, { r.2 with rcv_cmd_ := none })
    | some c =>
      (some c, { setCmd r.2 c { (r.2.cmds c).Reset with server := true } with
                 rcv_cmd_ := some c })

/-- The start of the processing of a received request in `PollRecv`: `req.type` is
converted to host order, the FUA flag is taken from it, and the flags are masked off. -/
def hostType (e : Endian) (cmd1 : NbdCmd) : NbdCmd :=
  let cmd2 := { cmd1 with req := store e cmd1.req 4 4 (be32toh e (load e cmd1.req 4 4)) }
  let cmd3 := { cmd2 with
    fua := if load e cmd2.req 4 4 &&& NBD_CMD_FLAG_FUA ≠ 0 then 1 else 0 }
  { cmd3 with req := store e cmd3.req 4 4 (load e cmd3.req 4 4 &&& 0xFFFF) }

/-- The two assignments after the validation in `PollRecv`: `io_offset` and `io_size`
are decoded from `req.from` and `req.len`. -/
def decodeFields (e : Endian) (cmd4 : NbdCmd) : NbdCmd :=
  let cmd5 := { cmd4 with io_offset := be64toh e (load e cmd4.req 16 8) }
  { cmd5 with io_size := be32toh e (load e cmd5.req 24 4) }

/-- Last part of `PollRecv`: the decoded request `cmd6` of the command `c` in the
receive slot is dispatched. -/
def rcvDispatch (P : NbdParams β) (e : Endian) (s1 : NbdServer β) (c : Nat) (cmd6 : NbdCmd) :
    NbdServer β :=
  let ty := load e cmd6.req 4 4
  if ty = NBD_CMD_READ ∨ ty = NBD_CMD_WRITE then
    let cmd7 := { cmd6 with io_size_remaining := cmd6.io_size }
    if cmd7.io_size_remaining = 0 ∨ cmd7.io_size_remaining > kMaxNbdIOSize then
      let s2 := CompletionCb e (setCmd s1 c { cmd7 with ret_error := EINVAL }) c
      { s2 with rcv_cmd_ := none }
    else
      let r := P.alloc_data_mem s1.backend cmd7.io_size_remaining
      let cmd8 := { cmd7 with data_buf := r.1, cur_io_ptr := ⟨.data, 0⟩ }
      let s2 := { setCmd s1 c cmd8 with
        backend := r.2
        trace := s1.trace ++
          [.alloc_data_mem cmd7.io_size_remaining (r.1.map DataBuf.addr)] }
      match r.1 with
      | none => MarkShutdown s2 "Failed to allocate DMA memory"
      | some _ =>
        if ty ≠ NBD_CMD_WRITE then PostRcvdCmd P e s2
        else setCmd s2 c { cmd8 with cur_state := NBDCMD_STATE_RCV_WRITE_DATA }
  else
    PostRcvdCmd P e (setCmd s1 c cmd6)

/-- The part of `PollRecv` reached in state `NBDCMD_STATE_RCV_REQ` when the 28 bytes of
the request are in `cmd1.req`: the request of the command `c` in the receive slot is
decoded, checked and dispatched. -/
def rcvRequest (P : NbdParams β) (e : Endian) (s1 : NbdServer β) (c : Nat) (cmd1 : NbdCmd) :
    NbdServer β :=
  let cmd4 := hostType e cmd1
  if load e cmd4.req 0 4 ≠ kNbdReqMagic e ∨ load e cmd4.req 4 4 > NBD_CMD_TRIM then
    MarkShutdown (setCmd s1 c cmd4) "Invalid cmd received"
  else
    rcvDispatch P e s1 c (decodeFields e cmd4)

/-- Middle part of `PollRecv`: the `read` call for the command `c` in the receive slot,
with result `rd`, and the bookkeeping of the bytes it stored. -/
def rcvBytes (P : NbdParams β) (e : Endian) (s1 : NbdServer β) (c : Nat) (rd : RecvRes) :
    NbdServer β :=
  let cmd := s1.cmds c
  match rd with
  | .again => s1
  | .fail => MarkShutdown s1 "Failed to read from socket"
  | .ok bs =>
    let got := bs.take cmd.io_size_remaining
    if got.length = 0 then
      MarkShutdown s1 "Remote end closed connection during read"
    else
      let cmd1 : NbdCmd := { cmd.poke cmd.cur_io_ptr got with
                             io_size_remaining := cmd.io_size_remaining - got.length }
      if cmd1.io_size_remaining ≠ 0 then
        setCmd s1 c { cmd1 with
          cur_io_ptr := ⟨cmd1.cur_io_ptr.region, cmd1.cur_io_ptr.off + got.length⟩ }
      else if cmd1.cur_state = NBDCMD_STATE_RCV_WRITE_DATA then
        PostRcvdCmd P e (setCmd s1 c cmd1)
      else
        rcvRequest P e s1 c cmd1

/-- `NbdServer::PollRecv`, in the three parts above; `nw` is what `new NbdCmd()` yields
if the cache has to call it, `rd` is the result of the `read` call. -/
def PollRecv (P : NbdParams β) (e : Endian) (s : NbdServer β) (nw : Option NbdCmd)
    (rd : RecvRes) : NbdServer β :=
  if s.shutdown_ then s
  else
    let a := rcvSlot P e s nw
    match a.1 with
    | none => a.2
    | some c => rcvBytes P e a.2 c rd

/-- First part of `PollSend`: an empty send slot is filled from the front of the send
queue.  The result is the value of `send_cmd_` and the state. -/
def sendSlot (s : NbdServer β) : Option Nat × NbdServer β :=
  match s.send_cmd_ with
  | some c => (some c, s)
  | none =>
    if s.send_cmds_.size_ = 0 then (none, s)
    else
      let r := s.send_cmds_.PopFront s.links
      (r.1, { s with links := r.2.1, send_cmds_ := r.2.2, send_cmd_ := r.1 })

/-- Second part of `PollSend`: the `write` call for the command `c` in the send slot,
with result `wr`, and what follows it. -/
def sendBytes (P : NbdParams β) (e : Endian) (s1 : NbdServer β) (c : Nat) (wr : SendRes) :
    NbdServer β :=
  let cmd := s1.cmds c
  match wr with
  | .again => s1
  | .fail => MarkShutdown s1 "Failed to write to socket"
  | .ok k =>
    let n := min k cmd.io_size_remaining
    if n = 0 then
      MarkShutdown s1 "Remote end closed connection during write"
    else
      let s2 := { s1 with tx := s1.tx ++ readAt (cmd.mem cmd.cur_io_ptr.region) cmd.cur_io_ptr.off n }
      let cmd1 := { cmd with io_size_remaining := cmd.io_size_remaining - n }
      if cmd1.io_size_remaining ≠ 0 then
        setCmd s2 c { cmd1 with
          cur_io_ptr := ⟨cmd1.cur_io_ptr.region, cmd1.cur_io_ptr.off + n⟩ }
      else if cmd1.cur_state = NBDCMD_STATE_SEND_READ_DATA ∨ cmd1.ret_error ≠ 0 ∨
          load e cmd1.req 4 4 ≠ NBD_CMD_READ ∨ load e cmd1.req 24 4 = 0 then
        let s3 :=
          match cmd1.data_buf with
          | some d =>
            { setCmd s2 c { cmd1 with data_buf := none } with
              backend := P.free_data_mem s2.backend d
              trace := s2.trace ++ [.free_data_mem d.addr] }
          | none => setCmd s2 c cmd1
        { CacheAllocator.Free s3 c with send_cmd_ := none }
      else
        setCmd s2 c { cmd1 with
          cur_state := NBDCMD_STATE_SEND_READ_DATA
          cur_io_ptr := ⟨.data, 0⟩
          io_size_remaining := be32toh e (load e cmd1.req 24 4) }

/-- `NbdServer::PollSend`, in the two parts above; `wr` is the result of the `write`
call. -/
def PollSend (P : NbdParams β) (e : Endian) (s : NbdServer β) (wr : SendRes) : NbdServer β :=
  let a := sendSlot s
  match a.1 with
  | none => a.2
  | some c => sendBytes P e a.2 c wr

/-- `std::atomic<bool>::compare_exchange_weak(expected, desired)` on a flag holding
`cur`; `spurious` says that this call fails although the flag compares equal.  The
result is the return value, the flag and `expected` after the call. -/
def compare_exchange_weak (cur expected desired spurious : Bool) : Bool × Bool × Bool :=
  if cur = expected ∧ spurious = false then (true, desired, expected)
  else (false, cur, cur)

/-- Address of the `head_` of the list `freed` local to `HouseKeeping`. -/
def freedHead : Nat := 3

/-- `NbdServer::ConfigPoll`; `time_t` values are integers and their difference is
taken without wrap-around.  `spurious` is for the `compare_exchange_weak` call. -/
def ConfigPoll (s : NbdServer β) (t : Int) (spurious : Bool) : Bool × NbdServer β :=
  if s.shutdown_ then (false, s)
  else
    let cas := compare_exchange_weak s.config_running_ false true spurious
    let s1 := { s with config_running_ := cas.2.1 }
    if !s1.shutdown_ && cas.1 then
      let s2 :=
        if s1.last_config_run_ - t > 0 then
          let h := s1.cmd_cache_.HouseKeeping s1.links t freedHead
          { s1 with
            last_config_run_ := t
            links := h.1
            cmd_cache_ := h.2.1
            deleted := s1.deleted ++ h.2.2 }
        else s1
      let s3 := { s2 with config_running_ := false }
      (!s3.shutdown_, s3)
    else (!s1.shutdown_, s1)

/-- `NbdServer::DataPoll`; `sp1` and `sp2` are for the two `compare_exchange_weak`
calls, `nw` and `rd` for `PollRecv`, `wr` for `PollSend`, if they run. -/
def DataPoll (P : NbdParams β) (e : Endian) (s : NbdServer β) (sp1 sp2 : Bool)
    (nw : Option NbdCmd) (rd : RecvRes) (wr : SendRes) : Bool × NbdServer β :=
  if s.shutdown_ then (false, s)
  else
    let flg := false
    let cas1 := compare_exchange_weak s.rcv_running_ flg true sp1
    let s1 := { s with rcv_running_ := cas1.2.1 }
    let a : NbdServer β × Bool :=
      if !s1.shutdown_ && cas1.1 then
        ({ PollRecv P e s1 nw rd with rcv_running_ := false }, false)
      else (s1, cas1.2.2)
    let s2 := a.1
    let flg2 := a.2
    if s2.shutdown_ then (!s2.shutdown_, s2)
    else
      let cas2 := compare_exchange_weak s2.send_running_ flg2 true sp2
      let s3 := { s2 with send_running_ := cas2.2.1 }
      if cas2.1 then
        let s4 := { PollSend P e s3 wr with send_running_ := false }
        (!s4.shutdown_, s4)
      else (!s3.shutdown_, s3)

/-- `NbdServer::IsDeleteReady`. -/
def IsDeleteReady (s : NbdServer β) : Bool :=
  s.shutdown_ && !s.rcv_running_ && !s.send_running_ && !s.config_running_ &&
    s.pending_backend_cmds_.size_ == 0

end NbdServer

/-! ## `examples/ramdisk.cc` -/

def kMemSize : Nat := 100 * 1024 * 1024

/-- State of the example: the block `mem`, and the break of a `malloc` that hands out
consecutive blocks. -/
structure RamDisk where
  mem : Mem
  brk : Nat

/-- `rd_alloc_mem`: `malloc(size)`. -/
def rd_alloc_mem (b : RamDisk) (size : Nat) : Option DataBuf × RamDisk :=
  (some ⟨b.brk, size, fun _ => 0⟩, { b with brk := b.brk + size })

/-- `rd_free_mem`: `free(ptr)`. -/
def rd_free_mem (b : RamDisk) (_d : DataBuf) : RamDisk := b

/-- `rd_read`. -/
def rd_read (b : RamDisk) (cmd : NbdCmd) : CbResult RamDisk :=
  if (cmd.io_offset + cmd.io_size) % 2 ^ 64 > kMemSize then
    ⟨b, { cmd with ret_error := ENOSPC }, true⟩
  else
    ⟨b, { cmd with
          data_buf := cmd.data_buf.map fun d =>
            { d with bytes := writeAt d.bytes 0 (readAt b.mem cmd.io_offset cmd.io_size) }
          ret_error := 0 }, true⟩

/-- `rd_write`. -/
def rd_write (b : RamDisk) (cmd : NbdCmd) : CbResult RamDisk :=
  if (cmd.io_offset + cmd.io_size) % 2 ^ 64 > kMemSize then
    ⟨b, { cmd with ret_error := ENOSPC }, true⟩
  else
    ⟨{ b with mem := writeAt b.mem cmd.io_offset (readAt (cmd.mem .data) 0 cmd.io_size) },
     { cmd with ret_error := 0 }, true⟩

/-- `rd_flush`. -/
def rd_flush (b : RamDisk) (cmd : NbdCmd) : CbResult RamDisk :=
  ⟨b, { cmd with ret_error := 0 }, true⟩

/-- `rd_trim`. -/
def rd_trim (b : RamDisk) (cmd : NbdCmd) : CbResult RamDisk :=
  ⟨b, { cmd with ret_error := 0 }, true⟩

/-- The `NbdParams` that `main` fills in. -/
def rd_params : NbdParams RamDisk :=
  { block_size := 4096
    rsvd := 0
    num_blocks := kMemSize / 4096
    arg := 0
    alloc_data_mem := rd_alloc_mem
    free_data_mem := rd_free_mem
    read := rd_read
    write := rd_write
    trim := rd_trim
    flush := rd_flush
    disconnect := none }

/-! ## Example states -/

/-- Link memory in which every link is self-linked, as constructed. -/
def freshLinks : LinkMem := fun p => ⟨p, p⟩

/-- A list with `head_` at address 7 after `PushBack` of the objects 5 and 9. -/
def exList : LinkMem × ListT :=
  let a := (ListT.mk 7 0 0).PushBack freshLinks 5
  a.2.PushBack a.1 9

/-- The RAM disk of the example at start: a zeroed block, `malloc` break at 1000. -/
def exDisk : RamDisk := ⟨fun _ => 0, 1000⟩

/-- The engine `NbdServer::New` returns for socket 3 over the example RAM disk. -/
def exServer : NbdServer RamDisk := { NbdServer.ctor exDisk with fd_ := 3 }

/-- The example engine while one thread is in the receive path and another in the
send path. -/
def exBusy : NbdServer RamDisk := { exServer with rcv_running_ := true, send_running_ := true }

/-- Link memory holding the ring of the list with `head_` at `hd` and the objects
`0, …, n - 1` in this order; every other link is self-linked. -/
def ringLinks (hd n : Nat) : LinkMem := fun p =>
  match p with
  | .head h => if h = hd ∧ 0 < n then ⟨.node 0, .node (n - 1)⟩ else ⟨p, p⟩
  | .node i =>
    if i < n then
      ⟨if i + 1 = n then .head hd else .node (i + 1), if i = 0 then .head hd else .node (i - 1)⟩
    else ⟨p, p⟩
  | .null => ⟨p, p⟩

/-- States of the link memory and the cache after each of the `HouseKeeping` calls at
the times `ts`, made one after the other with no `Alloc` or `Free` in between. -/
def hkRun (fh : Nat) : LinkMem → CacheAllocator → List Int → List (LinkMem × CacheAllocator)
  | _, _, [] => []
  | m, C, t :: ts =>
    let r := C.HouseKeeping m t fh
    (r.1, r.2.1) :: hkRun fh r.1 r.2.1 ts

/-- Size of the free list before the first of the calls and after each call. -/
def hkSizes (fh : Nat) (m : LinkMem) (C : CacheAllocator) (ts : List Int) : List Nat :=
  C.free_objs_.size_ :: (hkRun fh m C ts).map fun q => q.2.free_objs_.size_

/-- The cache of the example: 100 idle objects after a peak of 100 in use. -/
def exCache : CacheAllocator := ⟨0, ⟨2, 100, 0⟩, 0, 100⟩

/-! ## Containment and reachable states -/

/-- The three lists of the engine hold `snd`, `pnd` and `fre`, no object is in two of
them, and the link of every object in none of them is self-linked. -/
structure Lists (m : LinkMem) (S Pn F : ListT) (snd pnd fre : List Nat) : Prop where
  send : IsList m S snd
  pend : IsList m Pn pnd
  free : IsList m F fre
  hS : S.hd = 0
  hP : Pn.hd = 1
  hF : F.hd = 2
  dsp : ∀ a ∈ snd, a ∉ pnd
  dsf : ∀ a ∈ snd, a ∉ fre
  dpf : ∀ a ∈ pnd, a ∉ fre
  unl : ∀ c, c ∉ snd → c ∉ pnd → c ∉ fre → Unlinked m c

/-- Number of times the object `c` is held in the slot `o`. -/
def slotCount (o : Option Nat) (c : Nat) : Nat := if o = some c then 1 else 0

/-- Containment in a state of the engine: the three lists hold `snd`, `pnd` and `fre`,
and every object that `new` returned is counted exactly once among the objects held in
a local variable of the running code (`hand`), the two slots, the three lists and the
deleted objects; no other object is counted. -/
structure Cont {β : Type} (s : NbdServer β) (hand snd pnd fre : List Nat) : Prop where
  lists : Lists s.links s.send_cmds_ s.pending_backend_cmds_ s.cmd_cache_.free_objs_ snd pnd fre
  count : ∀ c, hand.count c + slotCount s.rcv_cmd_ c + slotCount s.send_cmd_ c + snd.count c +
    pnd.count c + fre.count c + s.deleted.count c = if c < s.ncmds then 1 else 0
  bound : s.ncmds < 2 ^ 32

/-- Single containment at the boundary of a step: containment with no object held in
a local variable. -/
def Inv {β : Type} (s : NbdServer β) : Prop := ∃ snd pnd fre, Cont s [] snd pnd fre

section Reach

variable {β : Type}

open NbdServer

/-- One step of the engine and its environment.  `DataPoll` runs with arbitrary results
of its `compare_exchange_weak`, `new`, `read` and `write` calls, where `new` yields an
object only while fewer than `2 ^ 32 - 1` exist; the backend completes a command that is
in the pending set, having left it as `cmd` with `T (s.cmds c) cmd`; `ConfigPoll` runs
at an arbitrary time. -/
inductive Step (P : NbdParams β) (e : Endian) (T : NbdCmd → NbdCmd → Prop) :
    NbdServer β → NbdServer β → Prop
  | data_poll (s : NbdServer β) (sp1 sp2 : Bool) (nw : Option NbdCmd) (rd : RecvRes)
      (wr : SendRes) (hnw : nw.isSome → s.ncmds + 1 < 2 ^ 32) :
      Step P e T s (DataPoll P e s sp1 sp2 nw rd wr).2
  | completion (s : NbdServer β) (c : Nat) (cmd : NbdCmd) (pnd : List Nat)
      (hl : IsList s.links s.pending_backend_cmds_ pnd) (hc : c ∈ pnd)
      (ht : T (s.cmds c) cmd) :
      Step P e T s (CompletionCb e (setCmd s c cmd) c)
  | config_poll (s : NbdServer β) (t : Int) (sp : Bool) :
      Step P e T s (ConfigPoll s t sp).2

/-- The states the engine `NbdServer::New` returned can get into. -/
inductive Reachable (P : NbdParams β) (e : Endian) (T : NbdCmd → NbdCmd → Prop) :
    NbdServer β → Prop
  | init (sockfd : Int) (b : β) : Reachable P e T { ctor b with fd_ := sockfd }
  | step {s s2 : NbdServer β} : Reachable P e T s → Step P e T s s2 → Reachable P e T s2

end Reach

/-- Memory as `operator new` may return it for an `NbdCmd`: arbitrary contents. -/
def exRaw : NbdCmd :=
  ⟨fun _ => 7, fun _ => 9, none, 5, ⟨.reply, 3⟩, 77, 4, false, false, 9, 1, 3, 0, 0⟩

/-- The 28 bytes of a request on the wire: magic, type, handle, offset, length. -/
def wireReq (ty : Nat) (handle : List Byte) (off len : Nat) : List Byte :=
  beBytes 4 NBD_REQUEST_MAGIC ++ beBytes 4 ty ++ handle ++ beBytes 8 off ++ beBytes 4 len

/-! ## The wire format -/

/-- Reference decoding of the request whose 28 bytes, as received, start the memory `m`:
`magic` is the big-endian value of bytes 0..3. -/
def wireMagic (m : Mem) : Nat := beVal (readAt m 0 4)

/-- The big-endian 32-bit type field, bytes 4..7. -/
def wireType (m : Mem) : Nat := beVal (readAt m 4 4)

/-- The opcode: the low 16 bits of the type field. -/
def wireOpcode (m : Mem) : Nat := wireType m % 2 ^ 16

/-- The FUA flag: bit 16 of the type field. -/
def wireFua (m : Mem) : Nat := wireType m / 2 ^ 16 % 2

/-- The handle, bytes 8..15. -/
def wireHandle (m : Mem) : List Byte := readAt m 8 8

/-- The offset: the big-endian value of bytes 16..23. -/
def wireFrom (m : Mem) : Nat := beVal (readAt m 16 8)

/-- The length: the big-endian value of bytes 24..27. -/
def wireLen (m : Mem) : Nat := beVal (readAt m 24 4)

/-- The receive slot of `s` holds the command `c` part-way through a request header, and
a read that delivers `bs` completes the header. -/
def RcvHeader {β : Type} (s : NbdServer β) (c : Nat) (bs : List Byte) : Prop :=
  s.shutdown_ = false ∧ s.rcv_cmd_ = some c ∧
  (s.cmds c).cur_state = NBDCMD_STATE_RCV_REQ ∧ (s.cmds c).data_buf = none ∧
  (s.cmds c).cur_io_ptr = ⟨.req, sizeof_req - (s.cmds c).io_size_remaining⟩ ∧
  0 < (s.cmds c).io_size_remaining ∧ (s.cmds c).io_size_remaining ≤ sizeof_req ∧
  (s.cmds c).io_size_remaining ≤ bs.length

/-- The command `c` of the receive slot once the read that delivers `bs` has stored the
rest of the header. -/
def hdrCmd {β : Type} (s : NbdServer β) (c : Nat) (bs : List Byte) : NbdCmd :=
  { s.cmds c with
    req := writeAt (s.cmds c).req (sizeof_req - (s.cmds c).io_size_remaining)
      (bs.take (s.cmds c).io_size_remaining)
    io_size_remaining := 0 }

/-- The property `Q` holds of `a`: this keeps a property and the state it is about
apart while a proof walks through the branches of the code. -/
def Sat {α : Type} (Q : α → Prop) (a : α) : Prop := Q a

/-! ## `nbd_loopback_server.cc` -/

def ENOENT : Nat := 2
def EIO : Nat := 5

def KTHR_STATE_INIT : Nat := 0
def KTHR_STATE_RUN : Nat := 1
def KTHR_STATE_EXIT : Nat := 2

/-- `std::set<uint32_t>::insert`, the set being kept as the ascending list of its
elements. -/
def setInsert (x : Nat) : List Nat → List Nat
  | [] => [x]
  | y :: ys => if x < y then x :: y :: ys else if x = y then y :: ys else y :: setInsert x ys

/-- Conversion of an `int` to `uint32_t`. -/
def toU32 (n : Int) : Nat := (n % 2 ^ 32).toNat

/-- Conversion of a `uint32_t` to `int`. -/
def ofU32 (v : Nat) : Int := if v < 2 ^ 31 then (v : Int) else (v : Int) - 2 ^ 32

/-- Members of `class ServerInfo`; `server` and `kernel_thread` say whether the
`unique_ptr` holds an object, `socks0` and `socks1` are `socks[0]` and `socks[1]`. -/
structure ServerInfo where
  server : Bool
  kernel_thread : Bool
  nbd_num : Int
  devfd : Int
  socks0 : Int
  socks1 : Int
  kernel_thread_state : Nat
  kernel_thread_error : Nat
  being_polled : Bool
  shutting_down : Bool
  in_global_list : Bool
  nbd_node : String
  deriving DecidableEq, Repr

/-- The globals of `nbd_loopback_server.cc`. -/
structure Loopback where
  g_num_nbds : Nat
  g_nbds_avail : List Nat
  g_server_list : List ServerInfo
  deriving DecidableEq, Repr

/-- Results of the calls `NbdLoopbackStart` makes on the system, for the calls it
reaches: the return value of `open` and the `errno` it leaves, the socket pair or the
`errno` of `socketpair`, the `errno` of each `ioctl` that fails, the state and error the kernel
thread leaves `KTHR_STATE_INIT` with, and the error of `NbdServer::New` if it fails. -/
structure StartEnv where
  dev_open : Int × Nat
  socketpair : Except Nat (Int × Int)
  clear_sock : Option Nat
  set_blksize : Option Nat
  set_size_blocks : Option Nat
  kthread_state : Nat
  kthread_error : Nat
  new_server : Option Nat

namespace ServerInfo

/-- `ServerInfo::ServerInfo`. -/
def ctor : ServerInfo :=
  { server := false
    kernel_thread := false
    nbd_num := -1
    devfd := -1
    socks0 := -1
    socks1 := -1
    kernel_thread_state := KTHR_STATE_INIT
    kernel_thread_error := 0
    being_polled := false
    shutting_down := false
    in_global_list := false
    nbd_node := "" }

/-- `ServerInfo::Cleanup`, which the destructor calls.  No other thread runs meanwhile,
so the wait for `being_polled` does not end if the flag is set (`none`); a kernel thread
that was started ends once the sockets are closed and is joined. -/
def Cleanup (info : ServerInfo) (g : Loopback) : Option (ServerInfo × Loopback) :=
  let info1 := { info with shutting_down := true }
  if info1.being_polled then none
  else
    let info2 := { info1 with server := false, socks0 := -1, socks1 := -1 }
    let info3 :=
      if info2.kernel_thread then
        { info2 with kernel_thread_state := KTHR_STATE_EXIT, kernel_thread := false }
      else info2
    let info4 := if info3.devfd ≥ 0 then { info3 with devfd := -1 } else info3
    if info4.nbd_num > 0 then
      some ({ info4 with nbd_num := -1 },
            { g with g_nbds_avail := setInsert (toU32 info4.nbd_num) g.g_nbds_avail })
    else some (info4, g)

end ServerInfo

/-- A `return err` of `NbdLoopbackStart` while `info` still owns the `ServerInfo`: the
destructor of `info` runs `Cleanup`.  The result is the return value, `*nbd_num`,
`*ret_nbd_dev` and the globals. -/
def startFail (err : Nat) (info : ServerInfo) (num : Int) (dev : String) (g : Loopback) :
    Option (Nat × Int × String × Loopback) :=
  (info.Cleanup g).map fun r => (err, num, dev, r.2)

/-- `NbdLoopbackStart`, from the `open` of the device on; `num` and `dev` are `*nbd_num`
and `*ret_nbd_dev`.  The arguments of the `ioctl` calls play no part in the result; the wait
for the kernel thread does not end (`none`) if the thread stays in `KTHR_STATE_INIT`. -/
def startDevice (info : ServerInfo) (num : Int) (dev : String) (env : StartEnv)
    (g : Loopback) : Option (Nat × Int × String × Loopback) :=
  let info1 := { info with devfd := env.dev_open.1 }
  if info1.devfd < 0 then startFail env.dev_open.2 info1 num dev g
  else
    match env.socketpair with
    | .error err => startFail err info1 num dev g
    | .ok sk =>
      let info2 := { info1 with socks0 := sk.1, socks1 := sk.2 }
      match env.clear_sock with
      | some err => startFail err info2 num dev g
      | none =>
        match env.set_blksize with
        | some err => startFail err info2 num dev g
        | none =>
          match env.set_size_blocks with
          | some err => startFail err info2 num dev g
          | none =>
            let info3 := { info2 with
              kernel_thread := true
              kernel_thread_state := env.kthread_state
              kernel_thread_error := env.kthread_error }
            if info3.kernel_thread_state = KTHR_STATE_INIT then none
            else if info3.kernel_thread_state = KTHR_STATE_EXIT then startFail EIO info3 num dev g
            else
              match env.new_server with
              | some st => startFail st info3 num dev g
              | none =>
                let info4 := { info3 with server := true, socks1 := -1, in_global_list := true }
                some (0, num, dev, { g with g_server_list := g.g_server_list ++ [info4] })

/-- `NbdLoopbackStart`; `num` and `dev` are `*nbd_num` and `*ret_nbd_dev` at the call. -/
def NbdLoopbackStart {β : Type} (P : NbdParams β) (num : Int) (dev : String) (env : StartEnv)
    (g : Loopback) : Option (Nat × Int × String × Loopback) :=
  let info := ServerInfo.ctor
  if g.g_num_nbds = 0 then startFail ENOENT info num dev g
  else
    let bsize := P.block_size % 2 ^ 32
    if bsize &&& ((bsize + 2 ^ 32 - 1) % 2 ^ 32) ≠ 0 ∨ bsize < 512 ∨ bsize > 65536 then
      startFail EINVAL info num dev g
    else if g.g_nbds_avail.length = 0 then startFail ENOENT info num dev g
    else
      let info1 := { info with nbd_num := num }
      if info1.nbd_num ≥ 0 ∧ toU32 info1.nbd_num ∉ g.g_nbds_avail then
        startFail ENOENT info1 num dev g
      else
        let info2 :=
          if info1.nbd_num ≥ 0 then info1
          else { info1 with nbd_num := ofU32 (g.g_nbds_avail.headD 0) }
        let g1 := { g with g_nbds_avail := g.g_nbds_avail.erase (toU32 info2.nbd_num) }
        let num1 := info2.nbd_num
        let dev1 := "/dev/nbd" ++ toString info2.nbd_num
        startDevice { info2 with nbd_node := dev1 } num1 dev1 env g1

/-- A pool of four devices of which number 1 is in use. -/
def exPool : Loopback := ⟨4, [0, 2, 3], []⟩

/-- System calls that all succeed. -/
def exEnv : StartEnv := ⟨(5, 0), .ok (6, 7), none, none, none, KTHR_STATE_RUN, 0, none⟩

/-- The states of the command cache used on its own, with the objects that `Alloc`
returned and that were not given back yet.  From the fresh cache of a constructed engine:
`Alloc` returns an object (`new` yields one only while fewer than `2 ^ 32 - 1` exist) or
fails, `Free` takes an object `Alloc` returned and that was not freed since, and
`HouseKeeping` runs at any time. -/
inductive CacheReach {β : Type} (e : Endian) (arg : Nat) : NbdServer β → List Nat → Prop
  | init (b : β) : CacheReach e arg (NbdServer.ctor b) []
  | alloc {s : NbdServer β} {out : List Nat} (nw : Option NbdCmd) (c : Nat) :
      CacheReach e arg s out → (nw.isSome → s.ncmds + 1 < 2 ^ 32) →
      (CacheAllocator.Alloc e arg s nw).1 = some c →
      CacheReach e arg (CacheAllocator.Alloc e arg s nw).2 (c :: out)
  | alloc_fail {s : NbdServer β} {out : List Nat} (nw : Option NbdCmd) :
      CacheReach e arg s out → (CacheAllocator.Alloc e arg s nw).1 = none →
      CacheReach e arg (CacheAllocator.Alloc e arg s nw).2 out
  | free {s : NbdServer β} {out : List Nat} (c : Nat) :
      CacheReach e arg s out → c ∈ out → CacheReach e arg (CacheAllocator.Free s c) (out.erase c)
  | house_keeping {s : NbdServer β} {out : List Nat} (t : Int) :
      CacheReach e arg s out →
      CacheReach e arg
        { s with
          links := (s.cmd_cache_.HouseKeeping s.links t NbdServer.freedHead).1
          cmd_cache_ := (s.cmd_cache_.HouseKeeping s.links t NbdServer.freedHead).2.1
          deleted := s.deleted ++ (s.cmd_cache_.HouseKeeping s.links t NbdServer.freedHead).2.2 }
        out

/-- The counters of the cache agree with the objects: containment holds with the objects
handed out as `out` and the free list holding `fre`, `cur_allocations_` is the number of
objects handed out and `max_allocations_` lies between it and the number of all objects. -/
structure CacheInv {β : Type} (s : NbdServer β) (out fre : List Nat) : Prop where
  cont : Cont s out [] [] fre
  rcv : s.rcv_cmd_ = none
  send : s.send_cmd_ = none
  cur : s.cmd_cache_.cur_allocations_ = out.length
  lo : s.cmd_cache_.cur_allocations_ ≤ s.cmd_cache_.max_allocations_
  hi : s.cmd_cache_.max_allocations_ ≤ fre.length + s.cmd_cache_.cur_allocations_

/-- The state `PostRcvdCmd` has reached for a request other than disconnect when it
calls the backend: the receive slot is empty and the command `c` it held is in state
`NBDCMD_STATE_CMD_SUBMITTED` at the tail of the pending set. -/
def postPend {β : Type} (s : NbdServer β) (c : Nat) : NbdServer β :=
  let s1 := { s with rcv_cmd_ := none }
  let s2 := setCmd s1 c { s1.cmds c with cur_state := NBDCMD_STATE_CMD_SUBMITTED }
  let p := s2.pending_backend_cmds_.PushBack s2.links c
  { s2 with links := p.1, pending_backend_cmds_ := p.2 }

/-- The state `PostRcvdCmd` has reached for a disconnect request when it calls the
disconnect callback: the receive slot is empty and the command `c` it held is in state
`NBDCMD_STATE_CMD_SUBMITTED`, in no list. -/
def postSub {β : Type} (s : NbdServer β) (c : Nat) : NbdServer β :=
  let s1 := { s with rcv_cmd_ := none }
  setCmd s1 c { s1.cmds c with cur_state := NBDCMD_STATE_CMD_SUBMITTED }

/-- The state `PostRcvdCmd` calls the backend in: `postPend`, or `postSub` for a
disconnect request. -/
def postCall {β : Type} (e : Endian) (s : NbdServer β) (c : Nat) : NbdServer β :=
  if load e ((postSub s c).cmds c).req 4 4 ≠ NBD_CMD_DISC then postPend s c else postSub s c

/-- The command the completion hook leaves for `cmd`: the reply holds the error and the
handle, and the cursor is at the start of the 16 reply bytes. -/
def replyCmd (e : Endian) (cmd : NbdCmd) : NbdCmd :=
  { cmd with
    reply := writeAt (store e cmd.reply 4 4 (htobe32 e cmd.ret_error)) 8 (readAt cmd.req 8 8)
    cur_state := NBDCMD_STATE_SEND_REPLY
    cur_io_ptr := ⟨.reply, 0⟩
    io_size_remaining := sizeof_reply }

/-! ## What the engine keeps true of the fields of a command -/

/-- What a backend may do to a command it was handed: it leaves the request, the reply,
`io_size` and the address in `data_buf` alone (it may set `ret_error`, fill the buffer and
use `client_private`). -/
def Touch (old new : NbdCmd) : Prop :=
  new.req = old.req ∧ new.reply = old.reply ∧ new.io_size = old.io_size ∧
    new.data_buf.map DataBuf.addr = old.data_buf.map DataBuf.addr

/-- Every callback of the client treats the command as `Touch` says. -/
structure WellBehaved {β : Type} (P : NbdParams β) : Prop where
  read : ∀ b cmd, Touch cmd (P.read b cmd).cmd
  write : ∀ b cmd, Touch cmd (P.write b cmd).cmd
  trim : ∀ b cmd, Touch cmd (P.trim b cmd).cmd
  flush : ∀ b cmd, Touch cmd (P.flush b cmd).cmd
  disconnect : ∀ f, P.disconnect = some f → ∀ b cmd, Touch cmd (f b cmd).2

/-- 1 if `ev` is an `alloc_data_mem` call that returned the address `a`. -/
def evAlloc (a : Nat) : Event → Nat
  | .alloc_data_mem _ (some b) => if b = a then 1 else 0
  | _ => 0

/-- 1 if `ev` is a `free_data_mem` call on the address `a`. -/
def evFree (a : Nat) : Event → Nat
  | .free_data_mem b => if b = a then 1 else 0
  | _ => 0

/-- Number of `alloc_data_mem` calls in `tr` that returned the address `a`. -/
def allocs (tr : List Event) (a : Nat) : Nat := (tr.map (evAlloc a)).sum

/-- Number of `free_data_mem` calls in `tr` on the address `a`. -/
def frees (tr : List Event) (a : Nat) : Nat := (tr.map (evFree a)).sum

/-- 1 if the `data_buf` of `cmd` is the address `a`. -/
def hold (cmd : NbdCmd) (a : Nat) : Nat :=
  if cmd.data_buf.map DataBuf.addr = some a then 1 else 0

/-- Number of command objects whose `data_buf` is the address `a`. -/
def holders {β : Type} (s : NbdServer β) (a : Nat) : Nat :=
  ((List.range s.ncmds).map fun c => hold (s.cmds c) a).sum

/-- The command `cmd` holds the buffer `d` rightly: its request is a read or a write
whose decoded length `io_size` is in 1..1048576, and the engine asked `alloc_data_mem` for
exactly `io_size` bytes and got the address of `d`. -/
def DataOK (e : Endian) (tr : List Event) (cmd : NbdCmd) (d : DataBuf) : Prop :=
  (load e cmd.req 4 4 = NBD_CMD_READ ∨ load e cmd.req 4 4 = NBD_CMD_WRITE) ∧
  1 ≤ cmd.io_size ∧ cmd.io_size ≤ kMaxNbdIOSize ∧
  be32toh e (load e cmd.req 24 4) = cmd.io_size ∧
  Event.alloc_data_mem cmd.io_size (some d.addr) ∈ tr

/-- Cursor of a command in the receive slot: in state `RCV_REQ` it is inside the 28 bytes
of the request, in state `RCV_WRITE_DATA` inside the `io_size` bytes of the data buffer of
a write request; what was stored and what remains add up to the size. -/
def RcvOK (e : Endian) (cmd : NbdCmd) : Prop :=
  (cmd.cur_state = NBDCMD_STATE_RCV_REQ ∧ cmd.data_buf = none ∧
    cmd.cur_io_ptr = ⟨.req, sizeof_req - cmd.io_size_remaining⟩ ∧
    0 < cmd.io_size_remaining ∧ cmd.io_size_remaining ≤ sizeof_req) ∨
  (cmd.cur_state = NBDCMD_STATE_RCV_WRITE_DATA ∧ cmd.data_buf.isSome ∧
    load e cmd.req 4 4 = NBD_CMD_WRITE ∧
    cmd.cur_io_ptr = ⟨.data, cmd.io_size - cmd.io_size_remaining⟩ ∧
    0 < cmd.io_size_remaining ∧ cmd.io_size_remaining ≤ cmd.io_size)

/-- The reply of a command the completion hook has run on: the error and the handle are
in place, and a read that succeeded with a non-zero length has its data buffer. -/
def ReplyOK (e : Endian) (cmd : NbdCmd) : Prop :=
  readAt cmd.reply 4 4 = beBytes 4 cmd.ret_error ∧
  readAt cmd.reply 8 8 = readAt cmd.req 8 8 ∧
  (load e cmd.req 4 4 = NBD_CMD_READ → cmd.ret_error = 0 → load e cmd.req 24 4 ≠ 0 →
    cmd.data_buf.isSome)

/-- A command in the send queue. -/
def QueuedOK (e : Endian) (cmd : NbdCmd) : Prop :=
  cmd.cur_state = NBDCMD_STATE_SEND_REPLY ∧ cmd.cur_io_ptr = ⟨.reply, 0⟩ ∧
    cmd.io_size_remaining = sizeof_reply ∧ ReplyOK e cmd

/-- Cursor of a command in the send slot: in state `SEND_REPLY` it is inside the 16
bytes of the reply, in state `SEND_READ_DATA` inside the `io_size` bytes of the data
buffer. -/
def SendOK (e : Endian) (cmd : NbdCmd) : Prop :=
  (cmd.cur_state = NBDCMD_STATE_SEND_REPLY ∧
    cmd.cur_io_ptr = ⟨.reply, sizeof_reply - cmd.io_size_remaining⟩ ∧
    0 < cmd.io_size_remaining ∧ cmd.io_size_remaining ≤ sizeof_reply ∧ ReplyOK e cmd) ∨
  (cmd.cur_state = NBDCMD_STATE_SEND_READ_DATA ∧ cmd.data_buf.isSome ∧
    cmd.cur_io_ptr = ⟨.data, cmd.io_size - cmd.io_size_remaining⟩ ∧
    0 < cmd.io_size_remaining ∧ cmd.io_size_remaining ≤ cmd.io_size)

/-- A command at the backend: a read has its data buffer. -/
def PendOK (e : Endian) (cmd : NbdCmd) : Prop :=
  load e cmd.req 4 4 = NBD_CMD_READ → cmd.data_buf.isSome

/-- The fields of the commands fit the places the commands are in, and every buffer
`alloc_data_mem` returned was passed to `free_data_mem` or is held by a command. -/
structure Fields {β : Type} (e : Endian) (s : NbdServer β) (snd pnd fre : List Nat) : Prop where
  magic : ∀ c, c < s.ncmds → readAt (s.cmds c).reply 0 4 = beBytes 4 NBD_REPLY_MAGIC
  data : ∀ c d, c < s.ncmds → (s.cmds c).data_buf = some d → DataOK e s.trace (s.cmds c) d
  rcv : ∀ c, s.rcv_cmd_ = some c → s.shutdown_ = false → RcvOK e (s.cmds c)
  send : ∀ c, s.send_cmd_ = some c → SendOK e (s.cmds c)
  queue : ∀ c ∈ snd, QueuedOK e (s.cmds c)
  pend : ∀ c ∈ pnd, PendOK e (s.cmds c)
  free : ∀ c ∈ fre, (s.cmds c).data_buf = none
  del : ∀ c ∈ s.deleted, (s.cmds c).data_buf = none
  bal : ∀ a, allocs s.trace a = frees s.trace a + holders s a

/-- Containment, with every command's fields as its place requires. -/
def Good {β : Type} (e : Endian) (s : NbdServer β) : Prop :=
  ∃ snd pnd fre, Cont s [] snd pnd fre ∧ Fields e s snd pnd fre

/-- The command `PollRecv` leaves once it has asked for the data buffer of the decoded
read or write request `D` and got `r`. -/
def allocCmd (D : NbdCmd) (r : Option DataBuf) : NbdCmd :=
  { D with io_size_remaining := D.io_size, data_buf := r, cur_io_ptr := ⟨.data, 0⟩ }

/-- The example engine after a `DataPoll` in which the read delivers a flush request with
handle 1..8 and the write returns `EAGAIN`: the RAM disk has completed the flush and the
command waits in the send slot. -/
def exFlushed : NbdServer RamDisk :=
  (NbdServer.DataPoll rd_params .little exServer false false (some exRaw)
    (.ok (wireReq NBD_CMD_FLUSH [1, 2, 3, 4, 5, 6, 7, 8] 0 0)) .again).2

/-- Successive calls of `PollSend`, with the results of their `write` calls. -/
def PollSends {β : Type} (P : NbdParams β) (e : Endian) (s : NbdServer β) :
    List SendRes → NbdServer β
  | [] => s
  | w :: ws => PollSends P e (NbdServer.PollSend P e s w) ws

/-- The command `c` of the send slot of `s` is fully sent in `s2`: the send slot is empty,
the buffer of `c`, if it had one, went to `free_data_mem` in one call, nothing else was
called, `data_buf` is null, and `c` went from the send slot to the front of the free list
of the cache. -/
def FullySent {β : Type} (s s2 : NbdServer β) (c : Nat) : Prop :=
  s2.send_cmd_ = none ∧ (s2.cmds c).data_buf = none ∧
  s2.trace = s.trace ++
    (match (s.cmds c).data_buf with
      | some d => [Event.free_data_mem d.addr]
      | none => []) ∧
  ∀ snd pnd fre, Cont s [] snd pnd fre → Cont s2 [] snd pnd (c :: fre)

/-- Successive calls of `PollRecv`, each with what `new NbdCmd()` would yield and the
result of its `read` call. -/
def PollRecvs {β : Type} (P : NbdParams β) (e : Endian) (s : NbdServer β) :
    List (Option NbdCmd × RecvRes) → NbdServer β
  | [] => s
  | r :: rs => PollRecvs P e (NbdServer.PollRecv P e s r.1 r.2) rs

/-- The engine is running and its receive slot holds the write command `c` part-way
through its payload: the cursor is at offset `off` of the buffer `d` and `rem` bytes
remain. -/
def RcvData {β : Type} (e : Endian) (s : NbdServer β) (c : Nat) (d : DataBuf)
    (off rem : Nat) : Prop :=
  s.shutdown_ = false ∧ s.rcv_cmd_ = some c ∧
  (s.cmds c).cur_state = NBDCMD_STATE_RCV_WRITE_DATA ∧
  load e (s.cmds c).req 4 4 = NBD_CMD_WRITE ∧
  (s.cmds c).cur_io_ptr = ⟨.data, off⟩ ∧ (s.cmds c).data_buf = some d ∧
  (s.cmds c).io_size_remaining = rem

/-- The reads `ps` as arguments of successive `PollRecv` calls. -/
def okReads (ps : List (Option NbdCmd × List Byte)) : List (Option NbdCmd × RecvRes) :=
  ps.map fun p => (p.1, RecvRes.ok p.2)

/-- The bytes the reads `ps` deliver, in the order received. -/
def chunks (ps : List (Option NbdCmd × List Byte)) : List Byte :=
  (ps.map fun p => p.2).flatten

/-- Successive calls of the completion hook by the backend: each entry is a command and
what the backend has left of it when it calls the hook. -/
def Completions {β : Type} (e : Endian) (s : NbdServer β) : List (Nat × NbdCmd) → NbdServer β
  | [] => s
  | p :: ps => Completions e (NbdServer.CompletionCb e (setCmd s p.1 p.2) p.1) ps

/-- The reply of `cmd` is followed by data on the socket: a read that succeeded with a
non-zero length. -/
def hasData (e : Endian) (cmd : NbdCmd) : Prop :=
  load e cmd.req 4 4 = NBD_CMD_READ ∧ cmd.ret_error = 0 ∧ load e cmd.req 24 4 ≠ 0

instance (e : Endian) (cmd : NbdCmd) : Decidable (hasData e cmd) := by
  unfold hasData
  exact inferInstance

/-- Results of `write` calls that take each part of the transmission of `cmd` whole: the
16 bytes of the reply and, if data follows, the data. -/
def sendWrites (e : Endian) (cmd : NbdCmd) : List SendRes :=
  if hasData e cmd then [.ok sizeof_reply, .ok (wireLen cmd.req)] else [.ok sizeof_reply]

/-- What the transmission of `cmd` puts on the socket: the 16 bytes of the reply and, if
data follows, the decoded request length of bytes of the buffer. -/
def wireOut (e : Endian) (cmd : NbdCmd) : List Byte :=
  readAt cmd.reply 0 sizeof_reply ++
    if hasData e cmd then readAt (cmd.mem .data) 0 (wireLen cmd.req) else []

/-- The bytes that reads with the results `rs` deliver, in the order received; a read
that returns `EAGAIN` delivers none. -/
def delivered : List (Option NbdCmd × RecvRes) → List Byte
  | [] => []
  | r :: rs => (match r.2 with
    | .ok b => b
    | _ => []) ++ delivered rs

/-- The state `s` with `cur_io_ptr` of the object `c` set to `p`. -/
def setCursor {β : Type} (s : NbdServer β) (c : Nat) (p : IoPtr) : NbdServer β :=
  setCmd s c { s.cmds c with cur_io_ptr := p }

/-- The flush, trim and disconnect callbacks neither use nor change `cur_io_ptr` of the
command they are handed. -/
def CursorBlind {β : Type} (P : NbdParams β) : Prop :=
  (∀ b cmd p, P.flush b { cmd with cur_io_ptr := p } =
    ⟨(P.flush b cmd).backend, { (P.flush b cmd).cmd with cur_io_ptr := p },
      (P.flush b cmd).completed⟩) ∧
  (∀ b cmd p, P.trim b { cmd with cur_io_ptr := p } =
    ⟨(P.trim b cmd).backend, { (P.trim b cmd).cmd with cur_io_ptr := p },
      (P.trim b cmd).completed⟩) ∧
  (∀ f, P.disconnect = some f → ∀ b cmd p, f b { cmd with cur_io_ptr := p } =
    ((f b cmd).1, { (f b cmd).2 with cur_io_ptr := p }))

/-- The state of `rcvDispatch` when `alloc_data_mem` has returned, for the decoded read or
write request `D` of the command `c` in the receive slot. -/
def allocState {β : Type} (P : NbdParams β) (s : NbdServer β) (c : Nat) (D : NbdCmd) :
    NbdServer β :=
  { setCmd s c (allocCmd D (P.alloc_data_mem s.backend D.io_size).1) with
    backend := (P.alloc_data_mem s.backend D.io_size).2
    trace := s.trace ++ [.alloc_data_mem D.io_size
      ((P.alloc_data_mem s.backend D.io_size).1.map DataBuf.addr)] }

/-- The command `cmd` of the receive slot once the read that delivers `bs` has stored the
rest of the payload at offset `off` of the buffer `d`. -/
def fillCmd (cmd : NbdCmd) (d : DataBuf) (off : Nat) (bs : List Byte) : NbdCmd :=
  { cmd with
    data_buf := some ⟨d.addr, d.size, writeAt d.bytes off bs⟩
    io_size_remaining := 0 }

/-- The state in which `invoke` runs the completion hook when the callback has left the
command as `cmd` and the backend as `b`. -/
def calledState {β : Type} (s : NbdServer β) (c : Nat) (ev : Event) (cmd : NbdCmd) (b : β) :
    NbdServer β :=
  { setCmd s c cmd with backend := b, trace := s.trace ++ [ev] }

/-- The example engine after a `DataPoll` in which the read delivers a read request for 4
bytes at offset 0 and the write takes the 16 bytes of the reply: the command is in the
send slot with its 4 data bytes still to send. -/
def exReading : NbdServer RamDisk :=
  (NbdServer.DataPoll rd_params .little exServer false false (some exRaw)
    (.ok (wireReq NBD_CMD_READ [1, 2, 3, 4, 5, 6, 7, 8] 0 4)) (.ok 16)).2

/-- The engine `exReading` after a `DataPoll` in which the read delivers a write request
for 2 bytes at offset 16 and the write takes one byte of the read data. -/
def exOverlap : NbdServer RamDisk :=
  (NbdServer.DataPoll rd_params .little exReading false false (some exRaw)
    (.ok (wireReq NBD_CMD_WRITE [8, 7, 6, 5, 4, 3, 2, 1] 16 2)) (.ok 1)).2

/-- The engine `exOverlap` after a `DataPoll` in which the read delivers the first byte
of the write payload and the write returns `EAGAIN`: the receive slot holds a write with
one of two payload bytes stored, the send slot a read with one of four data bytes sent. -/
def exMidway : NbdServer RamDisk :=
  (NbdServer.DataPoll rd_params .little exOverlap false false none (.ok [0xAA]) .again).2

/-- A backend over the RAM disk of the example that completes a flush later: its `flush`
callback returns without having called the completion hook. -/
def exDeferred : NbdParams RamDisk :=
  { rd_params with flush := fun b cmd => ⟨b, cmd, false⟩ }

/-- The example engine over `exDeferred` after two `DataPoll` calls whose reads deliver a
flush request with handle 1..8 and then one with handle 8..1: both are at the backend,
in the order received. -/
def exQueued : NbdServer RamDisk :=
  (NbdServer.DataPoll exDeferred .little
    (NbdServer.DataPoll exDeferred .little exServer false false (some exRaw)
      (.ok (wireReq NBD_CMD_FLUSH [1, 2, 3, 4, 5, 6, 7, 8] 0 0)) .again).2
    false false (some exRaw)
    (.ok (wireReq NBD_CMD_FLUSH [8, 7, 6, 5, 4, 3, 2, 1] 0 0)) .again).2

/-- The decoded fields of `cmd` are the reference decoding of the request header `H`: the
opcode in `req.type` is the low 16 bits of the type field, `fua` is bit 16 of it,
`io_offset` is bytes 16..23 and `io_size` bytes 24..27 read big-endian. -/
def Decoded (e : Endian) (H : Mem) (cmd : NbdCmd) : Prop :=
  load e cmd.req 4 4 = wireOpcode H ∧ cmd.fua = wireFua H ∧
    cmd.io_offset = wireFrom H ∧ cmd.io_size = wireLen H

/-- The command `cmd` as `PostRcvdCmd` hands it to the backend: in state
`NBDCMD_STATE_CMD_SUBMITTED`. -/
def handed (cmd : NbdCmd) : NbdCmd :=
  { cmd with cur_state := NBDCMD_STATE_CMD_SUBMITTED }

/-- The command once an asynchronous callback has returned `res`: as the callback left it,
after the completion hook if the callback completed on the caller's stack. -/
def afterCall {β : Type} (e : Endian) (res : CbResult β) : NbdCmd :=
  if res.completed then replyCmd e res.cmd else res.cmd

/-- The command `b` has the request bytes and the decoded fields of `a`. -/
def SameHeader (a b : NbdCmd) : Prop :=
  b.req = a.req ∧ b.fua = a.fua ∧ b.io_offset = a.io_offset ∧ b.io_size = a.io_size

/-- Every callback of the client leaves the request and the decoded fields `fua`,
`io_offset` and `io_size` of the command alone. -/
structure KeepsHeader {β : Type} (P : NbdParams β) : Prop where
  read : ∀ b cmd, SameHeader cmd (P.read b cmd).cmd
  write : ∀ b cmd, SameHeader cmd (P.write b cmd).cmd
  trim : ∀ b cmd, SameHeader cmd (P.trim b cmd).cmd
  flush : ∀ b cmd, SameHeader cmd (P.flush b cmd).cmd
  disconnect : ∀ f, P.disconnect = some f → ∀ b cmd, SameHeader cmd (f b cmd).2

/-! ## Lemmas on chains of links -/

theorem chain_congr {α : Type} {R S : α → α → Prop} :
    ∀ (l : List α), l.Chain' R → l.Nodup →
      (∀ u v, u ∈ l → v ∈ l → l.getLast? ≠ some u → l.head? ≠ some v → R u v → S u v) →
      l.Chain' S
  | [], _, _, _ => List.chain'_nil
  | [a], _, _, _ => List.chain'_singleton a
  | a :: b :: l, hc, hn, h => by
    rw [List.chain'_cons] at hc ⊢
    have hn2 : (b :: l).Nodup := (List.nodup_cons.1 hn).2
    have ha : a ∉ b :: l := (List.nodup_cons.1 hn).1
    refine ⟨h a b (by simp) (by simp) ?_ ?_ hc.1, ?_⟩
    · intro hl
      rw [List.getLast?_cons_cons] at hl
      exact ha (List.mem_of_getLast?_eq_some hl)
    · simp only [List.head?_cons, ne_eq, Option.some.injEq]
      intro hab
      exact ha (hab ▸ List.mem_cons_self _ _)
    · refine chain_congr (b :: l) hc.2 hn2 ?_
      intro u v hu hv hlu hhv
      refine h u v (List.mem_cons_of_mem _ hu) (List.mem_cons_of_mem _ hv) ?_ ?_
      · rw [List.getLast?_cons_cons]; exact hlu
      · simp only [List.head?_cons, ne_eq, Option.some.injEq]
        intro hav
        exact ha (hav ▸ hv)

theorem chain_frame (m m2 : LinkMem) (l : List LinkPtr) (hc : l.Chain' (Link m))
    (h : ∀ r ∈ l, m2 r = m r) : l.Chain' (Link m2) := by
  rw [List.Chain'.iff_mem] at hc
  refine hc.imp ?_
  rintro a b ⟨ha, hb, h1, h2⟩
  exact ⟨by rw [h a ha]; exact h1, by rw [h b hb]; exact h2⟩

theorem Junction.side_left {A B : List LinkPtr} {a b x : LinkPtr} (J : Junction A B a b x)
    {m m2 : LinkMem} (hc : A.Chain' (Link m))
    (hnext : ∀ r, r ≠ x → r ≠ a → (m2 r).next = (m r).next)
    (hprev : ∀ r, r ≠ x → r ≠ b → (m2 r).prev = (m r).prev) : A.Chain' (Link m2) := by
  refine chain_congr A hc J.hAn ?_
  intro u v hu hv hlu hhv hl
  have hux : u ≠ x := fun h => J.hxA (h ▸ hu)
  have hua : u ≠ a := fun h => hlu (h ▸ J.hA)
  have hvx : v ≠ x := fun h => J.hxA (h ▸ hv)
  have hvb : v ≠ b := J.hbA v hv hhv
  exact ⟨by rw [hnext u hux hua]; exact hl.1, by rw [hprev v hvx hvb]; exact hl.2⟩

theorem Junction.side_right {A B : List LinkPtr} {a b x : LinkPtr} (J : Junction A B a b x)
    {m m2 : LinkMem} (hc : B.Chain' (Link m))
    (hnext : ∀ r, r ≠ x → r ≠ a → (m2 r).next = (m r).next)
    (hprev : ∀ r, r ≠ x → r ≠ b → (m2 r).prev = (m r).prev) : B.Chain' (Link m2) := by
  refine chain_congr B hc J.hBn ?_
  intro u v hu hv hlu hhv hl
  have hux : u ≠ x := fun h => J.hxB (h ▸ hu)
  have hua : u ≠ a := J.haB u hu hlu
  have hvx : v ≠ x := fun h => J.hxB (h ▸ hv)
  have hvb : v ≠ b := fun h => hhv (h ▸ J.hB)
  exact ⟨by rw [hnext u hux hua]; exact hl.1, by rw [hprev v hvx hvb]; exact hl.2⟩

theorem Junction.a_ne {A B : List LinkPtr} {a b x : LinkPtr} (J : Junction A B a b x) : a ≠ x :=
  fun h => J.hxA (h ▸ List.mem_of_getLast?_eq_some J.hA)

theorem Junction.b_ne {A B : List LinkPtr} {a b x : LinkPtr} (J : Junction A B a b x) : b ≠ x :=
  fun h => J.hxB (h ▸ List.mem_of_mem_head? J.hB)

theorem chain_insert {A B : List LinkPtr} {a b x : LinkPtr} (J : Junction A B a b x)
    (m m2 : LinkMem) (hc : (A ++ B).Chain' (Link m))
    (hnext : ∀ r, (m2 r).next = if r = x then b else if r = a then x else (m r).next)
    (hprev : ∀ r, (m2 r).prev = if r = x then a else if r = b then x else (m r).prev) :
    (A ++ x :: B).Chain' (Link m2) := by
  have hn : ∀ r, r ≠ x → r ≠ a → (m2 r).next = (m r).next := by
    intro r h1 h2; rw [hnext r, if_neg h1, if_neg h2]
  have hp : ∀ r, r ≠ x → r ≠ b → (m2 r).prev = (m r).prev := by
    intro r h1 h2; rw [hprev r, if_neg h1, if_neg h2]
  obtain ⟨cA, cB, -⟩ := List.chain'_append.1 hc
  rw [List.chain'_split]
  constructor
  · refine List.chain'_append.2 ⟨J.side_left cA hn hp, List.chain'_singleton _, ?_⟩
    intro u hu v hv
    rw [J.hA] at hu
    simp only [Option.mem_def, Option.some.injEq] at hu
    simp only [List.head?_cons, Option.mem_def, Option.some.injEq] at hv
    subst hu; subst hv
    exact ⟨by rw [hnext, if_neg J.a_ne, if_pos rfl], by rw [hprev, if_pos rfl]⟩
  · refine List.chain'_cons'.2 ⟨?_, J.side_right cB hn hp⟩
    intro y hy
    rw [J.hB] at hy
    simp only [Option.mem_def, Option.some.injEq] at hy
    subst hy
    exact ⟨by rw [hnext, if_pos rfl], by rw [hprev, if_neg J.b_ne, if_pos rfl]⟩

theorem chain_mid {A B : List LinkPtr} {a b x : LinkPtr} (J : Junction A B a b x)
    {m : LinkMem} (hc : (A ++ x :: B).Chain' (Link m)) : Link m a x ∧ Link m x b := by
  rw [List.chain'_split] at hc
  obtain ⟨h1, h2⟩ := hc
  constructor
  · exact (List.chain'_append.1 h1).2.2 a (by rw [J.hA]; rfl) x (by simp)
  · exact (List.chain'_cons'.1 h2).1 b (by rw [J.hB]; rfl)

theorem chain_unlink {A B : List LinkPtr} {a b x : LinkPtr} (J : Junction A B a b x)
    (m m2 : LinkMem) (hc : (A ++ x :: B).Chain' (Link m))
    (hnext : ∀ r, r ≠ x → (m2 r).next = if r = a then b else (m r).next)
    (hprev : ∀ r, r ≠ x → (m2 r).prev = if r = b then a else (m r).prev) :
    (A ++ B).Chain' (Link m2) := by
  have hn : ∀ r, r ≠ x → r ≠ a → (m2 r).next = (m r).next := by
    intro r h1 h2; rw [hnext r h1, if_neg h2]
  have hp : ∀ r, r ≠ x → r ≠ b → (m2 r).prev = (m r).prev := by
    intro r h1 h2; rw [hprev r h1, if_neg h2]
  rw [List.chain'_split] at hc
  obtain ⟨h1, h2⟩ := hc
  have cA := (List.chain'_append.1 h1).1
  have cB := (List.chain'_cons'.1 h2).2
  refine List.chain'_append.2 ⟨J.side_left cA hn hp, J.side_right cB hn hp, ?_⟩
  intro u hu v hv
  rw [J.hA] at hu
  rw [J.hB] at hv
  simp only [Option.mem_def, Option.some.injEq] at hu hv
  subst hu; subst hv
  exact ⟨by rw [hnext _ J.a_ne, if_pos rfl], by rw [hprev _ J.b_ne, if_pos rfl]⟩

theorem ptrs_getLast (hd : Nat) (as : List Nat) :
    (ptrs hd as).getLast? = some (lastP hd as) := by
  unfold ptrs lastP
  rw [List.getLast?_cons, List.getLast?_map]

theorem tl_head (hd : Nat) (bs : List Nat) : (tl hd bs).head? = some (firstP hd bs) := by
  unfold tl firstP
  cases bs <;> rfl

theorem ring_split (hd : Nat) (as bs : List Nat) :
    ptrs hd (as ++ bs) ++ [.head hd] = ptrs hd as ++ tl hd bs := by
  simp [ptrs, tl]

theorem ring_split_cons (hd : Nat) (as bs : List Nat) (x : Nat) :
    ptrs hd (as ++ x :: bs) ++ [.head hd] = ptrs hd as ++ .node x :: tl hd bs := by
  simp [ptrs, tl]

theorem mem_ptrs {hd : Nat} {as : List Nat} {r : LinkPtr} :
    r ∈ ptrs hd as ↔ r = .head hd ∨ ∃ a ∈ as, r = .node a := by
  simp [ptrs, eq_comm]

theorem mem_tl {hd : Nat} {bs : List Nat} {r : LinkPtr} :
    r ∈ tl hd bs ↔ r = .head hd ∨ ∃ b ∈ bs, r = .node b := by
  simp [tl, eq_comm, or_comm]

theorem lastP_cases (hd : Nat) (as : List Nat) :
    lastP hd as = .head hd ∨ ∃ a ∈ as, lastP hd as = .node a := by
  have h := List.mem_of_getLast?_eq_some (ptrs_getLast hd as)
  exact mem_ptrs.1 h

theorem firstP_cases (hd : Nat) (bs : List Nat) :
    firstP hd bs = .head hd ∨ ∃ b ∈ bs, firstP hd bs = .node b := by
  have h := List.mem_of_mem_head? (tl_head hd bs)
  exact mem_tl.1 h

theorem node_injective : Function.Injective LinkPtr.node := by
  intro a b h; injection h

theorem ptrs_nodup {hd : Nat} {as : List Nat} (h : as.Nodup) : (ptrs hd as).Nodup := by
  unfold ptrs
  refine List.nodup_cons.2 ⟨by simp, ?_⟩
  exact h.map node_injective

theorem tl_nodup {hd : Nat} {bs : List Nat} (h : bs.Nodup) : (tl hd bs).Nodup := by
  unfold tl
  refine List.Nodup.append (h.map node_injective) (List.nodup_singleton _) ?_
  simp [List.disjoint_singleton]

theorem junction_mk (hd : Nat) (as bs : List Nat) (x : Nat) (hn : (as ++ bs).Nodup)
    (hxa : x ∉ as) (hxb : x ∉ bs) :
    Junction (ptrs hd as) (tl hd bs) (lastP hd as) (firstP hd bs) (.node x) := by
  have hna := (List.nodup_append.1 hn).1
  have hnb := (List.nodup_append.1 hn).2.1
  have hdj : ∀ a ∈ as, ∀ b ∈ bs, a ≠ b := fun a ha b hb hab =>
    (List.nodup_append.1 hn).2.2 ha (hab ▸ hb)
  refine ⟨ptrs_getLast hd as, tl_head hd bs, ptrs_nodup hna, tl_nodup hnb, ?_, ?_, ?_, ?_⟩
  · rw [mem_ptrs]; rintro (h | ⟨a, ha, h⟩)
    · cases h
    · injection h with h; exact hxa (h ▸ ha)
  · rw [mem_tl]; rintro (h | ⟨a, ha, h⟩)
    · cases h
    · injection h with h; exact hxb (h ▸ ha)
  · intro v hv hh hvb
    rcases mem_ptrs.1 hv with h | ⟨a, ha, h⟩
    · exact hh (by rw [h]; rfl)
    · rcases firstP_cases hd bs with h2 | ⟨b, hb, h2⟩
      · rw [h, h2] at hvb; cases hvb
      · rw [h, h2] at hvb; injection hvb with h3; exact hdj a ha b hb h3
  · intro u hu hh hua
    rcases mem_tl.1 hu with h | ⟨b, hb, h⟩
    · apply hh; rw [h]; simp [tl]
    · rcases lastP_cases hd as with h2 | ⟨a, ha, h2⟩
      · rw [h, h2] at hua; cases hua
      · rw [h, h2] at hua; injection hua with h3; exact hdj a ha b hb h3.symm

/-! ## The list operations on well-formed lists -/

@[simp] theorem setNext_next (m : LinkMem) (p v r : LinkPtr) :
    ((m.setNext p v) r).next = if r = p then v else (m r).next := by
  unfold LinkMem.setNext; split <;> rfl

@[simp] theorem setNext_prev (m : LinkMem) (p v r : LinkPtr) :
    ((m.setNext p v) r).prev = (m r).prev := by
  unfold LinkMem.setNext; split <;> rfl

@[simp] theorem setPrev_prev (m : LinkMem) (p v r : LinkPtr) :
    ((m.setPrev p v) r).prev = if r = p then v else (m r).prev := by
  unfold LinkMem.setPrev; split <;> rfl

@[simp] theorem setPrev_next (m : LinkMem) (p v r : LinkPtr) :
    ((m.setPrev p v) r).next = (m r).next := by
  unfold LinkMem.setPrev; split <;> rfl

theorem link_ext {a b : ListLink} (h1 : a.next = b.next) (h2 : a.prev = b.prev) : a = b := by
  cases a; cases b; simp_all

theorem IsList.head_prev {m : LinkMem} {L : ListT} {xs : List Nat} (h : IsList m L xs) :
    (m (.head L.hd)).prev = lastP L.hd xs := by
  have hc := h.1
  have := (List.chain'_append.1 hc).2.2 (lastP L.hd xs) (by rw [ptrs_getLast]; rfl)
    (.head L.hd) (by simp)
  exact this.2

theorem IsList.head_next {m : LinkMem} {L : ListT} {xs : List Nat} (h : IsList m L xs) :
    (m (.head L.hd)).next = firstP L.hd xs := by
  have hc := h.1
  have e : ptrs L.hd xs ++ [.head L.hd] = [.head L.hd] ++ tl L.hd xs := by simp [ptrs, tl]
  rw [e] at hc
  have := (List.chain'_append.1 hc).2.2 (.head L.hd) (by simp) (firstP L.hd xs)
    (by rw [tl_head]; rfl)
  exact this.1

theorem lastP_ne_node (hd : Nat) {xs : List Nat} {x : Nat} (hx : x ∉ xs) :
    lastP hd xs ≠ .node x := by
  rcases lastP_cases hd xs with h | ⟨a, ha, h⟩ <;> rw [h]
  · simp
  · intro e; injection e with e; exact hx (e ▸ ha)

theorem firstP_ne_node (hd : Nat) {xs : List Nat} {x : Nat} (hx : x ∉ xs) :
    firstP hd xs ≠ .node x := by
  rcases firstP_cases hd xs with h | ⟨a, ha, h⟩ <;> rw [h]
  · simp
  · intro e; injection e with e; exact hx (e ▸ ha)

theorem PushBack_spec {m : LinkMem} {L : ListT} {xs : List Nat} {x : Nat}
    (h : IsList m L xs) (hx : x ∉ xs) (hlen : xs.length + 1 < 2 ^ 32) :
    IsList (L.PushBack m x).1 (L.PushBack m x).2 (xs ++ [x]) ∧
    (L.PushBack m x).2.hd = L.hd ∧
    ∀ r, r ≠ .node x → r ∉ ptrs L.hd xs → (L.PushBack m x).1 r = m r := by
  have hp := h.head_prev
  have hne := lastP_ne_node L.hd hx
  have J := junction_mk L.hd xs [] x (by simpa using h.2.1) hx (by simp)
  have hf : firstP L.hd [] = .head L.hd := rfl
  refine ⟨⟨?_, ?_, ?_, ?_⟩, rfl, ?_⟩
  · have hc : (ptrs L.hd xs ++ tl L.hd []).Chain' (Link m) := by
      rw [← ring_split]; simpa using h.1
    have := chain_insert J m (L.PushBack m x).1 hc ?_ ?_
    · have e := ring_split_cons L.hd xs [] x
      simp only [ListT.PushBack] at this ⊢
      rw [e]; exact this
    · intro r
      simp only [ListT.PushBack, setNext_next, setPrev_next, setPrev_prev, setNext_prev, hp, hf]
      by_cases h1 : r = .node x
      · subst h1; simp [hne.symm]
      · simp [h1]
    · intro r
      simp only [ListT.PushBack, setNext_next, setPrev_next, setPrev_prev, setNext_prev, hp, hf]
      by_cases h1 : r = .node x
      · subst h1; simp
      · simp [h1]
  · exact List.nodup_append.2 ⟨h.2.1, List.nodup_singleton _, by simpa using hx⟩
  · simp [ListT.PushBack, h.2.2.1]; omega
  · simpa using hlen
  · intro r h1 h2
    have h3 : r ≠ lastP L.hd xs := fun e => h2 (e ▸ List.mem_of_getLast?_eq_some (ptrs_getLast L.hd xs))
    have h4 : r ≠ .head L.hd := fun e => h2 (e ▸ by simp [ptrs])
    apply link_ext <;>
      simp [ListT.PushBack, hp, h1, h3, h4]

theorem PushFront_spec {m : LinkMem} {L : ListT} {xs : List Nat} {x : Nat}
    (h : IsList m L xs) (hx : x ∉ xs) (hlen : xs.length + 1 < 2 ^ 32) :
    IsList (L.PushFront m x).1 (L.PushFront m x).2 (x :: xs) ∧
    (L.PushFront m x).2.hd = L.hd ∧
    ∀ r, r ≠ .node x → r ∉ ptrs L.hd xs → (L.PushFront m x).1 r = m r := by
  have hp := h.head_next
  have hne := firstP_ne_node L.hd hx
  have J := junction_mk L.hd [] xs x (by simpa using h.2.1) (by simp) hx
  have hf : lastP L.hd [] = .head L.hd := rfl
  refine ⟨⟨?_, ?_, ?_, ?_⟩, rfl, ?_⟩
  · have hc : (ptrs L.hd [] ++ tl L.hd xs).Chain' (Link m) := by
      rw [← ring_split]; simpa using h.1
    have := chain_insert J m (L.PushFront m x).1 hc ?_ ?_
    · have e := ring_split_cons L.hd [] xs x
      simp only [ListT.PushFront, List.nil_append] at this e ⊢
      rw [e]; exact this
    · intro r
      simp only [ListT.PushFront, setNext_next, setPrev_next, setPrev_prev, setNext_prev, hp, hf]
      by_cases h1 : r = .node x
      · subst h1; simp
      · simp [h1]
    · intro r
      simp only [ListT.PushFront, setNext_next, setPrev_next, setPrev_prev, setNext_prev, hp, hf]
      by_cases h1 : r = .node x
      · subst h1; simp [hne.symm]
      · simp [h1]
  · exact List.nodup_cons.2 ⟨hx, h.2.1⟩
  · simp [ListT.PushFront, h.2.2.1]; omega
  · simpa using hlen
  · intro r h1 h2
    have h3 : r ≠ firstP L.hd xs := by
      intro e
      rcases firstP_cases L.hd xs with h5 | ⟨a, ha, h5⟩
      · exact h2 (by rw [e, h5]; simp [ptrs])
      · exact h2 (by rw [e, h5]; simp [ptrs, ha])
    have h4 : r ≠ .head L.hd := fun e => h2 (e ▸ by simp [ptrs])
    apply link_ext <;>
      simp [ListT.PushFront, hp, h1, h3, h4]

theorem Remove_mem {m : LinkMem} {L : ListT} {x : Nat} {a b : LinkPtr}
    (ha : (m (.node x)).prev = a) (hb : (m (.node x)).next = b)
    (hane : a ≠ .node x) (hbne : b ≠ .node x) (han : a ≠ .null) (hbn : b ≠ .null) :
    L.Remove m x = (true, ((m.setPrev b a).setNext a b).Reset (.node x),
      { L with size_ := (L.size_ + 2 ^ 32 - 1) % 2 ^ 32 }) := by
  have c1 : ¬ ((m (.node x)).next = .node x ∨ (m (.node x)).next = .null) := by
    rw [hb]; simp [hbne, hbn]
  have c2 : ¬ ((m (.node x)).prev = .node x ∨ (m (.node x)).prev = .null) := by
    rw [ha]; simp [hane, han]
  rw [hb] at c1
  rw [ha] at c2
  simp only [ListT.Remove, setPrev_prev, setPrev_next, hb, ha, if_neg hbne.symm, if_neg c1,
    if_neg c2]

theorem size_dec {L : ListT} {n : Nat} (h : L.size_ = n + 1) (hlt : n + 1 < 2 ^ 32) :
    ({ L with size_ := (L.size_ + 2 ^ 32 - 1) % 2 ^ 32 } : ListT) = ⟨L.hd, n, L.off_⟩ := by
  have e : (L.size_ + 2 ^ 32 - 1) % 2 ^ 32 = n := by omega
  rw [e]

theorem Remove_spec {m : LinkMem} {L : ListT} {as bs : List Nat} {x : Nat}
    (h : IsList m L (as ++ x :: bs)) :
    ∃ m2, L.Remove m x = (true, m2, ⟨L.hd, (as ++ bs).length, L.off_⟩) ∧
      IsList m2 ⟨L.hd, (as ++ bs).length, L.off_⟩ (as ++ bs) ∧
      Unlinked m2 x ∧
      ∀ r, r ≠ .node x → r ∉ ptrs L.hd (as ++ bs) → m2 r = m r := by
  have hn := h.2.1
  have hxa : x ∉ as := fun hm => by
    have := (List.nodup_append.1 hn).2.2 hm (List.mem_cons_self x bs)
    exact this
  have hxb : x ∉ bs := (List.nodup_cons.1 (List.nodup_append.1 hn).2.1).1
  have hn2 : (as ++ bs).Nodup := by
    have := List.nodup_append.1 hn
    refine List.nodup_append.2 ⟨this.1, (List.nodup_cons.1 this.2.1).2, ?_⟩
    intro a ha hb
    exact this.2.2 ha (List.mem_cons_of_mem _ hb)
  have J := junction_mk L.hd as bs x hn2 hxa hxb
  have hc : (ptrs L.hd as ++ .node x :: tl L.hd bs).Chain' (Link m) := by
    rw [← ring_split_cons]; exact h.1
  obtain ⟨⟨ha1, ha2⟩, ⟨hb1, hb2⟩⟩ := chain_mid J hc
  have hane := lastP_ne_node L.hd hxa
  have hbne := firstP_ne_node L.hd hxb
  have hbnull : firstP L.hd bs ≠ .null := by
    rcases firstP_cases L.hd bs with h5 | ⟨a, _, h5⟩ <;> rw [h5] <;> simp
  have hanull : lastP L.hd as ≠ .null := by
    rcases lastP_cases L.hd as with h5 | ⟨a, _, h5⟩ <;> rw [h5] <;> simp
  have hlen := h.2.2.2
  have hsz := h.2.2.1
  have e1 : (as ++ x :: bs).length = (as ++ bs).length + 1 := by
    simp only [List.length_append, List.length_cons]; omega
  rw [e1] at hlen hsz
  rw [Remove_mem ha2 hb1 hane hbne hanull hbnull, size_dec hsz hlen]
  refine ⟨_, rfl, ⟨?_, hn2, rfl, ?_⟩, ?_, ?_⟩
  · show List.Chain' _ (ptrs L.hd (as ++ bs) ++ [.head L.hd])
    rw [ring_split]
    refine chain_unlink J m _ hc ?_ ?_
    · intro r hr
      simp only [LinkMem.Reset, setNext_next, setPrev_next, if_neg hr]
    · intro r hr
      simp only [LinkMem.Reset, setNext_prev, setPrev_prev, if_neg hr]
  · omega
  · apply link_ext <;> simp [LinkMem.Reset]
  · intro r h1 h2
    have h3 : r ≠ lastP L.hd as := by
      intro e
      rcases lastP_cases L.hd as with h5 | ⟨a, ha, h5⟩
      · exact h2 (by rw [e, h5]; simp [ptrs])
      · exact h2 (by rw [e, h5]; simp [ptrs, ha])
    have h4 : r ≠ firstP L.hd bs := by
      intro e
      rcases firstP_cases L.hd bs with h5 | ⟨a, ha, h5⟩
      · exact h2 (by rw [e, h5]; simp [ptrs])
      · exact h2 (by rw [e, h5]; simp [ptrs, ha])
    apply link_ext
    · simp only [LinkMem.Reset, setNext_next, setPrev_next, if_neg h1, if_neg h3]
    · simp only [LinkMem.Reset, setNext_prev, setPrev_prev, if_neg h1, if_neg h4]

theorem Remove_unlinked {m : LinkMem} {L : ListT} {x : Nat} (h : Unlinked m x) :
    L.Remove m x = (false, m, L) := by
  unfold Unlinked at h
  simp [ListT.Remove, h]

theorem PopFront_nil {m : LinkMem} {L : ListT} (h : IsList m L []) :
    L.PopFront m = (none, m, L) := by
  have := h.2.2.1
  simp [ListT.PopFront, this]

theorem PopFront_spec {m : LinkMem} {L : ListT} {y : Nat} {ys : List Nat}
    (h : IsList m L (y :: ys)) :
    ∃ m2, L.PopFront m = (some y, m2, ⟨L.hd, ys.length, L.off_⟩) ∧
      IsList m2 ⟨L.hd, ys.length, L.off_⟩ ys ∧
      Unlinked m2 y ∧
      ∀ r, r ≠ .node y → r ∉ ptrs L.hd ys → m2 r = m r := by
  have hn := h.2.1
  have hya : y ∉ ys := (List.nodup_cons.1 hn).1
  have hn2 : ys.Nodup := (List.nodup_cons.1 hn).2
  have J := junction_mk L.hd [] ys y (by simpa using hn2) (by simp) hya
  have hc : (ptrs L.hd [] ++ .node y :: tl L.hd ys).Chain' (Link m) := by
    rw [← ring_split_cons]; exact h.1
  obtain ⟨⟨ha1, ha2⟩, ⟨hb1, hb2⟩⟩ := chain_mid J hc
  have hf : lastP L.hd [] = .head L.hd := rfl
  rw [hf] at ha1 ha2
  have hbne := firstP_ne_node L.hd hya
  have hlen := h.2.2.2
  have hsz := h.2.2.1
  simp only [List.length_cons] at hlen hsz
  have hsz0 : ¬ L.size_ = 0 := by omega
  have e : L.PopFront m = (some y, ((m.setPrev (firstP L.hd ys) (.head L.hd)).setNext
      (.head L.hd) (firstP L.hd ys)).Reset (.node y),
      { L with size_ := (L.size_ + 2 ^ 32 - 1) % 2 ^ 32 }) := by
    simp only [ListT.PopFront, if_neg hsz0, ha1, objOf, hb1, setPrev_next]
  rw [e, size_dec hsz hlen]
  refine ⟨_, rfl, ⟨?_, hn2, rfl, hlen.le.trans_lt' (by omega)⟩, ?_, ?_⟩
  · show List.Chain' _ (ptrs L.hd ys ++ [.head L.hd])
    have e := ring_split L.hd [] ys
    simp only [List.nil_append] at e
    rw [e]
    refine chain_unlink J m _ hc ?_ ?_
    · intro r hr
      simp only [LinkMem.Reset, setNext_next, setPrev_next, if_neg hr, hf]
    · intro r hr
      simp only [LinkMem.Reset, setNext_prev, setPrev_prev, if_neg hr, hf]
  · apply link_ext <;> simp [LinkMem.Reset]
  · intro r h1 h2
    have h3 : r ≠ .head L.hd := fun e => h2 (e ▸ by simp [ptrs])
    have h4 : r ≠ firstP L.hd ys := by
      intro e
      rcases firstP_cases L.hd ys with h5 | ⟨a, ha, h5⟩
      · exact h2 (by rw [e, h5]; simp [ptrs])
      · exact h2 (by rw [e, h5]; simp [ptrs, ha])
    apply link_ext
    · simp only [LinkMem.Reset, setNext_next, setPrev_next, if_neg h1, if_neg h3]
    · simp only [LinkMem.Reset, setNext_prev, setPrev_prev, if_neg h1, if_neg h4]

theorem PushBack_eq {m : LinkMem} {L : ListT} {xs : List Nat} {x : Nat}
    (h : IsList m L xs) (hx : x ∉ xs) (hlen : xs.length + 1 < 2 ^ 32) :
    ∃ m2, L.PushBack m x = (m2, ⟨L.hd, xs.length + 1, L.off_⟩) ∧
      IsList m2 ⟨L.hd, xs.length + 1, L.off_⟩ (xs ++ [x]) ∧
      ∀ r, r ≠ .node x → r ∉ ptrs L.hd xs → m2 r = m r := by
  obtain ⟨h1, _, h3⟩ := PushBack_spec h hx hlen
  have e : (L.size_ + 1) % 2 ^ 32 = xs.length + 1 := by
    have := h.2.2.1
    omega
  have e2 : L.PushBack m x = ((L.PushBack m x).1, ⟨L.hd, xs.length + 1, L.off_⟩) := by
    simp only [ListT.PushBack, e]
  rw [e2] at h1
  exact ⟨_, e2, h1, h3⟩

theorem PushFront_eq {m : LinkMem} {L : ListT} {xs : List Nat} {x : Nat}
    (h : IsList m L xs) (hx : x ∉ xs) (hlen : xs.length + 1 < 2 ^ 32) :
    ∃ m2, L.PushFront m x = (m2, ⟨L.hd, xs.length + 1, L.off_⟩) ∧
      IsList m2 ⟨L.hd, xs.length + 1, L.off_⟩ (x :: xs) ∧
      ∀ r, r ≠ .node x → r ∉ ptrs L.hd xs → m2 r = m r := by
  obtain ⟨h1, _, h3⟩ := PushFront_spec h hx hlen
  have e : (L.size_ + 1) % 2 ^ 32 = xs.length + 1 := by
    have := h.2.2.1
    omega
  have e2 : L.PushFront m x = ((L.PushFront m x).1, ⟨L.hd, xs.length + 1, L.off_⟩) := by
    simp only [ListT.PushFront, e]
  rw [e2] at h1
  exact ⟨_, e2, h1, h3⟩

theorem filter_ne_mid {as bs : List Nat} {x : Nat} (ha : x ∉ as) (hb : x ∉ bs) :
    (as ++ x :: bs).filter (fun y => decide (y ≠ x)) = as ++ bs := by
  rw [List.filter_append, List.filter_cons]
  simp only [ne_eq, not_true_eq_false, decide_False, Bool.false_eq_true, ↓reduceIte]
  rw [List.filter_eq_self.2, List.filter_eq_self.2]
  · intro a h; simpa using fun (e : a = x) => hb (e ▸ h)
  · intro a h; simpa using fun (e : a = x) => ha (e ▸ h)

theorem IsList.not_unlinked {m : LinkMem} {L : ListT} {xs : List Nat} {x : Nat}
    (h : IsList m L xs) (hx : x ∈ xs) : ¬ Unlinked m x := by
  obtain ⟨as, bs, rfl⟩ := List.append_of_mem hx
  have hn := h.2.1
  have hxb : x ∉ bs := (List.nodup_cons.1 (List.nodup_append.1 hn).2.1).1
  have hxa : x ∉ as := fun hm => (List.nodup_append.1 hn).2.2 hm (List.mem_cons_self x bs)
  have hn2 : (as ++ bs).Nodup := by
    have := List.nodup_append.1 hn
    refine List.nodup_append.2 ⟨this.1, (List.nodup_cons.1 this.2.1).2, ?_⟩
    intro a ha hb
    exact this.2.2 ha (List.mem_cons_of_mem _ hb)
  have J := junction_mk L.hd as bs x hn2 hxa hxb
  have hc : (ptrs L.hd as ++ .node x :: tl L.hd bs).Chain' (Link m) := by
    rw [← ring_split_cons]; exact h.1
  obtain ⟨_, ⟨hb1, _⟩⟩ := chain_mid J hc
  intro hu
  unfold Unlinked at hu
  rw [hu] at hb1
  exact firstP_ne_node L.hd hxb hb1.symm

/-! ## `HouseKeeping` -/

section HouseKeepingLemmas

open CacheAllocator

theorem IsList.frame {m m2 : LinkMem} {L : ListT} {xs : List Nat} (h : IsList m L xs)
    (hf : ∀ r ∈ ptrs L.hd xs, m2 r = m r) : IsList m2 L xs := by
  refine ⟨chain_frame m m2 _ h.1 ?_, h.2⟩
  intro r hr
  rcases List.mem_append.1 hr with h1 | h1
  · exact hf r h1
  · exact hf r (by simp only [List.mem_singleton] at h1; subst h1; simp [ptrs])

theorem IsList.eta {m : LinkMem} {L : ListT} {xs : List Nat} (h : IsList m L xs) :
    L = ⟨L.hd, xs.length, L.off_⟩ := by
  have := h.2.2.1
  cases L
  simp_all

theorem IsList.resize {m : LinkMem} {L : ListT} {xs : List Nat} (h : IsList m L xs) :
    IsList m ⟨L.hd, xs.length, L.off_⟩ xs := by
  rw [← h.eta]; exact h

theorem head_not_mem_ptrs {a b : Nat} (xs : List Nat) (h : a ≠ b) :
    LinkPtr.head a ∉ ptrs b xs := by
  simp [ptrs, h]

theorem node_mem_ptrs {a b : Nat} {xs : List Nat} : LinkPtr.node a ∈ ptrs b xs ↔ a ∈ xs := by
  simp [ptrs]

theorem moveFreed_spec : ∀ (n : Nat) (m : LinkMem) (F G : ListT) (xs acc : List Nat),
    IsList m F xs → IsList m G acc → F.hd ≠ G.hd → (∀ x ∈ xs, x ∉ acc) →
    xs.length + acc.length < 2 ^ 32 →
    ∃ m2, moveFreed n m F G =
        (m2, ⟨F.hd, (xs.drop n).length, F.off_⟩,
          ⟨G.hd, ((xs.take n).reverse ++ acc).length, G.off_⟩) ∧
      IsList m2 ⟨F.hd, (xs.drop n).length, F.off_⟩ (xs.drop n) ∧
      IsList m2 ⟨G.hd, ((xs.take n).reverse ++ acc).length, G.off_⟩
        ((xs.take n).reverse ++ acc) ∧
      ∀ r, r ∉ ptrs F.hd xs → r ∉ ptrs G.hd acc → m2 r = m r
  | 0, m, F, G, xs, acc, hF, hG, _, _, _ => by
    refine ⟨m, ?_, ?_, ?_, fun _ _ _ => rfl⟩
    · simp only [moveFreed, List.drop_zero, List.take_zero, List.reverse_nil, List.nil_append]
      rw [← hF.eta, ← hG.eta]
    · simpa using hF.resize
    · simpa using hG.resize
  | n + 1, m, F, G, xs, acc, hF, hG, hne, hdis, hlen => by
    match xs, hF, hdis, hlen with
    | [], hF, _, _ =>
      refine ⟨m, ?_, ?_, ?_, fun _ _ _ => rfl⟩
      · simp only [moveFreed, PopFront_nil hF, List.drop_nil, List.take_nil, List.reverse_nil,
          List.nil_append]
        rw [← hG.eta]
        have := hF.eta
        simp only [List.length_nil] at this ⊢
        rw [← this]
      · simpa using hF.resize
      · simpa using hG.resize
    | y :: ys, hF, hdis, hlen =>
      have hy : y ∉ ys := (List.nodup_cons.1 hF.2.1).1
      have hya : y ∉ acc := hdis y (List.mem_cons_self _ _)
      obtain ⟨m1, e1, hF1, _, fr1⟩ := PopFront_spec hF
      have hG1 : IsList m1 G acc := hG.frame (by
        intro r hr
        refine fr1 r ?_ ?_
        · rintro rfl; exact hya (node_mem_ptrs.1 hr)
        · intro h2
          rcases mem_ptrs.1 hr with rfl | ⟨a, ha, rfl⟩
          · exact head_not_mem_ptrs ys hne.symm h2
          · exact hdis a (List.mem_cons_of_mem _ (node_mem_ptrs.1 h2)) ha)
      simp only [List.length_cons] at hlen
      obtain ⟨m2, e2, hG2, fr2⟩ := PushFront_eq hG1 hya (by omega)
      have hF2 : IsList m2 ⟨F.hd, ys.length, F.off_⟩ ys := hF1.frame (by
        intro r hr
        refine fr2 r ?_ ?_
        · rintro rfl; exact hy (node_mem_ptrs.1 hr)
        · intro h2
          rcases mem_ptrs.1 hr with rfl | ⟨a, ha, rfl⟩
          · exact head_not_mem_ptrs acc hne h2
          · exact hdis a (List.mem_cons_of_mem _ ha) (node_mem_ptrs.1 h2))
      obtain ⟨m3, e3, hF3, hG3, fr3⟩ := moveFreed_spec n m2 ⟨F.hd, ys.length, F.off_⟩
        ⟨G.hd, acc.length + 1, G.off_⟩ ys (y :: acc) hF2 hG2 hne
        (by
          intro x hx hxa
          rcases List.mem_cons.1 hxa with rfl | h3
          · exact hy hx
          · exact hdis x (List.mem_cons_of_mem _ hx) h3)
        (by simp only [List.length_cons]; omega)
      have el : (List.take n ys).reverse ++ y :: acc = (List.take (n + 1) (y :: ys)).reverse ++ acc := by
        simp
      rw [el] at e3 hG3
      refine ⟨m3, ?_, ?_, hG3, ?_⟩
      · simp only [moveFreed, e1, e2, List.drop_succ_cons]
        exact e3
      · simpa using hF3
      · intro r h1 h2
        have hr1 : r ≠ .node y := fun e => h1 (e ▸ node_mem_ptrs.2 (List.mem_cons_self _ _))
        have hr2 : r ∉ ptrs F.hd ys := by
          intro h3
          rcases mem_ptrs.1 h3 with rfl | ⟨a, ha, rfl⟩
          · exact h1 (by simp [ptrs])
          · exact h1 (node_mem_ptrs.2 (List.mem_cons_of_mem _ ha))
        rw [fr3 r hr2 ?_, fr2 r hr1 h2, fr1 r hr1 hr2]
        intro h3
        rcases mem_ptrs.1 h3 with rfl | ⟨a, ha, rfl⟩
        · exact h2 (by simp [ptrs])
        · rcases List.mem_cons.1 ha with rfl | h4
          · exact hr1 rfl
          · exact h2 (node_mem_ptrs.2 h4)

theorem drainFreed_spec : ∀ (zs : List Nat) (m : LinkMem) (G : ListT) (called : List Nat),
    IsList m G zs →
    ∃ m2, drainFreed zs.length m G called = (m2, ⟨G.hd, 0, G.off_⟩, called ++ zs) ∧
      IsList m2 ⟨G.hd, 0, G.off_⟩ [] ∧ (∀ z ∈ zs, Unlinked m2 z) ∧
      ∀ r, r ∉ ptrs G.hd zs → m2 r = m r
  | [], m, G, called, hG => by
    refine ⟨m, ?_, by simpa using hG.resize, by simp, fun _ _ => rfl⟩
    simp only [drainFreed, List.length_nil, List.append_nil]
    have := hG.eta
    simp only [List.length_nil] at this
    rw [← this]
  | y :: ys, m, G, called, hG => by
    have hy : y ∉ ys := (List.nodup_cons.1 hG.2.1).1
    obtain ⟨m1, e1, hG1, hu, fr1⟩ := PopFront_spec hG
    obtain ⟨m2, e2, hG2, hu2, fr2⟩ := drainFreed_spec ys m1 ⟨G.hd, ys.length, G.off_⟩
      (called ++ [y]) hG1
    refine ⟨m2, ?_, hG2, ?_, ?_⟩
    · simp only [drainFreed, List.length_cons, e1, e2, List.append_assoc, List.singleton_append]
    · intro z hz
      rcases List.mem_cons.1 hz with rfl | h3
      · unfold Unlinked at hu ⊢
        rw [fr2 _ (fun h => hy (node_mem_ptrs.1 h))]
        exact hu
      · exact hu2 z h3
    · intro r hr
      have hr1 : r ≠ .node y := fun e => hr (e ▸ node_mem_ptrs.2 (List.mem_cons_self _ _))
      have hr2 : r ∉ ptrs G.hd ys := by
        intro h3
        rcases mem_ptrs.1 h3 with rfl | ⟨a, ha, rfl⟩
        · exact hr (by simp [ptrs])
        · exact hr (node_mem_ptrs.2 (List.mem_cons_of_mem _ ha))
      rw [fr2 r hr2, fr1 r hr1 hr2]

theorem IsList.fresh (m : LinkMem) (hd : Nat) (off : Int) :
    IsList (m.Reset (.head hd)) ⟨hd, 0, off⟩ [] := by
  refine ⟨?_, List.nodup_nil, rfl, by simp⟩
  simp [ptrs, Link, LinkMem.Reset]

theorem Reset_other (m : LinkMem) (p r : LinkPtr) (h : r ≠ p) : m.Reset p r = m r := by
  apply link_ext <;> simp [LinkMem.Reset, h]

theorem excess_eq {len cur mx : Nat} (h0 : len < 2 ^ 32) (h1 : cur ≤ mx)
    (h2 : mx ≤ len + cur) (h3 : mx < 2 ^ 32) :
    ((len + cur) % 2 ^ 32 + 2 ^ 32 - mx) % 2 ^ 32 = len + cur - mx := by
  omega

theorem HouseKeeping_same (C : CacheAllocator) (m : LinkMem) (fh : Nat) :
    C.HouseKeeping m C.last_time_ fh = (m, C, []) := by
  simp [HouseKeeping]

theorem HouseKeeping_small {C : CacheAllocator} {m : LinkMem} {xs : List Nat} {t : Int}
    (fh : Nat) (hl : IsList m C.free_objs_ xs)
    (h1 : C.cur_allocations_ ≤ C.max_allocations_)
    (h2 : C.max_allocations_ ≤ xs.length + C.cur_allocations_)
    (h3 : C.max_allocations_ < 2 ^ 32) (ht : t ≠ C.last_time_)
    (hE : xs.length + C.cur_allocations_ - C.max_allocations_ ≤ 2) :
    C.HouseKeeping m t fh =
      (m, { C with last_time_ := t, max_allocations_ := C.cur_allocations_ }, []) := by
  have e := excess_eq hl.2.2.2 h1 h2 h3
  rw [← hl.2.2.1] at e hE
  simp only [HouseKeeping, if_neg ht, e, if_pos hE]

theorem HouseKeeping_trim {C : CacheAllocator} {m : LinkMem} {xs : List Nat} {t : Int}
    {fh : Nat} (hl : IsList m C.free_objs_ xs) (hfh : fh ≠ C.free_objs_.hd)
    (h1 : C.cur_allocations_ ≤ C.max_allocations_)
    (h2 : C.max_allocations_ ≤ xs.length + C.cur_allocations_)
    (h3 : C.max_allocations_ < 2 ^ 32) (ht : t ≠ C.last_time_)
    (hE : 2 < xs.length + C.cur_allocations_ - C.max_allocations_) :
    ∃ m2, C.HouseKeeping m t fh =
        (m2, { last_time_ := t
               free_objs_ := ⟨C.free_objs_.hd,
                 (xs.drop ((xs.length + C.cur_allocations_ - C.max_allocations_) / 2)).length,
                 C.free_objs_.off_⟩
               cur_allocations_ := C.cur_allocations_
               max_allocations_ := C.cur_allocations_ },
          (xs.take ((xs.length + C.cur_allocations_ - C.max_allocations_) / 2)).reverse) ∧
      IsList m2 ⟨C.free_objs_.hd,
          (xs.drop ((xs.length + C.cur_allocations_ - C.max_allocations_) / 2)).length,
          C.free_objs_.off_⟩
        (xs.drop ((xs.length + C.cur_allocations_ - C.max_allocations_) / 2)) ∧
      (∀ z ∈ xs.take ((xs.length + C.cur_allocations_ - C.max_allocations_) / 2),
        Unlinked m2 z) ∧
      ∀ r, r ∉ ptrs C.free_objs_.hd xs → r ≠ .head fh → m2 r = m r := by
  have e := excess_eq hl.2.2.2 h1 h2 h3
  rw [← hl.2.2.1] at e
  have hE2 : ¬ (C.free_objs_.size_ + C.cur_allocations_ - C.max_allocations_ ≤ 2) := by
    rw [hl.2.2.1]; omega
  have hsh : ∀ n : Nat, n >>> 1 = n / 2 := fun n => by
    rw [Nat.shiftRight_eq_div_pow]
  rw [hl.2.2.1] at e
  generalize hk : (xs.length + C.cur_allocations_ - C.max_allocations_) / 2 = k at *
  have hkl : k ≤ xs.length := by omega
  have hl0 : IsList (m.Reset (.head fh)) C.free_objs_ xs := hl.frame (by
    intro r hr
    exact Reset_other m _ r (fun e => head_not_mem_ptrs xs hfh (e ▸ hr)))
  obtain ⟨m1, e1, hF1, hG1, fr1⟩ := moveFreed_spec k _ C.free_objs_ ⟨fh, 0, C.free_objs_.off_⟩
    xs [] hl0 (IsList.fresh m fh _) hfh.symm (by simp) (by simpa using hl.2.2.2)
  simp only [List.append_nil] at e1 hG1
  obtain ⟨m2, e2, _, hu2, fr2⟩ := drainFreed_spec _ m1 _ [] hG1
  have hnd := hl.2.1
  rw [← List.take_append_drop k xs] at hnd
  have hdis := (List.nodup_append.1 hnd).2.2
  refine ⟨m2, ?_, ?_, ?_, ?_⟩
  · rw [← hl.2.2.1] at e
    simp only [HouseKeeping, if_neg ht, e, if_neg hE2, hsh]
    rw [hl.2.2.1, hk, e1]
    simp only [List.nil_append] at e2
    rw [e2]
  · refine hF1.frame ?_
    intro r hr
    refine fr2 r ?_
    intro h4
    rcases mem_ptrs.1 hr with rfl | ⟨a, ha, rfl⟩
    · exact head_not_mem_ptrs _ hfh.symm h4
    · exact hdis (List.mem_reverse.1 (node_mem_ptrs.1 h4)) ha
  · intro z hz
    exact hu2 z (List.mem_reverse.2 hz)
  · intro r h4 h5
    have h6 : r ∉ ptrs fh (xs.take k).reverse := by
      intro h7
      rcases mem_ptrs.1 h7 with rfl | ⟨a, ha, rfl⟩
      · exact h5 rfl
      · exact h4 (node_mem_ptrs.2 (List.mem_of_mem_take (List.mem_reverse.1 ha)))
    rw [fr2 r h6, fr1 r h4 (by simpa [ptrs] using h5), Reset_other m _ r h5]

theorem decay_le (a : Nat) : (if 2 < a then a - a / 2 else a) ≤ a := by
  split <;> omega

theorem iterate_chain {α : Type} (f : α → α) : ∀ (n : Nat) (a : α),
    (List.iterate f a n).Chain' (fun x y => y = f x)
  | 0, _ => by simp [List.iterate]
  | 1, a => by simp [List.iterate]
  | n + 2, a => by
    have := iterate_chain f (n + 1) (f a)
    simp only [List.iterate] at this ⊢
    exact List.chain'_cons.2 ⟨rfl, this⟩

theorem decay_iter_bound (a : Nat) : ∀ k : Nat,
    (fun a => if 2 < a then a - a / 2 else a)^[k] a ≤ 2 ∨
    (fun a => if 2 < a then a - a / 2 else a)^[k] a ≤ a / 2 ^ k + 1
  | 0 => by right; simp
  | k + 1 => by
    rw [Function.iterate_succ_apply']
    have ih := decay_iter_bound a k
    have e : a / 2 ^ (k + 1) = a / 2 ^ k / 2 := by
      rw [pow_succ, Nat.div_div_eq_div_mul]
    rw [e]
    generalize (fun a => if 2 < a then a - a / 2 else a)^[k] a = b at ih ⊢
    generalize a / 2 ^ k = q at ih ⊢
    split <;> omega

theorem decay_iter_small (a k : Nat) (ha : a < 2 ^ 32) (hk : 32 ≤ k) :
    (fun a => if 2 < a then a - a / 2 else a)^[k] a ≤ 2 := by
  rcases decay_iter_bound a k with h | h
  · exact h
  · have : a / 2 ^ k = 0 := by
      apply Nat.div_eq_of_lt
      exact lt_of_lt_of_le ha (Nat.pow_le_pow_right (by norm_num) hk)
    omega

theorem hkRun_length (fh : Nat) : ∀ (ts : List Int) (m : LinkMem) (C : CacheAllocator),
    (hkRun fh m C ts).length = ts.length
  | [], _, _ => rfl
  | t :: ts, m, C => by simp [hkRun, hkRun_length fh ts]

theorem hkRun_steady (fh : Nat) : ∀ (ts : List Int) (m : LinkMem) (C : CacheAllocator)
    (xs : List Nat), IsList m C.free_objs_ xs → fh ≠ C.free_objs_.hd →
    C.max_allocations_ = C.cur_allocations_ → C.cur_allocations_ < 2 ^ 32 →
    List.Chain (fun a b => a ≠ b) C.last_time_ ts →
    (hkRun fh m C ts).map (fun q => q.2.free_objs_.size_) =
      List.iterate (fun a => if 2 < a then a - a / 2 else a)
        (if 2 < xs.length then xs.length - xs.length / 2 else xs.length) ts.length
  | [], _, _, _, _, _, _, _, _ => rfl
  | t :: ts, m, C, xs, hl, hfh, hm, hc, hts => by
    have ht : t ≠ C.last_time_ := fun e => (List.chain_cons.1 hts).1 e.symm
    have hts2 := (List.chain_cons.1 hts).2
    have hE : xs.length + C.cur_allocations_ - C.max_allocations_ = xs.length := by omega
    simp only [hkRun, List.map_cons, List.length_cons, List.iterate]
    by_cases h2 : 2 < xs.length
    · obtain ⟨m2, e, hl2, _, _⟩ := HouseKeeping_trim hl hfh (by omega) (by omega) (by omega) ht
        (by omega)
      rw [hE] at e hl2
      rw [e, if_pos h2]
      have := hkRun_steady fh ts m2
        ⟨t, ⟨C.free_objs_.hd, (xs.drop (xs.length / 2)).length, C.free_objs_.off_⟩,
          C.cur_allocations_, C.cur_allocations_⟩ _ hl2 hfh rfl hc hts2
      rw [this]
      simp only [List.length_drop]
    · have e := HouseKeeping_small fh hl (by omega) (by omega) (by omega) ht (by omega)
      rw [e, if_neg h2]
      have := hkRun_steady fh ts m ⟨t, C.free_objs_, C.cur_allocations_, C.cur_allocations_⟩
        xs hl hfh rfl hc hts2
      simp only [this, if_neg h2, hl.2.2.1]

theorem hkSizes_eq (fh : Nat) (t : Int) (ts : List Int) (m : LinkMem) (C : CacheAllocator)
    (xs : List Nat) (hl : IsList m C.free_objs_ xs) (hfh : fh ≠ C.free_objs_.hd)
    (h1 : C.cur_allocations_ ≤ C.max_allocations_)
    (h2 : C.max_allocations_ ≤ xs.length + C.cur_allocations_)
    (h3 : C.max_allocations_ < 2 ^ 32)
    (hts : List.Chain (fun a b => a ≠ b) C.last_time_ (t :: ts)) :
    hkSizes fh m C (t :: ts) = xs.length ::
      List.iterate (fun a => if 2 < a then a - a / 2 else a)
        (if 2 < xs.length + C.cur_allocations_ - C.max_allocations_ then
          xs.length - (xs.length + C.cur_allocations_ - C.max_allocations_) / 2
         else xs.length) (ts.length + 1) := by
  have ht : t ≠ C.last_time_ := fun e => (List.chain_cons.1 hts).1 e.symm
  have hts2 := (List.chain_cons.1 hts).2
  simp only [hkSizes, hkRun, List.map_cons, List.iterate, hl.2.2.1]
  by_cases hE : 2 < xs.length + C.cur_allocations_ - C.max_allocations_
  · obtain ⟨m2, e, hl2, _, _⟩ := HouseKeeping_trim hl hfh h1 h2 h3 ht hE
    rw [e, if_pos hE]
    have := hkRun_steady fh ts m2
      ⟨t, ⟨C.free_objs_.hd, (xs.drop ((xs.length + C.cur_allocations_ - C.max_allocations_) /
        2)).length, C.free_objs_.off_⟩, C.cur_allocations_, C.cur_allocations_⟩ _ hl2 hfh rfl
      (show C.cur_allocations_ < 2 ^ 32 by omega) hts2
    rw [this]
    simp only [List.length_drop]
  · have e := HouseKeeping_small fh hl h1 h2 h3 ht (by omega)
    rw [e, if_neg hE]
    have := hkRun_steady fh ts m ⟨t, C.free_objs_, C.cur_allocations_, C.cur_allocations_⟩
      xs hl hfh rfl (show C.cur_allocations_ < 2 ^ 32 by omega) hts2
    simp only [this, hl.2.2.1]

theorem mem_drop_iterate {α : Type} (f : α → α) (a x : α) (n k : Nat)
    (h : x ∈ (List.iterate f a n).drop k) : ∃ i, k ≤ i ∧ x = f^[i] a := by
  obtain ⟨i, hi, rfl⟩ := List.mem_iff_getElem.1 h
  refine ⟨k + i, Nat.le_add_right _ _, ?_⟩
  rw [List.getElem_drop, List.getElem_iterate]

end HouseKeepingLemmas

/-! ## Containment is preserved -/

section ContainmentLemmas

variable {β : Type}

open NbdServer CacheAllocator

theorem IsList.frame_op {m m2 : LinkMem} {L : ListT} {xs zs : List Nat} {x hd : Nat}
    (h : IsList m L xs) (fr : ∀ r, r ≠ .node x → r ∉ ptrs hd zs → m2 r = m r)
    (hne : L.hd ≠ hd) (hx : x ∉ xs) (hd2 : ∀ a ∈ xs, a ∉ zs) : IsList m2 L xs := by
  refine h.frame ?_
  intro r hr
  refine fr r ?_ ?_
  · rintro rfl; exact hx (node_mem_ptrs.1 hr)
  · intro h2
    rcases mem_ptrs.1 hr with rfl | ⟨a, ha, rfl⟩
    · exact head_not_mem_ptrs zs hne h2
    · exact hd2 a ha (node_mem_ptrs.1 h2)

theorem Unlinked.frame_keep {m m2 : LinkMem} {zs : List Nat} {x hd c : Nat}
    (h : Unlinked m c) (fr : ∀ r, r ≠ .node x → r ∉ ptrs hd zs → m2 r = m r)
    (hx : c ≠ x) (hc : c ∉ zs) : Unlinked m2 c := by
  unfold Unlinked at h ⊢
  rw [fr _ (fun e => hx (node_injective e)) (fun h2 => hc (node_mem_ptrs.1 h2))]
  exact h

theorem Lists.pushBack_send {m : LinkMem} {S Pn F : ListT} {snd pnd fre : List Nat} {x : Nat}
    (h : Lists m S Pn F snd pnd fre) (h1 : x ∉ snd) (h2 : x ∉ pnd) (h3 : x ∉ fre)
    (hlen : snd.length + 1 < 2 ^ 32) :
    ∃ m2, S.PushBack m x = (m2, ⟨S.hd, snd.length + 1, S.off_⟩) ∧
      Lists m2 ⟨S.hd, snd.length + 1, S.off_⟩ Pn F (snd ++ [x]) pnd fre := by
  obtain ⟨m2, e, hl, fr⟩ := PushBack_eq h.send h1 hlen
  refine ⟨m2, e, ⟨hl, ?_, ?_, h.hS, h.hP, h.hF, ?_, ?_, h.dpf, ?_⟩⟩
  · exact h.pend.frame_op fr (by rw [h.hP, h.hS]; decide) h2 (fun a ha hs => h.dsp a hs ha)
  · exact h.free.frame_op fr (by rw [h.hF, h.hS]; decide) h3 (fun a ha hs => h.dsf a hs ha)
  · intro a ha
    rcases List.mem_append.1 ha with h4 | h4
    · exact h.dsp a h4
    · simp only [List.mem_singleton] at h4; subst h4; exact h2
  · intro a ha
    rcases List.mem_append.1 ha with h4 | h4
    · exact h.dsf a h4
    · simp only [List.mem_singleton] at h4; subst h4; exact h3
  · intro c c1 c2 c3
    simp only [List.mem_append, List.mem_singleton, not_or] at c1
    exact (h.unl c c1.1 c2 c3).frame_keep fr c1.2 c1.1

theorem Lists.pushBack_pend {m : LinkMem} {S Pn F : ListT} {snd pnd fre : List Nat} {x : Nat}
    (h : Lists m S Pn F snd pnd fre) (h1 : x ∉ snd) (h2 : x ∉ pnd) (h3 : x ∉ fre)
    (hlen : pnd.length + 1 < 2 ^ 32) :
    ∃ m2, Pn.PushBack m x = (m2, ⟨Pn.hd, pnd.length + 1, Pn.off_⟩) ∧
      Lists m2 S ⟨Pn.hd, pnd.length + 1, Pn.off_⟩ F snd (pnd ++ [x]) fre := by
  obtain ⟨m2, e, hl, fr⟩ := PushBack_eq h.pend h2 hlen
  refine ⟨m2, e, ⟨?_, hl, ?_, h.hS, h.hP, h.hF, ?_, h.dsf, ?_, ?_⟩⟩
  · exact h.send.frame_op fr (by rw [h.hP, h.hS]; decide) h1 h.dsp
  · exact h.free.frame_op fr (by rw [h.hF, h.hP]; decide) h3 (fun a ha hs => h.dpf a hs ha)
  · intro a ha hp
    rcases List.mem_append.1 hp with h4 | h4
    · exact h.dsp a ha h4
    · simp only [List.mem_singleton] at h4; subst h4; exact h1 ha
  · intro a ha
    rcases List.mem_append.1 ha with h4 | h4
    · exact h.dpf a h4
    · simp only [List.mem_singleton] at h4; subst h4; exact h3
  · intro c c1 c2 c3
    simp only [List.mem_append, List.mem_singleton, not_or] at c2
    exact (h.unl c c1 c2.1 c3).frame_keep fr c2.2 c2.1

theorem Lists.pushFront_free {m : LinkMem} {S Pn F : ListT} {snd pnd fre : List Nat} {x : Nat}
    (h : Lists m S Pn F snd pnd fre) (h1 : x ∉ snd) (h2 : x ∉ pnd) (h3 : x ∉ fre)
    (hlen : fre.length + 1 < 2 ^ 32) :
    ∃ m2, F.PushFront m x = (m2, ⟨F.hd, fre.length + 1, F.off_⟩) ∧
      Lists m2 S Pn ⟨F.hd, fre.length + 1, F.off_⟩ snd pnd (x :: fre) := by
  obtain ⟨m2, e, hl, fr⟩ := PushFront_eq h.free h3 hlen
  refine ⟨m2, e, ⟨?_, ?_, hl, h.hS, h.hP, h.hF, h.dsp, ?_, ?_, ?_⟩⟩
  · exact h.send.frame_op fr (by rw [h.hF, h.hS]; decide) h1 h.dsf
  · exact h.pend.frame_op fr (by rw [h.hF, h.hP]; decide) h2 h.dpf
  · intro a ha hp
    rcases List.mem_cons.1 hp with h4 | h4
    · subst h4; exact h1 ha
    · exact h.dsf a ha h4
  · intro a ha hp
    rcases List.mem_cons.1 hp with h4 | h4
    · subst h4; exact h2 ha
    · exact h.dpf a ha h4
  · intro c c1 c2 c3
    simp only [List.mem_cons, not_or] at c3
    exact (h.unl c c1 c2 c3.2).frame_keep fr c3.1 c3.2

theorem Lists.popFront_send {m : LinkMem} {S Pn F : ListT} {y : Nat} {ys pnd fre : List Nat}
    (h : Lists m S Pn F (y :: ys) pnd fre) :
    ∃ m2, S.PopFront m = (some y, m2, ⟨S.hd, ys.length, S.off_⟩) ∧
      Lists m2 ⟨S.hd, ys.length, S.off_⟩ Pn F ys pnd fre := by
  obtain ⟨m2, e, hl, hu, fr⟩ := PopFront_spec h.send
  have hy : y ∉ ys := (List.nodup_cons.1 h.send.2.1).1
  have hyp := h.dsp y (List.mem_cons_self _ _)
  have hyf := h.dsf y (List.mem_cons_self _ _)
  refine ⟨m2, e, ⟨hl, ?_, ?_, h.hS, h.hP, h.hF, ?_, ?_, h.dpf, ?_⟩⟩
  · exact h.pend.frame_op fr (by rw [h.hP, h.hS]; decide) hyp
      (fun a ha hs => h.dsp a (List.mem_cons_of_mem _ hs) ha)
  · exact h.free.frame_op fr (by rw [h.hF, h.hS]; decide) hyf
      (fun a ha hs => h.dsf a (List.mem_cons_of_mem _ hs) ha)
  · exact fun a ha => h.dsp a (List.mem_cons_of_mem _ ha)
  · exact fun a ha => h.dsf a (List.mem_cons_of_mem _ ha)
  · intro c c1 c2 c3
    by_cases hcy : c = y
    · subst hcy; exact hu
    · exact (h.unl c (by simp [hcy, c1]) c2 c3).frame_keep fr hcy c1

theorem Lists.popFront_free {m : LinkMem} {S Pn F : ListT} {y : Nat} {snd pnd ys : List Nat}
    (h : Lists m S Pn F snd pnd (y :: ys)) :
    ∃ m2, F.PopFront m = (some y, m2, ⟨F.hd, ys.length, F.off_⟩) ∧
      Lists m2 S Pn ⟨F.hd, ys.length, F.off_⟩ snd pnd ys := by
  obtain ⟨m2, e, hl, hu, fr⟩ := PopFront_spec h.free
  have hy : y ∉ ys := (List.nodup_cons.1 h.free.2.1).1
  have hys : y ∉ snd := fun hs => h.dsf y hs (List.mem_cons_self _ _)
  have hyp : y ∉ pnd := fun hs => h.dpf y hs (List.mem_cons_self _ _)
  refine ⟨m2, e, ⟨?_, ?_, hl, h.hS, h.hP, h.hF, h.dsp, ?_, ?_, ?_⟩⟩
  · exact h.send.frame_op fr (by rw [h.hF, h.hS]; decide) hys
      (fun a ha hs => h.dsf a ha (List.mem_cons_of_mem _ hs))
  · exact h.pend.frame_op fr (by rw [h.hF, h.hP]; decide) hyp
      (fun a ha hs => h.dpf a ha (List.mem_cons_of_mem _ hs))
  · exact fun a ha hs => h.dsf a ha (List.mem_cons_of_mem _ hs)
  · exact fun a ha hs => h.dpf a ha (List.mem_cons_of_mem _ hs)
  · intro c c1 c2 c3
    by_cases hcy : c = y
    · subst hcy; exact hu
    · exact (h.unl c c1 c2 (by simp [hcy, c3])).frame_keep fr hcy c3

theorem Lists.remove_pend {m : LinkMem} {S Pn F : ListT} {x : Nat} {snd as bs fre : List Nat}
    (h : Lists m S Pn F snd (as ++ x :: bs) fre) :
    ∃ m2, Pn.Remove m x = (true, m2, ⟨Pn.hd, (as ++ bs).length, Pn.off_⟩) ∧
      Lists m2 S ⟨Pn.hd, (as ++ bs).length, Pn.off_⟩ F snd (as ++ bs) fre := by
  obtain ⟨m2, e, hl, hu, fr⟩ := Remove_spec h.pend
  have hn := h.pend.2.1
  have hxb : x ∉ bs := (List.nodup_cons.1 (List.nodup_append.1 hn).2.1).1
  have hxa : x ∉ as := fun hm => (List.nodup_append.1 hn).2.2 hm (List.mem_cons_self x bs)
  have hx : x ∉ as ++ bs := by simp [hxa, hxb]
  have hsub : ∀ a, a ∈ as ++ bs → a ∈ as ++ x :: bs := by
    intro a ha
    simp only [List.mem_append, List.mem_cons] at ha ⊢
    tauto
  have hxs : x ∉ snd := fun hs => h.dsp x hs (by simp)
  have hxf : x ∉ fre := h.dpf x (by simp)
  refine ⟨m2, e, ⟨?_, hl, ?_, h.hS, h.hP, h.hF, ?_, h.dsf, ?_, ?_⟩⟩
  · exact h.send.frame_op fr (by rw [h.hP, h.hS]; decide) hxs
      (fun a ha hs => h.dsp a ha (hsub a hs))
  · exact h.free.frame_op fr (by rw [h.hF, h.hP]; decide) hxf
      (fun a ha hs => h.dpf a (hsub a hs) ha)
  · exact fun a ha hs => h.dsp a ha (hsub a hs)
  · exact fun a ha => h.dpf a (hsub a ha)
  · intro c c1 c2 c3
    by_cases hcx : c = x
    · subst hcx; exact hu
    · refine (h.unl c c1 ?_ c3).frame_keep fr hcx c2
      simp only [List.mem_append, List.mem_cons, not_or] at c2 ⊢
      exact ⟨c2.1, hcx, c2.2⟩

theorem length_le_of_count (l : List Nat) (n : Nat)
    (h : ∀ c, l.count c ≤ if c < n then 1 else 0) : l.length ≤ n := by
  have hn : l.Nodup := List.nodup_iff_count_le_one.2 fun a => by
    have := h a; split at this <;> omega
  have hs : l.toFinset ⊆ Finset.range n := by
    intro a ha
    rw [List.mem_toFinset] at ha
    have h1 := List.count_pos_iff.2 ha
    have := h a
    split at this
    · simpa using ‹a < n›
    · omega
  have := Finset.card_le_card hs
  rwa [List.toFinset_card_of_nodup hn, Finset.card_range] at this

theorem ite_le_one (p : Prop) [Decidable p] : (if p then 1 else 0) ≤ 1 := by
  split <;> omega

theorem count_mid (as bs : List Nat) (x c : Nat) :
    (as ++ x :: bs).count c = (as ++ bs).count c + if x = c then 1 else 0 := by
  simp only [List.count_append, List.count_cons, beq_iff_eq]
  omega

theorem count_snoc (as : List Nat) (x c : Nat) :
    (as ++ [x]).count c = as.count c + if x = c then 1 else 0 := by
  simp only [List.count_append, List.count_cons, beq_iff_eq, List.count_nil]
  omega

theorem count_cons2 (as : List Nat) (x c : Nat) :
    (x :: as).count c = as.count c + if x = c then 1 else 0 := by
  simp only [List.count_cons, beq_iff_eq]

theorem not_mem_of_count {l : List Nat} {c : Nat} (h : l.count c = 0) : c ∉ l :=
  List.count_eq_zero.1 h

theorem Cont.completion_pnd {s : NbdServer β} {hand snd fre : List Nat} {x : Nat}
    (e : Endian) (as bs : List Nat) (h : Cont s hand snd (as ++ x :: bs) fre) :
    Cont (CompletionCb e s x) hand (snd ++ [x]) (as ++ bs) fre := by
  have hc := h.count
  have hxs : x ∉ snd := fun hs => h.lists.dsp x hs (by simp)
  have hxf : x ∉ fre := h.lists.dpf x (by simp)
  have hn := h.lists.pend.2.1
  have hxb : x ∉ bs := (List.nodup_cons.1 (List.nodup_append.1 hn).2.1).1
  have hxa : x ∉ as := fun hm => (List.nodup_append.1 hn).2.2 hm (List.mem_cons_self x bs)
  have hx : x ∉ as ++ bs := by simp [hxa, hxb]
  obtain ⟨m2, e1, hl1⟩ := h.lists.remove_pend
  have hlen : snd.length + 1 < 2 ^ 32 := by
    have := length_le_of_count (snd ++ [x]) s.ncmds (fun c => by
      have h1 := hc c
      rw [count_mid] at h1
      rw [count_snoc]
      omega)
    have hb := h.bound
    simp only [List.length_append, List.length_singleton] at this
    omega
  obtain ⟨m3, e2, hl2⟩ := hl1.pushBack_send hxs hx hxf hlen
  refine ⟨?_, ?_, h.bound⟩
  · simp only [CompletionCb, setCmd, e1, e2]
    exact hl2
  · intro c
    have h1 := hc c
    rw [count_mid] at h1
    rw [count_snoc]
    simp only [CompletionCb, setCmd]
    omega

theorem Cont.completion_hand {s : NbdServer β} {hand snd pnd fre : List Nat} {x : Nat}
    (e : Endian) (h : Cont s (x :: hand) snd pnd fre) :
    Cont (CompletionCb e s x) hand (snd ++ [x]) pnd fre := by
  have hc := h.count
  have hcx := hc x
  rw [count_cons2, if_pos rfl] at hcx
  have hle := ite_le_one (x < s.ncmds)
  have hxs : x ∉ snd := not_mem_of_count (by omega)
  have hxp : x ∉ pnd := not_mem_of_count (by omega)
  have hxf : x ∉ fre := not_mem_of_count (by omega)
  have e1 := Remove_unlinked (L := s.pending_backend_cmds_) (h.lists.unl x hxs hxp hxf)
  have hlen : snd.length + 1 < 2 ^ 32 := by
    have := length_le_of_count (snd ++ [x]) s.ncmds (fun c => by
      have h1 := hc c
      rw [count_cons2] at h1
      rw [count_snoc]
      omega)
    have hb := h.bound
    simp only [List.length_append, List.length_singleton] at this
    omega
  obtain ⟨m3, e2, hl2⟩ := h.lists.pushBack_send hxs hxp hxf hlen
  refine ⟨?_, ?_, h.bound⟩
  · simp only [CompletionCb, setCmd, e1, e2]
    exact hl2
  · intro c
    have h1 := hc c
    rw [count_cons2] at h1
    rw [count_snoc]
    simp only [CompletionCb, setCmd]
    omega

theorem Cont.congr {s s2 : NbdServer β} {hand snd pnd fre : List Nat}
    (h : Cont s hand snd pnd fre) (e1 : s2.links = s.links) (e2 : s2.send_cmds_ = s.send_cmds_)
    (e3 : s2.pending_backend_cmds_ = s.pending_backend_cmds_)
    (e4 : s2.cmd_cache_.free_objs_ = s.cmd_cache_.free_objs_) (e5 : s2.rcv_cmd_ = s.rcv_cmd_)
    (e6 : s2.send_cmd_ = s.send_cmd_) (e7 : s2.ncmds = s.ncmds) (e8 : s2.deleted = s.deleted) :
    Cont s2 hand snd pnd fre := by
  refine ⟨?_, ?_, ?_⟩
  · rw [e1, e2, e3, e4]; exact h.lists
  · rw [e5, e6, e7, e8]; exact h.count
  · rw [e7]; exact h.bound

theorem Cont.markShutdown {s : NbdServer β} {hand snd pnd fre : List Nat}
    (h : Cont s hand snd pnd fre) (r : String) : Cont (MarkShutdown s r) hand snd pnd fre := by
  unfold MarkShutdown
  split
  · exact h
  · exact h.congr rfl rfl rfl rfl rfl rfl rfl rfl

theorem Cont.setCmd {s : NbdServer β} {hand snd pnd fre : List Nat}
    (h : Cont s hand snd pnd fre) (c : Nat) (cmd : NbdCmd) :
    Cont (setCmd s c cmd) hand snd pnd fre :=
  h.congr rfl rfl rfl rfl rfl rfl rfl rfl

theorem Cont.take_rcv {s : NbdServer β} {hand snd pnd fre : List Nat} {c : Nat}
    (h : Cont s hand snd pnd fre) (hr : s.rcv_cmd_ = some c) :
    Cont { s with rcv_cmd_ := none } (c :: hand) snd pnd fre := by
  refine ⟨h.lists, ?_, h.bound⟩
  intro a
  have := h.count a
  rw [hr] at this
  rw [count_cons2]
  simp only [slotCount, Option.some.injEq, reduceCtorEq, if_false] at this ⊢
  omega

theorem Cont.put_rcv {s : NbdServer β} {hand snd pnd fre : List Nat} {c : Nat}
    (h : Cont s (c :: hand) snd pnd fre) (hr : s.rcv_cmd_ = none) :
    Cont { s with rcv_cmd_ := some c } hand snd pnd fre := by
  refine ⟨h.lists, ?_, h.bound⟩
  intro a
  have := h.count a
  rw [hr, count_cons2] at this
  simp only [slotCount, Option.some.injEq, reduceCtorEq, if_false] at this ⊢
  omega

theorem Cont.take_send {s : NbdServer β} {hand snd pnd fre : List Nat} {c : Nat}
    (h : Cont s hand snd pnd fre) (hr : s.send_cmd_ = some c) :
    Cont { s with send_cmd_ := none } (c :: hand) snd pnd fre := by
  refine ⟨h.lists, ?_, h.bound⟩
  intro a
  have := h.count a
  rw [hr] at this
  rw [count_cons2]
  simp only [slotCount, Option.some.injEq, reduceCtorEq, if_false] at this ⊢
  omega

theorem Cont.free {s : NbdServer β} {hand snd pnd fre : List Nat} {x : Nat}
    (h : Cont s (x :: hand) snd pnd fre) :
    Cont (CacheAllocator.Free s x) hand snd pnd (x :: fre) := by
  have hc := h.count
  have hcx := hc x
  rw [count_cons2, if_pos rfl] at hcx
  have hle := ite_le_one (x < s.ncmds)
  have hxs : x ∉ snd := not_mem_of_count (by omega)
  have hxp : x ∉ pnd := not_mem_of_count (by omega)
  have hxf : x ∉ fre := not_mem_of_count (by omega)
  have hlen : fre.length + 1 < 2 ^ 32 := by
    have := length_le_of_count (x :: fre) s.ncmds (fun c => by
      have h1 := hc c
      rw [count_cons2] at h1 ⊢
      omega)
    have hb := h.bound
    simp only [List.length_cons] at this
    omega
  obtain ⟨m3, e2, hl2⟩ := h.lists.pushFront_free hxs hxp hxf hlen
  refine ⟨?_, ?_, h.bound⟩
  · simp only [CacheAllocator.Free, e2]
    exact hl2
  · intro c
    have h1 := hc c
    rw [count_cons2] at h1 ⊢
    simp only [CacheAllocator.Free]
    omega

theorem Cont.invoke {s : NbdServer β} {hand snd fre : List Nat} {x : Nat}
    (e : Endian) (ev : Event) (f : β → NbdCmd → CbResult β) (as bs : List Nat)
    (h : Cont s hand snd (as ++ x :: bs) fre) :
    ∃ snd2 pnd2, Cont (invoke e s x ev f) hand snd2 pnd2 fre := by
  unfold NbdServer.invoke
  have h1 : Cont { Blksrv.setCmd s x (f s.backend (s.cmds x)).cmd with
      backend := (f s.backend (s.cmds x)).backend, trace := s.trace ++ [ev] }
      hand snd (as ++ x :: bs) fre := h.congr rfl rfl rfl rfl rfl rfl rfl rfl
  simp only
  split
  · exact ⟨_, _, h1.completion_pnd e as bs⟩
  · exact ⟨_, _, h1⟩

theorem Cont.hand_facts {s : NbdServer β} {hand snd pnd fre : List Nat} {x : Nat}
    (h : Cont s (x :: hand) snd pnd fre) :
    x ∉ snd ∧ x ∉ pnd ∧ x ∉ fre ∧ x < s.ncmds ∧ snd.length + 1 < 2 ^ 32 ∧
      pnd.length + 1 < 2 ^ 32 ∧ fre.length + 1 < 2 ^ 32 := by
  have hc := h.count
  have hcx := hc x
  rw [count_cons2, if_pos rfl] at hcx
  have hb := h.bound
  have hlt : x < s.ncmds := by
    by_contra hn
    rw [if_neg hn] at hcx
    omega
  rw [if_pos hlt] at hcx
  refine ⟨not_mem_of_count (by omega), not_mem_of_count (by omega),
    not_mem_of_count (by omega), hlt, ?_, ?_, ?_⟩
  · have := length_le_of_count (snd ++ [x]) s.ncmds (fun c => by
      have h1 := hc c
      rw [count_cons2] at h1
      rw [count_snoc]
      omega)
    simp only [List.length_append, List.length_singleton] at this
    omega
  · have := length_le_of_count (pnd ++ [x]) s.ncmds (fun c => by
      have h1 := hc c
      rw [count_cons2] at h1
      rw [count_snoc]
      omega)
    simp only [List.length_append, List.length_singleton] at this
    omega
  · have := length_le_of_count (fre ++ [x]) s.ncmds (fun c => by
      have h1 := hc c
      rw [count_cons2] at h1
      rw [count_snoc]
      omega)
    simp only [List.length_append, List.length_singleton] at this
    omega

theorem Cont.pend_pushBack {s : NbdServer β} {hand snd pnd fre : List Nat} {x : Nat}
    (h : Cont s (x :: hand) snd pnd fre) :
    Cont { s with
      links := (s.pending_backend_cmds_.PushBack s.links x).1
      pending_backend_cmds_ := (s.pending_backend_cmds_.PushBack s.links x).2 }
      hand snd (pnd ++ [x]) fre := by
  obtain ⟨h1, h2, h3, _, _, h5, _⟩ := h.hand_facts
  obtain ⟨m3, e2, hl2⟩ := h.lists.pushBack_pend h1 h2 h3 h5
  refine ⟨?_, ?_, h.bound⟩
  · simp only [e2]
    exact hl2
  · intro c
    have h1 := h.count c
    rw [count_cons2] at h1
    rw [count_snoc]
    simp only
    omega

theorem Cont.postRcvdCmd {s : NbdServer β} {hand snd pnd fre : List Nat}
    (P : NbdParams β) (e : Endian) (h : Cont s hand snd pnd fre) :
    ∃ snd2 pnd2 fre2, Cont (PostRcvdCmd P e s) hand snd2 pnd2 fre2 := by
  unfold PostRcvdCmd
  split
  · exact ⟨_, _, _, h⟩
  · rename_i c hr
    have h1 := (h.take_rcv hr).setCmd c
      { ({ s with rcv_cmd_ := none } : NbdServer β).cmds c with
        cur_state := NBDCMD_STATE_CMD_SUBMITTED }
    have h2 := h1.pend_pushBack
    simp only
    generalize load e _ 4 4 = ty
    by_cases hd : ty = NBD_CMD_DISC
    · subst hd
      simp only [ne_eq, not_true_eq_false, if_false, NBD_CMD_DISC, NBD_CMD_READ, NBD_CMD_WRITE,
        OfNat.ofNat_ne_zero, OfNat.ofNat_ne_one, if_true]
      cases hdn : P.disconnect with
      | none =>
        simp only [Nat.succ_ne_zero, OfNat.ofNat_ne_one, if_false, if_true]
        exact ⟨_, _, _, (h1.markShutdown "Disconnect received").free⟩
      | some f =>
        simp only [Nat.succ_ne_zero, OfNat.ofNat_ne_one, if_false, if_true]
        refine ⟨snd, pnd, c :: fre, (Cont.markShutdown ?_ "Disconnect received").free⟩
        exact h1.congr rfl rfl rfl rfl rfl rfl rfl rfl
    · simp only [ne_eq, hd, not_false_eq_true, if_true, if_false]
      split_ifs
      · obtain ⟨a, b, hh⟩ := Cont.invoke e (.read c) P.read pnd [] h2
        exact ⟨_, _, _, hh⟩
      · obtain ⟨a, b, hh⟩ := Cont.invoke e (.write c) P.write pnd [] h2
        exact ⟨_, _, _, hh⟩
      · obtain ⟨a, b, hh⟩ := Cont.invoke e (.flush c) P.flush pnd [] h2
        exact ⟨_, _, _, hh⟩
      · obtain ⟨a, b, hh⟩ := Cont.invoke e (.trim c) P.trim pnd [] h2
        exact ⟨_, _, _, hh⟩
      · exact ⟨_, _, _, Cont.completion_pnd e pnd [] (h2.setCmd c _)⟩

theorem Lists.reset_fresh {m : LinkMem} {S Pn F : ListT} {snd pnd fre : List Nat} {c : Nat}
    (h : Lists m S Pn F snd pnd fre) (h1 : c ∉ snd) (h2 : c ∉ pnd) (h3 : c ∉ fre) :
    Lists (m.Reset (.node c)) S Pn F snd pnd fre := by
  have fr : ∀ r, r ≠ .node c → m.Reset (.node c) r = m r := fun r hr => Reset_other m _ r hr
  refine ⟨h.send.frame ?_, h.pend.frame ?_, h.free.frame ?_, h.hS, h.hP, h.hF, h.dsp, h.dsf,
    h.dpf, ?_⟩
  · intro r hr; exact fr r (fun e => h1 (node_mem_ptrs.1 (e ▸ hr)))
  · intro r hr; exact fr r (fun e => h2 (node_mem_ptrs.1 (e ▸ hr)))
  · intro r hr; exact fr r (fun e => h3 (node_mem_ptrs.1 (e ▸ hr)))
  · intro a a1 a2 a3
    by_cases hac : a = c
    · subst hac
      unfold Unlinked
      apply link_ext <;> simp [LinkMem.Reset]
    · have := h.unl a a1 a2 a3
      unfold Unlinked at this ⊢
      rw [fr _ (fun e => hac (node_injective e))]
      exact this

theorem Cont.fresh_facts {s : NbdServer β} {hand snd pnd fre : List Nat}
    (h : Cont s hand snd pnd fre) :
    s.ncmds ∉ hand ∧ s.ncmds ∉ snd ∧ s.ncmds ∉ pnd ∧ s.ncmds ∉ fre := by
  have := h.count s.ncmds
  rw [if_neg (lt_irrefl _)] at this
  exact ⟨not_mem_of_count (by omega), not_mem_of_count (by omega), not_mem_of_count (by omega),
    not_mem_of_count (by omega)⟩

theorem Cont.alloc {s : NbdServer β} {hand snd pnd fre : List Nat}
    (h : Cont s hand snd pnd fre) (e : Endian) (arg : Nat) (nw : Option NbdCmd)
    (hnw : nw.isSome → s.ncmds + 1 < 2 ^ 32) :
    (CacheAllocator.Alloc e arg s nw).2.rcv_cmd_ = s.rcv_cmd_ ∧
    (((CacheAllocator.Alloc e arg s nw).1 = none ∧
        Cont (CacheAllocator.Alloc e arg s nw).2 hand snd pnd fre) ∨
      ∃ c fre2, (CacheAllocator.Alloc e arg s nw).1 = some c ∧
        Cont (CacheAllocator.Alloc e arg s nw).2 (c :: hand) snd pnd fre2) := by
  match fre, h with
  | [], h =>
    have e1 := PopFront_nil h.lists.free
    match nw, hnw with
    | none, _ =>
      simp only [CacheAllocator.Alloc, e1]
      exact ⟨trivial, Or.inl ⟨trivial, h.congr rfl rfl rfl rfl rfl rfl rfl rfl⟩⟩
    | some raw, hnw =>
      obtain ⟨f0, f1, f2, f3⟩ := h.fresh_facts
      have hl := h.lists.reset_fresh f1 f2 f3
      simp only [CacheAllocator.Alloc, e1]
      refine ⟨rfl, Or.inr ⟨s.ncmds, [], rfl, ⟨hl, ?_, hnw rfl⟩⟩⟩
      intro c
      have := h.count c
      rw [count_cons2]
      simp only [Blksrv.setCmd]
      by_cases hc : s.ncmds = c
      · subst hc
        simp only [lt_irrefl, if_false, if_true, Nat.lt_succ_self] at this ⊢
        omega
      · have : (c < s.ncmds + 1) = (c < s.ncmds) := by
          apply propext; omega
        simp only [if_neg hc, this]
        omega
  | y :: ys, h =>
    obtain ⟨m2, e1, hl⟩ := h.lists.popFront_free
    simp only [CacheAllocator.Alloc, e1]
    refine ⟨trivial, Or.inr ⟨y, ys, rfl, ⟨hl, ?_, h.bound⟩⟩⟩
    intro c
    have := h.count c
    rw [count_cons2] at this ⊢
    simp only
    omega

theorem Cont.rcvSlot {s : NbdServer β} {snd pnd fre : List Nat}
    (h : Cont s [] snd pnd fre) (P : NbdParams β) (e : Endian) (nw : Option NbdCmd)
    (hnw : nw.isSome → s.ncmds + 1 < 2 ^ 32) :
    (∃ fre2, Cont (rcvSlot P e s nw).2 [] snd pnd fre2) ∧
    ∀ c, (rcvSlot P e s nw).1 = some c → (rcvSlot P e s nw).2.rcv_cmd_ = some c := by
  unfold NbdServer.rcvSlot
  cases hr : s.rcv_cmd_ with
  | some c =>
    simp only
    exact ⟨⟨_, h⟩, fun c1 h1 => by rw [← h1, hr]⟩
  | none =>
    obtain ⟨h0, h1⟩ := h.alloc e P.arg nw hnw
    rcases h1 with ⟨e1, hc⟩ | ⟨c, fre2, e1, hc⟩
    · simp only [e1]
      refine ⟨⟨_, hc.congr rfl rfl rfl rfl ?_ rfl rfl rfl⟩, fun c1 h1 => by simp at h1⟩
      rw [h0, hr]
    · simp only [e1]
      refine ⟨⟨fre2, ?_⟩, fun c1 h1 => by simpa using h1⟩
      exact Cont.put_rcv (hc.setCmd c _) (by rw [← hr, ← h0]; rfl)

theorem Cont.completion_rcv {s : NbdServer β} {snd pnd fre : List Nat} {c : Nat}
    (e : Endian) (h : Cont s [] snd pnd fre) (hr : s.rcv_cmd_ = some c) :
    Cont { CompletionCb e s c with rcv_cmd_ := none } [] (snd ++ [c]) pnd fre :=
  ((h.take_rcv hr).completion_hand e).congr rfl rfl rfl rfl rfl rfl rfl rfl

theorem Inv.ite {c : Prop} [Decidable c] {a b : NbdServer β} (ha : Inv a) (hb : Inv b) :
    Inv (if c then a else b) := by
  split <;> assumption

theorem Cont.inv {s : NbdServer β} {snd pnd fre : List Nat} (h : Cont s [] snd pnd fre) :
    Inv s := ⟨_, _, _, h⟩

theorem Cont.backend {s : NbdServer β} {hand snd pnd fre : List Nat}
    (h : Cont s hand snd pnd fre) (c : Nat) (cmd : NbdCmd) (b : β) (tr : List Event) :
    Cont { Blksrv.setCmd s c cmd with backend := b, trace := tr } hand snd pnd fre :=
  h.congr rfl rfl rfl rfl rfl rfl rfl rfl

theorem Cont.rcvDispatch {s : NbdServer β} {snd pnd fre : List Nat} {c : Nat}
    (P : NbdParams β) (e : Endian) (cmd6 : NbdCmd)
    (h : Cont s [] snd pnd fre) (hr : s.rcv_cmd_ = some c) :
    Inv (rcvDispatch P e s c cmd6) := by
  unfold NbdServer.rcvDispatch
  simp only
  refine Inv.ite (Inv.ite ?_ ?_) ?_
  · exact (Cont.completion_rcv e (h.setCmd c _) hr).inv
  · split
    · exact ((h.backend c _ _ _).markShutdown _).inv
    · exact Inv.ite (Cont.postRcvdCmd P e (h.backend c _ _ _)) ((h.backend c _ _ _).setCmd c _).inv
  · exact Cont.postRcvdCmd P e (h.setCmd c _)

theorem Cont.rcvRequest {s : NbdServer β} {snd pnd fre : List Nat} {c : Nat}
    (P : NbdParams β) (e : Endian) (cmd1 : NbdCmd)
    (h : Cont s [] snd pnd fre) (hr : s.rcv_cmd_ = some c) :
    Inv (rcvRequest P e s c cmd1) := by
  unfold NbdServer.rcvRequest
  simp only
  refine Inv.ite ?_ ?_
  · exact ((h.setCmd c _).markShutdown _).inv
  · exact Cont.rcvDispatch P e _ h hr

theorem Cont.rcvBytes {s : NbdServer β} {snd pnd fre : List Nat} {c : Nat}
    (P : NbdParams β) (e : Endian) (rd : RecvRes)
    (h : Cont s [] snd pnd fre) (hr : s.rcv_cmd_ = some c) :
    Inv (rcvBytes P e s c rd) := by
  unfold NbdServer.rcvBytes
  cases rd with
  | again => exact h.inv
  | fail => exact (h.markShutdown _).inv
  | ok bs =>
    simp only
    refine Inv.ite ?_ (Inv.ite ?_ (Inv.ite ?_ ?_))
    · exact (h.markShutdown _).inv
    · exact (h.setCmd c _).inv
    · exact Cont.postRcvdCmd P e (h.setCmd c _)
    · exact Cont.rcvRequest P e _ h hr

theorem Inv.pollRecv {s : NbdServer β} (P : NbdParams β) (e : Endian) (nw : Option NbdCmd)
    (rd : RecvRes) (h : Inv s) (hnw : nw.isSome → s.ncmds + 1 < 2 ^ 32) :
    Inv (PollRecv P e s nw rd) := by
  obtain ⟨snd, pnd, fre, h⟩ := h
  unfold NbdServer.PollRecv
  refine Inv.ite h.inv ?_
  obtain ⟨⟨fre2, h1⟩, h2⟩ := h.rcvSlot P e nw hnw
  simp only
  split
  · exact h1.inv
  · rename_i c hc
    exact Cont.rcvBytes P e rd h1 (h2 c hc)

theorem HouseKeeping_gen {C : CacheAllocator} {m : LinkMem} {xs : List Nat} (t : Int)
    (fh : Nat) (hl : IsList m C.free_objs_ xs) (hfh : fh ≠ C.free_objs_.hd) :
    ∃ k m2 C2, C.HouseKeeping m t fh = (m2, C2, (xs.take k).reverse) ∧
      IsList m2 C2.free_objs_ (xs.drop k) ∧ C2.free_objs_.hd = C.free_objs_.hd ∧
      (∀ z ∈ xs.take k, Unlinked m2 z) ∧
      ∀ r, r ∉ ptrs C.free_objs_.hd xs → r ≠ .head fh → m2 r = m r := by
  by_cases h1 : t = C.last_time_
  · simp only [HouseKeeping, if_pos h1]
    exact ⟨0, m, C, rfl, hl, rfl, by simp, fun _ _ _ => rfl⟩
  by_cases h2 : ((C.free_objs_.size_ + C.cur_allocations_) % 2 ^ 32 + 2 ^ 32 -
      C.max_allocations_) % 2 ^ 32 ≤ 2
  · simp only [HouseKeeping, if_neg h1, if_pos h2]
    exact ⟨0, m, _, rfl, hl, rfl, by simp, fun _ _ _ => rfl⟩
  · simp only [HouseKeeping, if_neg h1, if_neg h2]
    generalize (((C.free_objs_.size_ + C.cur_allocations_) % 2 ^ 32 + 2 ^ 32 -
      C.max_allocations_) % 2 ^ 32) >>> 1 = k
    have hl0 : IsList (m.Reset (.head fh)) C.free_objs_ xs := hl.frame (by
      intro r hr
      exact Reset_other m _ r (fun e => head_not_mem_ptrs xs hfh (e ▸ hr)))
    obtain ⟨m1, e1, hF1, hG1, fr1⟩ := moveFreed_spec k _ C.free_objs_
      ⟨fh, 0, C.free_objs_.off_⟩ xs [] hl0 (IsList.fresh m fh _) hfh.symm (by simp)
      (by simpa using hl.2.2.2)
    simp only [List.append_nil] at e1 hG1
    obtain ⟨m2, e2, _, hu2, fr2⟩ := drainFreed_spec _ m1 _ [] hG1
    have hnd := hl.2.1
    rw [← List.take_append_drop k xs] at hnd
    have hdis := (List.nodup_append.1 hnd).2.2
    refine ⟨k, m2, ⟨t, ⟨C.free_objs_.hd, (xs.drop k).length, C.free_objs_.off_⟩,
      C.cur_allocations_, C.cur_allocations_⟩, ?_, ?_, rfl, ?_, ?_⟩
    · rw [e1]
      simp only [List.nil_append] at e2
      rw [e2]
    · refine hF1.frame ?_
      intro r hr
      refine fr2 r ?_
      intro h4
      rcases mem_ptrs.1 hr with rfl | ⟨a, ha, rfl⟩
      · exact head_not_mem_ptrs _ hfh.symm h4
      · exact hdis (List.mem_reverse.1 (node_mem_ptrs.1 h4)) ha
    · intro z hz
      exact hu2 z (List.mem_reverse.2 hz)
    · intro r h4 h5
      have h6 : r ∉ ptrs fh (xs.take k).reverse := by
        intro h7
        rcases mem_ptrs.1 h7 with rfl | ⟨a, ha, rfl⟩
        · exact h5 rfl
        · exact h4 (node_mem_ptrs.2 (List.mem_of_mem_take (List.mem_reverse.1 ha)))
      rw [fr2 r h6, fr1 r h4 (by simpa [ptrs] using h5), Reset_other m _ r h5]

theorem Cont.houseKeeping {s : NbdServer β} {hand snd pnd fre : List Nat}
    (h : Cont s hand snd pnd fre) (t lc : Int) :
    ∃ k, Cont { s with
      last_config_run_ := lc
      links := (s.cmd_cache_.HouseKeeping s.links t freedHead).1
      cmd_cache_ := (s.cmd_cache_.HouseKeeping s.links t freedHead).2.1
      deleted := s.deleted ++ (s.cmd_cache_.HouseKeeping s.links t freedHead).2.2 }
      hand snd pnd (fre.drop k) := by
  have hL := h.lists
  obtain ⟨k, m2, C2, e1, hl2, hhd, hu, fr⟩ := HouseKeeping_gen t freedHead hL.free
    (by rw [hL.hF]; decide)
  rw [e1]
  have hsub : ∀ a, a ∈ fre.drop k → a ∈ fre := fun a ha => List.mem_of_mem_drop ha
  have hfr : ∀ (L : ListT) (xs : List Nat), IsList s.links L xs → L.hd ≠ 2 → L.hd ≠ 3 →
      (∀ a ∈ xs, a ∉ fre) → IsList m2 L xs := by
    intro L xs hLx n2 n3 hd
    refine hLx.frame ?_
    intro r hr
    refine fr r ?_ ?_
    · intro h4
      rw [hL.hF] at h4
      rcases mem_ptrs.1 hr with rfl | ⟨a, ha, rfl⟩
      · exact head_not_mem_ptrs _ n2 h4
      · exact hd a ha (node_mem_ptrs.1 h4)
    · rintro rfl
      rcases mem_ptrs.1 hr with h5 | ⟨a, _, h5⟩
      · injection h5 with h5; exact n3 h5.symm
      · cases h5
  refine ⟨k, ⟨⟨?_, ?_, hl2, hL.hS, hL.hP, by rw [hhd, hL.hF], hL.dsp, ?_, ?_, ?_⟩,
    ?_, h.bound⟩⟩
  · exact hfr _ _ hL.send (by rw [hL.hS]; decide) (by rw [hL.hS]; decide) hL.dsf
  · exact hfr _ _ hL.pend (by rw [hL.hP]; decide) (by rw [hL.hP]; decide) hL.dpf
  · exact fun a ha hd => hL.dsf a ha (hsub a hd)
  · exact fun a ha hd => hL.dpf a ha (hsub a hd)
  · intro c c1 c2 c3
    by_cases hcf : c ∈ fre
    · have : c ∈ fre.take k := by
        rw [← List.take_append_drop k fre] at hcf
        rcases List.mem_append.1 hcf with h5 | h5
        · exact h5
        · exact absurd h5 c3
      exact hu c this
    · have := hL.unl c c1 c2 hcf
      unfold Unlinked at this ⊢
      show m2 (.node c) = _
      rw [fr _ (fun h4 => hcf (node_mem_ptrs.1 h4)) (by simp)]
      exact this
  · intro c
    have := h.count c
    have e2 : fre.count c = (fre.take k).count c + (fre.drop k).count c := by
      rw [← List.count_append, List.take_append_drop]
    simp only [List.count_append, List.count_reverse]
    omega

theorem IsList.unique {m : LinkMem} {L : ListT} : ∀ {xs ys : List Nat},
    IsList m L xs → IsList m L ys → xs = ys := by
  have key : ∀ (xs ys : List Nat) (p : LinkPtr),
      List.Chain (Link m) p (xs.map .node ++ [.head L.hd]) →
      List.Chain (Link m) p (ys.map .node ++ [.head L.hd]) → xs = ys := by
    intro xs
    induction xs with
    | nil =>
      intro ys p h1 h2
      cases ys with
      | nil => rfl
      | cons y ys =>
        simp only [List.map_nil, List.nil_append, List.chain_cons, List.map_cons,
          List.cons_append] at h1 h2
        have := h1.1.1.symm.trans h2.1.1
        cases this
    | cons x xs ih =>
      intro ys p h1 h2
      cases ys with
      | nil =>
        simp only [List.map_nil, List.nil_append, List.chain_cons, List.map_cons,
          List.cons_append] at h1 h2
        have := h1.1.1.symm.trans h2.1.1
        cases this
      | cons y ys =>
        simp only [List.map_cons, List.cons_append, List.chain_cons] at h1 h2
        have := h1.1.1.symm.trans h2.1.1
        injection this with this
        subst this
        rw [ih ys _ h1.2 h2.2]
  intro xs ys h1 h2
  exact key xs ys _ h1.1 h2.1

theorem Cont.sendSlot {s : NbdServer β} {snd pnd fre : List Nat}
    (h : Cont s [] snd pnd fre) :
    (∃ snd2, Cont (sendSlot s).2 [] snd2 pnd fre) ∧
    ∀ c, (sendSlot s).1 = some c → (sendSlot s).2.send_cmd_ = some c := by
  unfold NbdServer.sendSlot
  cases hr : s.send_cmd_ with
  | some c =>
    simp only
    exact ⟨⟨_, h⟩, fun c1 h1 => by rw [← h1, hr]⟩
  | none =>
    simp only
    split_ifs with hz
    · exact ⟨⟨_, h⟩, fun c1 h1 => by simp at h1⟩
    · match snd, h with
      | [], h =>
        exact absurd h.lists.send.2.2.1 hz
      | y :: ys, h =>
        obtain ⟨m2, e1, hl⟩ := h.lists.popFront_send
        simp only [e1]
        refine ⟨⟨ys, ⟨hl, ?_, h.bound⟩⟩, fun c1 h1 => h1⟩
        intro c
        have := h.count c
        rw [count_cons2, hr] at this
        simp only [slotCount, Option.some.injEq, reduceCtorEq, if_false, List.count_nil] at this ⊢
        omega

theorem Cont.free_send {s : NbdServer β} {snd pnd fre : List Nat} {c : Nat}
    (h : Cont s [] snd pnd fre) (hr : s.send_cmd_ = some c) :
    Cont { CacheAllocator.Free s c with send_cmd_ := none } [] snd pnd (c :: fre) :=
  ((h.take_send hr).free).congr rfl rfl rfl rfl rfl rfl rfl rfl

theorem Cont.tx {s : NbdServer β} {hand snd pnd fre : List Nat}
    (h : Cont s hand snd pnd fre) (t : List Byte) : Cont { s with tx := t } hand snd pnd fre :=
  h.congr rfl rfl rfl rfl rfl rfl rfl rfl

theorem Cont.sendBytes {s : NbdServer β} {snd pnd fre : List Nat} {c : Nat}
    (P : NbdParams β) (e : Endian) (wr : SendRes)
    (h : Cont s [] snd pnd fre) (hr : s.send_cmd_ = some c) :
    Inv (sendBytes P e s c wr) := by
  unfold NbdServer.sendBytes
  cases wr with
  | again => exact h.inv
  | fail => exact (h.markShutdown _).inv
  | ok k =>
    simp only
    refine Inv.ite ?_ (Inv.ite ?_ (Inv.ite ?_ ?_))
    · exact (h.markShutdown _).inv
    · exact ((h.tx _).setCmd c _).inv
    · split
      · exact (Cont.free_send ((h.tx _).backend c _ _ _) hr).inv
      · exact (Cont.free_send ((h.tx _).setCmd c _) hr).inv
    · exact ((h.tx _).setCmd c _).inv

theorem Inv.pollSend {s : NbdServer β} (P : NbdParams β) (e : Endian) (wr : SendRes)
    (h : Inv s) : Inv (PollSend P e s wr) := by
  obtain ⟨snd, pnd, fre, h⟩ := h
  unfold NbdServer.PollSend
  obtain ⟨⟨snd2, h1⟩, h2⟩ := h.sendSlot
  simp only
  split
  · exact h1.inv
  · rename_i c hc
    exact Cont.sendBytes P e wr h1 (h2 c hc)

theorem Inv.setRcv {s : NbdServer β} (a : Bool) (h : Inv s) :
    Inv { s with rcv_running_ := a } := by
  obtain ⟨snd, pnd, fre, h⟩ := h
  exact ⟨snd, pnd, fre, h.congr rfl rfl rfl rfl rfl rfl rfl rfl⟩

theorem Inv.setSend {s : NbdServer β} (a : Bool) (h : Inv s) :
    Inv { s with send_running_ := a } := by
  obtain ⟨snd, pnd, fre, h⟩ := h
  exact ⟨snd, pnd, fre, h.congr rfl rfl rfl rfl rfl rfl rfl rfl⟩

theorem Inv.setConfig {s : NbdServer β} (a : Bool) (h : Inv s) :
    Inv { s with config_running_ := a } := by
  obtain ⟨snd, pnd, fre, h⟩ := h
  exact ⟨snd, pnd, fre, h.congr rfl rfl rfl rfl rfl rfl rfl rfl⟩

theorem Inv.dataPoll {s : NbdServer β} (P : NbdParams β) (e : Endian) (sp1 sp2 : Bool)
    (nw : Option NbdCmd) (rd : RecvRes) (wr : SendRes) (h : Inv s)
    (hnw : nw.isSome → s.ncmds + 1 < 2 ^ 32) :
    Inv (DataPoll P e s sp1 sp2 nw rd wr).2 := by
  have h1 := h.setRcv (compare_exchange_weak s.rcv_running_ false true sp1).2.1
  have h2 := (Inv.pollRecv P e nw rd h1 hnw).setRcv false
  unfold NbdServer.DataPoll
  split
  · exact h
  simp only
  split_ifs
  · exact h2
  · exact (Inv.pollSend P e wr (h2.setSend _)).setSend false
  · exact h2.setSend _
  · exact (Inv.pollSend P e wr (h1.setSend _)).setSend false
  · exact h1.setSend _

theorem Inv.configPoll {s : NbdServer β} (t : Int) (sp : Bool) (h : Inv s) :
    Inv (ConfigPoll s t sp).2 := by
  have h1 := h.setConfig (compare_exchange_weak s.config_running_ false true sp).2.1
  unfold NbdServer.ConfigPoll
  split
  · exact h
  simp only
  split_ifs
  · obtain ⟨snd, pnd, fre, h1⟩ := h1
    obtain ⟨k, hk⟩ := h1.houseKeeping t t
    exact (Cont.inv hk).setConfig false
  · exact h1.setConfig false
  · exact h1

theorem Inv.init (sockfd : Int) (b : β) : Inv ({ ctor b with fd_ := sockfd } : NbdServer β) := by
  refine ⟨[], [], [], ⟨⟨?_, ?_, ?_, rfl, rfl, rfl, by simp, by simp, by simp, ?_⟩, ?_, ?_⟩⟩
  · simp [IsList, ptrs, Link, ctor]
  · simp [IsList, ptrs, Link, ctor]
  · simp [IsList, ptrs, Link, ctor]
  · intro c _ _ _
    rfl
  · intro c
    simp [slotCount, ctor]
  · simp [ctor]

theorem Inv.step {P : NbdParams β} {e : Endian} {T : NbdCmd → NbdCmd → Prop}
    {s s2 : NbdServer β} (h : Inv s) (hs : Step P e T s s2) : Inv s2 := by
  cases hs with
  | data_poll sp1 sp2 nw rd wr hnw => exact h.dataPoll P e sp1 sp2 nw rd wr hnw
  | completion c cmd pnd hl hc ht =>
    obtain ⟨snd, pnd2, fre, h⟩ := h
    have := IsList.unique hl h.lists.pend
    subst this
    obtain ⟨as, bs, rfl⟩ := List.append_of_mem hc
    exact ((h.setCmd c cmd).completion_pnd e as bs).inv
  | config_poll t sp => exact h.configPoll t sp

theorem Reachable.invariant {P : NbdParams β} {e : Endian} {T : NbdCmd → NbdCmd → Prop}
    {s : NbdServer β} (h : Reachable P e T s) : Inv s := by
  induction h with
  | init sockfd b => exact Inv.init sockfd b
  | step _ hs ih => exact ih.step hs

end ContainmentLemmas

/-! ## Raw memory and byte order -/

theorem readAt_length (m : Mem) (off n : Nat) : (readAt m off n).length = n := by
  simp [readAt]

theorem readAt_add (m : Mem) (off a b : Nat) :
    readAt m off (a + b) = readAt m off a ++ readAt m (off + a) b := by
  simp only [readAt, List.range_add, List.map_append, List.map_map]
  congr 1
  apply List.map_congr_left
  intro k _
  simp [Nat.add_assoc]

theorem writeAt_apply_lt (m : Mem) (off : Nat) (bs : List Byte) (i : Nat) (h : i < off) :
    writeAt m off bs i = m i := by
  simp [writeAt, Nat.not_le.2 h]

theorem writeAt_apply_ge (m : Mem) (off : Nat) (bs : List Byte) (i : Nat)
    (h : off + bs.length ≤ i) : writeAt m off bs i = m i := by
  unfold writeAt
  split
  · rw [List.get?_eq_none.2 (by omega)]; rfl
  · rfl

theorem writeAt_apply_in (m : Mem) (off : Nat) (bs : List Byte) (k : Nat) (h : k < bs.length) :
    writeAt m off bs (off + k) = bs.get ⟨k, h⟩ := by
  unfold writeAt
  rw [if_pos (Nat.le_add_right _ _), Nat.add_sub_cancel_left, List.get?_eq_get h]
  rfl

theorem readAt_ext {m m2 : Mem} {off n : Nat} (h : ∀ k, k < n → m2 (off + k) = m (off + k)) :
    readAt m2 off n = readAt m off n := by
  unfold readAt
  apply List.map_congr_left
  intro k hk
  exact h k (List.mem_range.1 hk)

theorem readAt_writeAt_same (m : Mem) (off : Nat) (bs : List Byte) :
    readAt (writeAt m off bs) off bs.length = bs := by
  apply List.ext_get
  · simp [readAt]
  · intro k h1 h2
    simp only [readAt, List.get_eq_getElem, List.getElem_map, List.getElem_range]
    rw [writeAt_apply_in m off bs k h2]
    rfl

theorem readAt_writeAt_before (m : Mem) (off : Nat) (bs : List Byte) (o n : Nat)
    (h : o + n ≤ off) : readAt (writeAt m off bs) o n = readAt m o n :=
  readAt_ext fun k hk => writeAt_apply_lt m off bs _ (by omega)

theorem readAt_writeAt_after (m : Mem) (off : Nat) (bs : List Byte) (o n : Nat)
    (h : off + bs.length ≤ o) : readAt (writeAt m off bs) o n = readAt m o n :=
  readAt_ext fun k _ => writeAt_apply_ge m off bs _ (by omega)

theorem writeAt_writeAt (m : Mem) (off : Nat) (a b : List Byte) :
    writeAt (writeAt m off a) (off + a.length) b = writeAt m off (a ++ b) := by
  funext i
  by_cases h1 : i < off
  · rw [writeAt_apply_lt _ _ _ _ (by omega), writeAt_apply_lt _ _ _ _ h1,
      writeAt_apply_lt _ _ _ _ h1]
  · by_cases h2 : i < off + a.length
    · rw [writeAt_apply_lt _ _ _ _ h2]
      obtain ⟨k, rfl⟩ : ∃ k, i = off + k := ⟨i - off, by omega⟩
      have hk : k < a.length := by omega
      rw [writeAt_apply_in m off a k hk, writeAt_apply_in m off (a ++ b) k (by simp; omega)]
      simp [List.getElem_append_left, hk]
    · by_cases h3 : i < off + a.length + b.length
      · obtain ⟨k, rfl⟩ : ∃ k, i = off + a.length + k := ⟨i - (off + a.length), by omega⟩
        have hk : k < b.length := by omega
        rw [writeAt_apply_in _ _ b k hk]
        have : off + a.length + k = off + (a.length + k) := by omega
        rw [this, writeAt_apply_in m off (a ++ b) (a.length + k) (by simp; omega)]
        simp [List.getElem_append_right]
      · rw [writeAt_apply_ge _ _ _ _ (by omega), writeAt_apply_ge _ _ _ _ (by omega),
          writeAt_apply_ge _ _ _ _ (by simp; omega)]

theorem writeAt_nil (m : Mem) (off : Nat) : writeAt m off [] = m := by
  funext i
  simp [writeAt]

theorem leBytes_length : ∀ (n v : Nat), (leBytes n v).length = n
  | 0, _ => rfl
  | n + 1, v => by simp [leBytes, leBytes_length n]

theorem beBytes_length (n v : Nat) : (beBytes n v).length = n := by
  simp [beBytes, leBytes_length]

theorem leVal_leBytes : ∀ (n v : Nat), leVal (leBytes n v) = v % 256 ^ n
  | 0, v => by simp [leBytes, leVal, Nat.mod_one]
  | n + 1, v => by
    simp only [leBytes, leVal, leVal_leBytes n]
    rw [pow_succ', Nat.mod_mul]

theorem leVal_lt : ∀ (bs : List Byte), leVal bs < 256 ^ bs.length
  | [] => by simp [leVal]
  | b :: bs => by
    have := leVal_lt bs
    have hb := b.isLt
    simp only [leVal, List.length_cons, pow_succ']
    omega

theorem leBytes_leVal : ∀ (bs : List Byte), leBytes bs.length (leVal bs) = bs
  | [] => rfl
  | b :: bs => by
    have hb := b.isLt
    have e1 : (b.val + 256 * leVal bs) % 256 = b.val := by omega
    have e2 : (b.val + 256 * leVal bs) / 256 = leVal bs := by omega
    simp only [List.length_cons, leBytes, leVal, e2, leBytes_leVal bs, List.cons.injEq, and_true]
    exact Fin.ext e1

theorem beVal_lt (bs : List Byte) : beVal bs < 256 ^ bs.length := by
  have := leVal_lt bs.reverse
  simpa [beVal] using this

theorem beBytes_beVal (bs : List Byte) : beBytes bs.length (beVal bs) = bs := by
  have := leBytes_leVal bs.reverse
  simp only [List.length_reverse] at this
  simp [beBytes, beVal, this]

theorem beVal_beBytes (n v : Nat) : beVal (beBytes n v) = v % 256 ^ n := by
  simp [beVal, beBytes, leVal_leBytes]

theorem bswap_leVal (bs : List Byte) : bswap bs.length (leVal bs) = beVal bs := by
  simp [bswap, leBytes_leVal]

theorem leBytes_bswap (n v : Nat) : leBytes n (bswap n v) = beBytes n v := by
  have := leBytes_leVal (leBytes n v).reverse
  simp only [List.length_reverse, leBytes_length] at this
  simpa [bswap, beVal, beBytes] using this

theorem leBytes_mod (n v : Nat) : leBytes n (v % 256 ^ n) = leBytes n v := by
  have := leBytes_leVal (leBytes n v)
  rwa [leBytes_length, leVal_leBytes] at this

theorem beBytes_mod (n v : Nat) : beBytes n (v % 256 ^ n) = beBytes n v := by
  simp [beBytes, leBytes_mod]

/-- `be32toh` of a loaded 4-byte field is the big-endian value of its bytes. -/
theorem be32toh_load (e : Endian) (m : Mem) (off : Nat) :
    be32toh e (load e m off 4) = beVal (readAt m off 4) := by
  cases e
  · have := bswap_leVal (readAt m off 4)
    simpa [be32toh, load, readAt_length] using this
  · have := beVal_lt (readAt m off 4)
    rw [readAt_length] at this
    simp only [be32toh, load]
    exact Nat.mod_eq_of_lt (by simpa using this)

theorem be64toh_load (e : Endian) (m : Mem) (off : Nat) :
    be64toh e (load e m off 8) = beVal (readAt m off 8) := by
  cases e
  · have := bswap_leVal (readAt m off 8)
    simpa [be64toh, load, readAt_length] using this
  · have := beVal_lt (readAt m off 8)
    rw [readAt_length] at this
    simp only [be64toh, load]
    exact Nat.mod_eq_of_lt (by simpa using this)

theorem load_lt (e : Endian) (m : Mem) (off n : Nat) : load e m off n < 256 ^ n := by
  cases e
  · have := leVal_lt (readAt m off n); rwa [readAt_length] at this
  · have := beVal_lt (readAt m off n); rwa [readAt_length] at this

theorem load_store_same (e : Endian) (m : Mem) (off n v : Nat) :
    load e (store e m off n v) off n = v % 256 ^ n := by
  cases e
  · have := readAt_writeAt_same m off (leBytes n v)
    rw [leBytes_length] at this
    simp [load, store, this, leVal_leBytes]
  · have := readAt_writeAt_same m off (beBytes n v)
    rw [beBytes_length] at this
    simp [load, store, this, beVal_beBytes]

theorem readAt_store_before (e : Endian) (m : Mem) (off n v o k : Nat) (h : o + k ≤ off) :
    readAt (store e m off n v) o k = readAt m o k := by
  cases e
  · exact readAt_writeAt_before m off _ o k h
  · exact readAt_writeAt_before m off _ o k h

theorem readAt_store_after (e : Endian) (m : Mem) (off n v o k : Nat) (h : off + n ≤ o) :
    readAt (store e m off n v) o k = readAt m o k := by
  cases e
  · exact readAt_writeAt_after m off _ o k (by rw [leBytes_length]; exact h)
  · exact readAt_writeAt_after m off _ o k (by rw [beBytes_length]; exact h)

theorem load_congr (e : Endian) {m m2 : Mem} {off n : Nat}
    (h : readAt m2 off n = readAt m off n) : load e m2 off n = load e m off n := by
  cases e <;> simp [load, h]

/-- Bytes of a 4-byte field that `htobe32 v` was stored into. -/
theorem readAt_store_htobe32 (e : Endian) (m : Mem) (off v : Nat) :
    readAt (store e m off 4 (htobe32 e v)) off 4 = beBytes 4 v := by
  cases e
  · have := readAt_writeAt_same m off (leBytes 4 (bswap 4 v))
    rw [leBytes_length] at this
    simp only [store, htobe32]
    rw [this, leBytes_bswap]
  · have := readAt_writeAt_same m off (beBytes 4 (v % 2 ^ 32))
    rw [beBytes_length] at this
    simp only [store, htobe32, this]
    exact beBytes_mod 4 v

/-- A loaded 4-byte field equals `be32toh` of a 32-bit constant exactly when its bytes
are the big-endian bytes of the constant. -/
theorem load_eq_be32toh_iff (e : Endian) (m : Mem) (off v : Nat) :
    load e m off 4 = be32toh e v ↔ readAt m off 4 = beBytes 4 v := by
  have hl := readAt_length m off 4
  cases e
  · simp only [load, be32toh, bswap]
    constructor
    · intro h
      have h2 := congrArg (leBytes 4) h
      have h3 := leBytes_leVal (readAt m off 4)
      rw [hl] at h3
      rw [h3] at h2
      rw [h2]
      have h4 := leBytes_leVal (leBytes 4 v).reverse
      simp only [List.length_reverse, leBytes_length] at h4
      simpa [beVal, beBytes] using h4
    · intro h
      rw [h]
      simp [beBytes, beVal]
  · simp only [load, be32toh]
    constructor
    · intro h
      have h3 := beBytes_beVal (readAt m off 4)
      rw [hl, h] at h3
      rw [← h3]
      exact beBytes_mod 4 v
    · intro h
      rw [h, beVal_beBytes]
      norm_num

/-! ## The receive and send paths -/

section EngineLemmas

variable {β : Type}

open NbdServer

theorem and_two_pow_ne_zero (x i : Nat) : x &&& 2 ^ i ≠ 0 ↔ x / 2 ^ i % 2 = 1 := by
  have h1 : x.testBit i = decide (x / 2 ^ i % 2 = 1) := Nat.testBit_to_div_mod
  constructor
  · intro h
    by_contra hc
    apply h
    apply Nat.eq_of_testBit_eq
    intro j
    rw [Nat.testBit_and, Nat.testBit_two_pow, Nat.zero_testBit]
    by_cases hj : i = j
    · subst hj; simp [h1, hc]
    · simp [hj]
  · intro h hz
    have := congrArg (fun y => Nat.testBit y i) hz
    simp only [Nat.testBit_and, Nat.testBit_two_pow_self, Bool.and_true, Nat.zero_testBit] at this
    rw [h1] at this
    simp [h] at this

theorem wireType_lt (m : Mem) : wireType m < 2 ^ 32 := by
  have := beVal_lt (readAt m 4 4)
  rw [readAt_length] at this
  exact this

theorem hostType_type (e : Endian) (cmd : NbdCmd) :
    load e (hostType e cmd).req 4 4 = wireOpcode cmd.req := by
  have h1 := wireType_lt cmd.req
  simp only [hostType, load_store_same, be32toh_load]
  have e1 : (0xFFFF : Nat) = 2 ^ 16 - 1 := by norm_num
  rw [e1, Nat.and_pow_two_sub_one_eq_mod]
  unfold wireOpcode wireType
  have h2 : beVal (readAt cmd.req 4 4) < 2 ^ 32 := h1
  omega

theorem hostType_fua (e : Endian) (cmd : NbdCmd) :
    (hostType e cmd).fua = wireFua cmd.req := by
  have h1 := wireType_lt cmd.req
  simp only [hostType, load_store_same, be32toh_load]
  have e2 : beVal (readAt cmd.req 4 4) % 256 ^ 4 = wireType cmd.req :=
    Nat.mod_eq_of_lt (by simpa using h1)
  rw [e2]
  have e1 : NBD_CMD_FLAG_FUA = 2 ^ 16 := by decide
  rw [e1]
  unfold wireFua
  by_cases h : wireType cmd.req / 2 ^ 16 % 2 = 1
  · rw [if_pos ((and_two_pow_ne_zero _ _).2 h), h]
  · rw [if_neg (fun h2 => h ((and_two_pow_ne_zero _ _).1 h2))]
    omega

theorem hostType_readAt (e : Endian) (cmd : NbdCmd) (o k : Nat) (h : o + k ≤ 4 ∨ 8 ≤ o) :
    readAt (hostType e cmd).req o k = readAt cmd.req o k := by
  simp only [hostType]
  rcases h with h | h
  · rw [readAt_store_before _ _ _ _ _ _ _ h, readAt_store_before _ _ _ _ _ _ _ h]
  · rw [readAt_store_after _ _ _ _ _ _ _ (by omega), readAt_store_after _ _ _ _ _ _ _ (by omega)]

theorem hostType_magic (e : Endian) (cmd : NbdCmd) :
    load e (hostType e cmd).req 0 4 = kNbdReqMagic e ↔ wireMagic cmd.req = NBD_REQUEST_MAGIC := by
  unfold kNbdReqMagic
  rw [load_eq_be32toh_iff, hostType_readAt e cmd 0 4 (Or.inl (by omega))]
  unfold wireMagic
  constructor
  · intro h
    rw [h, beVal_beBytes]
    decide
  · intro h
    have := beBytes_beVal (readAt cmd.req 0 4)
    rw [readAt_length, h] at this
    exact this.symm

theorem decode_offset (e : Endian) (cmd : NbdCmd) :
    (decodeFields e (hostType e cmd)).io_offset = wireFrom cmd.req := by
  simp only [decodeFields, be64toh_load]
  rw [hostType_readAt e cmd 16 8 (Or.inr (by omega))]
  rfl

theorem decode_size (e : Endian) (cmd : NbdCmd) :
    (decodeFields e (hostType e cmd)).io_size = wireLen cmd.req := by
  simp only [decodeFields, be32toh_load]
  rw [hostType_readAt e cmd 24 4 (Or.inr (by omega))]
  rfl

theorem decode_type (e : Endian) (cmd : NbdCmd) :
    load e (decodeFields e (hostType e cmd)).req 4 4 = wireOpcode cmd.req :=
  hostType_type e cmd

theorem decode_fua (e : Endian) (cmd : NbdCmd) :
    (decodeFields e (hostType e cmd)).fua = wireFua cmd.req :=
  hostType_fua e cmd

theorem rcvSlot_fst (P : NbdParams β) (e : Endian) (s : NbdServer β) (nw : Option NbdCmd) :
    (rcvSlot P e s nw).1 = (rcvSlot P e s nw).2.rcv_cmd_ := by
  unfold NbdServer.rcvSlot
  split
  · rename_i c hc; simp [hc]
  · simp only
    split <;> rfl

/-- A read that completes the request header takes `PollRecv` to `rcvRequest` with the
header bytes in `req`. -/
theorem PollRecv_header (P : NbdParams β) (e : Endian) (s : NbdServer β) (nw : Option NbdCmd)
    (c : Nat) (bs : List Byte) (hs : s.shutdown_ = false)
    (h : RcvHeader (rcvSlot P e s nw).2 c bs) :
    PollRecv P e s nw (.ok bs) =
      rcvRequest P e (rcvSlot P e s nw).2 c (hdrCmd (rcvSlot P e s nw).2 c bs) := by
  obtain ⟨_, h1, h2, _, h4, h5, h6, h7⟩ := h
  have hf := rcvSlot_fst P e s nw
  rw [h1] at hf
  unfold NbdServer.PollRecv
  simp only [hs, Bool.false_eq_true, if_false, hf]
  unfold NbdServer.rcvBytes
  have hl : (List.take ((rcvSlot P e s nw).2.cmds c).io_size_remaining bs).length =
      ((rcvSlot P e s nw).2.cmds c).io_size_remaining := by
    rw [List.length_take]; omega
  have hne : ¬ ((rcvSlot P e s nw).2.cmds c).io_size_remaining = 0 := by omega
  simp only [hl, hne, if_false, Nat.sub_self, ne_eq, not_true_eq_false, NbdCmd.poke, h4, h2]
  rw [if_neg (by decide)]
  congr 1
  simp [hdrCmd, h4, h2]

/-- Fields of the engine that `rcvSlot` leaves alone. -/
theorem rcvSlot_same (P : NbdParams β) (e : Endian) (s : NbdServer β) (nw : Option NbdCmd) :
    (rcvSlot P e s nw).2.shutdown_ = s.shutdown_ ∧
    (rcvSlot P e s nw).2.shutdown_reason_ = s.shutdown_reason_ ∧
    (rcvSlot P e s nw).2.trace = s.trace ∧ (rcvSlot P e s nw).2.backend = s.backend ∧
    (rcvSlot P e s nw).2.tx = s.tx ∧ (rcvSlot P e s nw).2.send_cmd_ = s.send_cmd_ ∧
    (rcvSlot P e s nw).2.deleted = s.deleted := by
  unfold NbdServer.rcvSlot
  split
  · simp
  · simp only
    split
    · simp only [CacheAllocator.Alloc]
      split
      · simp
      · split <;> simp [Blksrv.setCmd]
    · simp only [CacheAllocator.Alloc]
      split
      · simp [Blksrv.setCmd]
      · split <;> simp [Blksrv.setCmd]

theorem MarkShutdown_fresh (s : NbdServer β) (r : String) (h : s.shutdown_ = false) :
    MarkShutdown s r = { s with shutdown_ := true, shutdown_reason_ := r } := by
  simp [MarkShutdown, h]

theorem CompletionCb_same (e : Endian) (s : NbdServer β) (c : Nat) :
    (CompletionCb e s c).shutdown_ = s.shutdown_ ∧
    (CompletionCb e s c).shutdown_reason_ = s.shutdown_reason_ ∧
    (CompletionCb e s c).trace = s.trace ∧ (CompletionCb e s c).backend = s.backend ∧
    (CompletionCb e s c).tx = s.tx ∧ (CompletionCb e s c).rcv_cmd_ = s.rcv_cmd_ ∧
    (CompletionCb e s c).send_cmd_ = s.send_cmd_ := by
  simp [CompletionCb, Blksrv.setCmd]

theorem invoke_same (e : Endian) (s : NbdServer β) (c : Nat) (ev : Event)
    (f : β → NbdCmd → CbResult β) :
    (invoke e s c ev f).shutdown_ = s.shutdown_ ∧
    (invoke e s c ev f).shutdown_reason_ = s.shutdown_reason_ ∧
    (invoke e s c ev f).trace = s.trace ++ [ev] ∧
    (invoke e s c ev f).backend = (f s.backend (s.cmds c)).backend ∧
    (invoke e s c ev f).tx = s.tx ∧ (invoke e s c ev f).rcv_cmd_ = s.rcv_cmd_ := by
  unfold NbdServer.invoke
  simp only
  split
  · simp [CompletionCb, Blksrv.setCmd]
  · simp [Blksrv.setCmd]

/-- What `PostRcvdCmd` does to the shutdown mark, the trace and the receive slot: it
marks shutdown only for a disconnect request, calls at most one callback, and empties
the slot. -/
theorem PostRcvdCmd_same (P : NbdParams β) (e : Endian) (s : NbdServer β) (c : Nat)
    (hr : s.rcv_cmd_ = some c) (hs : s.shutdown_ = false) :
    (PostRcvdCmd P e s).rcv_cmd_ = none ∧ (PostRcvdCmd P e s).tx = s.tx ∧
    (if load e (s.cmds c).req 4 4 = NBD_CMD_DISC then
      (PostRcvdCmd P e s).shutdown_ = true ∧
      (PostRcvdCmd P e s).shutdown_reason_ = "Disconnect received" ∧
      (PostRcvdCmd P e s).trace = s.trace ++ if P.disconnect.isSome then [.disconnect c] else []
    else
      (PostRcvdCmd P e s).shutdown_ = false ∧
      (PostRcvdCmd P e s).trace = s.trace ++
        if load e (s.cmds c).req 4 4 = NBD_CMD_READ then [.read c]
        else if load e (s.cmds c).req 4 4 = NBD_CMD_WRITE then [.write c]
        else if load e (s.cmds c).req 4 4 = NBD_CMD_FLUSH then [.flush c]
        else if load e (s.cmds c).req 4 4 = NBD_CMD_TRIM then [.trim c]
        else []) := by
  unfold PostRcvdCmd
  simp only [hr, Blksrv.setCmd, if_true]
  generalize load e (s.cmds c).req 4 4 = ty
  by_cases hd : ty = NBD_CMD_DISC
  · subst hd
    simp only [ne_eq, not_true_eq_false, if_false, NBD_CMD_DISC, NBD_CMD_READ, NBD_CMD_WRITE,
      OfNat.ofNat_ne_zero, OfNat.ofNat_ne_one, if_true]
    cases hdn : P.disconnect with
    | none => simp [CacheAllocator.Free, MarkShutdown, hs]
    | some f => simp [CacheAllocator.Free, MarkShutdown, hs, Blksrv.setCmd]
  · simp only [ne_eq, hd, not_false_eq_true, if_true, if_false]
    split_ifs <;>
      simp [invoke_same, CompletionCb_same, hs, Blksrv.setCmd]

theorem PostRcvdCmd_shutdown (P : NbdParams β) (e : Endian) (s : NbdServer β) (c : Nat)
    (hr : s.rcv_cmd_ = some c) (hs : s.shutdown_ = false)
    (h : (PostRcvdCmd P e s).shutdown_ = true) :
    (PostRcvdCmd P e s).shutdown_reason_ = "Disconnect received" := by
  have := (PostRcvdCmd_same P e s c hr hs).2.2
  split at this
  · exact this.2.1
  · rw [this.1] at h
    cases h

theorem Sat.cond {α : Type} {Q : α → Prop} {c : Prop} [Decidable c] {a b : α}
    (ha : Sat Q a) (hb : Sat Q b) : Sat Q (if c then a else b) := by
  split <;> assumption

theorem rcvDispatch_shutdown (P : NbdParams β) (e : Endian) (s : NbdServer β) (c : Nat)
    (cmd6 : NbdCmd) (hr : s.rcv_cmd_ = some c) (hs : s.shutdown_ = false) :
    (rcvDispatch P e s c cmd6).shutdown_ = true →
    (rcvDispatch P e s c cmd6).shutdown_reason_ = "Failed to allocate DMA memory" ∨
    (rcvDispatch P e s c cmd6).shutdown_reason_ = "Disconnect received" := by
  show Sat (fun r : NbdServer β => r.shutdown_ = true →
    r.shutdown_reason_ = "Failed to allocate DMA memory" ∨
    r.shutdown_reason_ = "Disconnect received") _
  unfold NbdServer.rcvDispatch
  simp only
  refine Sat.cond (Sat.cond ?_ ?_) ?_
  · intro h
    simp [CompletionCb_same, Blksrv.setCmd, hs] at h
  · split
    · intro _
      left
      simp [MarkShutdown, Blksrv.setCmd, hs]
    · refine Sat.cond ?_ ?_
      · intro h
        exact Or.inr (PostRcvdCmd_shutdown P e _ c hr hs h)
      · intro h
        simp [Blksrv.setCmd, hs] at h
  · intro h
    exact Or.inr (PostRcvdCmd_shutdown P e _ c hr hs h)

theorem hdrCmd_readAt (s : NbdServer β) (c : Nat) (bs : List Byte)
    (h : RcvHeader s c bs) :
    readAt (hdrCmd s c bs).req 0 sizeof_req =
      readAt (s.cmds c).req 0 (sizeof_req - (s.cmds c).io_size_remaining) ++
        bs.take (s.cmds c).io_size_remaining := by
  obtain ⟨_, _, _, _, _, h5, h6, h7⟩ := h
  have hl : (List.take (s.cmds c).io_size_remaining bs).length = (s.cmds c).io_size_remaining := by
    rw [List.length_take]; omega
  have e1 : sizeof_req = (sizeof_req - (s.cmds c).io_size_remaining) +
      (List.take (s.cmds c).io_size_remaining bs).length := by omega
  conv_lhs => rw [e1]
  rw [readAt_add]
  simp only [hdrCmd, Nat.zero_add]
  rw [readAt_writeAt_same, readAt_writeAt_before _ _ _ _ _ (by omega)]

theorem wireMagic_bytes (m : Mem) :
    wireMagic m = NBD_REQUEST_MAGIC ↔ readAt m 0 4 = [0x25, 0x60, 0x95, 0x13] := by
  unfold wireMagic
  constructor
  · intro h
    have := beBytes_beVal (readAt m 0 4)
    rw [readAt_length, h] at this
    rw [← this]
    decide
  · intro h
    rw [h]
    decide

/-- What the poll that completes a request header does: the header is validated and, if
valid, the decoded request is dispatched. -/
theorem PollRecv_validate (P : NbdParams β) (e : Endian) (s : NbdServer β)
    (nw : Option NbdCmd) (c : Nat) (bs : List Byte)
    (h : RcvHeader (rcvSlot P e s nw).2 c bs) :
    PollRecv P e s nw (.ok bs) =
      if wireMagic (hdrCmd (rcvSlot P e s nw).2 c bs).req ≠ NBD_REQUEST_MAGIC ∨
          4 < wireOpcode (hdrCmd (rcvSlot P e s nw).2 c bs).req then
        MarkShutdown (setCmd (rcvSlot P e s nw).2 c (hostType e (hdrCmd (rcvSlot P e s nw).2 c bs)))
          "Invalid cmd received"
      else
        rcvDispatch P e (rcvSlot P e s nw).2 c
          (decodeFields e (hostType e (hdrCmd (rcvSlot P e s nw).2 c bs))) := by
  have hs : s.shutdown_ = false := by
    rw [← (rcvSlot_same P e s nw).1]; exact h.1
  rw [PollRecv_header P e s nw c bs hs h]
  unfold NbdServer.rcvRequest
  simp only [hostType_type, hostType_magic, NBD_CMD_TRIM, gt_iff_lt, ne_eq]

theorem Cont.fresh_engine (sockfd : Int) (b : β) :
    Cont ({ ctor b with fd_ := sockfd } : NbdServer β) [] [] [] [] := by
  refine ⟨⟨?_, ?_, ?_, rfl, rfl, rfl, by simp, by simp, by simp, ?_⟩, ?_, ?_⟩
  · simp [IsList, ptrs, Link, ctor]
  · simp [IsList, ptrs, Link, ctor]
  · simp [IsList, ptrs, Link, ctor]
  · intro c _ _ _
    rfl
  · intro c
    simp [slotCount, ctor]
  · simp [ctor]

theorem leVal_append : ∀ (a b : List Byte), leVal (a ++ b) = leVal a + 256 ^ a.length * leVal b
  | [], b => by simp [leVal]
  | x :: a, b => by
    show x.val + 256 * leVal (a ++ b) =
      (x.val + 256 * leVal a) + 256 ^ (a.length + 1) * leVal b
    rw [leVal_append a b]
    ring

theorem beVal_append (a b : List Byte) : beVal (a ++ b) = beVal a * 256 ^ b.length + beVal b := by
  simp only [beVal, List.reverse_append, leVal_append, List.length_reverse]
  ring

theorem wireOpcode_low (m : Mem) : wireOpcode m = beVal (readAt m 6 2) := by
  unfold wireOpcode wireType
  have e1 : readAt m 4 4 = readAt m 4 2 ++ readAt m 6 2 := readAt_add m 4 2 2
  rw [e1, beVal_append, readAt_length]
  have := beVal_lt (readAt m 6 2)
  rw [readAt_length] at this
  have h2 : beVal (readAt m 6 2) < 2 ^ 16 := by simpa using this
  have h3 : (256 : Nat) ^ 2 = 2 ^ 16 := by norm_num
  rw [h3, Nat.mul_add_mod_of_lt h2]

theorem wireFua_bit (m : Mem) : wireFua m = (m 5).val % 2 := by
  unfold wireFua wireType
  have e1 : readAt m 4 4 = readAt m 4 2 ++ readAt m 6 2 := readAt_add m 4 2 2
  have e2 : readAt m 4 2 = readAt m 4 1 ++ readAt m 5 1 := readAt_add m 4 1 1
  have e3 : readAt m 5 1 = [m 5] := rfl
  rw [e1, beVal_append, readAt_length, e2, beVal_append, readAt_length, e3]
  have := beVal_lt (readAt m 6 2)
  rw [readAt_length] at this
  have h2 : beVal (readAt m 6 2) < 2 ^ 16 := by simpa using this
  have h4 : beVal [m 5] = (m 5).val := by simp [beVal, leVal]
  rw [h4]
  have h5 := (m 5).isLt
  generalize beVal (readAt m 4 1) = a at *
  generalize beVal (readAt m 6 2) = b at *
  generalize (m 5).val = x at *
  norm_num
  omega

theorem rcvBytes_again (P : NbdParams β) (e : Endian) (s : NbdServer β) (c : Nat) :
    rcvBytes P e s c .again = s := rfl

theorem rcvBytes_fail (P : NbdParams β) (e : Endian) (s : NbdServer β) (c : Nat) :
    rcvBytes P e s c .fail = MarkShutdown s "Failed to read from socket" := rfl

theorem rcvBytes_closed (P : NbdParams β) (e : Endian) (s : NbdServer β) (c : Nat) :
    rcvBytes P e s c (.ok []) = MarkShutdown s "Remote end closed connection during read" := by
  simp [rcvBytes]

theorem PollRecv_slot (P : NbdParams β) (e : Endian) (s : NbdServer β) (nw : Option NbdCmd)
    (rd : RecvRes) (c : Nat) (hs : s.shutdown_ = false) (hc : (rcvSlot P e s nw).1 = some c) :
    PollRecv P e s nw rd = rcvBytes P e (rcvSlot P e s nw).2 c rd := by
  simp [PollRecv, hs, hc]

theorem rcvDispatch_reject (P : NbdParams β) (e : Endian) (s : NbdServer β) (c : Nat)
    (D : NbdCmd) (ht : load e D.req 4 4 = NBD_CMD_READ ∨ load e D.req 4 4 = NBD_CMD_WRITE)
    (hl : D.io_size = 0 ∨ kMaxNbdIOSize < D.io_size) :
    rcvDispatch P e s c D =
      { CompletionCb e
          (setCmd s c { D with io_size_remaining := D.io_size, ret_error := EINVAL }) c with
        rcv_cmd_ := none } := by
  unfold NbdServer.rcvDispatch
  simp only [if_pos ht, gt_iff_lt, if_pos hl]

theorem rcvDispatch_alloc (P : NbdParams β) (e : Endian) (s : NbdServer β) (c : Nat)
    (D : NbdCmd) (ht : load e D.req 4 4 = NBD_CMD_READ ∨ load e D.req 4 4 = NBD_CMD_WRITE)
    (h1 : 1 ≤ D.io_size) (h2 : D.io_size ≤ kMaxNbdIOSize) :
    rcvDispatch P e s c D =
      match (P.alloc_data_mem s.backend D.io_size).1 with
      | none =>
        MarkShutdown
          { setCmd s c { D with
              io_size_remaining := D.io_size
              data_buf := none
              cur_io_ptr := ⟨.data, 0⟩ } with
            backend := (P.alloc_data_mem s.backend D.io_size).2
            trace := s.trace ++ [.alloc_data_mem D.io_size none] }
          "Failed to allocate DMA memory"
      | some d =>
        if load e D.req 4 4 ≠ NBD_CMD_WRITE then
          PostRcvdCmd P e
            { setCmd s c { D with
                io_size_remaining := D.io_size
                data_buf := some d
                cur_io_ptr := ⟨.data, 0⟩ } with
              backend := (P.alloc_data_mem s.backend D.io_size).2
              trace := s.trace ++ [.alloc_data_mem D.io_size (some d.addr)] }
        else
          { setCmd s c { D with
                io_size_remaining := D.io_size
                data_buf := some d
                cur_io_ptr := ⟨.data, 0⟩
                cur_state := NBDCMD_STATE_RCV_WRITE_DATA } with
              backend := (P.alloc_data_mem s.backend D.io_size).2
              trace := s.trace ++ [.alloc_data_mem D.io_size (some d.addr)] } := by
  unfold NbdServer.rcvDispatch
  have hl : ¬ (D.io_size = 0 ∨ kMaxNbdIOSize < D.io_size) := by omega
  simp only [if_pos ht, gt_iff_lt, if_neg hl]
  cases h : (P.alloc_data_mem s.backend D.io_size).1 with
  | none => simp
  | some d =>
    simp only [Option.map_some']
    split_ifs
    · rfl
    · simp only [Blksrv.setCmd]
      congr 1
      funext i
      split_ifs <;> rfl

theorem rcvDispatch_other (P : NbdParams β) (e : Endian) (s : NbdServer β) (c : Nat)
    (D : NbdCmd) (h1 : load e D.req 4 4 ≠ NBD_CMD_READ) (h2 : load e D.req 4 4 ≠ NBD_CMD_WRITE) :
    rcvDispatch P e s c D = PostRcvdCmd P e (setCmd s c D) := by
  unfold NbdServer.rcvDispatch
  have hl : ¬ (load e D.req 4 4 = NBD_CMD_READ ∨ load e D.req 4 4 = NBD_CMD_WRITE) := by
    rw [not_or]; exact ⟨h1, h2⟩
  simp only [if_neg hl]

/-- The poll that completes a valid request header is the dispatch of the decoded
command. -/
theorem PollRecv_valid (P : NbdParams β) (e : Endian) (s : NbdServer β)
    (nw : Option NbdCmd) (c : Nat) (bs : List Byte)
    (h : RcvHeader (rcvSlot P e s nw).2 c bs)
    (hm : wireMagic (hdrCmd (rcvSlot P e s nw).2 c bs).req = NBD_REQUEST_MAGIC)
    (ho : wireOpcode (hdrCmd (rcvSlot P e s nw).2 c bs).req ≤ 4) :
    PollRecv P e s nw (.ok bs) = rcvDispatch P e (rcvSlot P e s nw).2 c
      (decodeFields e (hostType e (hdrCmd (rcvSlot P e s nw).2 c bs))) := by
  have hv := PollRecv_validate P e s nw c bs h
  rw [if_neg (by rw [not_or, not_not, not_lt]; exact ⟨hm, ho⟩)] at hv
  exact hv

theorem CheckShutdown_of (s : NbdServer β) (r r0 : String) (h1 : s.shutdown_ = true)
    (h2 : s.shutdown_reason_ = r) : CheckShutdown s r0 = (true, r) := by
  simp [CheckShutdown, h1, h2]

theorem CheckShutdown_mark (s : NbdServer β) (r r0 : String) (h : s.shutdown_ = false) :
    CheckShutdown (MarkShutdown s r) r0 = (true, r) := by
  simp [CheckShutdown, MarkShutdown, h]

theorem mem_setInsert (x : Nat) : ∀ l : List Nat, x ∈ setInsert x l
  | [] => by simp [setInsert]
  | y :: ys => by
    unfold setInsert
    split_ifs with h1 h2
    · simp
    · simp [h2]
    · simp [mem_setInsert x ys]

theorem Cont.perm_hand {s : NbdServer β} {hand hand2 snd pnd fre : List Nat}
    (h : Cont s hand snd pnd fre) (hp : hand2.Perm hand) : Cont s hand2 snd pnd fre :=
  ⟨h.lists, fun c => by rw [hp.count_eq c]; exact h.count c, h.bound⟩

theorem CacheInv.total {s : NbdServer β} {out fre : List Nat} (h : CacheInv s out fre) :
    out.length + fre.length ≤ s.ncmds := by
  have := length_le_of_count (out ++ fre) s.ncmds (fun c => by
    have := h.cont.count c
    rw [List.count_append]
    split_ifs at this ⊢ <;> omega)
  simpa using this

theorem HouseKeeping_counters (C : CacheAllocator) (m : LinkMem) (t : Int) (fh : Nat)
    (ht : t ≠ C.last_time_) :
    (C.HouseKeeping m t fh).2.1.cur_allocations_ = C.cur_allocations_ ∧
    (C.HouseKeeping m t fh).2.1.max_allocations_ = C.cur_allocations_ ∧
    (C.HouseKeeping m t fh).2.1.last_time_ = t := by
  unfold CacheAllocator.HouseKeeping
  simp only [if_neg ht]
  split <;> simp

theorem Alloc_none {s : NbdServer β} {hand snd pnd fre : List Nat}
    (h : Cont s hand snd pnd fre) (e : Endian) (arg : Nat) (nw : Option NbdCmd)
    (hn : (CacheAllocator.Alloc e arg s nw).1 = none) :
    (CacheAllocator.Alloc e arg s nw).2 = s := by
  match fre, h with
  | [], h =>
    have e1 := PopFront_nil h.lists.free
    match nw with
    | none =>
      simp only [CacheAllocator.Alloc, e1]
    | some raw =>
      simp [CacheAllocator.Alloc, e1] at hn
  | y :: ys, h =>
    obtain ⟨m2, e1, hl⟩ := h.lists.popFront_free
    simp [CacheAllocator.Alloc, e1] at hn

theorem Alloc_some {s : NbdServer β} {hand snd pnd fre : List Nat}
    (h : Cont s hand snd pnd fre) (e : Endian) (arg : Nat) (nw : Option NbdCmd)
    (hnw : nw.isSome → s.ncmds + 1 < 2 ^ 32) (c : Nat)
    (hc : (CacheAllocator.Alloc e arg s nw).1 = some c) :
    Cont (CacheAllocator.Alloc e arg s nw).2 (c :: hand) snd pnd fre.tail ∧
    (CacheAllocator.Alloc e arg s nw).2.rcv_cmd_ = s.rcv_cmd_ ∧
    (CacheAllocator.Alloc e arg s nw).2.send_cmd_ = s.send_cmd_ ∧
    (CacheAllocator.Alloc e arg s nw).2.cmd_cache_.cur_allocations_ =
      (s.cmd_cache_.cur_allocations_ + 1) % 2 ^ 32 ∧
    (CacheAllocator.Alloc e arg s nw).2.cmd_cache_.max_allocations_ =
      (if (s.cmd_cache_.cur_allocations_ + 1) % 2 ^ 32 > s.cmd_cache_.max_allocations_ then
        (s.cmd_cache_.cur_allocations_ + 1) % 2 ^ 32 else s.cmd_cache_.max_allocations_) := by
  match fre, h with
  | [], h =>
    have e1 := PopFront_nil h.lists.free
    match nw, hnw with
    | none, _ =>
      simp [CacheAllocator.Alloc, e1] at hc
    | some raw, hnw =>
      obtain ⟨f0, f1, f2, f3⟩ := h.fresh_facts
      have hl := h.lists.reset_fresh f1 f2 f3
      simp only [CacheAllocator.Alloc, e1] at hc ⊢
      cases hc
      refine ⟨⟨hl, ?_, hnw rfl⟩, rfl, rfl, rfl, rfl⟩
      intro c
      have := h.count c
      rw [count_cons2]
      simp only [Blksrv.setCmd, List.tail_nil]
      by_cases hc : s.ncmds = c
      · subst hc
        simp only [lt_irrefl, if_false, if_true, Nat.lt_succ_self] at this ⊢
        omega
      · have : (c < s.ncmds + 1) = (c < s.ncmds) := by
          apply propext; omega
        simp only [if_neg hc, this]
        omega
  | y :: ys, h =>
    obtain ⟨m2, e1, hl⟩ := h.lists.popFront_free
    simp only [CacheAllocator.Alloc, e1] at hc ⊢
    cases hc
    refine ⟨⟨hl, ?_, h.bound⟩, trivial, trivial, trivial, trivial⟩
    intro c
    have := h.count c
    rw [count_cons2] at this ⊢
    simp only [List.tail_cons]
    omega

theorem CacheInv.step_alloc {s : NbdServer β} {out fre : List Nat} (h : CacheInv s out fre)
    (e : Endian) (arg : Nat) (nw : Option NbdCmd) (hnw : nw.isSome → s.ncmds + 1 < 2 ^ 32)
    (c : Nat) (hc : (CacheAllocator.Alloc e arg s nw).1 = some c) :
    CacheInv (CacheAllocator.Alloc e arg s nw).2 (c :: out) fre.tail := by
  obtain ⟨h1, h2, h3, h4, h5⟩ := Alloc_some h.cont e arg nw hnw c hc
  have ht := h.total
  have hb := h1.bound
  have hcur := h.cur
  have hlo := h.lo
  have hhi := h.hi
  have hlen : (c :: out).length ≤ (CacheAllocator.Alloc e arg s nw).2.ncmds := by
    have := length_le_of_count (c :: out) (CacheAllocator.Alloc e arg s nw).2.ncmds (fun x => by
      have := h1.count x
      split_ifs at this ⊢ <;> omega)
    exact this
  simp only [List.length_cons] at hlen
  have e1 : (s.cmd_cache_.cur_allocations_ + 1) % 2 ^ 32 = s.cmd_cache_.cur_allocations_ + 1 := by
    apply Nat.mod_eq_of_lt; omega
  rw [e1] at h4 h5
  refine ⟨h1, by rw [h2, h.rcv], by rw [h3, h.send], by rw [h4, hcur]; rfl, ?_, ?_⟩
  · rw [h4, h5]; split_ifs <;> omega
  · rw [h4, h5, List.length_tail]
    split_ifs <;> omega

theorem CacheInv.step_free {s : NbdServer β} {out fre : List Nat} (h : CacheInv s out fre)
    (c : Nat) (hc : c ∈ out) : CacheInv (CacheAllocator.Free s c) (out.erase c) (c :: fre) := by
  have h1 := (h.cont.perm_hand (List.perm_cons_erase hc).symm).free
  have ht := h.total
  have hb := h.cont.bound
  have hcur := h.cur
  have hlo := h.lo
  have hhi := h.hi
  have hpos : 0 < out.length := List.length_pos_of_mem hc
  have hl : (out.erase c).length = out.length - 1 := List.length_erase_of_mem hc
  have e1 : (s.cmd_cache_.cur_allocations_ + 2 ^ 32 - 1) % 2 ^ 32 =
      s.cmd_cache_.cur_allocations_ - 1 := by omega
  refine ⟨h1, h.rcv, h.send, ?_, ?_, ?_⟩
  · show (s.cmd_cache_.cur_allocations_ + 2 ^ 32 - 1) % 2 ^ 32 = _
    rw [e1, hl, hcur]
  · show (s.cmd_cache_.cur_allocations_ + 2 ^ 32 - 1) % 2 ^ 32 ≤ s.cmd_cache_.max_allocations_
    rw [e1]; omega
  · show s.cmd_cache_.max_allocations_ ≤
      (c :: fre).length + (s.cmd_cache_.cur_allocations_ + 2 ^ 32 - 1) % 2 ^ 32
    rw [e1, List.length_cons]; omega

theorem CacheInv.step_house {s : NbdServer β} {out fre : List Nat} (h : CacheInv s out fre)
    (t : Int) :
    ∃ k, CacheInv
      { s with
        links := (s.cmd_cache_.HouseKeeping s.links t freedHead).1
        cmd_cache_ := (s.cmd_cache_.HouseKeeping s.links t freedHead).2.1
        deleted := s.deleted ++ (s.cmd_cache_.HouseKeeping s.links t freedHead).2.2 }
      out (fre.drop k) := by
  by_cases ht : t = s.cmd_cache_.last_time_
  · subst ht
    refine ⟨0, ?_⟩
    rw [HouseKeeping_same]
    simp only [List.append_nil, List.drop_zero]
    exact h
  · obtain ⟨k, hk⟩ := h.cont.houseKeeping t s.last_config_run_
    obtain ⟨c1, c2, c3⟩ := HouseKeeping_counters s.cmd_cache_ s.links t freedHead ht
    refine ⟨k, hk, h.rcv, h.send, ?_, ?_, ?_⟩
    · show (s.cmd_cache_.HouseKeeping s.links t freedHead).2.1.cur_allocations_ = _
      rw [c1, h.cur]
    · show (s.cmd_cache_.HouseKeeping s.links t freedHead).2.1.cur_allocations_ ≤
        (s.cmd_cache_.HouseKeeping s.links t freedHead).2.1.max_allocations_
      rw [c1, c2]
    · show (s.cmd_cache_.HouseKeeping s.links t freedHead).2.1.max_allocations_ ≤
        _ + (s.cmd_cache_.HouseKeeping s.links t freedHead).2.1.cur_allocations_
      rw [c1, c2]; omega

theorem CacheInv.fresh_cache (b : β) : CacheInv (NbdServer.ctor b) [] [] :=
  ⟨Cont.fresh_engine (-1) b, rfl, rfl, rfl, le_refl _, le_refl _⟩

theorem CacheReach.counters {e : Endian} {arg : Nat} {s : NbdServer β} {out : List Nat}
    (h : CacheReach e arg s out) : ∃ fre, CacheInv s out fre := by
  induction h with
  | init b => exact ⟨[], CacheInv.fresh_cache b⟩
  | alloc nw c _ hnw hc ih =>
    obtain ⟨fre, ih⟩ := ih
    exact ⟨_, ih.step_alloc e arg nw hnw c hc⟩
  | alloc_fail nw _ hn ih =>
    obtain ⟨fre, ih⟩ := ih
    rw [Alloc_none ih.cont e arg nw hn]
    exact ⟨fre, ih⟩
  | free c _ hc ih =>
    obtain ⟨fre, ih⟩ := ih
    exact ⟨_, ih.step_free c hc⟩
  | house_keeping t _ ih =>
    obtain ⟨fre, ih⟩ := ih
    obtain ⟨k, hk⟩ := ih.step_house t
    exact ⟨_, hk⟩

theorem setCmd_same (s : NbdServer β) (c : Nat) (cmd : NbdCmd) : (setCmd s c cmd).cmds c = cmd := by
  simp [Blksrv.setCmd]

theorem setCmd_other (s : NbdServer β) (c i : Nat) (cmd : NbdCmd) (h : i ≠ c) :
    (setCmd s c cmd).cmds i = s.cmds i := by
  simp [Blksrv.setCmd, h]

theorem CompletionCb_cmds (e : Endian) (s : NbdServer β) (c : Nat) :
    (CompletionCb e s c).cmds = (setCmd s c (replyCmd e (s.cmds c))).cmds := by
  simp [CompletionCb, Blksrv.setCmd, replyCmd]

theorem CompletionCb_cmd (e : Endian) (s : NbdServer β) (c : Nat) :
    (CompletionCb e s c).cmds c = replyCmd e (s.cmds c) := by
  rw [CompletionCb_cmds, setCmd_same]

theorem replyCmd_error (e : Endian) (cmd : NbdCmd) :
    readAt (replyCmd e cmd).reply 4 4 = beBytes 4 cmd.ret_error := by
  simp only [replyCmd]
  rw [readAt_writeAt_before _ _ _ _ _ (by omega), readAt_store_htobe32]

theorem replyCmd_handle (e : Endian) (cmd : NbdCmd) :
    readAt (replyCmd e cmd).reply 8 8 = readAt cmd.req 8 8 := by
  simp only [replyCmd]
  have := readAt_writeAt_same (store e cmd.reply 4 4 (htobe32 e cmd.ret_error)) 8 (readAt cmd.req 8 8)
  rw [readAt_length] at this
  exact this

theorem postSub_cmd (s : NbdServer β) (c : Nat) :
    (postSub s c).cmds c = { s.cmds c with cur_state := NBDCMD_STATE_CMD_SUBMITTED } := by
  unfold postSub
  exact setCmd_same _ _ _

theorem postCall_eq (e : Endian) (s : NbdServer β) (c : Nat) :
    postCall e s c =
      if load e (s.cmds c).req 4 4 = NBD_CMD_DISC then postSub s c else postPend s c := by
  unfold postCall
  rw [postSub_cmd]
  split_ifs <;> first | rfl | contradiction

theorem PostRcvdCmd_some (P : NbdParams β) (e : Endian) (s : NbdServer β) (c : Nat)
    (hr : s.rcv_cmd_ = some c) :
    PostRcvdCmd P e s =
      if load e (s.cmds c).req 4 4 = NBD_CMD_READ then
        invoke e (postCall e s c) c (.read c) P.read
      else if load e (s.cmds c).req 4 4 = NBD_CMD_WRITE then
        invoke e (postCall e s c) c (.write c) P.write
      else if load e (s.cmds c).req 4 4 = NBD_CMD_DISC then
        CacheAllocator.Free (MarkShutdown
          (match P.disconnect with
            | some f =>
              { setCmd (postCall e s c) c (f (postCall e s c).backend ((postCall e s c).cmds c)).2 with
                backend := (f (postCall e s c).backend ((postCall e s c).cmds c)).1
                trace := (postCall e s c).trace ++ [.disconnect c] }
            | none => postCall e s c)
          "Disconnect received") c
      else if load e (s.cmds c).req 4 4 = NBD_CMD_FLUSH then
        invoke e (postCall e s c) c (.flush c) P.flush
      else if load e (s.cmds c).req 4 4 = NBD_CMD_TRIM then
        invoke e (postCall e s c) c (.trim c) P.trim
      else
        CompletionCb e
          (setCmd (postCall e s c) c { (postCall e s c).cmds c with ret_error := EINVAL }) c := by
  have e0 : (s.cmds c).req = ((postSub s c).cmds c).req := by rw [postSub_cmd]
  rw [e0]
  unfold PostRcvdCmd
  rw [hr]
  rfl

theorem PostRcvdCmd_disc (P : NbdParams β) (e : Endian) (s : NbdServer β) (c : Nat)
    (hr : s.rcv_cmd_ = some c) (ht : load e (s.cmds c).req 4 4 = NBD_CMD_DISC) :
    PostRcvdCmd P e s =
      CacheAllocator.Free (MarkShutdown
        (match P.disconnect with
          | some f =>
            { setCmd (postSub s c) c (f (postSub s c).backend ((postSub s c).cmds c)).2 with
              backend := (f (postSub s c).backend ((postSub s c).cmds c)).1
              trace := (postSub s c).trace ++ [.disconnect c] }
          | none => postSub s c)
        "Disconnect received") c := by
  rw [PostRcvdCmd_some P e s c hr, postCall_eq, ht]
  simp [NBD_CMD_DISC, NBD_CMD_READ, NBD_CMD_WRITE]

theorem PostRcvdCmd_call (P : NbdParams β) (e : Endian) (s : NbdServer β) (c : Nat)
    (hr : s.rcv_cmd_ = some c) :
    (load e (s.cmds c).req 4 4 = NBD_CMD_READ →
      PostRcvdCmd P e s = invoke e (postPend s c) c (.read c) P.read) ∧
    (load e (s.cmds c).req 4 4 = NBD_CMD_WRITE →
      PostRcvdCmd P e s = invoke e (postPend s c) c (.write c) P.write) ∧
    (load e (s.cmds c).req 4 4 = NBD_CMD_FLUSH →
      PostRcvdCmd P e s = invoke e (postPend s c) c (.flush c) P.flush) ∧
    (load e (s.cmds c).req 4 4 = NBD_CMD_TRIM →
      PostRcvdCmd P e s = invoke e (postPend s c) c (.trim c) P.trim) := by
  refine ⟨?_, ?_, ?_, ?_⟩ <;> intro ht <;> rw [PostRcvdCmd_some P e s c hr, postCall_eq, ht] <;>
    simp [NBD_CMD_DISC, NBD_CMD_READ, NBD_CMD_WRITE, NBD_CMD_FLUSH, NBD_CMD_TRIM]

theorem Cont.postPend {s : NbdServer β} {hand snd pnd fre : List Nat} {c : Nat}
    (h : Cont s hand snd pnd fre) (hr : s.rcv_cmd_ = some c) :
    Cont (postPend s c) hand snd (pnd ++ [c]) fre :=
  ((h.take_rcv hr).setCmd c _).pend_pushBack

theorem Cont.postRcvdCmd_disc {s : NbdServer β} {hand snd pnd fre : List Nat} {c : Nat}
    (P : NbdParams β) (e : Endian) (h : Cont s hand snd pnd fre) (hr : s.rcv_cmd_ = some c)
    (ht : load e (s.cmds c).req 4 4 = NBD_CMD_DISC) :
    Cont (PostRcvdCmd P e s) hand snd pnd (c :: fre) := by
  rw [PostRcvdCmd_disc P e s c hr ht]
  have h1 : Cont (postSub s c) (c :: hand) snd pnd fre := (h.take_rcv hr).setCmd c _
  refine (Cont.markShutdown ?_ "Disconnect received").free
  cases P.disconnect with
  | none => exact h1
  | some f => exact h1.backend c _ _ _

/-- A command that `rcvSlot` has put into an empty receive slot is reset. -/
theorem rcvSlot_fresh (P : NbdParams β) (e : Endian) (s : NbdServer β) (nw : Option NbdCmd)
    (c : Nat) (hr : s.rcv_cmd_ = none) (hc : (rcvSlot P e s nw).1 = some c) :
    (rcvSlot P e s nw).2.rcv_cmd_ = some c ∧
    ((rcvSlot P e s nw).2.cmds c).cur_state = NBDCMD_STATE_RCV_REQ ∧
    ((rcvSlot P e s nw).2.cmds c).data_buf = none ∧
    ((rcvSlot P e s nw).2.cmds c).cur_io_ptr = ⟨.req, 0⟩ ∧
    ((rcvSlot P e s nw).2.cmds c).io_size_remaining = sizeof_req := by
  unfold NbdServer.rcvSlot at hc ⊢
  simp only [hr] at hc ⊢
  cases ha : (CacheAllocator.Alloc e P.arg s nw).1 with
  | none => simp [ha] at hc
  | some c1 =>
    simp only [ha] at hc ⊢
    cases hc
    simp [Blksrv.setCmd, NbdCmd.Reset]

theorem decode_data_buf (e : Endian) (cmd : NbdCmd) :
    (decodeFields e (hostType e cmd)).data_buf = cmd.data_buf := rfl

theorem decode_handle (e : Endian) (cmd : NbdCmd) :
    readAt (decodeFields e (hostType e cmd)).req 8 8 = readAt cmd.req 8 8 :=
  hostType_readAt e cmd 8 8 (Or.inr (le_refl _))

theorem decode_reply (e : Endian) (cmd : NbdCmd) :
    (decodeFields e (hostType e cmd)).reply = cmd.reply := rfl

/-- What the poll does that completes a valid read or write request whose length is 0 or
above the cap. -/
theorem PollRecv_reject (P : NbdParams β) (e : Endian) (s : NbdServer β)
    (nw : Option NbdCmd) (c : Nat) (bs : List Byte)
    (h : RcvHeader (rcvSlot P e s nw).2 c bs)
    (hm : wireMagic (hdrCmd (rcvSlot P e s nw).2 c bs).req = NBD_REQUEST_MAGIC)
    (ho : wireOpcode (hdrCmd (rcvSlot P e s nw).2 c bs).req = NBD_CMD_READ ∨
      wireOpcode (hdrCmd (rcvSlot P e s nw).2 c bs).req = NBD_CMD_WRITE)
    (hl : wireLen (hdrCmd (rcvSlot P e s nw).2 c bs).req = 0 ∨
      kMaxNbdIOSize < wireLen (hdrCmd (rcvSlot P e s nw).2 c bs).req) :
    PollRecv P e s nw (.ok bs) =
      { CompletionCb e (setCmd (rcvSlot P e s nw).2 c
          { decodeFields e (hostType e (hdrCmd (rcvSlot P e s nw).2 c bs)) with
            io_size_remaining :=
              (decodeFields e (hostType e (hdrCmd (rcvSlot P e s nw).2 c bs))).io_size
            ret_error := EINVAL }) c with
        rcv_cmd_ := none } := by
  have ht := decode_type e (hdrCmd (rcvSlot P e s nw).2 c bs)
  have hz := decode_size e (hdrCmd (rcvSlot P e s nw).2 c bs)
  rw [PollRecv_valid P e s nw c bs h hm (by rcases ho with ho | ho <;> rw [ho] <;> decide)]
  exact rcvDispatch_reject P e _ c _ (by rw [ht]; exact ho) (by rw [hz]; exact hl)

theorem MarkShutdown_trace (s : NbdServer β) (r : String) :
    (MarkShutdown s r).trace = s.trace := by
  unfold MarkShutdown; split <;> rfl

/-- The calls made by the dispatch of a read or write request with a length in
1..1048576. -/
theorem rcvDispatch_alloc_trace (P : NbdParams β) (e : Endian) (s : NbdServer β) (c : Nat)
    (D : NbdCmd) (hr : s.rcv_cmd_ = some c) (hs : s.shutdown_ = false)
    (ht : load e D.req 4 4 = NBD_CMD_READ ∨ load e D.req 4 4 = NBD_CMD_WRITE)
    (h1 : 1 ≤ D.io_size) (h2 : D.io_size ≤ kMaxNbdIOSize) :
    (rcvDispatch P e s c D).trace =
      s.trace ++ [.alloc_data_mem D.io_size
        ((P.alloc_data_mem s.backend D.io_size).1.map DataBuf.addr)] ++
      if (P.alloc_data_mem s.backend D.io_size).1.isSome ∧ load e D.req 4 4 = NBD_CMD_READ
      then [.read c] else [] := by
  rw [rcvDispatch_alloc P e s c D ht h1 h2]
  cases ha : (P.alloc_data_mem s.backend D.io_size).1 with
  | none =>
    simp only [Option.map_none', Option.isSome_none, Bool.false_eq_true, false_and, if_false,
      List.append_nil]
    rw [MarkShutdown_trace]
  | some d =>
    simp only [Option.map_some', Option.isSome_some, true_and]
    rcases ht with ho | ho
    · rw [if_pos (by rw [ho]; decide), if_pos ho]
      have hp := (PostRcvdCmd_same P e
        ({ Blksrv.setCmd s c { D with
              io_size_remaining := D.io_size
              data_buf := some d
              cur_io_ptr := ⟨.data, 0⟩ } with
            backend := (P.alloc_data_mem s.backend D.io_size).2
            trace := s.trace ++ [.alloc_data_mem D.io_size (some d.addr)] } : NbdServer β)
        c hr hs).2.2
      have e0 : (({ Blksrv.setCmd s c { D with
              io_size_remaining := D.io_size
              data_buf := some d
              cur_io_ptr := ⟨.data, 0⟩ } with
            backend := (P.alloc_data_mem s.backend D.io_size).2
            trace := s.trace ++ [.alloc_data_mem D.io_size (some d.addr)] } : NbdServer β).cmds
              c).req = D.req := by
        show ((Blksrv.setCmd s c _).cmds c).req = _
        rw [setCmd_same]
      rw [e0, if_neg (by rw [ho]; decide), if_pos ho] at hp
      exact hp.2
    · rw [if_neg (by rw [ho]; decide), if_neg (by rw [ho]; decide)]
      simp

theorem PostRcvdCmd_send (P : NbdParams β) (e : Endian) (s : NbdServer β) :
    (PostRcvdCmd P e s).send_cmd_ = s.send_cmd_ := by
  cases hr : s.rcv_cmd_ with
  | none => simp [PostRcvdCmd, hr]
  | some c =>
    rw [PostRcvdCmd_some P e s c hr, postCall_eq]
    have hi : ∀ (t : NbdServer β) (ev : Event) (f : β → NbdCmd → CbResult β),
        (invoke e t c ev f).send_cmd_ = t.send_cmd_ := by
      intro t ev f
      unfold NbdServer.invoke
      simp only
      split
      · rw [(CompletionCb_same e _ c).2.2.2.2.2.2]; rfl
      · rfl
    have hp : (postPend s c).send_cmd_ = s.send_cmd_ := rfl
    have hq : (postSub s c).send_cmd_ = s.send_cmd_ := rfl
    split_ifs <;> simp only [hi, hp, hq, (CompletionCb_same e _ c).2.2.2.2.2.2]
    all_goals first
      | rfl
      | (cases P.disconnect <;> simp [CacheAllocator.Free, MarkShutdown] <;> split <;> rfl)

/-- A read that delivers at least 28 bytes to a command just put into the receive slot
completes its request header, which is these 28 bytes. -/
theorem RcvHeader.of_fresh (P : NbdParams β) (e : Endian) (s : NbdServer β)
    (nw : Option NbdCmd) (c : Nat) (bs : List Byte) (hs : s.shutdown_ = false)
    (hr : s.rcv_cmd_ = none) (hc : (rcvSlot P e s nw).1 = some c)
    (hl : sizeof_req ≤ bs.length) :
    RcvHeader (rcvSlot P e s nw).2 c bs ∧
    readAt (hdrCmd (rcvSlot P e s nw).2 c bs).req 0 sizeof_req = bs.take sizeof_req := by
  obtain ⟨h1, h2, h3, h4, h5⟩ := rcvSlot_fresh P e s nw c hr hc
  have hh : RcvHeader (rcvSlot P e s nw).2 c bs := by
    refine ⟨?_, h1, h2, h3, ?_, ?_, ?_, ?_⟩
    · rw [(rcvSlot_same P e s nw).1]; exact hs
    · rw [h4, h5, Nat.sub_self]
    · rw [h5]; decide
    · rw [h5]
    · rw [h5]; exact hl
  refine ⟨hh, ?_⟩
  rw [hdrCmd_readAt _ c bs hh, h5]
  rfl

theorem Touch.rfl_ (cmd : NbdCmd) : Touch cmd cmd := ⟨rfl, rfl, rfl, rfl⟩

theorem hold_congr {a b : NbdCmd} (h : a.data_buf.map DataBuf.addr = b.data_buf.map DataBuf.addr)
    (x : Nat) : hold a x = hold b x := by
  unfold hold; rw [h]

theorem hold_none {a : NbdCmd} (h : a.data_buf = none) (x : Nat) : hold a x = 0 := by
  simp [hold, h]

theorem hold_some {a : NbdCmd} {d : DataBuf} (h : a.data_buf = some d) (x : Nat) :
    hold a x = if d.addr = x then 1 else 0 := by
  simp [hold, h]

theorem sum_map_update (f g : Nat → Nat) (c : Nat) (hfg : ∀ i, i ≠ c → g i = f i) :
    ∀ n, c < n → ((List.range n).map g).sum + f c = ((List.range n).map f).sum + g c
  | 0, h => by omega
  | n + 1, h => by
    rw [List.range_succ, List.map_append, List.map_append, List.sum_append, List.sum_append]
    simp only [List.map_cons, List.map_nil, List.sum_cons, List.sum_nil, Nat.add_zero]
    by_cases hc : c = n
    · subst hc
      have : (List.range c).map g = (List.range c).map f := by
        apply List.map_congr_left
        intro i hi
        exact hfg i (by have := List.mem_range.1 hi; omega)
      rw [this]; omega
    · have ih := sum_map_update f g c hfg n (by omega)
      rw [hfg n (Ne.symm hc)]
      omega

theorem sum_map_same (f g : Nat → Nat) (n : Nat) (hfg : ∀ i, i < n → g i = f i) :
    ((List.range n).map g).sum = ((List.range n).map f).sum := by
  congr 1
  apply List.map_congr_left
  intro i hi
  exact hfg i (List.mem_range.1 hi)

/-- Replacing the object `c` changes the number of holders of `a` by what `c` holds. -/
theorem holders_update {s s2 : NbdServer β} (c : Nat) (a : Nat) (hc : c < s.ncmds)
    (hn : s2.ncmds = s.ncmds) (ho : ∀ i, i ≠ c → s2.cmds i = s.cmds i) :
    holders s2 a + hold (s.cmds c) a = holders s a + hold (s2.cmds c) a := by
  unfold holders
  rw [hn]
  exact sum_map_update (fun i => hold (s.cmds i) a) (fun i => hold (s2.cmds i) a) c
    (fun i hi => by simp only [ho i hi]) s.ncmds hc

theorem holders_same {s s2 : NbdServer β} (a : Nat) (hn : s2.ncmds = s.ncmds)
    (ho : ∀ i, i < s.ncmds → hold (s2.cmds i) a = hold (s.cmds i) a) :
    holders s2 a = holders s a := by
  unfold holders
  rw [hn]
  exact sum_map_same _ _ _ ho

theorem allocs_append (tr tr2 : List Event) (a : Nat) :
    allocs (tr ++ tr2) a = allocs tr a + allocs tr2 a := by
  simp [allocs]

theorem frees_append (tr tr2 : List Event) (a : Nat) :
    frees (tr ++ tr2) a = frees tr a + frees tr2 a := by
  simp [frees]

theorem DataOK.mono {e : Endian} {tr tr2 : List Event} {cmd : NbdCmd} {d : DataBuf}
    (h : DataOK e tr cmd d) (ht : ∀ ev, ev ∈ tr → ev ∈ tr2) : DataOK e tr2 cmd d :=
  ⟨h.1, h.2.1, h.2.2.1, h.2.2.2.1, ht _ h.2.2.2.2⟩

/-- `DataOK` only looks at the request, `io_size` and the address of the buffer. -/
theorem DataOK.transfer {e : Endian} {tr tr2 : List Event} {cmd cmd2 : NbdCmd} {d d2 : DataBuf}
    (h : DataOK e tr cmd d) (ht : ∀ ev, ev ∈ tr → ev ∈ tr2) (h1 : cmd2.req = cmd.req)
    (h2 : cmd2.io_size = cmd.io_size) (h3 : d2.addr = d.addr) : DataOK e tr2 cmd2 d2 := by
  unfold DataOK at h ⊢
  rw [h1, h2, h3]
  exact ⟨h.1, h.2.1, h.2.2.1, h.2.2.2.1, ht _ h.2.2.2.2⟩

theorem fields_congr {e : Endian} {s s2 : NbdServer β} {snd pnd fre : List Nat}
    (h : Fields e s snd pnd fre) (e1 : s2.cmds = s.cmds) (e2 : s2.ncmds = s.ncmds)
    (e3 : s2.trace = s.trace) (e4 : s2.deleted = s.deleted)
    (e5 : s2.shutdown_ = false → s.shutdown_ = false)
    (e6 : s2.rcv_cmd_ = s.rcv_cmd_) (e7 : s2.send_cmd_ = s.send_cmd_) :
    Fields e s2 snd pnd fre := by
  refine ⟨?_, ?_, ?_, ?_, ?_, ?_, ?_, ?_, ?_⟩
  · intro c hc; rw [e1]; exact h.magic c (e2 ▸ hc)
  · intro c d hc hd; rw [e1] at hd ⊢; rw [e3]; exact h.data c d (e2 ▸ hc) hd
  · intro c hc hs; rw [e1]; exact h.rcv c (e6 ▸ hc) (e5 hs)
  · intro c hc; rw [e1]; exact h.send c (e7 ▸ hc)
  · intro c hc; rw [e1]; exact h.queue c hc
  · intro c hc; rw [e1]; exact h.pend c hc
  · intro c hc; rw [e1]; exact h.free c hc
  · intro c hc; rw [e1]; exact h.del c (e4 ▸ hc)
  · intro a
    rw [e3, h.bal a]
    congr 1
    exact (holders_same a e2 (fun i _ => by rw [e1])).symm

/-- The fields stay right when one object `c` is replaced and moved, if the new `c` fits
its new place and the buffers it takes or gives up show in the trace. -/
theorem fields_update {e : Endian} {s s2 : NbdServer β}
    {snd pnd fre snd2 pnd2 fre2 : List Nat} (c : Nat)
    (h : Fields e s snd pnd fre) (hc : c < s.ncmds)
    (hn : s2.ncmds = s.ncmds)
    (ho : ∀ i, i ≠ c → s2.cmds i = s.cmds i)
    (htr : ∀ ev, ev ∈ s.trace → ev ∈ s2.trace)
    (hdl : s2.deleted = s.deleted)
    (hsh : s2.shutdown_ = false → s.shutdown_ = false)
    (hrcv : ∀ i, i ≠ c → s2.rcv_cmd_ = some i → s.rcv_cmd_ = some i)
    (hsend : ∀ i, i ≠ c → s2.send_cmd_ = some i → s.send_cmd_ = some i)
    (hsnd : ∀ i, i ≠ c → i ∈ snd2 → i ∈ snd)
    (hpnd : ∀ i, i ≠ c → i ∈ pnd2 → i ∈ pnd)
    (hfre : ∀ i, i ≠ c → i ∈ fre2 → i ∈ fre)
    (cmagic : readAt (s2.cmds c).reply 0 4 = readAt (s.cmds c).reply 0 4)
    (cdata : ∀ d, (s2.cmds c).data_buf = some d → DataOK e s2.trace (s2.cmds c) d)
    (crcv : s2.rcv_cmd_ = some c → s2.shutdown_ = false → RcvOK e (s2.cmds c))
    (csend : s2.send_cmd_ = some c → SendOK e (s2.cmds c))
    (cq : c ∈ snd2 → QueuedOK e (s2.cmds c))
    (cp : c ∈ pnd2 → PendOK e (s2.cmds c))
    (cf : c ∈ fre2 → (s2.cmds c).data_buf = none)
    (cd : c ∈ s.deleted → (s2.cmds c).data_buf = none)
    (bal : ∀ a, allocs s2.trace a + frees s.trace a + hold (s.cmds c) a =
      allocs s.trace a + frees s2.trace a + hold (s2.cmds c) a) :
    Fields e s2 snd2 pnd2 fre2 := by
  refine ⟨?_, ?_, ?_, ?_, ?_, ?_, ?_, ?_, ?_⟩
  · intro i hi
    by_cases hic : i = c
    · subst hic; rw [cmagic]; exact h.magic i hc
    · rw [ho i hic]; exact h.magic i (hn ▸ hi)
  · intro i d hi hd
    by_cases hic : i = c
    · subst hic; exact cdata d hd
    · rw [ho i hic] at hd ⊢
      exact (h.data i d (hn ▸ hi) hd).mono htr
  · intro i hi hs
    by_cases hic : i = c
    · subst hic; exact crcv hi hs
    · rw [ho i hic]; exact h.rcv i (hrcv i hic hi) (hsh hs)
  · intro i hi
    by_cases hic : i = c
    · subst hic; exact csend hi
    · rw [ho i hic]; exact h.send i (hsend i hic hi)
  · intro i hi
    by_cases hic : i = c
    · subst hic; exact cq hi
    · rw [ho i hic]; exact h.queue i (hsnd i hic hi)
  · intro i hi
    by_cases hic : i = c
    · subst hic; exact cp hi
    · rw [ho i hic]; exact h.pend i (hpnd i hic hi)
  · intro i hi
    by_cases hic : i = c
    · subst hic; exact cf hi
    · rw [ho i hic]; exact h.free i (hfre i hic hi)
  · intro i hi
    rw [hdl] at hi
    by_cases hic : i = c
    · subst hic; exact cd hi
    · rw [ho i hic]; exact h.del i hi
  · intro a
    have h1 := h.bal a
    have h2 := @holders_update β s s2 c a hc hn ho
    have h3 := bal a
    omega

theorem count_zero_iff (l : List Nat) (c : Nat) : l.count c = 0 ↔ c ∉ l :=
  List.count_eq_zero

theorem slotCount_zero_iff (o : Option Nat) (c : Nat) : slotCount o c = 0 ↔ o ≠ some c := by
  unfold slotCount; split_ifs with h <;> simp [h]

theorem Cont.rcv_facts {s : NbdServer β} {hand snd pnd fre : List Nat} {c : Nat}
    (h : Cont s hand snd pnd fre) (hr : s.rcv_cmd_ = some c) :
    c < s.ncmds ∧ c ∉ hand ∧ s.send_cmd_ ≠ some c ∧ c ∉ snd ∧ c ∉ pnd ∧ c ∉ fre ∧
      c ∉ s.deleted := by
  have := h.count c
  have h1 : slotCount s.rcv_cmd_ c = 1 := by simp [slotCount, hr]
  rw [← count_zero_iff, ← count_zero_iff, ← count_zero_iff, ← count_zero_iff, ← count_zero_iff,
    ← slotCount_zero_iff]
  split_ifs at this <;> omega

theorem Cont.send_facts {s : NbdServer β} {hand snd pnd fre : List Nat} {c : Nat}
    (h : Cont s hand snd pnd fre) (hr : s.send_cmd_ = some c) :
    c < s.ncmds ∧ c ∉ hand ∧ s.rcv_cmd_ ≠ some c ∧ c ∉ snd ∧ c ∉ pnd ∧ c ∉ fre ∧
      c ∉ s.deleted := by
  have := h.count c
  have h1 : slotCount s.send_cmd_ c = 1 := by simp [slotCount, hr]
  rw [← count_zero_iff, ← count_zero_iff, ← count_zero_iff, ← count_zero_iff, ← count_zero_iff,
    ← slotCount_zero_iff]
  split_ifs at this <;> omega

theorem Cont.snd_facts {s : NbdServer β} {hand snd pnd fre : List Nat} {c : Nat}
    (h : Cont s hand snd pnd fre) (hr : c ∈ snd) :
    c < s.ncmds ∧ c ∉ hand ∧ s.rcv_cmd_ ≠ some c ∧ s.send_cmd_ ≠ some c ∧ c ∉ pnd ∧ c ∉ fre ∧
      c ∉ s.deleted := by
  have := h.count c
  have h1 : 0 < snd.count c := List.count_pos_iff.2 hr
  rw [← count_zero_iff, ← count_zero_iff, ← count_zero_iff, ← count_zero_iff,
    ← slotCount_zero_iff, ← slotCount_zero_iff]
  split_ifs at this <;> omega

theorem Cont.pnd_facts {s : NbdServer β} {hand snd pnd fre : List Nat} {c : Nat}
    (h : Cont s hand snd pnd fre) (hr : c ∈ pnd) :
    c < s.ncmds ∧ c ∉ hand ∧ s.rcv_cmd_ ≠ some c ∧ s.send_cmd_ ≠ some c ∧ c ∉ snd ∧ c ∉ fre ∧
      c ∉ s.deleted := by
  have := h.count c
  have h1 : 0 < pnd.count c := List.count_pos_iff.2 hr
  rw [← count_zero_iff, ← count_zero_iff, ← count_zero_iff, ← count_zero_iff,
    ← slotCount_zero_iff, ← slotCount_zero_iff]
  split_ifs at this <;> omega

theorem Cont.fre_facts {s : NbdServer β} {hand snd pnd fre : List Nat} {c : Nat}
    (h : Cont s hand snd pnd fre) (hr : c ∈ fre) :
    c < s.ncmds ∧ c ∉ hand ∧ s.rcv_cmd_ ≠ some c ∧ s.send_cmd_ ≠ some c ∧ c ∉ snd ∧ c ∉ pnd ∧
      c ∉ s.deleted := by
  have := h.count c
  have h1 : 0 < fre.count c := List.count_pos_iff.2 hr
  rw [← count_zero_iff, ← count_zero_iff, ← count_zero_iff, ← count_zero_iff,
    ← slotCount_zero_iff, ← slotCount_zero_iff]
  split_ifs at this <;> omega

theorem Cont.hand_head {s : NbdServer β} {hand snd pnd fre : List Nat} {c : Nat}
    (h : Cont s (c :: hand) snd pnd fre) :
    c < s.ncmds ∧ c ∉ hand ∧ s.rcv_cmd_ ≠ some c ∧ s.send_cmd_ ≠ some c ∧ c ∉ snd ∧ c ∉ pnd ∧
      c ∉ fre ∧ c ∉ s.deleted := by
  have := h.count c
  rw [count_cons2] at this
  simp only [if_true] at this
  rw [← count_zero_iff, ← count_zero_iff, ← count_zero_iff, ← count_zero_iff, ← count_zero_iff,
    ← slotCount_zero_iff, ← slotCount_zero_iff]
  split_ifs at this <;> omega

theorem CompletionCb_rest (e : Endian) (s : NbdServer β) (c : Nat) :
    (CompletionCb e s c).ncmds = s.ncmds ∧ (CompletionCb e s c).deleted = s.deleted := by
  simp [CompletionCb, Blksrv.setCmd]

theorem replyCmd_magic (e : Endian) (cmd : NbdCmd) :
    readAt (replyCmd e cmd).reply 0 4 = readAt cmd.reply 0 4 := by
  simp only [replyCmd]
  rw [readAt_writeAt_before _ _ _ _ _ (by omega), readAt_store_before _ _ _ _ _ _ _ (by omega)]

theorem QueuedOK.replyCmd {e : Endian} {cmd : NbdCmd}
    (h : load e cmd.req 4 4 = NBD_CMD_READ → cmd.ret_error = 0 → load e cmd.req 24 4 ≠ 0 →
      cmd.data_buf.isSome) : QueuedOK e (replyCmd e cmd) :=
  ⟨rfl, rfl, rfl, replyCmd_error e cmd, replyCmd_handle e cmd, h⟩

theorem Touch.isSome {a b : NbdCmd} (h : Touch a b) : b.data_buf.isSome = a.data_buf.isSome := by
  have := h.2.2.2
  cases ha : a.data_buf <;> cases hb : b.data_buf <;> simp [ha, hb] at this ⊢

theorem Touch.hold {a b : NbdCmd} (h : Touch a b) (x : Nat) : hold b x = hold a x :=
  hold_congr h.2.2.2 x

theorem Touch.dataOK {e : Endian} {tr tr2 : List Event} {a b : NbdCmd} (h : Touch a b)
    (ha : ∀ d, a.data_buf = some d → DataOK e tr a d) (ht : ∀ ev, ev ∈ tr → ev ∈ tr2) :
    ∀ d, b.data_buf = some d → DataOK e tr2 b d := by
  intro d hd
  have h4 := h.2.2.2
  rw [hd] at h4
  cases hx : a.data_buf with
  | none => rw [hx] at h4; cases h4
  | some d0 =>
    rw [hx] at h4
    simp only [Option.map_some', Option.some.injEq] at h4
    exact (ha d0 hx).transfer ht h.1 h.2.2.1 h4

theorem Touch.pendOK {e : Endian} {a b : NbdCmd} (h : Touch a b) (ha : PendOK e a) :
    PendOK e b := by
  intro ht
  rw [h.isSome]
  exact ha (by rw [← h.1]; exact ht)

/-- The completion hook on a command of the pending set that the backend left as `cmd`. -/
theorem fields_complete_pnd {e : Endian} {s : NbdServer β} {hand snd fre as bs : List Nat}
    {c : Nat} (cmd : NbdCmd) (hC : Cont s hand snd (as ++ c :: bs) fre)
    (h : Fields e s snd (as ++ c :: bs) fre) (ht : Touch (s.cmds c) cmd) :
    Fields e (CompletionCb e (setCmd s c cmd) c) (snd ++ [c]) (as ++ bs) fre := by
  have hC2 := Cont.completion_pnd e as bs (hC.setCmd c cmd)
  have hm : c ∈ as ++ c :: bs := by simp
  obtain ⟨f1, f2, f3, f4, f5, f6, f7⟩ := hC.pnd_facts hm
  obtain ⟨g1, g2, g3, g4, g5, g6, g7⟩ := hC2.snd_facts (show c ∈ snd ++ [c] by simp)
  obtain ⟨k1, k2, k3, k4, k5, k6, k7⟩ := CompletionCb_same e (setCmd s c cmd) c
  obtain ⟨k8, k9⟩ := CompletionCb_rest e (setCmd s c cmd) c
  have hcm : (CompletionCb e (setCmd s c cmd) c).cmds c = replyCmd e cmd := by
    rw [CompletionCb_cmd, setCmd_same]
  refine fields_update c h f1 k8 ?_ ?_ k9 ?_ ?_ ?_ ?_ ?_ ?_ ?_ ?_ ?_ ?_ ?_ ?_ ?_ ?_ ?_
  · intro i hi
    rw [CompletionCb_cmds, setCmd_other _ _ _ _ hi, setCmd_other _ _ _ _ hi]
  · intro ev hev; rw [k3]; exact hev
  · intro hs; rw [k1] at hs; exact hs
  · intro i _ hi; rw [k6] at hi; exact hi
  · intro i _ hi; rw [k7] at hi; exact hi
  · intro i hi hm
    rcases List.mem_append.1 hm with h1 | h1
    · exact h1
    · simp at h1; exact absurd h1 hi
  · intro i _ hm
    rcases List.mem_append.1 hm with h1 | h1
    · exact List.mem_append_left _ h1
    · exact List.mem_append_right _ (List.mem_cons_of_mem _ h1)
  · intro i _ hm; exact hm
  · rw [hcm, replyCmd_magic, ht.2.1]
  · rw [hcm, k3]
    intro d hd
    exact (ht.dataOK (h.data c · f1) (fun _ hev => hev) d hd).transfer (fun _ hev => hev)
      rfl rfl rfl
  · intro hr; exact absurd hr g3
  · intro hr; exact absurd hr g4
  · intro _
    rw [hcm]
    refine QueuedOK.replyCmd (fun h1 _ _ => ?_)
    exact ht.pendOK (h.pend c hm) h1
  · intro hp; exact absurd hp g5
  · intro hp; exact absurd hp f6
  · intro hp; exact absurd hp f7
  · intro a
    rw [k3, hcm]
    have : hold (replyCmd e cmd) a = hold (s.cmds c) a := by
      rw [← ht.hold a]; rfl
    rw [this]
    rfl

theorem setCmd_self (s : NbdServer β) (c : Nat) : setCmd s c (s.cmds c) = s := by
  cases s
  simp only [Blksrv.setCmd]
  congr 1
  funext i
  split_ifs with h
  · rw [h]
  · rfl

theorem MarkShutdown_rest (s : NbdServer β) (r : String) :
    (MarkShutdown s r).cmds = s.cmds ∧ (MarkShutdown s r).ncmds = s.ncmds ∧
    (MarkShutdown s r).trace = s.trace ∧ (MarkShutdown s r).deleted = s.deleted ∧
    (MarkShutdown s r).rcv_cmd_ = s.rcv_cmd_ ∧ (MarkShutdown s r).send_cmd_ = s.send_cmd_ ∧
    ((MarkShutdown s r).shutdown_ = false → s.shutdown_ = false) ∧
    (MarkShutdown s r).tx = s.tx ∧ (MarkShutdown s r).backend = s.backend := by
  unfold MarkShutdown
  split
  · exact ⟨rfl, rfl, rfl, rfl, rfl, rfl, fun h => h, rfl, rfl⟩
  · refine ⟨rfl, rfl, rfl, rfl, rfl, rfl, fun h => ?_, rfl, rfl⟩
    simp at h

theorem fields_markShutdown {e : Endian} {s : NbdServer β} {snd pnd fre : List Nat}
    (h : Fields e s snd pnd fre) (r : String) : Fields e (MarkShutdown s r) snd pnd fre := by
  obtain ⟨e1, e2, e3, e4, e5, e6, e7, _, _⟩ := MarkShutdown_rest s r
  exact fields_congr h e1 e2 e3 e4 e7 e5 e6

/-- `Free` of an object in hand that holds no buffer. -/
theorem fields_free {e : Endian} {s : NbdServer β} {hand snd pnd fre : List Nat} {c : Nat}
    (hC : Cont s (c :: hand) snd pnd fre) (h : Fields e s snd pnd fre)
    (hd : (s.cmds c).data_buf = none) :
    Fields e (CacheAllocator.Free s c) snd pnd (c :: fre) := by
  refine ⟨h.magic, h.data, h.rcv, h.send, h.queue, h.pend, ?_, h.del, h.bal⟩
  intro i hi
  rcases List.mem_cons.1 hi with rfl | hi
  · exact hd
  · exact h.free i hi

/-- The move of the command of the receive slot to the pending set in `PostRcvdCmd`. -/
theorem fields_postPend {e : Endian} {s : NbdServer β} {snd pnd fre : List Nat} {c : Nat}
    (hC : Cont s [] snd pnd fre) (hr : s.rcv_cmd_ = some c)
    (h : Fields e { s with rcv_cmd_ := none } snd pnd fre) (hp : PendOK e (s.cmds c)) :
    Fields e (postPend s c) snd (pnd ++ [c]) fre := by
  obtain ⟨f1, f2, f3, f4, f5, f6, f7⟩ := hC.rcv_facts hr
  have hcm : (postPend s c).cmds c =
      { s.cmds c with cur_state := NBDCMD_STATE_CMD_SUBMITTED } := by
    show (Blksrv.setCmd _ c _).cmds c = _
    rw [setCmd_same]
  refine fields_update c h f1 rfl ?_ (fun _ hev => hev) rfl (fun hs => hs)
    (fun _ _ hi => hi) (fun _ _ hi => hi) (fun _ _ hi => hi) ?_ (fun _ _ hi => hi)
    ?_ ?_ ?_ ?_ ?_ ?_ ?_ ?_ ?_
  · intro i hi
    show (Blksrv.setCmd _ c _).cmds i = _
    rw [setCmd_other _ _ _ _ hi]
  · intro i hi hm
    rcases List.mem_append.1 hm with h1 | h1
    · exact h1
    · simp at h1; exact absurd h1 hi
  · rw [hcm]
  · rw [hcm]
    intro d hd
    exact (h.data c d f1 hd).transfer (fun _ hev => hev) rfl rfl rfl
  · intro hx; cases hx
  · intro hx; exact absurd hx f3
  · intro hx; exact absurd hx f4
  · intro _; rw [hcm]; exact hp
  · intro hx; exact absurd hx f6
  · intro hx; exact absurd hx f7
  · intro a
    rw [hcm]
    rfl

/-- A callback has run on a pending command and left it as `cmd`. -/
theorem fields_backend {e : Endian} {s : NbdServer β} {hand snd pnd fre : List Nat} {c : Nat}
    (cmd : NbdCmd) (b : β) (ev : Event)
    (hC : Cont s hand snd pnd fre) (hm : c ∈ pnd) (h : Fields e s snd pnd fre)
    (ht : Touch (s.cmds c) cmd) (hev : ∀ a, evAlloc a ev = 0 ∧ evFree a ev = 0) :
    Fields e { setCmd s c cmd with backend := b, trace := s.trace ++ [ev] } snd pnd fre := by
  obtain ⟨f1, f2, f3, f4, f5, f6, f7⟩ := hC.pnd_facts hm
  have hcm : ({ setCmd s c cmd with backend := b, trace := s.trace ++ [ev] } :
      NbdServer β).cmds c = cmd := setCmd_same _ _ _
  refine fields_update c h f1 rfl ?_ (fun _ hev => List.mem_append_left _ hev) rfl
    (fun hs => hs) (fun _ _ hi => hi) (fun _ _ hi => hi) (fun _ _ hi => hi)
    (fun _ _ hi => hi) (fun _ _ hi => hi) ?_ ?_ ?_ ?_ ?_ ?_ ?_ ?_ ?_
  · intro i hi
    exact setCmd_other _ _ _ _ hi
  · rw [hcm, ht.2.1]
  · rw [hcm]
    exact ht.dataOK (h.data c · f1) (fun _ hev => List.mem_append_left _ hev)
  · intro hx; exact absurd hx f3
  · intro hx; exact absurd hx f4
  · intro hx; exact absurd hx f5
  · intro _; rw [hcm]; exact ht.pendOK (h.pend c hm)
  · intro hx; exact absurd hx f6
  · intro hx; exact absurd hx f7
  · intro a
    rw [hcm, ht.hold a]
    show allocs (s.trace ++ [ev]) a + _ + _ = _ + frees (s.trace ++ [ev]) a + _
    rw [allocs_append, frees_append]
    simp only [allocs, frees, List.map_cons, List.map_nil, List.sum_cons, List.sum_nil,
      (hev a).1, (hev a).2]
    omega

theorem good_invoke {e : Endian} {s : NbdServer β} {snd fre as bs : List Nat} {c : Nat}
    (ev : Event) (f : β → NbdCmd → CbResult β)
    (hC : Cont s [] snd (as ++ c :: bs) fre) (h : Fields e s snd (as ++ c :: bs) fre)
    (ht : ∀ b cmd, Touch cmd (f b cmd).cmd) (hev : ∀ a, evAlloc a ev = 0 ∧ evFree a ev = 0) :
    Good e (invoke e s c ev f) := by
  have hm : c ∈ as ++ c :: bs := by simp
  have h1 := fields_backend (f s.backend (s.cmds c)).cmd (f s.backend (s.cmds c)).backend ev
    hC hm h (ht _ _) hev
  have hC1 := hC.backend c (f s.backend (s.cmds c)).cmd (f s.backend (s.cmds c)).backend
    (s.trace ++ [ev])
  have key : ∀ s1 : NbdServer β, Cont s1 [] snd (as ++ c :: bs) fre →
      Fields e s1 snd (as ++ c :: bs) fre → Good e (CompletionCb e s1 c) := by
    intro s1 hC1 h1
    have h2 := fields_complete_pnd (s1.cmds c) hC1 h1 (Touch.rfl_ _)
    rw [setCmd_self] at h2
    exact ⟨_, _, _, Cont.completion_pnd e as bs hC1, h2⟩
  unfold NbdServer.invoke
  simp only
  split
  · exact key _ hC1 h1
  · exact ⟨_, _, _, hC1, h1⟩

/-- A command in hand is replaced as `Touch` allows, and calls that neither allocate nor
free a buffer are recorded. -/
theorem fields_hand {e : Endian} {s : NbdServer β} {hand snd pnd fre : List Nat} {c : Nat}
    (cmd : NbdCmd) (b : β) (tr : List Event)
    (hC : Cont s (c :: hand) snd pnd fre) (h : Fields e s snd pnd fre)
    (ht : Touch (s.cmds c) cmd)
    (hev : ∀ a, allocs tr a = 0 ∧ frees tr a = 0) :
    Fields e { setCmd s c cmd with backend := b, trace := s.trace ++ tr } snd pnd fre := by
  obtain ⟨f1, f2, f3, f4, f5, f6, f7, f8⟩ := hC.hand_head
  have hcm : ({ setCmd s c cmd with backend := b, trace := s.trace ++ tr } :
      NbdServer β).cmds c = cmd := setCmd_same _ _ _
  refine fields_update c h f1 rfl ?_ (fun _ hev => List.mem_append_left _ hev) rfl
    (fun hs => hs) (fun _ _ hi => hi) (fun _ _ hi => hi) (fun _ _ hi => hi)
    (fun _ _ hi => hi) (fun _ _ hi => hi) ?_ ?_ ?_ ?_ ?_ ?_ ?_ ?_ ?_
  · intro i hi
    exact setCmd_other _ _ _ _ hi
  · rw [hcm, ht.2.1]
  · rw [hcm]
    exact ht.dataOK (h.data c · f1) (fun _ hev => List.mem_append_left _ hev)
  · intro hx; exact absurd hx f3
  · intro hx; exact absurd hx f4
  · intro hx; exact absurd hx f5
  · intro hx; exact absurd hx f6
  · intro hx; exact absurd hx f7
  · intro hx; exact absurd hx f8
  · intro a
    rw [hcm, ht.hold a]
    show allocs (s.trace ++ tr) a + _ + _ = _ + frees (s.trace ++ tr) a + _
    rw [allocs_append, frees_append, (hev a).1, (hev a).2]
    omega

theorem fields_hand_set {e : Endian} {s : NbdServer β} {hand snd pnd fre : List Nat} {c : Nat}
    (cmd : NbdCmd) (hC : Cont s (c :: hand) snd pnd fre) (h : Fields e s snd pnd fre)
    (ht : Touch (s.cmds c) cmd) : Fields e (setCmd s c cmd) snd pnd fre := by
  have := fields_hand cmd s.backend [] hC h ht (fun a => ⟨rfl, rfl⟩)
  exact fields_congr this rfl rfl (by simp [Blksrv.setCmd]) rfl (fun hs => hs) rfl rfl

theorem evAlloc_neutral (a : Nat) (c : Nat) :
    (evAlloc a (.read c) = 0 ∧ evFree a (.read c) = 0) ∧
    (evAlloc a (.write c) = 0 ∧ evFree a (.write c) = 0) ∧
    (evAlloc a (.flush c) = 0 ∧ evFree a (.flush c) = 0) ∧
    (evAlloc a (.trim c) = 0 ∧ evFree a (.trim c) = 0) ∧
    (evAlloc a (.disconnect c) = 0 ∧ evFree a (.disconnect c) = 0) := by
  simp [evAlloc, evFree]

theorem good_postRcvdCmd {P : NbdParams β} {e : Endian} {s : NbdServer β}
    {snd pnd fre : List Nat} {c : Nat} (hP : WellBehaved P)
    (hC : Cont s [] snd pnd fre) (hr : s.rcv_cmd_ = some c)
    (h : Fields e { s with rcv_cmd_ := none } snd pnd fre) (hp : PendOK e (s.cmds c))
    (hd : load e (s.cmds c).req 4 4 = NBD_CMD_DISC → (s.cmds c).data_buf = none) :
    Good e (PostRcvdCmd P e s) := by
  have hCp := hC.postPend hr
  have hFp := fields_postPend hC hr h hp
  by_cases hdc : load e (s.cmds c).req 4 4 = NBD_CMD_DISC
  · have hCd := Cont.postRcvdCmd_disc P e hC hr hdc
    refine ⟨_, _, _, hCd, ?_⟩
    rw [PostRcvdCmd_disc P e s c hr hdc]
    have hC0 : Cont (postSub s c) [c] snd pnd fre := (hC.take_rcv hr).setCmd c _
    have hF0 : Fields e (postSub s c) snd pnd fre :=
      fields_hand_set _ (hC.take_rcv hr) h ⟨rfl, rfl, rfl, rfl⟩
    have hd0 : ((postSub s c).cmds c).data_buf = none := by
      rw [postSub_cmd]; exact hd hdc
    cases hdf : P.disconnect with
    | none =>
      exact fields_free (hC0.markShutdown _) (fields_markShutdown hF0 _)
        (by rw [(MarkShutdown_rest _ _).1]; exact hd0)
    | some f =>
      have ht := hP.disconnect f hdf (postSub s c).backend ((postSub s c).cmds c)
      have hF1 := fields_hand (f (postSub s c).backend ((postSub s c).cmds c)).2
        (f (postSub s c).backend ((postSub s c).cmds c)).1 [.disconnect c] hC0 hF0 ht
        (fun a => by simp [allocs, frees, evAlloc, evFree])
      have hC1 := hC0.backend c (f (postSub s c).backend ((postSub s c).cmds c)).2
        (f (postSub s c).backend ((postSub s c).cmds c)).1 ((postSub s c).trace ++ [.disconnect c])
      refine fields_free (hC1.markShutdown _) (fields_markShutdown hF1 _) ?_
      rw [(MarkShutdown_rest _ _).1]
      show ((Blksrv.setCmd _ c _).cmds c).data_buf = none
      rw [setCmd_same]
      have := ht.isSome
      rw [hd0] at this
      simpa using this
  · obtain ⟨c1, c2, c3, c4⟩ := PostRcvdCmd_call P e s c hr
    by_cases h0 : load e (s.cmds c).req 4 4 = NBD_CMD_READ
    · rw [c1 h0]
      exact good_invoke (.read c) P.read hCp hFp hP.read (fun a => (evAlloc_neutral a c).1)
    by_cases h1 : load e (s.cmds c).req 4 4 = NBD_CMD_WRITE
    · rw [c2 h1]
      exact good_invoke (.write c) P.write hCp hFp hP.write (fun a => (evAlloc_neutral a c).2.1)
    by_cases h3 : load e (s.cmds c).req 4 4 = NBD_CMD_FLUSH
    · rw [c3 h3]
      exact good_invoke (.flush c) P.flush hCp hFp hP.flush
        (fun a => (evAlloc_neutral a c).2.2.1)
    by_cases h4 : load e (s.cmds c).req 4 4 = NBD_CMD_TRIM
    · rw [c4 h4]
      exact good_invoke (.trim c) P.trim hCp hFp hP.trim
        (fun a => (evAlloc_neutral a c).2.2.2.1)
    rw [PostRcvdCmd_some P e s c hr, postCall_eq]
    simp only [if_neg h0, if_neg h1, if_neg hdc, if_neg h3, if_neg h4]
    exact ⟨_, _, _, Cont.completion_pnd e pnd [] (hCp.setCmd c _),
      fields_complete_pnd _ hCp hFp ⟨rfl, rfl, rfl, rfl⟩⟩

/-- The command of the receive slot is replaced; it stays in the slot or is taken in
hand. -/
theorem fields_rcv {e : Endian} {s s2 : NbdServer β} {snd pnd fre : List Nat} {c : Nat}
    (hC : Cont s [] snd pnd fre) (h : Fields e s snd pnd fre) (hr : s.rcv_cmd_ = some c)
    (hn : s2.ncmds = s.ncmds)
    (ho : ∀ i, i ≠ c → s2.cmds i = s.cmds i)
    (htr : ∀ ev, ev ∈ s.trace → ev ∈ s2.trace)
    (hdl : s2.deleted = s.deleted)
    (hsh : s2.shutdown_ = false → s.shutdown_ = false)
    (hrcv : s2.rcv_cmd_ = some c ∨ s2.rcv_cmd_ = none)
    (hsend : s2.send_cmd_ = s.send_cmd_)
    (cmagic : readAt (s2.cmds c).reply 0 4 = readAt (s.cmds c).reply 0 4)
    (cdata : ∀ d, (s2.cmds c).data_buf = some d → DataOK e s2.trace (s2.cmds c) d)
    (crcv : s2.rcv_cmd_ = some c → s2.shutdown_ = false → RcvOK e (s2.cmds c))
    (bal : ∀ a, allocs s2.trace a + frees s.trace a + hold (s.cmds c) a =
      allocs s.trace a + frees s2.trace a + hold (s2.cmds c) a) :
    Fields e s2 snd pnd fre := by
  obtain ⟨f1, f2, f3, f4, f5, f6, f7⟩ := hC.rcv_facts hr
  refine fields_update c h f1 hn ho htr hdl hsh ?_ ?_ (fun _ _ hi => hi) (fun _ _ hi => hi)
    (fun _ _ hi => hi) cmagic cdata crcv ?_ ?_ ?_ ?_ ?_ bal
  · intro i hi hx
    rcases hrcv with h1 | h1
    · rw [h1] at hx; cases hx; exact absurd rfl hi
    · rw [h1] at hx; cases hx
  · intro i _ hx; rw [← hsend]; exact hx
  · intro hx; rw [hsend] at hx; exact absurd hx f3
  · intro hx; exact absurd hx f4
  · intro hx; exact absurd hx f5
  · intro hx; exact absurd hx f6
  · intro hx; exact absurd hx f7

/-- The completion hook on the command of the receive slot, which the engine has
rejected with a non-zero error. -/
theorem fields_complete_rcv {e : Endian} {s : NbdServer β} {snd pnd fre : List Nat} {c : Nat}
    (cmd : NbdCmd) (hC : Cont s [] snd pnd fre) (h : Fields e s snd pnd fre)
    (hr : s.rcv_cmd_ = some c)
    (hrep : cmd.reply = (s.cmds c).reply) (hdb : cmd.data_buf = none)
    (hdo : (s.cmds c).data_buf = none) (herr : cmd.ret_error ≠ 0) :
    Fields e { CompletionCb e (setCmd s c cmd) c with rcv_cmd_ := none } (snd ++ [c]) pnd fre := by
  obtain ⟨f1, f2, f3, f4, f5, f6, f7⟩ := hC.rcv_facts hr
  obtain ⟨k1, k2, k3, k4, k5, k6, k7⟩ := CompletionCb_same e (setCmd s c cmd) c
  obtain ⟨k8, k9⟩ := CompletionCb_rest e (setCmd s c cmd) c
  have hcm : ({ CompletionCb e (setCmd s c cmd) c with rcv_cmd_ := none } :
      NbdServer β).cmds c = replyCmd e cmd := by
    show (CompletionCb e (setCmd s c cmd) c).cmds c = _
    rw [CompletionCb_cmd, setCmd_same]
  refine fields_update c h f1 k8 ?_ ?_ k9 ?_ ?_ ?_ ?_ (fun _ _ hi => hi) (fun _ _ hi => hi)
    ?_ ?_ ?_ ?_ ?_ ?_ ?_ ?_ ?_
  · intro i hi
    show (CompletionCb e (setCmd s c cmd) c).cmds i = _
    rw [CompletionCb_cmds, setCmd_other _ _ _ _ hi, setCmd_other _ _ _ _ hi]
  · intro ev hev
    show ev ∈ (CompletionCb e (setCmd s c cmd) c).trace
    rw [k3]; exact hev
  · intro hs
    have : (CompletionCb e (setCmd s c cmd) c).shutdown_ = false := hs
    rw [k1] at this; exact this
  · intro i _ hi; cases hi
  · intro i _ hi
    have : (CompletionCb e (setCmd s c cmd) c).send_cmd_ = some i := hi
    rw [k7] at this; exact this
  · intro i hi hm
    rcases List.mem_append.1 hm with h1 | h1
    · exact h1
    · simp at h1; exact absurd h1 hi
  · rw [hcm, replyCmd_magic, hrep]
  · rw [hcm]
    intro d hd
    have : (replyCmd e cmd).data_buf = cmd.data_buf := rfl
    rw [this, hdb] at hd
    cases hd
  · intro hx; cases hx
  · intro hx
    have : (CompletionCb e (setCmd s c cmd) c).send_cmd_ = some c := hx
    rw [k7] at this; exact absurd this f3
  · intro _
    rw [hcm]
    exact QueuedOK.replyCmd (fun _ h0 _ => absurd h0 herr)
  · intro hx; exact absurd hx f5
  · intro hx; exact absurd hx f6
  · intro hx; exact absurd hx f7
  · intro a
    rw [hcm]
    have e1 : hold (replyCmd e cmd) a = 0 := hold_none hdb a
    have e2 : hold (s.cmds c) a = 0 := hold_none hdo a
    rw [e1, e2]
    show allocs (CompletionCb e (setCmd s c cmd) c).trace a + _ + 0 =
      _ + frees (CompletionCb e (setCmd s c cmd) c).trace a + 0
    rw [k3]
    show allocs s.trace a + _ + 0 = _ + frees s.trace a + 0
    omega

theorem allocs_single (L : Nat) (r : Option Nat) (a : Nat) :
    allocs [.alloc_data_mem L r] a = (if r = some a then 1 else 0) ∧
    frees [.alloc_data_mem L r] a = 0 := by
  cases r with
  | none => simp [allocs, frees, evAlloc, evFree]
  | some b => simp [allocs, frees, evAlloc, evFree]

theorem good_rcvDispatch {P : NbdParams β} {e : Endian} {s : NbdServer β}
    {snd pnd fre : List Nat} {c : Nat} (D : NbdCmd) (hP : WellBehaved P)
    (hC : Cont s [] snd pnd fre) (h : Fields e s snd pnd fre) (hr : s.rcv_cmd_ = some c)
    (hs : s.shutdown_ = false)
    (hD0 : (s.cmds c).data_buf = none) (hD1 : D.reply = (s.cmds c).reply)
    (hD2 : D.data_buf = none) (hD3 : be32toh e (load e D.req 24 4) = D.io_size) :
    Good e (rcvDispatch P e s c D) := by
  have hold0 : ∀ a, hold (s.cmds c) a = 0 := hold_none hD0
  by_cases ht : load e D.req 4 4 = NBD_CMD_READ ∨ load e D.req 4 4 = NBD_CMD_WRITE
  · by_cases hl : D.io_size = 0 ∨ kMaxNbdIOSize < D.io_size
    · rw [rcvDispatch_reject P e s c D ht hl]
      exact ⟨_, _, _, Cont.completion_rcv e (hC.setCmd c _) hr,
        fields_complete_rcv _ hC h hr hD1 hD2 hD0 (show EINVAL ≠ 0 by decide)⟩
    · have h1 : 1 ≤ D.io_size := by omega
      have h2 : D.io_size ≤ kMaxNbdIOSize := by omega
      rw [rcvDispatch_alloc P e s c D ht h1 h2]
      cases ha : (P.alloc_data_mem s.backend D.io_size).1 with
      | none =>
        simp only
        rw [MarkShutdown_fresh _ _ (show ({ Blksrv.setCmd s c _ with
          backend := _, trace := _ } : NbdServer β).shutdown_ = false from hs)]
        refine ⟨snd, pnd, fre, (hC.setCmd c (allocCmd D none)).congr rfl rfl rfl rfl rfl rfl rfl rfl, ?_⟩
        refine fields_rcv hC h hr rfl (fun i hi => setCmd_other _ _ _ _ hi)
          (fun _ hev => List.mem_append_left _ hev) rfl (fun hx => by cases hx) (Or.inl hr) rfl
          ?_ ?_ (fun _ hx => by cases hx) ?_
        · show readAt ((Blksrv.setCmd s c _).cmds c).reply 0 4 = _
          rw [setCmd_same]
          show readAt D.reply 0 4 = _
          rw [hD1]
        · intro d hd
          have : ((Blksrv.setCmd s c (allocCmd D none)).cmds c).data_buf = some d := hd
          rw [setCmd_same] at this
          cases this
        · intro a
          show allocs (s.trace ++ _) a + _ + _ = _ + frees (s.trace ++ _) a +
            hold ((Blksrv.setCmd s c _).cmds c) a
          rw [setCmd_same, allocs_append, frees_append, (allocs_single _ _ a).1,
            (allocs_single _ _ a).2, hold0 a, hold_none rfl a]
          simp
      | some d =>
        simp only
        have hdata : DataOK e (s.trace ++ [.alloc_data_mem D.io_size (some d.addr)])
            (allocCmd D (some d)) d :=
          ⟨ht, h1, h2, hD3, List.mem_append_right _ (List.mem_singleton.2 rfl)⟩
        have hbal : ∀ a, allocs (s.trace ++ [.alloc_data_mem D.io_size (some d.addr)]) a +
            frees s.trace a + hold (s.cmds c) a =
            allocs s.trace a + frees (s.trace ++ [.alloc_data_mem D.io_size (some d.addr)]) a +
            hold (allocCmd D (some d)) a := by
          intro a
          rw [allocs_append, frees_append, (allocs_single _ _ a).1, (allocs_single _ _ a).2,
            hold0 a, hold_some rfl a]
          simp only [Option.some.injEq]
          omega
        split_ifs with hw
        · -- a read: dispatched at once
          have hty : load e D.req 4 4 = NBD_CMD_READ := by
            rcases ht with h0 | h0
            · exact h0
            · exact absurd h0 hw
          have hCX := hC.backend c (allocCmd D (some d))
            (P.alloc_data_mem s.backend D.io_size).2
            (s.trace ++ [.alloc_data_mem D.io_size (some d.addr)])
          refine good_postRcvdCmd hP hCX hr ?_ ?_ ?_
          · refine fields_rcv hC h hr rfl (fun i hi => setCmd_other _ _ _ _ hi)
              (fun _ hev => List.mem_append_left _ hev) rfl (fun hx => hx) (Or.inr rfl) rfl
              ?_ ?_ (fun hx => by cases hx) ?_
            · show readAt ((Blksrv.setCmd s c _).cmds c).reply 0 4 = _
              rw [setCmd_same]
              show readAt D.reply 0 4 = _
              rw [hD1]
            · show ∀ d1, ((Blksrv.setCmd s c _).cmds c).data_buf = some d1 →
                DataOK e _ ((Blksrv.setCmd s c _).cmds c) d1
              rw [setCmd_same]
              intro d1 hd1
              cases hd1
              exact hdata
            · intro a
              show _ + _ + _ = _ + _ + hold ((Blksrv.setCmd s c _).cmds c) a
              rw [setCmd_same]
              exact hbal a
          · show PendOK e ((Blksrv.setCmd s c _).cmds c)
            rw [setCmd_same]
            intro _
            rfl
          · show load e ((Blksrv.setCmd s c _).cmds c).req 4 4 = NBD_CMD_DISC → _
            rw [setCmd_same]
            intro hx
            have : load e D.req 4 4 = NBD_CMD_DISC := hx
            rw [hty] at this
            cases this
        · -- a write: the payload is to come
          have hty : load e D.req 4 4 = NBD_CMD_WRITE := not_not.1 hw
          refine ⟨snd, pnd, fre, hC.backend c _ _ _, ?_⟩
          refine fields_rcv hC h hr rfl (fun i hi => setCmd_other _ _ _ _ hi)
            (fun _ hev => List.mem_append_left _ hev) rfl (fun hx => hx) (Or.inl hr) rfl
            ?_ ?_ ?_ ?_
          · show readAt ((Blksrv.setCmd s c _).cmds c).reply 0 4 = _
            rw [setCmd_same]
            show readAt D.reply 0 4 = _
            rw [hD1]
          · show ∀ d1, ((Blksrv.setCmd s c _).cmds c).data_buf = some d1 →
              DataOK e _ ((Blksrv.setCmd s c _).cmds c) d1
            rw [setCmd_same]
            intro d1 hd1
            cases hd1
            exact hdata.transfer (fun _ hev => hev) rfl rfl rfl
          · intro _ _
            show RcvOK e ((Blksrv.setCmd s c _).cmds c)
            rw [setCmd_same]
            refine Or.inr ⟨rfl, rfl, hty, ?_, h1, le_refl _⟩
            show (⟨.data, 0⟩ : IoPtr) = ⟨.data, D.io_size - D.io_size⟩
            rw [Nat.sub_self]
          · intro a
            show _ + _ + _ = _ + _ + hold ((Blksrv.setCmd s c _).cmds c) a
            rw [setCmd_same]
            exact (hbal a).trans (by rw [hold_some rfl a, hold_some rfl a])
  · rw [not_or] at ht
    rw [rcvDispatch_other P e s c D ht.1 ht.2]
    refine good_postRcvdCmd hP (hC.setCmd c D) hr ?_ ?_ ?_
    · refine fields_rcv hC h hr rfl (fun i hi => setCmd_other _ _ _ _ hi)
        (fun _ hev => hev) rfl (fun hx => hx) (Or.inr rfl) rfl ?_ ?_ (fun hx => by cases hx) ?_
      · show readAt ((Blksrv.setCmd s c _).cmds c).reply 0 4 = _
        rw [setCmd_same, hD1]
      · show ∀ d1, ((Blksrv.setCmd s c _).cmds c).data_buf = some d1 → _
        rw [setCmd_same, hD2]
        intro d1 hd1
        cases hd1
      · intro a
        show _ + _ + _ = _ + _ + hold ((Blksrv.setCmd s c _).cmds c) a
        rw [setCmd_same, hold0 a, hold_none hD2 a]
        rfl
    · rw [setCmd_same]
      intro hx
      exact absurd hx ht.1
    · rw [setCmd_same]
      intro _
      exact hD2

theorem good_rcvRequest {P : NbdParams β} {e : Endian} {s : NbdServer β}
    {snd pnd fre : List Nat} {c : Nat} (cmd1 : NbdCmd) (hP : WellBehaved P)
    (hC : Cont s [] snd pnd fre) (h : Fields e s snd pnd fre) (hr : s.rcv_cmd_ = some c)
    (hs : s.shutdown_ = false)
    (h0 : (s.cmds c).data_buf = none) (h1 : cmd1.reply = (s.cmds c).reply)
    (h2 : cmd1.data_buf = none) :
    Good e (rcvRequest P e s c cmd1) := by
  show Sat (Good e) _
  unfold NbdServer.rcvRequest
  refine Sat.cond ?_ ?_
  · show Good e (MarkShutdown (Blksrv.setCmd s c (hostType e cmd1)) "Invalid cmd received")
    rw [MarkShutdown_fresh _ _ (show (Blksrv.setCmd s c (hostType e cmd1)).shutdown_ = false from hs)]
    refine ⟨snd, pnd, fre, (hC.setCmd c (hostType e cmd1)).congr rfl rfl rfl rfl rfl rfl rfl rfl, ?_⟩
    refine fields_rcv hC h hr rfl (fun i hi => setCmd_other _ _ _ _ hi)
      (fun _ hev => hev) rfl (fun hx => by cases hx) (Or.inl hr) rfl
      ?_ ?_ (fun _ hx => by cases hx) ?_
    · show readAt ((Blksrv.setCmd s c _).cmds c).reply 0 4 = _
      rw [setCmd_same]
      show readAt cmd1.reply 0 4 = _
      rw [h1]
    · intro d hd
      have : ((Blksrv.setCmd s c (hostType e cmd1)).cmds c).data_buf = some d := hd
      rw [setCmd_same] at this
      have e2 : (hostType e cmd1).data_buf = cmd1.data_buf := rfl
      rw [e2, h2] at this
      cases this
    · intro a
      show _ + _ + _ = _ + _ + hold ((Blksrv.setCmd s c (hostType e cmd1)).cmds c) a
      rw [setCmd_same, hold_none h0 a, hold_none (show (hostType e cmd1).data_buf = none from h2) a]
      rfl
  · exact good_rcvDispatch _ hP hC h hr hs h0 h1 h2 rfl

theorem poke_fields (cmd : NbdCmd) (p : IoPtr) (bs : List Byte) (hp : p.region ≠ .reply) :
    (cmd.poke p bs).reply = cmd.reply ∧ (cmd.poke p bs).cur_state = cmd.cur_state ∧
    (cmd.poke p bs).cur_io_ptr = cmd.cur_io_ptr ∧ (cmd.poke p bs).io_size = cmd.io_size ∧
    (cmd.poke p bs).io_size_remaining = cmd.io_size_remaining ∧
    (cmd.poke p bs).data_buf.map DataBuf.addr = cmd.data_buf.map DataBuf.addr ∧
    (p.region = .data → (cmd.poke p bs).req = cmd.req) ∧
    (p.region = .req → (cmd.poke p bs).data_buf = cmd.data_buf) := by
  unfold NbdCmd.poke
  cases hreg : p.region with
  | req => simp
  | reply => exact absurd hreg hp
  | data =>
    simp only [true_implies, reduceCtorEq, false_implies, and_true, true_and]
    cases cmd.data_buf <;> rfl

theorem Sat.branch {α : Type} {Q : α → Prop} {c : Prop} [Decidable c] {a b : α}
    (ha : c → Sat Q a) (hb : ¬ c → Sat Q b) : Sat Q (if c then a else b) := by
  split
  · exact ha ‹_›
  · exact hb ‹_›

theorem good_rcvBytes {P : NbdParams β} {e : Endian} {s : NbdServer β}
    {snd pnd fre : List Nat} {c : Nat} (rd : RecvRes) (hP : WellBehaved P)
    (hC : Cont s [] snd pnd fre) (h : Fields e s snd pnd fre) (hr : s.rcv_cmd_ = some c)
    (hs : s.shutdown_ = false) : Good e (rcvBytes P e s c rd) := by
  have hok := h.rcv c hr hs
  obtain ⟨f1, f2, f3, f4, f5, f6, f7⟩ := hC.rcv_facts hr
  cases rd with
  | again => exact ⟨_, _, _, hC, h⟩
  | fail => exact ⟨_, _, _, hC.markShutdown _, fields_markShutdown h _⟩
  | ok bs =>
    have hreg : (s.cmds c).cur_io_ptr.region ≠ .reply := by
      rcases hok with hk | hk
      · rw [hk.2.2.1]; simp
      · rw [hk.2.2.2.1]; simp
    obtain ⟨p1, p2, p3, p4, p5, p6, p7, p8⟩ := poke_fields (s.cmds c) (s.cmds c).cur_io_ptr
      (bs.take (s.cmds c).io_size_remaining) hreg
    have hk : (bs.take (s.cmds c).io_size_remaining).length ≤ (s.cmds c).io_size_remaining :=
      List.length_take_le _ _
    show Sat (Good e) _
    unfold NbdServer.rcvBytes
    simp only
    generalize (s.cmds c).poke (s.cmds c).cur_io_ptr (bs.take (s.cmds c).io_size_remaining) = pk
      at p1 p2 p3 p4 p5 p6 p7 p8 ⊢
    generalize (bs.take (s.cmds c).io_size_remaining).length = k at hk ⊢
    refine Sat.branch (fun _ => ?_) (fun hk0 => Sat.branch (fun hrem => ?_) (fun hrem =>
      Sat.branch (fun hst => ?_) (fun hst => ?_)))
    · exact ⟨_, _, _, hC.markShutdown _, fields_markShutdown h _⟩
    · -- part of the bytes: the cursor moves on
      have hrem2 : (s.cmds c).io_size_remaining - k ≠ 0 := hrem
      refine ⟨snd, pnd, fre, hC.setCmd c _, ?_⟩
      refine fields_rcv hC h hr rfl (fun i hi => setCmd_other _ _ _ _ hi)
        (fun _ hev => hev) rfl (fun hx => hx) (Or.inl hr) rfl ?_ ?_ ?_ ?_
      · rw [setCmd_same]
        show readAt pk.reply 0 4 = _
        rw [p1]
      · rw [setCmd_same]
        intro d hd
        have hd2 : pk.data_buf = some d := hd
        rcases hok with hk1 | hk1
        · rw [p8 (by rw [hk1.2.2.1]), hk1.2.1] at hd2
          cases hd2
        · have ht : Touch (s.cmds c) pk := ⟨p7 (by rw [hk1.2.2.2.1]), p1, p4, p6⟩
          exact (ht.dataOK (h.data c · f1) (fun _ hev => hev) d hd2).transfer
            (fun _ hev => hev) rfl rfl rfl
      · intro _ _
        rw [setCmd_same]
        rcases hok with hk1 | hk1
        · refine Or.inl ⟨?_, ?_, ?_, ?_, ?_⟩
          · show pk.cur_state = _
            rw [p2]; exact hk1.1
          · show pk.data_buf = _
            rw [p8 (by rw [hk1.2.2.1])]; exact hk1.2.1
          · show (⟨pk.cur_io_ptr.region, pk.cur_io_ptr.off + k⟩ : IoPtr) =
              ⟨.req, sizeof_req - ((s.cmds c).io_size_remaining - k)⟩
            rw [p3, hk1.2.2.1]
            simp only [IoPtr.mk.injEq, true_and]
            have := hk1.2.2.2.2
            omega
          · show 0 < (s.cmds c).io_size_remaining - k
            omega
          · show (s.cmds c).io_size_remaining - k ≤ _
            have := hk1.2.2.2.2
            omega
        · refine Or.inr ⟨?_, ?_, ?_, ?_, ?_, ?_⟩
          · show pk.cur_state = _
            rw [p2]; exact hk1.1
          · show pk.data_buf.isSome = _
            have := congrArg Option.isSome p6
            simp only [Option.isSome_map'] at this
            rw [this]; exact hk1.2.1
          · show load e pk.req 4 4 = _
            rw [p7 (by rw [hk1.2.2.2.1])]; exact hk1.2.2.1
          · show (⟨pk.cur_io_ptr.region, pk.cur_io_ptr.off + k⟩ : IoPtr) =
              ⟨.data, pk.io_size - ((s.cmds c).io_size_remaining - k)⟩
            rw [p3, hk1.2.2.2.1, p4]
            simp only [IoPtr.mk.injEq, true_and]
            have := hk1.2.2.2.2.2
            omega
          · show 0 < (s.cmds c).io_size_remaining - k
            omega
          · show (s.cmds c).io_size_remaining - k ≤ pk.io_size
            rw [p4]
            have := hk1.2.2.2.2.2
            omega
      · intro a
        rw [setCmd_same]
        show _ + _ + _ = _ + _ + hold pk a
        rw [hold_congr p6 a]
        rfl
    · -- the last byte of the payload of a write
      have hst2 : (s.cmds c).cur_state = NBDCMD_STATE_RCV_WRITE_DATA := by
        rw [← p2]; exact hst
      rcases hok with hk1 | hk1
      · rw [hk1.1] at hst2; cases hst2
      have ht : Touch (s.cmds c) pk := ⟨p7 (by rw [hk1.2.2.2.1]), p1, p4, p6⟩
      refine good_postRcvdCmd hP (hC.setCmd c _) hr ?_ ?_ ?_
      · refine fields_rcv hC h hr rfl (fun i hi => setCmd_other _ _ _ _ hi)
          (fun _ hev => hev) rfl (fun hx => hx) (Or.inr rfl) rfl ?_ ?_ (fun hx => by cases hx) ?_
        · show readAt ((Blksrv.setCmd s c _).cmds c).reply 0 4 = _
          rw [setCmd_same]
          show readAt pk.reply 0 4 = _
          rw [p1]
        · show ∀ d1, ((Blksrv.setCmd s c _).cmds c).data_buf = some d1 → _
          rw [setCmd_same]
          intro d hd
          exact (ht.dataOK (h.data c · f1) (fun _ hev => hev) d hd).transfer
            (fun _ hev => hev) rfl rfl rfl
        · intro a
          show _ + _ + _ = _ + _ + hold ((Blksrv.setCmd s c _).cmds c) a
          rw [setCmd_same]
          show _ + _ + _ = _ + _ + hold pk a
          rw [ht.hold a]
          rfl
      · rw [setCmd_same]
        intro hx
        have : load e pk.req 4 4 = NBD_CMD_READ := hx
        rw [ht.1, hk1.2.2.1] at this
        cases this
      · rw [setCmd_same]
        intro hx
        have : load e pk.req 4 4 = NBD_CMD_DISC := hx
        rw [ht.1, hk1.2.2.1] at this
        cases this
    · -- the last byte of a request header
      have hst2 : (s.cmds c).cur_state ≠ NBDCMD_STATE_RCV_WRITE_DATA := by
        rw [← p2]; exact hst
      rcases hok with hk1 | hk1
      · refine good_rcvRequest _ hP hC h hr hs hk1.2.1 p1 ?_
        show pk.data_buf = none
        rw [p8 (by rw [hk1.2.2.1])]; exact hk1.2.1
      · exact absurd hk1.1 hst2

/-- What `Alloc` does to the objects: it takes the head of the free list and leaves the
objects alone, or it makes the object `ncmds`. -/
theorem Alloc_state {s : NbdServer β} {hand snd pnd fre : List Nat}
    (h : Cont s hand snd pnd fre) (e : Endian) (arg : Nat) (nw : Option NbdCmd) (c : Nat)
    (hc : (CacheAllocator.Alloc e arg s nw).1 = some c) :
    (CacheAllocator.Alloc e arg s nw).2.trace = s.trace ∧
    (CacheAllocator.Alloc e arg s nw).2.deleted = s.deleted ∧
    (CacheAllocator.Alloc e arg s nw).2.shutdown_ = s.shutdown_ ∧
    ((c ∈ fre ∧ (CacheAllocator.Alloc e arg s nw).2.cmds = s.cmds ∧
        (CacheAllocator.Alloc e arg s nw).2.ncmds = s.ncmds) ∨
      (fre = [] ∧ c = s.ncmds ∧ (CacheAllocator.Alloc e arg s nw).2.ncmds = s.ncmds + 1 ∧
        ∃ raw, (CacheAllocator.Alloc e arg s nw).2.cmds =
          (setCmd s s.ncmds (alloc_nbd_cmd_ e arg raw)).cmds)) := by
  match fre, h with
  | [], h =>
    have e1 := PopFront_nil h.lists.free
    match nw with
    | none =>
      simp [CacheAllocator.Alloc, e1] at hc
    | some raw =>
      simp only [CacheAllocator.Alloc, e1] at hc ⊢
      cases hc
      exact ⟨rfl, rfl, rfl, Or.inr ⟨trivial, rfl, trivial, raw, rfl⟩⟩
  | y :: ys, h =>
    obtain ⟨m2, e1, hl⟩ := h.lists.popFront_free
    simp only [CacheAllocator.Alloc, e1] at hc ⊢
    cases hc
    exact ⟨trivial, trivial, trivial, Or.inl ⟨List.mem_cons_self _ _, trivial, trivial⟩⟩

theorem alloc_magic (e : Endian) (arg : Nat) (raw : NbdCmd) :
    readAt (alloc_nbd_cmd_ e arg raw).reply 0 4 = beBytes 4 NBD_REPLY_MAGIC := by
  show readAt (store e raw.reply 0 4 (htobe32 e NBD_REPLY_MAGIC)) 0 4 = _
  exact readAt_store_htobe32 e _ _ _

theorem RcvOK.reset (e : Endian) (cmd : NbdCmd) :
    RcvOK e { cmd.Reset with server := true } :=
  Or.inl ⟨rfl, rfl, rfl, (show 0 < sizeof_req by decide), le_refl _⟩

theorem sum_range_succ_hold (f : Nat → Nat) (n : Nat) :
    ((List.range (n + 1)).map f).sum = ((List.range n).map f).sum + f n := by
  rw [List.range_succ, List.map_append, List.sum_append]
  simp

theorem good_rcvSlot {e : Endian} {s : NbdServer β} (P : NbdParams β) (nw : Option NbdCmd)
    (hnw : nw.isSome → s.ncmds + 1 < 2 ^ 32) (hg : Good e s) :
    Good e (rcvSlot P e s nw).2 := by
  obtain ⟨snd, pnd, fre, hC, h⟩ := hg
  unfold NbdServer.rcvSlot
  cases hr : s.rcv_cmd_ with
  | some c => exact ⟨_, _, _, hC, h⟩
  | none =>
    simp only
    cases ha : (CacheAllocator.Alloc e P.arg s nw).1 with
    | none =>
      simp only
      rw [Alloc_none hC e P.arg nw ha]
      exact ⟨_, _, _, hC.congr rfl rfl rfl rfl hr.symm rfl rfl rfl,
        fields_congr h rfl rfl rfl rfl (fun hx => hx) hr.symm rfl⟩
    | some c =>
      simp only
      obtain ⟨hC1, a2, a3, _, _⟩ := Alloc_some hC e P.arg nw hnw c ha
      obtain ⟨t1, t2, t3, t4⟩ := Alloc_state hC e P.arg nw c ha
      obtain ⟨g1, g2, g3, g4, g5, g6, g7, g8⟩ := hC1.hand_head
      have hC2 : Cont ({ Blksrv.setCmd (CacheAllocator.Alloc e P.arg s nw).2 c
          { ((CacheAllocator.Alloc e P.arg s nw).2.cmds c).Reset with server := true } with
          rcv_cmd_ := some c } : NbdServer β) [] snd pnd fre.tail :=
        Cont.put_rcv (hC1.setCmd c _) (by rw [← hr, ← a2]; rfl)
      refine ⟨snd, pnd, fre.tail, hC2, ?_⟩
      have hcm : ∀ x, ({ Blksrv.setCmd (CacheAllocator.Alloc e P.arg s nw).2 c x with
          rcv_cmd_ := some c } : NbdServer β).cmds c = x := fun x => setCmd_same _ _ _
      have hot : ∀ x i, i ≠ c → ({ Blksrv.setCmd (CacheAllocator.Alloc e P.arg s nw).2 c x with
          rcv_cmd_ := some c } : NbdServer β).cmds i =
            (CacheAllocator.Alloc e P.arg s nw).2.cmds i := fun x i hi => setCmd_other _ _ _ _ hi
      rcases t4 with ⟨hcf, hcm0, hn0⟩ | ⟨hf0, hcn, hn1, raw, hcm1⟩
      · -- an object of the free list
        obtain ⟨k1, k2, k3, k4, k5, k6, k7⟩ := hC.fre_facts hcf
        refine fields_update c h k1 hn0 ?_ ?_ t2 ?_ ?_ ?_ (fun _ _ hi => hi) (fun _ _ hi => hi)
          ?_ ?_ ?_ ?_ ?_ ?_ ?_ ?_ ?_ ?_
        · intro i hi
          rw [hot _ i hi, hcm0]
        · intro ev hev
          show ev ∈ (CacheAllocator.Alloc e P.arg s nw).2.trace
          rw [t1]; exact hev
        · intro hx
          have : (CacheAllocator.Alloc e P.arg s nw).2.shutdown_ = false := hx
          rw [t3] at this; exact this
        · intro i hi hx
          cases hx
          exact absurd rfl hi
        · intro i _ hx
          have : (CacheAllocator.Alloc e P.arg s nw).2.send_cmd_ = some i := hx
          rw [a3] at this; exact this
        · intro i _ hx
          exact List.mem_of_mem_tail hx
        · rw [hcm, hcm0]
          rfl
        · rw [hcm]
          intro d hd
          cases hd
        · intro _ _
          rw [hcm]
          exact RcvOK.reset e _
        · intro hx
          exact absurd hx g4
        · intro hx; exact absurd hx g5
        · intro hx; exact absurd hx g6
        · intro hx; exact absurd hx g7
        · intro hx; exact absurd hx k7
        · intro a
          rw [hcm, hold_none (h.free c hcf) a, hold_none rfl a]
          show allocs (CacheAllocator.Alloc e P.arg s nw).2.trace a + _ + 0 =
            _ + frees (CacheAllocator.Alloc e P.arg s nw).2.trace a + 0
          rw [t1]
      · -- a new object
        subst hcn
        have hou : ∀ i, i < s.ncmds →
            ({ Blksrv.setCmd (CacheAllocator.Alloc e P.arg s nw).2 s.ncmds
              { ((CacheAllocator.Alloc e P.arg s nw).2.cmds s.ncmds).Reset with server := true } with
              rcv_cmd_ := some s.ncmds } : NbdServer β).cmds i = s.cmds i := by
          intro i hi
          rw [hot _ i (by omega), hcm1, setCmd_other _ _ _ _ (by omega)]
        have hlt : ∀ i, i < s.ncmds + 1 → i ≠ s.ncmds → i < s.ncmds := by
          intro i h1 h2; omega
        have hin : ∀ l : List Nat, (∀ i ∈ l, i < s.ncmds) → ∀ i ∈ l,
            ({ Blksrv.setCmd (CacheAllocator.Alloc e P.arg s nw).2 s.ncmds
              { ((CacheAllocator.Alloc e P.arg s nw).2.cmds s.ncmds).Reset with server := true } with
              rcv_cmd_ := some s.ncmds } : NbdServer β).cmds i = s.cmds i :=
          fun l hl i hi => hou i (hl i hi)
        refine ⟨?_, ?_, ?_, ?_, ?_, ?_, ?_, ?_, ?_⟩
        · intro i hi
          have hi2 : i < s.ncmds + 1 := by rw [← hn1]; exact hi
          by_cases hic : i = s.ncmds
          · subst hic
            rw [hcm, hcm1, setCmd_same]
            exact alloc_magic e P.arg raw
          · rw [hou i (hlt i hi2 hic)]
            exact h.magic i (hlt i hi2 hic)
        · intro i d hi hd
          have hi2 : i < s.ncmds + 1 := by rw [← hn1]; exact hi
          by_cases hic : i = s.ncmds
          · subst hic
            rw [hcm] at hd
            cases hd
          · rw [hou i (hlt i hi2 hic)] at hd ⊢
            exact (h.data i d (hlt i hi2 hic) hd).mono (fun ev hev => by
              show ev ∈ (CacheAllocator.Alloc e P.arg s nw).2.trace
              rw [t1]; exact hev)
        · intro i hi _
          cases hi
          rw [hcm]
          exact RcvOK.reset e _
        · intro i hi
          have hi2 : s.send_cmd_ = some i := by rw [← a3]; exact hi
          rw [hou i (hC.send_facts hi2).1]
          exact h.send i hi2
        · intro i hi
          rw [hou i (hC.snd_facts hi).1]
          exact h.queue i hi
        · intro i hi
          rw [hou i (hC.pnd_facts hi).1]
          exact h.pend i hi
        · intro i hi
          rw [hf0] at hi
          cases hi
        · intro i hi
          have hi2 : i ∈ s.deleted := by rw [← t2]; exact hi
          have hlt2 : i < s.ncmds := by
            have := hC.count i
            have h0 : 0 < s.deleted.count i := List.count_pos_iff.2 hi2
            split_ifs at this <;> omega
          rw [hou i hlt2]
          exact h.del i hi2
        · intro a
          show allocs (CacheAllocator.Alloc e P.arg s nw).2.trace a =
            frees (CacheAllocator.Alloc e P.arg s nw).2.trace a + _
          rw [t1, h.bal a]
          congr 1
          unfold holders
          show _ = ((List.range (CacheAllocator.Alloc e P.arg s nw).2.ncmds).map _).sum
          rw [hn1, sum_range_succ_hold, hcm, hold_none rfl a, Nat.add_zero]
          exact (sum_map_same _ _ _ (fun i hi => by rw [hou i hi])).symm

theorem good_pollRecv {P : NbdParams β} {e : Endian} {s : NbdServer β} (nw : Option NbdCmd)
    (rd : RecvRes) (hP : WellBehaved P) (hnw : nw.isSome → s.ncmds + 1 < 2 ^ 32)
    (hg : Good e s) : Good e (PollRecv P e s nw rd) := by
  unfold NbdServer.PollRecv
  cases hs : s.shutdown_ with
  | true => simpa using hg
  | false =>
    simp only [Bool.false_eq_true, if_false]
    have hg1 := good_rcvSlot P nw hnw hg
    obtain ⟨snd, pnd, fre, hC, _⟩ := hg
    cases hc : (rcvSlot P e s nw).1 with
    | none => exact hg1
    | some c =>
      simp only
      obtain ⟨snd1, pnd1, fre1, hC1, h1⟩ := hg1
      exact good_rcvBytes rd hP hC1 h1 ((hC.rcvSlot P e nw hnw).2 c hc)
        (by rw [(rcvSlot_same P e s nw).1]; exact hs)

theorem SendOK.of_queued {e : Endian} {cmd : NbdCmd} (h : QueuedOK e cmd) : SendOK e cmd := by
  refine Or.inl ⟨h.1, ?_, ?_, ?_, h.2.2.2⟩
  · rw [h.2.1, h.2.2.1, Nat.sub_self]
  · rw [h.2.2.1]; decide
  · rw [h.2.2.1]

theorem good_sendSlot {e : Endian} {s : NbdServer β} (hg : Good e s) :
    Good e (sendSlot s).2 := by
  obtain ⟨snd, pnd, fre, hC, h⟩ := hg
  unfold NbdServer.sendSlot
  cases hr : s.send_cmd_ with
  | some c => exact ⟨_, _, _, hC, h⟩
  | none =>
    simp only
    split_ifs with hz
    · exact ⟨_, _, _, hC, h⟩
    · match snd, hC, h with
      | [], hC, _ => exact absurd hC.lists.send.2.2.1 hz
      | y :: ys, hC, h =>
        obtain ⟨m2, e1, hl⟩ := hC.lists.popFront_send
        obtain ⟨k1, k2, k3, k4, k5, k6, k7⟩ := hC.snd_facts (List.mem_cons_self y ys)
        have hny : y ∉ ys := (List.nodup_cons.1 hC.lists.send.2.1).1
        simp only [e1]
        have hC2 : Cont ({ s with
            links := m2
            send_cmds_ := ⟨s.send_cmds_.hd, ys.length, s.send_cmds_.off_⟩
            send_cmd_ := some y } : NbdServer β) [] ys pnd fre := by
          refine ⟨hl, ?_, hC.bound⟩
          intro c
          have := hC.count c
          rw [count_cons2, hr] at this
          simp only [slotCount, Option.some.injEq, reduceCtorEq, if_false, List.count_nil]
            at this ⊢
          omega
        refine ⟨ys, pnd, fre, hC2, ?_⟩
        refine fields_update y h k1 rfl (fun _ _ => rfl) (fun _ hev => hev) rfl (fun hx => hx)
          (fun _ _ hi => hi) ?_ (fun _ _ hi => List.mem_cons_of_mem _ hi) (fun _ _ hi => hi)
          (fun _ _ hi => hi) rfl (fun d hd => h.data y d k1 hd) ?_ ?_ ?_ ?_ ?_ ?_
          (fun a => rfl)
        · intro i hi hx
          cases hx
          exact absurd rfl hi
        · intro hx; exact absurd hx k3
        · intro _
          exact SendOK.of_queued (h.queue y (List.mem_cons_self y ys))
        · intro hx; exact absurd hx hny
        · intro hx; exact absurd hx k5
        · intro hx; exact absurd hx k6
        · intro hx; exact absurd hx k7

/-- The command of the send slot is replaced and stays in the slot. -/
theorem fields_send {e : Endian} {s s2 : NbdServer β} {snd pnd fre : List Nat} {c : Nat}
    (hC : Cont s [] snd pnd fre) (h : Fields e s snd pnd fre) (hr : s.send_cmd_ = some c)
    (hn : s2.ncmds = s.ncmds)
    (ho : ∀ i, i ≠ c → s2.cmds i = s.cmds i)
    (htr : s2.trace = s.trace)
    (hdl : s2.deleted = s.deleted)
    (hsh : s2.shutdown_ = false → s.shutdown_ = false)
    (hrcv : s2.rcv_cmd_ = s.rcv_cmd_)
    (hsend : s2.send_cmd_ = some c)
    (ht : Touch (s.cmds c) (s2.cmds c))
    (csend : SendOK e (s2.cmds c)) :
    Fields e s2 snd pnd fre := by
  obtain ⟨f1, f2, f3, f4, f5, f6, f7⟩ := hC.send_facts hr
  refine fields_update c h f1 hn ho (fun _ hev => by rw [htr]; exact hev) hdl hsh ?_ ?_
    (fun _ _ hi => hi) (fun _ _ hi => hi) (fun _ _ hi => hi) ?_ ?_ ?_ (fun _ => csend)
    ?_ ?_ ?_ ?_ ?_
  · intro i _ hx; rw [← hrcv]; exact hx
  · intro i hi hx
    rw [hsend] at hx; cases hx; exact absurd rfl hi
  · rw [ht.2.1]
  · exact ht.dataOK (h.data c · f1) (fun _ hev => by rw [htr]; exact hev)
  · intro hx; rw [hrcv] at hx; exact absurd hx f3
  · intro hx; exact absurd hx f4
  · intro hx; exact absurd hx f5
  · intro hx; exact absurd hx f6
  · intro hx; exact absurd hx f7
  · intro a
    rw [htr, ht.hold a]

theorem frees_single (b a : Nat) :
    allocs [.free_data_mem b] a = 0 ∧ frees [.free_data_mem b] a = if b = a then 1 else 0 := by
  simp [allocs, frees, evAlloc, evFree]

theorem good_sendBytes {P : NbdParams β} {e : Endian} {s : NbdServer β}
    {snd pnd fre : List Nat} {c : Nat} (wr : SendRes)
    (hC : Cont s [] snd pnd fre) (h : Fields e s snd pnd fre) (hr : s.send_cmd_ = some c) :
    Good e (sendBytes P e s c wr) := by
  have hok := h.send c hr
  obtain ⟨f1, f2, f3, f4, f5, f6, f7⟩ := hC.send_facts hr
  cases wr with
  | again => exact ⟨_, _, _, hC, h⟩
  | fail => exact ⟨_, _, _, hC.markShutdown _, fields_markShutdown h _⟩
  | ok k =>
    show Sat (Good e) _
    unfold NbdServer.sendBytes
    simp only
    have hn : min k (s.cmds c).io_size_remaining ≤ (s.cmds c).io_size_remaining :=
      Nat.min_le_right _ _
    generalize min k (s.cmds c).io_size_remaining = n at hn ⊢
    generalize s.tx ++ readAt ((s.cmds c).mem (s.cmds c).cur_io_ptr.region)
      (s.cmds c).cur_io_ptr.off n = tx2
    refine Sat.branch (fun _ => ?_) (fun hn0 => Sat.branch (fun hrem => ?_) (fun hrem =>
      Sat.branch (fun hfin => ?_) (fun hfin => ?_)))
    · exact ⟨_, _, _, hC.markShutdown _, fields_markShutdown h _⟩
    · -- part of the bytes went out
      have hrem2 : (s.cmds c).io_size_remaining - n ≠ 0 := hrem
      refine ⟨snd, pnd, fre, (hC.tx tx2).setCmd c _, ?_⟩
      refine fields_send hC h hr rfl (fun i hi => setCmd_other _ _ _ _ hi) rfl rfl
        (fun hx => hx) rfl hr ?_ ?_
      · rw [setCmd_same]; exact ⟨rfl, rfl, rfl, rfl⟩
      · rw [setCmd_same]
        rcases hok with hk | hk
        · refine Or.inl ⟨hk.1, ?_, ?_, ?_, hk.2.2.2.2⟩
          · show (⟨(s.cmds c).cur_io_ptr.region, (s.cmds c).cur_io_ptr.off + n⟩ : IoPtr) =
              ⟨.reply, sizeof_reply - ((s.cmds c).io_size_remaining - n)⟩
            rw [hk.2.1]
            simp only [IoPtr.mk.injEq, true_and]
            have := hk.2.2.2.1
            omega
          · show 0 < (s.cmds c).io_size_remaining - n
            omega
          · show (s.cmds c).io_size_remaining - n ≤ sizeof_reply
            have := hk.2.2.2.1
            omega
        · refine Or.inr ⟨hk.1, hk.2.1, ?_, ?_, ?_⟩
          · show (⟨(s.cmds c).cur_io_ptr.region, (s.cmds c).cur_io_ptr.off + n⟩ : IoPtr) =
              ⟨.data, (s.cmds c).io_size - ((s.cmds c).io_size_remaining - n)⟩
            rw [hk.2.2.1]
            simp only [IoPtr.mk.injEq, true_and]
            have := hk.2.2.2.2
            omega
          · show 0 < (s.cmds c).io_size_remaining - n
            omega
          · show (s.cmds c).io_size_remaining - n ≤ (s.cmds c).io_size
            have := hk.2.2.2.2
            omega
    · -- fully sent: the buffer is freed and the command goes back to the cache
      cases hdb : (s.cmds c).data_buf with
      | none =>
        have e0 : ({ s.cmds c with io_size_remaining := (s.cmds c).io_size_remaining - n } :
            NbdCmd).data_buf = none := hdb
        simp only [e0]
        refine ⟨snd, pnd, c :: fre, Cont.free_send ((hC.tx tx2).setCmd c _) hr, ?_⟩
        refine fields_update c h f1 rfl (fun i hi => setCmd_other _ _ _ _ hi)
          (fun _ hev => hev) rfl (fun hx => hx) (fun _ _ hi => hi) ?_ (fun _ _ hi => hi)
          (fun _ _ hi => hi) ?_ ?_ ?_ ?_ ?_ ?_ ?_ ?_ ?_ ?_
        · intro i _ hx; cases hx
        · intro i hi hx
          rcases List.mem_cons.1 hx with h1 | h1
          · exact absurd h1 hi
          · exact h1
        · show readAt ((Blksrv.setCmd _ c _).cmds c).reply 0 4 = _
          rw [setCmd_same]
        · show ∀ d, ((Blksrv.setCmd _ c _).cmds c).data_buf = some d → _
          rw [setCmd_same]
          intro d hd
          cases hd
        · intro hx; exact absurd hx f3
        · intro hx; cases hx
        · intro hx; exact absurd hx f4
        · intro hx; exact absurd hx f5
        · intro _
          show ((Blksrv.setCmd _ c _).cmds c).data_buf = none
          rw [setCmd_same]
        · intro hx; exact absurd hx f7
        · intro a
          show _ + _ + _ = _ + _ + hold ((Blksrv.setCmd _ c _).cmds c) a
          rw [setCmd_same, hold_none hdb a, hold_none rfl a]
          rfl
      | some d =>
        have e0 : ({ s.cmds c with io_size_remaining := (s.cmds c).io_size_remaining - n } :
            NbdCmd).data_buf = some d := hdb
        simp only [e0]
        refine ⟨snd, pnd, c :: fre, Cont.free_send ((hC.tx tx2).backend c _ _ _) hr, ?_⟩
        refine fields_update c h f1 rfl (fun i hi => setCmd_other _ _ _ _ hi)
          (fun _ hev => List.mem_append_left _ hev) rfl (fun hx => hx) (fun _ _ hi => hi) ?_
          (fun _ _ hi => hi) (fun _ _ hi => hi) ?_ ?_ ?_ ?_ ?_ ?_ ?_ ?_ ?_ ?_
        · intro i _ hx; cases hx
        · intro i hi hx
          rcases List.mem_cons.1 hx with h1 | h1
          · exact absurd h1 hi
          · exact h1
        · show readAt ((Blksrv.setCmd _ c _).cmds c).reply 0 4 = _
          rw [setCmd_same]
        · show ∀ d, ((Blksrv.setCmd _ c _).cmds c).data_buf = some d → _
          rw [setCmd_same]
          intro d hd
          cases hd
        · intro hx; exact absurd hx f3
        · intro hx; cases hx
        · intro hx; exact absurd hx f4
        · intro hx; exact absurd hx f5
        · intro _
          show ((Blksrv.setCmd _ c _).cmds c).data_buf = none
          rw [setCmd_same]
        · intro hx; exact absurd hx f7
        · intro a
          show allocs (s.trace ++ [.free_data_mem d.addr]) a + _ + _ =
            _ + frees (s.trace ++ [.free_data_mem d.addr]) a +
              hold ((Blksrv.setCmd _ c _).cmds c) a
          rw [setCmd_same, allocs_append, frees_append, (frees_single _ a).1,
            (frees_single _ a).2, hold_some hdb a, hold_none rfl a]
          omega
    · -- the reply of a read that succeeded went out: the data follow
      rw [not_or, not_or, not_or, not_not, not_not] at hfin
      obtain ⟨g1, g2, g3, g4⟩ := hfin
      have g1' : (s.cmds c).cur_state ≠ NBDCMD_STATE_SEND_READ_DATA := g1
      have g2' : (s.cmds c).ret_error = 0 := g2
      have g3' : load e (s.cmds c).req 4 4 = NBD_CMD_READ := g3
      have g4' : load e (s.cmds c).req 24 4 ≠ 0 := g4
      rcases hok with hk | hk
      · have hsome := hk.2.2.2.2.2.2 g3' g2' g4'
        obtain ⟨d, hd⟩ := Option.isSome_iff_exists.1 hsome
        have hD := h.data c d f1 hd
        refine ⟨snd, pnd, fre, (hC.tx tx2).setCmd c _, ?_⟩
        refine fields_send hC h hr rfl (fun i hi => setCmd_other _ _ _ _ hi) rfl rfl
          (fun hx => hx) rfl hr ?_ ?_
        · rw [setCmd_same]; exact ⟨rfl, rfl, rfl, rfl⟩
        · rw [setCmd_same]
          refine Or.inr ⟨rfl, hsome, ?_, ?_, ?_⟩
          · show (⟨.data, 0⟩ : IoPtr) =
              ⟨.data, (s.cmds c).io_size - be32toh e (load e (s.cmds c).req 24 4)⟩
            rw [hD.2.2.2.1, Nat.sub_self]
          · show 0 < be32toh e (load e (s.cmds c).req 24 4)
            rw [hD.2.2.2.1]; exact hD.2.1
          · show be32toh e (load e (s.cmds c).req 24 4) ≤ (s.cmds c).io_size
            rw [hD.2.2.2.1]
      · exact absurd hk.1 g1'

theorem good_pollSend {P : NbdParams β} {e : Endian} {s : NbdServer β} (wr : SendRes)
    (hg : Good e s) : Good e (PollSend P e s wr) := by
  have hg1 := good_sendSlot hg
  obtain ⟨snd, pnd, fre, hC, _⟩ := hg
  unfold NbdServer.PollSend
  simp only
  cases hc : (sendSlot s).1 with
  | none => exact hg1
  | some c =>
    simp only
    obtain ⟨snd1, pnd1, fre1, hC1, h1⟩ := hg1
    exact good_sendBytes wr hC1 h1 (hC.sendSlot.2 c hc)

theorem good_setRcv {e : Endian} {s : NbdServer β} (a : Bool) (h : Good e s) :
    Good e { s with rcv_running_ := a } := by
  obtain ⟨snd, pnd, fre, hC, h⟩ := h
  exact ⟨snd, pnd, fre, hC.congr rfl rfl rfl rfl rfl rfl rfl rfl,
    fields_congr h rfl rfl rfl rfl (fun hx => hx) rfl rfl⟩

theorem good_setSend {e : Endian} {s : NbdServer β} (a : Bool) (h : Good e s) :
    Good e { s with send_running_ := a } := by
  obtain ⟨snd, pnd, fre, hC, h⟩ := h
  exact ⟨snd, pnd, fre, hC.congr rfl rfl rfl rfl rfl rfl rfl rfl,
    fields_congr h rfl rfl rfl rfl (fun hx => hx) rfl rfl⟩

theorem good_setConfig {e : Endian} {s : NbdServer β} (a : Bool) (h : Good e s) :
    Good e { s with config_running_ := a } := by
  obtain ⟨snd, pnd, fre, hC, h⟩ := h
  exact ⟨snd, pnd, fre, hC.congr rfl rfl rfl rfl rfl rfl rfl rfl,
    fields_congr h rfl rfl rfl rfl (fun hx => hx) rfl rfl⟩

theorem good_dataPoll {P : NbdParams β} {e : Endian} {s : NbdServer β} (sp1 sp2 : Bool)
    (nw : Option NbdCmd) (rd : RecvRes) (wr : SendRes) (hP : WellBehaved P) (h : Good e s)
    (hnw : nw.isSome → s.ncmds + 1 < 2 ^ 32) :
    Good e (DataPoll P e s sp1 sp2 nw rd wr).2 := by
  have h1 := good_setRcv (compare_exchange_weak s.rcv_running_ false true sp1).2.1 h
  have h2 := good_setRcv false (good_pollRecv nw rd hP (by exact hnw) h1)
  unfold NbdServer.DataPoll
  split
  · exact h
  simp only
  split_ifs
  · exact h2
  · exact good_setSend false (good_pollSend wr (good_setSend _ h2))
  · exact good_setSend _ h2
  · exact good_setSend false (good_pollSend wr (good_setSend _ h1))
  · exact good_setSend _ h1

theorem good_houseKeeping {e : Endian} {s : NbdServer β} (t lc : Int) (h : Good e s) :
    Good e { s with
      last_config_run_ := lc
      links := (s.cmd_cache_.HouseKeeping s.links t freedHead).1
      cmd_cache_ := (s.cmd_cache_.HouseKeeping s.links t freedHead).2.1
      deleted := s.deleted ++ (s.cmd_cache_.HouseKeeping s.links t freedHead).2.2 } := by
  obtain ⟨snd, pnd, fre, hC, h⟩ := h
  obtain ⟨k, hk⟩ := hC.houseKeeping t lc
  obtain ⟨k2, m2, C2, e1, _⟩ := HouseKeeping_gen t freedHead hC.lists.free
    (by rw [hC.lists.hF]; decide)
  refine ⟨snd, pnd, fre.drop k, hk, ⟨h.magic, h.data, h.rcv, h.send, h.queue, h.pend, ?_, ?_,
    h.bal⟩⟩
  · intro c hc
    exact h.free c (List.mem_of_mem_drop hc)
  · intro c hc
    rcases List.mem_append.1 hc with h1 | h1
    · exact h.del c h1
    · rw [e1] at h1
      exact h.free c (List.mem_of_mem_take (List.mem_reverse.1 h1))

theorem good_configPoll {e : Endian} {s : NbdServer β} (t : Int) (sp : Bool) (h : Good e s) :
    Good e (ConfigPoll s t sp).2 := by
  have h1 := good_setConfig (compare_exchange_weak s.config_running_ false true sp).2.1 h
  unfold NbdServer.ConfigPoll
  split
  · exact h
  simp only
  split_ifs
  · exact good_setConfig false (good_houseKeeping t t h1)
  · exact good_setConfig false h1
  · exact h1

theorem good_init (e : Endian) (sockfd : Int) (b : β) :
    Good e ({ ctor b with fd_ := sockfd } : NbdServer β) := by
  refine ⟨[], [], [], Cont.fresh_engine sockfd b, ?_⟩
  refine ⟨?_, ?_, ?_, ?_, ?_, ?_, ?_, ?_, ?_⟩
  · intro c hc; cases hc
  · intro c d hc; cases hc
  · intro c hc; cases hc
  · intro c hc; cases hc
  · intro c hc; cases hc
  · intro c hc; cases hc
  · intro c hc; cases hc
  · intro c hc; cases hc
  · intro a; rfl

theorem good_step {P : NbdParams β} {e : Endian} {s s2 : NbdServer β} (hP : WellBehaved P)
    (h : Good e s) (hs : Step P e Touch s s2) : Good e s2 := by
  cases hs with
  | data_poll sp1 sp2 nw rd wr hnw => exact good_dataPoll sp1 sp2 nw rd wr hP h hnw
  | completion c cmd pnd hl hc ht =>
    obtain ⟨snd, pnd2, fre, hC, h⟩ := h
    have := IsList.unique hl hC.lists.pend
    subst this
    obtain ⟨as, bs, rfl⟩ := List.append_of_mem hc
    exact ⟨_, _, _, (hC.setCmd c cmd).completion_pnd e as bs, fields_complete_pnd cmd hC h ht⟩
  | config_poll t sp => exact good_configPoll t sp h

/-- Every state the engine gets into with a well-behaved backend is good. -/
theorem Reachable.good {P : NbdParams β} {e : Endian} {s : NbdServer β} (hP : WellBehaved P)
    (h : Reachable P e Touch s) : Good e s := by
  induction h with
  | init sockfd b => exact good_init e sockfd b
  | step _ hs ih => exact good_step hP ih hs

theorem rd_wellBehaved : WellBehaved rd_params := by
  refine ⟨?_, ?_, ?_, ?_, ?_⟩
  · intro b cmd
    show Touch cmd (rd_read b cmd).cmd
    unfold rd_read
    split
    · exact ⟨rfl, rfl, rfl, rfl⟩
    · refine ⟨rfl, rfl, rfl, ?_⟩
      show (cmd.data_buf.map _).map DataBuf.addr = _
      cases cmd.data_buf <;> rfl
  · intro b cmd
    show Touch cmd (rd_write b cmd).cmd
    unfold rd_write
    split <;> exact ⟨rfl, rfl, rfl, rfl⟩
  · intro b cmd; exact ⟨rfl, rfl, rfl, rfl⟩
  · intro b cmd; exact ⟨rfl, rfl, rfl, rfl⟩
  · intro f hf
    cases hf

theorem DataOK.wire {e : Endian} {tr : List Event} {cmd : NbdCmd} {d : DataBuf}
    (h : DataOK e tr cmd d) :
    cmd.io_size = wireLen cmd.req ∧ 1 ≤ wireLen cmd.req ∧ wireLen cmd.req ≤ kMaxNbdIOSize ∧
      Event.alloc_data_mem (wireLen cmd.req) (some d.addr) ∈ tr := by
  have e1 : wireLen cmd.req = cmd.io_size := by
    rw [← h.2.2.2.1, be32toh_load]; rfl
  rw [e1]
  exact ⟨rfl, h.2.1, h.2.2.1, h.2.2.2.2⟩

theorem readAt_zero (m : Mem) (off : Nat) : readAt m off 0 = [] := rfl

theorem readAt_drop_take (m : Mem) (off n N : Nat) (h : off + n ≤ N) :
    readAt m off n = ((readAt m 0 N).drop off).take n := by
  have e1 : N = off + (n + (N - off - n)) := by omega
  rw [e1, readAt_add, Nat.zero_add, List.drop_left' (readAt_length _ _ _), readAt_add,
    List.take_left' (readAt_length _ _ _)]

theorem sendSlot_tx (s : NbdServer β) : (sendSlot s).2.tx = s.tx := by
  unfold NbdServer.sendSlot
  split
  · rfl
  · split <;> rfl

/-- The bytes a `write` call of the send path puts on the socket: those at the cursor, as
many as the kernel accepts of the count offered. -/
theorem sendBytes_tx (P : NbdParams β) (e : Endian) (s : NbdServer β) (c k : Nat) :
    (sendBytes P e s c (.ok k)).tx =
      s.tx ++ readAt ((s.cmds c).mem (s.cmds c).cur_io_ptr.region) (s.cmds c).cur_io_ptr.off
        (min k (s.cmds c).io_size_remaining) := by
  show Sat (fun r : NbdServer β => r.tx = _) _
  unfold NbdServer.sendBytes
  simp only
  refine Sat.branch (fun h0 => ?_) (fun _ => Sat.cond ?_ (Sat.cond ?_ ?_))
  · show (MarkShutdown s _).tx = _
    rw [(MarkShutdown_rest s _).2.2.2.2.2.2.2.1, h0, readAt_zero, List.append_nil]
  · rfl
  · show (CacheAllocator.Free _ c).tx = _
    split <;> rfl
  · rfl

theorem RcvOK.cursor_rcv {e : Endian} {tr : List Event} {cmd : NbdCmd} (h : RcvOK e cmd)
    (hd : ∀ d, cmd.data_buf = some d → DataOK e tr cmd d) :
    0 < cmd.io_size_remaining ∧
    ((cmd.cur_state = NBDCMD_STATE_RCV_REQ ∧ cmd.cur_io_ptr.region = .req ∧
        cmd.cur_io_ptr.off + cmd.io_size_remaining = sizeof_req) ∨
      (cmd.cur_state = NBDCMD_STATE_RCV_WRITE_DATA ∧ cmd.cur_io_ptr.region = .data ∧
        cmd.cur_io_ptr.off + cmd.io_size_remaining = wireLen cmd.req ∧
        ∃ d, cmd.data_buf = some d ∧
          Event.alloc_data_mem (wireLen cmd.req) (some d.addr) ∈ tr)) := by
  rcases h with h | h
  · refine ⟨h.2.2.2.1, Or.inl ⟨h.1, ?_, ?_⟩⟩
    · rw [h.2.2.1]
    · rw [h.2.2.1]
      have := h.2.2.2.2
      show sizeof_req - cmd.io_size_remaining + cmd.io_size_remaining = sizeof_req
      omega
  · obtain ⟨d, hd1⟩ := Option.isSome_iff_exists.1 h.2.1
    obtain ⟨w1, w2, w3, w4⟩ := (hd d hd1).wire
    refine ⟨h.2.2.2.2.1, Or.inr ⟨h.1, ?_, ?_, d, hd1, w4⟩⟩
    · rw [h.2.2.2.1]
    · rw [h.2.2.2.1, ← w1]
      have := h.2.2.2.2.2
      show cmd.io_size - cmd.io_size_remaining + cmd.io_size_remaining = cmd.io_size
      omega

theorem SendOK.cursor_send {e : Endian} {tr : List Event} {cmd : NbdCmd} (h : SendOK e cmd)
    (hd : ∀ d, cmd.data_buf = some d → DataOK e tr cmd d) :
    0 < cmd.io_size_remaining ∧
    ((cmd.cur_state = NBDCMD_STATE_SEND_REPLY ∧ cmd.cur_io_ptr.region = .reply ∧
        cmd.cur_io_ptr.off + cmd.io_size_remaining = sizeof_reply) ∨
      (cmd.cur_state = NBDCMD_STATE_SEND_READ_DATA ∧ cmd.cur_io_ptr.region = .data ∧
        cmd.cur_io_ptr.off + cmd.io_size_remaining = wireLen cmd.req ∧
        ∃ d, cmd.data_buf = some d ∧
          Event.alloc_data_mem (wireLen cmd.req) (some d.addr) ∈ tr)) := by
  rcases h with h | h
  · refine ⟨h.2.2.1, Or.inl ⟨h.1, ?_, ?_⟩⟩
    · rw [h.2.1]
    · rw [h.2.1]
      have := h.2.2.2.1
      show sizeof_reply - cmd.io_size_remaining + cmd.io_size_remaining = sizeof_reply
      omega
  · obtain ⟨d, hd1⟩ := Option.isSome_iff_exists.1 h.2.1
    obtain ⟨w1, w2, w3, w4⟩ := (hd d hd1).wire
    refine ⟨h.2.2.2.1, Or.inr ⟨h.1, ?_, ?_, d, hd1, w4⟩⟩
    · rw [h.2.2.1]
    · rw [h.2.2.1, ← w1]
      have := h.2.2.2.2
      show cmd.io_size - cmd.io_size_remaining + cmd.io_size_remaining = cmd.io_size
      omega

/-- The 16 reply bytes of a command the completion hook has run on. -/
theorem ReplyOK.bytes {e : Endian} {cmd : NbdCmd} (h : ReplyOK e cmd)
    (hm : readAt cmd.reply 0 4 = beBytes 4 NBD_REPLY_MAGIC) :
    readAt cmd.reply 0 sizeof_reply =
      beBytes 4 NBD_REPLY_MAGIC ++ beBytes 4 cmd.ret_error ++ readAt cmd.req 8 8 := by
  have e1 : sizeof_reply = 4 + (4 + 8) := rfl
  rw [e1, readAt_add, readAt_add, hm, h.1, h.2.1, List.append_assoc]

theorem leVal_zero_iff : ∀ bs : List Byte, leVal bs = 0 ↔ ∀ b ∈ bs, b.val = 0
  | [] => by simp [leVal]
  | b :: bs => by
    have ih := leVal_zero_iff bs
    simp only [leVal, List.mem_cons, forall_eq_or_imp]
    rw [← ih]
    omega

/-- The test `req.len == 0` on the raw field is the test of the decoded length. -/
theorem load_len_zero (e : Endian) (m : Mem) :
    load e m 24 4 = 0 ↔ wireLen m = 0 := by
  have hb : beVal (readAt m 24 4) = 0 ↔ leVal (readAt m 24 4) = 0 := by
    unfold beVal
    rw [leVal_zero_iff, leVal_zero_iff]
    simp only [List.mem_reverse]
  cases e
  · exact hb.symm
  · exact Iff.rfl

theorem PollSend_slot (P : NbdParams β) (e : Endian) {s : NbdServer β} {c : Nat}
    (wr : SendRes) (hs : s.send_cmd_ = some c) : PollSend P e s wr = sendBytes P e s c wr := by
  unfold NbdServer.PollSend NbdServer.sendSlot
  simp only [hs]

/-- A `write` that takes all that remains of the reply of a read that succeeded with a
non-zero length turns to the data. -/
theorem sendBytes_data (P : NbdParams β) (e : Endian) (s : NbdServer β) (c k : Nat)
    (cmd : NbdCmd) (hcmd : s.cmds c = cmd)
    (h0 : 0 < cmd.io_size_remaining) (hk : cmd.io_size_remaining ≤ k)
    (hc : ¬ (cmd.cur_state = NBDCMD_STATE_SEND_READ_DATA ∨ cmd.ret_error ≠ 0 ∨
      load e cmd.req 4 4 ≠ NBD_CMD_READ ∨ load e cmd.req 24 4 = 0)) :
    sendBytes P e s c (.ok k) =
      setCmd { s with tx := (s.tx ++
          readAt (cmd.mem cmd.cur_io_ptr.region) cmd.cur_io_ptr.off cmd.io_size_remaining) } c
        { cmd with
          cur_state := NBDCMD_STATE_SEND_READ_DATA
          cur_io_ptr := ⟨.data, 0⟩
          io_size_remaining := wireLen cmd.req } := by
  subst hcmd
  unfold NbdServer.sendBytes
  simp only
  have hm : min k (s.cmds c).io_size_remaining = (s.cmds c).io_size_remaining :=
    Nat.min_eq_right hk
  rw [hm, if_neg (by omega), if_neg (by omega), if_neg hc, be32toh_load]
  rfl

/-- A `write` that takes all that remains, in every other case, ends the send. -/
theorem sendBytes_done (P : NbdParams β) (e : Endian) (s : NbdServer β) (c k : Nat)
    (hs : s.send_cmd_ = some c)
    (h0 : 0 < (s.cmds c).io_size_remaining) (hk : (s.cmds c).io_size_remaining ≤ k)
    (hc : (s.cmds c).cur_state = NBDCMD_STATE_SEND_READ_DATA ∨ (s.cmds c).ret_error ≠ 0 ∨
      load e (s.cmds c).req 4 4 ≠ NBD_CMD_READ ∨ load e (s.cmds c).req 24 4 = 0) :
    FullySent s (sendBytes P e s c (.ok k)) c := by
  unfold NbdServer.sendBytes
  simp only
  have hm : min k (s.cmds c).io_size_remaining = (s.cmds c).io_size_remaining :=
    Nat.min_eq_right hk
  rw [hm, if_neg (by omega), if_neg (by omega), if_pos hc]
  unfold FullySent
  cases hdb : (s.cmds c).data_buf with
  | none =>
    simp only
    refine ⟨trivial, ?_, ?_, fun snd pnd fre hC => ?_⟩
    · show ((Blksrv.setCmd _ c _).cmds c).data_buf = none
      rw [setCmd_same]
    · exact (List.append_nil _).symm
    · exact Cont.free_send ((hC.tx _).setCmd c _) hs
  | some d =>
    simp only
    refine ⟨trivial, ?_, rfl, fun snd pnd fre hC => ?_⟩
    · show ((Blksrv.setCmd _ c _).cmds c).data_buf = none
      rw [setCmd_same]
    · exact Cont.free_send ((hC.tx _).backend c _ _ _) hs

theorem rcvSlot_some (P : NbdParams β) (e : Endian) {s : NbdServer β} (nw : Option NbdCmd)
    {c : Nat} (hr : s.rcv_cmd_ = some c) : rcvSlot P e s nw = (some c, s) := by
  unfold NbdServer.rcvSlot
  simp only [hr]

theorem PollRecv_some (P : NbdParams β) (e : Endian) {s : NbdServer β} (nw : Option NbdCmd)
    (rd : RecvRes) {c : Nat} (hs : s.shutdown_ = false) (hr : s.rcv_cmd_ = some c) :
    PollRecv P e s nw rd = rcvBytes P e s c rd := by
  unfold NbdServer.PollRecv
  simp only [hs, rcvSlot_some P e nw hr, Bool.false_eq_true, if_false]

theorem PollRecvs_append (P : NbdParams β) (e : Endian) :
    ∀ (rs rs2 : List (Option NbdCmd × RecvRes)) (s : NbdServer β),
      PollRecvs P e s (rs ++ rs2) = PollRecvs P e (PollRecvs P e s rs) rs2
  | [], _, _ => rfl
  | _ :: rs, rs2, _ => PollRecvs_append P e rs rs2 _

theorem chunks_cons (p : Option NbdCmd × List Byte) (ps : List (Option NbdCmd × List Byte)) :
    chunks (p :: ps) = p.2 ++ chunks ps := by
  simp [chunks]

theorem poke_data (cmd : NbdCmd) (d : DataBuf) (off : Nat) (bs : List Byte)
    (hd : cmd.data_buf = some d) :
    cmd.poke ⟨.data, off⟩ bs =
      { cmd with data_buf := some { d with bytes := writeAt d.bytes off bs } } := by
  unfold NbdCmd.poke
  simp only [hd, Option.map_some']

/-- A read that delivers less than what remains of the payload stores the bytes and
moves the cursor on; nothing is called. -/
theorem rcvData_part (P : NbdParams β) (e : Endian) (s : NbdServer β) (c : Nat) (d : DataBuf)
    (off rem : Nat) (nw : Option NbdCmd) (bs : List Byte) (h : RcvData e s c d off rem)
    (h0 : bs ≠ []) (hk : bs.length < rem) :
    RcvData e (PollRecv P e s nw (.ok bs)) c { d with bytes := writeAt d.bytes off bs }
      (off + bs.length) (rem - bs.length) ∧
    (PollRecv P e s nw (.ok bs)).trace = s.trace ∧
    (PollRecv P e s nw (.ok bs)).backend = s.backend ∧
    (∀ snd pnd fre, Cont s [] snd pnd fre →
      Cont (PollRecv P e s nw (.ok bs)) [] snd pnd fre) := by
  obtain ⟨h1, h2, h3, h4, h5, h6, h7⟩ := h
  rw [PollRecv_some P e nw _ h1 h2]
  unfold NbdServer.rcvBytes
  simp only
  have hl : (List.take (s.cmds c).io_size_remaining bs).length = bs.length := by
    rw [List.length_take, h7]; omega
  have ht : List.take (s.cmds c).io_size_remaining bs = bs := by
    rw [h7]; exact List.take_of_length_le (by omega)
  have hb : bs.length ≠ 0 := fun hz => h0 (List.length_eq_zero.1 hz)
  rw [ht, if_neg hb, h5, poke_data _ d off bs h6, h7]
  rw [if_pos (show rem - bs.length ≠ 0 by omega)]
  refine ⟨⟨h1, h2, ?_, ?_, ?_, ?_, ?_⟩, rfl, rfl, fun snd pnd fre hC => hC.setCmd c _⟩
  · rw [setCmd_same]; exact h3
  · rw [setCmd_same]; exact h4
  · rw [setCmd_same]; show (⟨_, _⟩ : IoPtr) = _; rw [h5]
  · rw [setCmd_same]
  · rw [setCmd_same]

/-- Reads that deliver less than what remains of the payload, in all: the bytes are in
the buffer in the order received, and nothing was called. -/
theorem rcvData_run (P : NbdParams β) (e : Endian) (c : Nat) :
    ∀ (ps : List (Option NbdCmd × List Byte)) (s : NbdServer β) (d : DataBuf) (off rem : Nat),
      RcvData e s c d off rem → (∀ p ∈ ps, p.2 ≠ []) → (chunks ps).length < rem →
      RcvData e (PollRecvs P e s (okReads ps)) c
        { d with bytes := writeAt d.bytes off (chunks ps) }
        (off + (chunks ps).length) (rem - (chunks ps).length) ∧
      (PollRecvs P e s (okReads ps)).trace = s.trace ∧
      (PollRecvs P e s (okReads ps)).backend = s.backend ∧
      (∀ snd pnd fre, Cont s [] snd pnd fre →
        Cont (PollRecvs P e s (okReads ps)) [] snd pnd fre)
  | [], s, d, off, rem, h, _, _ => by
    refine ⟨?_, rfl, rfl, fun _ _ _ hC => hC⟩
    show RcvData e s c { d with bytes := writeAt d.bytes off [] } (off + 0) (rem - 0)
    rw [writeAt_nil]
    exact h
  | p :: ps, s, d, off, rem, h, hne, hlen => by
    rw [chunks_cons] at hlen ⊢
    rw [List.length_append] at hlen ⊢
    obtain ⟨k1, k2, k3, k4⟩ := rcvData_part P e s c d off rem p.1 p.2 h
      (hne p (List.mem_cons_self _ _)) (by omega)
    obtain ⟨r1, r2, r3, r4⟩ := rcvData_run P e c ps (PollRecv P e s p.1 (.ok p.2)) _ _ _ k1
      (fun q hq => hne q (List.mem_cons_of_mem _ hq)) (by omega)
    show RcvData e (PollRecvs P e (PollRecv P e s p.1 (.ok p.2)) (okReads ps)) c _ _ _ ∧
      (PollRecvs P e (PollRecv P e s p.1 (.ok p.2)) (okReads ps)).trace = _ ∧
      (PollRecvs P e (PollRecv P e s p.1 (.ok p.2)) (okReads ps)).backend = _ ∧
      ∀ snd pnd fre, Cont s [] snd pnd fre →
        Cont (PollRecvs P e (PollRecv P e s p.1 (.ok p.2)) (okReads ps)) [] snd pnd fre
    refine ⟨?_, r2.trans k2, r3.trans k3, fun snd pnd fre hC => r4 _ _ _ (k4 _ _ _ hC)⟩
    have e1 : ({ d with bytes := writeAt d.bytes off (p.2 ++ chunks ps) } : DataBuf) =
        { ({ d with bytes := writeAt d.bytes off p.2 } : DataBuf) with
          bytes := writeAt (writeAt d.bytes off p.2) (off + p.2.length) (chunks ps) } := by
      rw [writeAt_writeAt]
    rw [e1, ← Nat.add_assoc, ← Nat.sub_sub]
    exact r1

/-- The read that delivers the last byte of the payload: `PostRcvdCmd` hands the command
to the write callback. -/
theorem rcvData_last (P : NbdParams β) (e : Endian) (s : NbdServer β) (c : Nat) (d : DataBuf)
    (off rem : Nat) (nw : Option NbdCmd) (bs : List Byte) (h : RcvData e s c d off rem)
    (h0 : 0 < rem) (hk : rem ≤ bs.length) :
    ∃ s2, PollRecv P e s nw (.ok bs) = invoke e (postPend s2 c) c (.write c) P.write ∧
      s2.trace = s.trace ∧ s2.backend = s.backend ∧
      (s2.cmds c).data_buf = some { d with bytes := writeAt d.bytes off (bs.take rem) } ∧
      (∀ snd pnd fre, Cont s [] snd pnd fre → Cont (postPend s2 c) [] snd (pnd ++ [c]) fre) := by
  obtain ⟨h1, h2, h3, h4, h5, h6, h7⟩ := h
  rw [PollRecv_some P e nw _ h1 h2]
  unfold NbdServer.rcvBytes
  simp only
  have hl : (List.take rem bs).length = rem := by
    rw [List.length_take]; omega
  rw [h7, hl, if_neg (by omega), h5, poke_data _ d off _ h6, Nat.sub_self]
  rw [if_neg (by simp), if_pos h3]
  obtain ⟨s2, hs2⟩ : ∃ s2 : NbdServer β, s2 = setCmd s c
    { ({ s.cmds c with
        data_buf := some { d with bytes := writeAt d.bytes off (List.take rem bs) } } : NbdCmd) with
      io_size_remaining := 0 } := ⟨_, rfl⟩
  rw [← hs2]
  have c2 : s2.cmds c = { ({ s.cmds c with
        data_buf := some { d with bytes := writeAt d.bytes off (List.take rem bs) } } : NbdCmd) with
      io_size_remaining := 0 } := by
    rw [hs2, setCmd_same]
  have r2 : s2.rcv_cmd_ = some c := by rw [hs2]; exact h2
  refine ⟨s2, ?_, by rw [hs2]; rfl, by rw [hs2]; rfl, by rw [c2], fun snd pnd fre hC => ?_⟩
  · exact (PostRcvdCmd_call P e s2 c r2).2.1 (by rw [c2]; exact h4)
  · have : Cont s2 [] snd pnd fre := by rw [hs2]; exact hC.setCmd c _
    exact this.postPend r2

/-- What the poll does that completes the header of a valid write request with a length
in 1..1048576 when the allocator returns a buffer. -/
theorem PollRecv_write (P : NbdParams β) (e : Endian) (s : NbdServer β)
    (nw : Option NbdCmd) (c : Nat) (bs : List Byte) (d : DataBuf)
    (h : RcvHeader (rcvSlot P e s nw).2 c bs)
    (hm : wireMagic (hdrCmd (rcvSlot P e s nw).2 c bs).req = NBD_REQUEST_MAGIC)
    (ho : wireOpcode (hdrCmd (rcvSlot P e s nw).2 c bs).req = NBD_CMD_WRITE)
    (h1 : 1 ≤ wireLen (hdrCmd (rcvSlot P e s nw).2 c bs).req)
    (h2 : wireLen (hdrCmd (rcvSlot P e s nw).2 c bs).req ≤ kMaxNbdIOSize)
    (ha : (P.alloc_data_mem s.backend (wireLen (hdrCmd (rcvSlot P e s nw).2 c bs).req)).1 =
      some d) :
    RcvData e (PollRecv P e s nw (.ok bs)) c d 0 (wireLen (hdrCmd (rcvSlot P e s nw).2 c bs).req) ∧
    (PollRecv P e s nw (.ok bs)).trace = s.trace ++
      [.alloc_data_mem (wireLen (hdrCmd (rcvSlot P e s nw).2 c bs).req) (some d.addr)] ∧
    (∀ snd pnd fre, Cont (rcvSlot P e s nw).2 [] snd pnd fre →
      Cont (PollRecv P e s nw (.ok bs)) [] snd pnd fre) := by
  obtain ⟨hs1, _, ht1, hb1, _, _, _⟩ := rcvSlot_same P e s nw
  have hsf : (rcvSlot P e s nw).2.shutdown_ = false := h.1
  have hty := decode_type e (hdrCmd (rcvSlot P e s nw).2 c bs)
  rw [ho] at hty
  have hsz := decode_size e (hdrCmd (rcvSlot P e s nw).2 c bs)
  have hpr := PollRecv_valid P e s nw c bs h hm (by rw [ho]; decide)
  have hrd := rcvDispatch_alloc P e (rcvSlot P e s nw).2 c
    (decodeFields e (hostType e (hdrCmd (rcvSlot P e s nw).2 c bs))) (Or.inr hty)
    (by rw [hsz]; exact h1) (by rw [hsz]; exact h2)
  rw [hsz, hb1, ha] at hrd
  simp only at hrd
  rw [if_neg (not_not.2 hty)] at hrd
  obtain ⟨r, hr⟩ : ∃ r, r = PollRecv P e s nw (.ok bs) := ⟨_, rfl⟩
  rw [← hr]
  rw [hpr, hrd] at hr
  refine ⟨⟨?_, ?_, ?_, ?_, ?_, ?_, ?_⟩, ?_, fun snd pnd fre hC => ?_⟩
  · rw [hr]; exact hsf
  · rw [hr]; exact h.2.1
  · rw [hr]; show ((Blksrv.setCmd _ c _).cmds c).cur_state = _; rw [setCmd_same]
  · rw [hr]; show load e ((Blksrv.setCmd _ c _).cmds c).req 4 4 = _; rw [setCmd_same]; exact hty
  · rw [hr]; show ((Blksrv.setCmd _ c _).cmds c).cur_io_ptr = _; rw [setCmd_same]
  · rw [hr]; show ((Blksrv.setCmd _ c _).cmds c).data_buf = _; rw [setCmd_same]
  · rw [hr]; show ((Blksrv.setCmd _ c _).cmds c).io_size_remaining = _; rw [setCmd_same]
  · rw [hr]; show (rcvSlot P e s nw).2.trace ++ _ = _; rw [ht1]
  · rw [hr]; exact hC.backend c _ _ _

theorem erase_mid (as bs : List Nat) (x : Nat) (h : x ∉ as) :
    (as ++ x :: bs).erase x = as ++ bs := by
  rw [List.erase_append_right _ h, List.erase_cons_head]

theorem mem_split_nodup {l : List Nat} {x : Nat} (h : x ∈ l) (hn : l.Nodup) :
    ∃ as bs, l = as ++ x :: bs ∧ x ∉ as ∧ l.erase x = as ++ bs := by
  obtain ⟨as, bs, rfl⟩ := List.append_of_mem h
  have hxa : x ∉ as := fun hm =>
    (List.nodup_append.1 hn).2.2 hm (List.mem_cons_self x bs)
  exact ⟨as, bs, rfl, hxa, erase_mid as bs x hxa⟩

/-- One call of the hook by the backend: the command leaves the pending set and is the
new tail of the send queue, with the cursor at the start of its 16 reply bytes. -/
theorem hook_one {s : NbdServer β} {snd pnd fre : List Nat}
    (e : Endian) (c : Nat) (cmd : NbdCmd) (h : Cont s [] snd pnd fre) (hc : c ∈ pnd) :
    Cont (CompletionCb e (setCmd s c cmd) c) [] (snd ++ [c]) (pnd.erase c) fre ∧
    (CompletionCb e (setCmd s c cmd) c).cmds c = replyCmd e cmd ∧
    (∀ i, i ≠ c → (CompletionCb e (setCmd s c cmd) c).cmds i = s.cmds i) ∧
    (CompletionCb e (setCmd s c cmd) c).tx = s.tx ∧
    (CompletionCb e (setCmd s c cmd) c).send_cmd_ = s.send_cmd_ ∧
    (CompletionCb e (setCmd s c cmd) c).trace = s.trace := by
  obtain ⟨as, bs, rfl, _, he⟩ := mem_split_nodup hc h.lists.pend.2.1
  rw [he]
  refine ⟨(h.setCmd c cmd).completion_pnd e as bs, ?_, fun i hi => ?_, ?_, ?_, ?_⟩
  · rw [CompletionCb_cmd, setCmd_same]
  · rw [CompletionCb_cmds, setCmd_other _ _ _ _ hi, setCmd_other _ _ _ _ hi]
  · rw [(CompletionCb_same e _ c).2.2.2.2.1]; rfl
  · rw [(CompletionCb_same e _ c).2.2.2.2.2.2]; rfl
  · rw [(CompletionCb_same e _ c).2.2.1]; rfl

/-- Calls of the hook on distinct commands of the pending set: the send queue grows by
these commands in the order of the calls. -/
theorem hook_run (e : Endian) {fre : List Nat} :
    ∀ (ps : List (Nat × NbdCmd)) (s : NbdServer β) (snd pnd : List Nat),
      Cont s [] snd pnd fre → (ps.map Prod.fst).Nodup → (∀ p ∈ ps, p.1 ∈ pnd) →
      Cont (Completions e s ps) [] (snd ++ ps.map Prod.fst) (pnd.diff (ps.map Prod.fst)) fre ∧
      (∀ p ∈ ps, (Completions e s ps).cmds p.1 = replyCmd e p.2) ∧
      (∀ i, i ∉ ps.map Prod.fst → (Completions e s ps).cmds i = s.cmds i) ∧
      (Completions e s ps).tx = s.tx ∧ (Completions e s ps).send_cmd_ = s.send_cmd_ ∧
      (Completions e s ps).trace = s.trace
  | [], s, snd, pnd, h, _, _ => by
    refine ⟨?_, (fun p hp => by cases hp), fun _ _ => rfl, rfl, rfl, rfl⟩
    simpa [Completions] using h
  | p :: ps, s, snd, pnd, h, hn, hm => by
    have hn1 : p.1 ∉ ps.map Prod.fst ∧ (ps.map Prod.fst).Nodup := by
      rw [List.map_cons] at hn
      exact List.nodup_cons.1 hn
    obtain ⟨k1, k2, k3, k4, k5, k6⟩ := hook_one e p.1 p.2 h
      (hm p (List.mem_cons_self _ _))
    have hm2 : ∀ q ∈ ps, q.1 ∈ pnd.erase p.1 := by
      intro q hq
      have hne : q.1 ≠ p.1 := fun he => hn1.1 (he ▸ List.mem_map_of_mem Prod.fst hq)
      exact (List.mem_erase_of_ne hne).2 (hm q (List.mem_cons_of_mem _ hq))
    obtain ⟨r1, r2, r3, r4, r5, r6⟩ := hook_run e ps _ _ _ k1 hn1.2 hm2
    show Cont (Completions e (CompletionCb e (setCmd s p.1 p.2) p.1) ps) [] _ _ fre ∧
      (∀ q ∈ p :: ps, (Completions e (CompletionCb e (setCmd s p.1 p.2) p.1) ps).cmds q.1 = _) ∧
      (∀ i, i ∉ (p :: ps).map Prod.fst →
        (Completions e (CompletionCb e (setCmd s p.1 p.2) p.1) ps).cmds i = _) ∧
      (Completions e (CompletionCb e (setCmd s p.1 p.2) p.1) ps).tx = _ ∧
      (Completions e (CompletionCb e (setCmd s p.1 p.2) p.1) ps).send_cmd_ = _ ∧
      (Completions e (CompletionCb e (setCmd s p.1 p.2) p.1) ps).trace = _
    refine ⟨?_, ?_, ?_, r4.trans k4, r5.trans k5, r6.trans k6⟩
    · rw [List.map_cons, List.diff_cons]
      have : snd ++ p.1 :: ps.map Prod.fst = snd ++ [p.1] ++ ps.map Prod.fst := by simp
      rw [this]
      exact r1
    · intro q hq
      rcases List.mem_cons.1 hq with rfl | hq
      · rw [r3 _ hn1.1]; exact k2
      · exact r2 q hq
    · intro i hi
      rw [List.map_cons, List.mem_cons, not_or] at hi
      rw [r3 i hi.2]
      exact k3 i hi.1

theorem PollSends_append (P : NbdParams β) (e : Endian) :
    ∀ (ws ws2 : List SendRes) (s : NbdServer β),
      PollSends P e s (ws ++ ws2) = PollSends P e (PollSends P e s ws) ws2
  | [], _, _ => rfl
  | _ :: ws, ws2, _ => PollSends_append P e ws ws2 _

/-- The send path writes to the command of the send slot only. -/
theorem sendBytes_other (P : NbdParams β) (e : Endian) (s : NbdServer β) (c i : Nat)
    (wr : SendRes) (hi : i ≠ c) : (sendBytes P e s c wr).cmds i = s.cmds i := by
  cases wr with
  | again => rfl
  | fail => exact congrFun (MarkShutdown_rest s _).1 i
  | ok k =>
    show Sat (fun r : NbdServer β => r.cmds i = s.cmds i) _
    unfold NbdServer.sendBytes
    simp only
    refine Sat.branch (fun _ => congrFun (MarkShutdown_rest s _).1 i) (fun _ =>
      Sat.branch (fun _ => setCmd_other _ _ _ _ hi) (fun _ => Sat.branch (fun _ => ?_)
        (fun _ => setCmd_other _ _ _ _ hi)))
    cases hdb : (s.cmds c).data_buf with
    | none =>
      have e0 : ({ s.cmds c with io_size_remaining :=
          (s.cmds c).io_size_remaining - min k (s.cmds c).io_size_remaining } :
          NbdCmd).data_buf = none := hdb
      simp only [e0]
      exact setCmd_other _ _ _ _ hi
    | some d =>
      have e0 : ({ s.cmds c with io_size_remaining :=
          (s.cmds c).io_size_remaining - min k (s.cmds c).io_size_remaining } :
          NbdCmd).data_buf = some d := hdb
      simp only [e0]
      exact setCmd_other _ _ _ _ hi

/-- With an empty send slot, `PollSend` takes the command at the front of the send
queue. -/
theorem sendSlot_pop {s : NbdServer β} {y : Nat} {ys pnd fre : List Nat}
    (hC : Cont s [] (y :: ys) pnd fre) (hr : s.send_cmd_ = none) :
    ∃ sp, sendSlot s = (some y, sp) ∧ sp.send_cmd_ = some y ∧ sp.cmds = s.cmds ∧
      sp.tx = s.tx ∧ sp.trace = s.trace ∧ Cont sp [] ys pnd fre := by
  obtain ⟨m2, e1, hl⟩ := hC.lists.popFront_send
  have hz : s.send_cmds_.size_ ≠ 0 := by
    rw [hC.lists.send.2.2.1]; simp
  unfold NbdServer.sendSlot
  simp only [hr, if_neg hz, e1]
  refine ⟨_, rfl, rfl, rfl, rfl, rfl, hl, ?_, hC.bound⟩
  intro c
  have := hC.count c
  rw [count_cons2, hr] at this
  simp only [slotCount, Option.some.injEq, reduceCtorEq, if_false, List.count_nil] at this ⊢
  omega

theorem mem_data_congr {a b : NbdCmd} (h : a.data_buf = b.data_buf) :
    a.mem .data = b.mem .data := by
  unfold NbdCmd.mem
  simp only [h]

/-- The transmission of the command at the front of the send queue, by writes that take
each part whole. -/
theorem send_one (P : NbdParams β) (e : Endian) {s : NbdServer β} {y : Nat}
    {ys pnd fre : List Nat} (hC : Cont s [] (y :: ys) pnd fre) (hr : s.send_cmd_ = none)
    (h1 : (s.cmds y).cur_state = NBDCMD_STATE_SEND_REPLY)
    (h2 : (s.cmds y).cur_io_ptr = ⟨.reply, 0⟩)
    (h3 : (s.cmds y).io_size_remaining = sizeof_reply) :
    Cont (PollSends P e s (sendWrites e (s.cmds y))) [] ys pnd (y :: fre) ∧
    (PollSends P e s (sendWrites e (s.cmds y))).send_cmd_ = none ∧
    (PollSends P e s (sendWrites e (s.cmds y))).tx = s.tx ++ wireOut e (s.cmds y) ∧
    ∀ i, i ≠ y → (PollSends P e s (sendWrites e (s.cmds y))).cmds i = s.cmds i := by
  obtain ⟨sp, p1, p2, p3, p4, p5, p6⟩ := sendSlot_pop hC hr
  have hps : ∀ wr, PollSend P e s wr = sendBytes P e sp y wr := by
    intro wr
    unfold NbdServer.PollSend
    simp only [p1]
  have hcm : sp.cmds y = s.cmds y := by rw [p3]
  have htx1 := sendBytes_tx P e sp y sizeof_reply
  rw [hcm, h3, Nat.min_self, h2, p4] at htx1
  by_cases hd : hasData e (s.cmds y)
  · -- the reply, then the data
    have hw : sendWrites e (s.cmds y) = [.ok sizeof_reply, .ok (wireLen (s.cmds y).req)] := by
      unfold sendWrites; rw [if_pos hd]
    have ho : wireOut e (s.cmds y) = readAt (s.cmds y).reply 0 sizeof_reply ++
        readAt ((s.cmds y).mem .data) 0 (wireLen (s.cmds y).req) := by
      unfold wireOut; rw [if_pos hd]
    rw [hw, ho]
    show Cont (PollSend P e (PollSend P e s (.ok sizeof_reply)) _) [] ys pnd (y :: fre) ∧
      (PollSend P e (PollSend P e s (.ok sizeof_reply)) _).send_cmd_ = none ∧
      (PollSend P e (PollSend P e s (.ok sizeof_reply)) _).tx = _ ∧
      ∀ i, i ≠ y → (PollSend P e (PollSend P e s (.ok sizeof_reply)) _).cmds i = s.cmds i
    rw [hps]
    have hL : 0 < wireLen (s.cmds y).req := by
      have := hd.2.2
      rw [Ne, load_len_zero] at this
      omega
    have hc : ¬ ((sp.cmds y).cur_state = NBDCMD_STATE_SEND_READ_DATA ∨
        (sp.cmds y).ret_error ≠ 0 ∨ load e (sp.cmds y).req 4 4 ≠ NBD_CMD_READ ∨
        load e (sp.cmds y).req 24 4 = 0) := by
      rw [hcm, h1]
      intro h
      rcases h with h | h | h | h
      · exact absurd h (by decide)
      · exact h hd.2.1
      · exact h hd.1
      · exact hd.2.2 h
    have e1 := sendBytes_data P e sp y sizeof_reply _ rfl (by rw [hcm, h3]; decide)
      (by rw [hcm, h3]) hc
    obtain ⟨s1, hs1⟩ : ∃ s1, s1 = sendBytes P e sp y (.ok sizeof_reply) := ⟨_, rfl⟩
    rw [← hs1] at htx1 ⊢
    have o1 : ∀ i, i ≠ y → s1.cmds i = s.cmds i := by
      intro i hi
      rw [hs1, sendBytes_other P e sp y i _ hi, p3]
    rw [e1] at hs1
    have c1 : s1.cmds y = { sp.cmds y with
        cur_state := NBDCMD_STATE_SEND_READ_DATA
        cur_io_ptr := ⟨.data, 0⟩
        io_size_remaining := wireLen (sp.cmds y).req } := by
      rw [hs1, setCmd_same]
    have hss : s1.send_cmd_ = some y := by rw [hs1]; exact p2
    have hC1 : Cont s1 [] ys pnd fre := by rw [hs1]; exact (p6.tx _).setCmd y _
    rw [PollSend_slot P e _ hss]
    have hrem : (s1.cmds y).io_size_remaining = wireLen (s.cmds y).req := by rw [c1, hcm]
    have hfs := sendBytes_done P e s1 y (wireLen (s.cmds y).req) hss (by rw [hrem]; exact hL)
      (by rw [hrem]) (Or.inl (by rw [c1]))
    refine ⟨hfs.2.2.2 _ _ _ hC1, hfs.1, ?_, fun i hi => ?_⟩
    · rw [sendBytes_tx, hrem, Nat.min_self, htx1, List.append_assoc]
      have hp : (s1.cmds y).cur_io_ptr = ⟨.data, 0⟩ := by rw [c1]
      rw [hp]
      show s.tx ++ (readAt ((s.cmds y).mem .reply) 0 sizeof_reply ++
        readAt ((s1.cmds y).mem .data) 0 _) = _
      rw [mem_data_congr (show (s1.cmds y).data_buf = (s.cmds y).data_buf by rw [c1, hcm])]
      rfl
    · rw [sendBytes_other P e s1 y i _ hi]
      exact o1 i hi
  · -- the reply only
    have hw : sendWrites e (s.cmds y) = [.ok sizeof_reply] := by
      unfold sendWrites; rw [if_neg hd]
    have ho : wireOut e (s.cmds y) = readAt (s.cmds y).reply 0 sizeof_reply := by
      unfold wireOut; rw [if_neg hd, List.append_nil]
    rw [hw, ho]
    show Cont (PollSend P e s (.ok sizeof_reply)) [] ys pnd (y :: fre) ∧
      (PollSend P e s (.ok sizeof_reply)).send_cmd_ = none ∧
      (PollSend P e s (.ok sizeof_reply)).tx = _ ∧
      ∀ i, i ≠ y → (PollSend P e s (.ok sizeof_reply)).cmds i = s.cmds i
    rw [hps]
    have hc : (sp.cmds y).cur_state = NBDCMD_STATE_SEND_READ_DATA ∨
        (sp.cmds y).ret_error ≠ 0 ∨ load e (sp.cmds y).req 4 4 ≠ NBD_CMD_READ ∨
        load e (sp.cmds y).req 24 4 = 0 := by
      rw [hcm]
      unfold hasData at hd
      by_cases a1 : load e (s.cmds y).req 4 4 = NBD_CMD_READ
      · by_cases a2 : (s.cmds y).ret_error = 0
        · by_cases a3 : load e (s.cmds y).req 24 4 = 0
          · exact Or.inr (Or.inr (Or.inr a3))
          · exact absurd ⟨a1, a2, a3⟩ hd
        · exact Or.inr (Or.inl a2)
      · exact Or.inr (Or.inr (Or.inl a1))
    have hfs := sendBytes_done P e sp y sizeof_reply p2 (by rw [hcm, h3]; decide)
      (by rw [hcm, h3]) hc
    refine ⟨hfs.2.2.2 _ _ _ p6, hfs.1, htx1, fun i hi => ?_⟩
    rw [sendBytes_other P e sp y i _ hi, p3]

/-- The send path empties the send queue from the front: the transmissions are on the
socket in the order of the queue. -/
theorem send_run (P : NbdParams β) (e : Endian) {pnd : List Nat} :
    ∀ (q : List Nat) (s : NbdServer β) (fre : List Nat),
      Cont s [] q pnd fre → s.send_cmd_ = none →
      (∀ c ∈ q, (s.cmds c).cur_state = NBDCMD_STATE_SEND_REPLY ∧
        (s.cmds c).cur_io_ptr = ⟨.reply, 0⟩ ∧ (s.cmds c).io_size_remaining = sizeof_reply) →
      (PollSends P e s (q.flatMap fun c => sendWrites e (s.cmds c))).tx =
        s.tx ++ q.flatMap fun c => wireOut e (s.cmds c)
  | [], s, _, _, _, _ => by
    show s.tx = s.tx ++ []
    rw [List.append_nil]
  | y :: ys, s, fre, hC, hr, hq => by
    obtain ⟨q1, q2, q3⟩ := hq y (List.mem_cons_self _ _)
    obtain ⟨k1, k2, k3, k4⟩ := send_one P e hC hr q1 q2 q3
    have hny : y ∉ ys := (List.nodup_cons.1 hC.lists.send.2.1).1
    have hsame : ∀ c ∈ ys, (PollSends P e s (sendWrites e (s.cmds y))).cmds c = s.cmds c :=
      fun c hc => k4 c (fun h => hny (h ▸ hc))
    have ih := send_run P e ys _ _ k1 k2 (fun c hc => by
      rw [hsame c hc]; exact hq c (List.mem_cons_of_mem _ hc))
    rw [List.flatMap_cons, List.flatMap_cons, PollSends_append]
    have e1 : (ys.flatMap fun c => sendWrites e (s.cmds c)) =
        ys.flatMap fun c => sendWrites e
          ((PollSends P e s (sendWrites e (s.cmds y))).cmds c) := by
      apply List.flatMap_congr
      intro c hc
      rw [hsame c hc]
    have e2 : (ys.flatMap fun c => wireOut e (s.cmds c)) =
        ys.flatMap fun c => wireOut e
          ((PollSends P e s (sendWrites e (s.cmds y))).cmds c) := by
      apply List.flatMap_congr
      intro c hc
      rw [hsame c hc]
    rw [e1, e2, ih, k3, List.append_assoc]

theorem setCmd_setCmd (s : NbdServer β) (c : Nat) (a b : NbdCmd) :
    setCmd (setCmd s c a) c b = setCmd s c b := by
  simp only [Blksrv.setCmd]
  congr 1
  funext i
  split_ifs <;> rfl

theorem poke_req (cmd : NbdCmd) (off : Nat) (bs : List Byte) :
    cmd.poke ⟨.req, off⟩ bs = { cmd with req := writeAt cmd.req off bs } := rfl

/-- The command `c` of the receive slot after reads that delivered `bs`, less than
what remains of the request header. -/
theorem rcvBytes_header_part (P : NbdParams β) (e : Endian) (s : NbdServer β) (c : Nat)
    (off : Nat) (bs : List Byte) (cmd : NbdCmd) (hcmd : s.cmds c = cmd)
    (h5 : cmd.cur_io_ptr = ⟨.req, off⟩) (h0 : bs ≠ [])
    (hk : bs.length < cmd.io_size_remaining) :
    rcvBytes P e s c (.ok bs) = setCmd s c { cmd with
      req := writeAt cmd.req off bs
      io_size_remaining := cmd.io_size_remaining - bs.length
      cur_io_ptr := ⟨.req, off + bs.length⟩ } := by
  subst hcmd
  unfold NbdServer.rcvBytes
  simp only
  have ht : List.take (s.cmds c).io_size_remaining bs = bs :=
    List.take_of_length_le (by omega)
  have hb : bs.length ≠ 0 := fun hz => h0 (List.length_eq_zero.1 hz)
  rw [ht, if_neg hb, h5, poke_req]
  rw [if_pos (show (s.cmds c).io_size_remaining - bs.length ≠ 0 by omega)]
  simp only [h5]

/-- Reads that deliver less than what remains of the request header, in all, with
`EAGAIN` results among them: the bytes are in `req` in the order received, and nothing
else has changed. -/
theorem header_run (P : NbdParams β) (e : Endian) (c : Nat) :
    ∀ (pre : List (Option NbdCmd × RecvRes)) (s : NbdServer β) (off : Nat) (cmd : NbdCmd),
      s.cmds c = cmd → s.shutdown_ = false → s.rcv_cmd_ = some c →
      cmd.cur_io_ptr = ⟨.req, off⟩ →
      (∀ r ∈ pre, r.2 ≠ .fail ∧ r.2 ≠ .ok []) →
      (delivered pre).length < cmd.io_size_remaining →
      PollRecvs P e s pre = setCmd s c { cmd with
        req := writeAt cmd.req off (delivered pre)
        io_size_remaining := cmd.io_size_remaining - (delivered pre).length
        cur_io_ptr := ⟨.req, off + (delivered pre).length⟩ }
  | [], s, off, cmd, hcmd, _, _, h5, _, _ => by
    subst hcmd
    show s = Blksrv.setCmd s c _
    have : ∀ X : NbdCmd, X.cur_io_ptr = ⟨.req, off⟩ → ({ X with
        req := writeAt X.req off (delivered [])
        io_size_remaining := X.io_size_remaining - (delivered []).length
        cur_io_ptr := ⟨.req, off + (delivered []).length⟩ } : NbdCmd) = X := by
      intro X hX
      cases X
      simp only at hX
      subst hX
      simp only [delivered, writeAt_nil, List.length_nil, Nat.sub_zero, Nat.add_zero]
    rw [this _ h5, setCmd_self]
  | (nw, .fail) :: pre, s, off, cmd, _, _, _, _, hv, _ =>
    absurd rfl (hv _ (List.mem_cons_self _ _)).1
  | (nw, .again) :: pre, s, off, cmd, hcmd, hs, hr, h5, hv, hl => by
    have e1 : PollRecv P e s nw .again = s := by
      rw [PollRecv_some P e nw _ hs hr]; rfl
    show PollRecvs P e (PollRecv P e s nw .again) pre = _
    rw [e1]
    exact header_run P e c pre s off cmd hcmd hs hr h5
      (fun r hr => hv r (List.mem_cons_of_mem _ hr)) hl
  | (nw, .ok b) :: pre, s, off, cmd, hcmd, hs, hr, h5, hv, hl => by
    have hb : b ≠ [] := fun h => (hv _ (List.mem_cons_self _ _)).2 (by rw [h])
    have hd : delivered ((nw, RecvRes.ok b) :: pre) = b ++ delivered pre := rfl
    rw [hd, List.length_append] at hl
    have e1 : PollRecv P e s nw (.ok b) = _ :=
      (PollRecv_some P e nw _ hs hr).trans
        (rcvBytes_header_part P e s c off b cmd hcmd h5 hb (by omega))
    show PollRecvs P e (PollRecv P e s nw (.ok b)) pre = _
    rw [e1, hd]
    have ih := header_run P e c pre
      (setCmd s c { cmd with
        req := writeAt cmd.req off b
        io_size_remaining := cmd.io_size_remaining - b.length
        cur_io_ptr := ⟨.req, off + b.length⟩ })
      (off + b.length) _ (setCmd_same _ _ _) hs hr rfl
      (fun r hr => hv r (List.mem_cons_of_mem _ hr))
      (by show (delivered pre).length < cmd.io_size_remaining - b.length; omega)
    rw [ih, setCmd_setCmd]
    congr 1
    show ({ cmd with
        req := writeAt (writeAt cmd.req off b) (off + b.length) (delivered pre)
        io_size_remaining := cmd.io_size_remaining - b.length - (delivered pre).length
        cur_io_ptr := ⟨.req, off + b.length + (delivered pre).length⟩ } : NbdCmd) = _
    rw [writeAt_writeAt, List.length_append, Nat.sub_sub, Nat.add_assoc]

/-- The read that delivers the rest of the request header. -/
theorem rcvBytes_header_last (P : NbdParams β) (e : Endian) (s : NbdServer β) (c : Nat)
    (off : Nat) (bs : List Byte) (cmd : NbdCmd) (hcmd : s.cmds c = cmd)
    (h3 : cmd.cur_state = NBDCMD_STATE_RCV_REQ)
    (h5 : cmd.cur_io_ptr = ⟨.req, off⟩) (h0 : bs ≠ [])
    (hk : bs.length = cmd.io_size_remaining) :
    rcvBytes P e s c (.ok bs) = rcvRequest P e s c { cmd with
      req := writeAt cmd.req off bs
      io_size_remaining := 0 } := by
  subst hcmd
  unfold NbdServer.rcvBytes
  simp only
  have ht : List.take (s.cmds c).io_size_remaining bs = bs :=
    List.take_of_length_le (by omega)
  have hb : bs.length ≠ 0 := fun hz => h0 (List.length_eq_zero.1 hz)
  rw [ht, if_neg hb, h5, poke_req, hk, Nat.sub_self]
  rw [if_neg (by simp), if_neg (by show ¬ (s.cmds c).cur_state = _; rw [h3]; decide)]
  simp only [h5]

theorem rcvRequest_setCmd (P : NbdParams β) (e : Endian) (s : NbdServer β) (c : Nat)
    (a X : NbdCmd) : rcvRequest P e (setCmd s c a) c X = rcvRequest P e s c X := by
  unfold NbdServer.rcvRequest NbdServer.rcvDispatch
  simp only [setCmd_setCmd]
  rfl

theorem setCursor_setCmd (s : NbdServer β) (c : Nat) (X : NbdCmd) (p : IoPtr) :
    setCursor (setCmd s c X) c p = setCmd s c { X with cur_io_ptr := p } := by
  unfold setCursor
  rw [setCmd_same, setCmd_setCmd]

theorem setCursor_setCursor (s : NbdServer β) (c : Nat) (q p : IoPtr) :
    setCursor (setCursor s c q) c p = setCursor s c p := by
  unfold setCursor
  rw [setCmd_same, setCmd_setCmd]

theorem setCursor_cmd (s : NbdServer β) (c : Nat) (p : IoPtr) :
    (setCursor s c p).cmds c = { s.cmds c with cur_io_ptr := p } := by
  unfold setCursor
  rw [setCmd_same]

theorem setCursor_markShutdown (s : NbdServer β) (c : Nat) (p : IoPtr) (r : String) :
    setCursor (MarkShutdown s r) c p = MarkShutdown (setCursor s c p) r := by
  unfold MarkShutdown
  show _ = if s.shutdown_ then _ else _
  split <;> rfl

theorem setCursor_free (s : NbdServer β) (c x : Nat) (p : IoPtr) :
    setCursor (CacheAllocator.Free s x) c p = CacheAllocator.Free (setCursor s c p) x := rfl

theorem setCursor_backend (s : NbdServer β) (c : Nat) (p : IoPtr) (b : β) (tr : List Event) :
    setCursor { s with backend := b, trace := tr } c p =
      { setCursor s c p with backend := b, trace := tr } := rfl

/-- The completion hook sets the cursor, whatever it was. -/
theorem CompletionCb_setCursor (e : Endian) (s : NbdServer β) (c : Nat) (q : IoPtr) :
    CompletionCb e (setCursor s c q) c = CompletionCb e s c := by
  unfold NbdServer.CompletionCb setCursor
  simp only [setCmd_same, setCmd_setCmd]

theorem postSub_setCursor (s : NbdServer β) (c : Nat) (q : IoPtr) :
    postSub (setCursor s c q) c = setCursor (postSub s c) c q := by
  unfold postSub setCursor
  simp only [setCmd_same, setCmd_setCmd]
  show Blksrv.setCmd _ c _ = Blksrv.setCmd _ c _
  simp only [Blksrv.setCmd]
  congr 1
  funext i
  split_ifs <;> rfl

theorem postPend_setCursor (s : NbdServer β) (c : Nat) (q : IoPtr) :
    postPend (setCursor s c q) c = setCursor (postPend s c) c q := by
  unfold postPend setCursor
  simp only [Blksrv.setCmd]
  congr 1
  funext i
  split_ifs <;> rfl

theorem setCursor_callback (s : NbdServer β) (c : Nat) (X : NbdCmd) (q : IoPtr) (b : β)
    (tr : List Event) :
    ({ Blksrv.setCmd (setCursor s c q) c { X with cur_io_ptr := q } with
      backend := b, trace := tr } : NbdServer β) =
      setCursor { Blksrv.setCmd s c X with backend := b, trace := tr } c q := by
  simp only [setCursor, Blksrv.setCmd]
  congr 1
  funext i
  split_ifs <;> rfl

/-- A callback that neither uses nor changes the cursor is called to the same effect,
whatever the cursor is. -/
theorem invoke_setCursor (e : Endian) (s : NbdServer β) (c : Nat) (ev : Event)
    (f : β → NbdCmd → CbResult β) (q p : IoPtr)
    (hf : ∀ b cmd p, f b { cmd with cur_io_ptr := p } =
      ⟨(f b cmd).backend, { (f b cmd).cmd with cur_io_ptr := p }, (f b cmd).completed⟩) :
    setCursor (invoke e (setCursor s c q) c ev f) c p = setCursor (invoke e s c ev f) c p := by
  unfold NbdServer.invoke
  simp only
  have hb : (setCursor s c q).backend = s.backend := rfl
  have ht : (setCursor s c q).trace = s.trace := rfl
  rw [setCursor_cmd, hb, ht, hf]
  simp only
  have e1 : ({ Blksrv.setCmd (setCursor s c q) c
        { (f s.backend (s.cmds c)).cmd with cur_io_ptr := q } with
      backend := (f s.backend (s.cmds c)).backend
      trace := s.trace ++ [ev] } : NbdServer β) =
      setCursor { Blksrv.setCmd s c (f s.backend (s.cmds c)).cmd with
        backend := (f s.backend (s.cmds c)).backend
        trace := s.trace ++ [ev] } c q := setCursor_callback _ _ _ _ _ _
  rw [e1]
  split
  · rw [CompletionCb_setCursor]
  · rw [setCursor_setCursor]

theorem postCall_setCursor (e : Endian) (s : NbdServer β) (c : Nat) (q : IoPtr) :
    postCall e (setCursor s c q) c = setCursor (postCall e s c) c q := by
  rw [postCall_eq, postCall_eq, setCursor_cmd, postSub_setCursor, postPend_setCursor]
  show (if load e (s.cmds c).req 4 4 = NBD_CMD_DISC then _ else _) = _
  split <;> rfl

/-- `PostRcvdCmd` on a request other than read and write, with callbacks that neither
use nor change the cursor: the outcome is the same but for the cursor of the command. -/
theorem PostRcvdCmd_setCursor (P : NbdParams β) (e : Endian) (s : NbdServer β) (c : Nat)
    (q p : IoPtr) (hB : CursorBlind P) (hr : s.rcv_cmd_ = some c)
    (h1 : load e (s.cmds c).req 4 4 ≠ NBD_CMD_READ)
    (h2 : load e (s.cmds c).req 4 4 ≠ NBD_CMD_WRITE) :
    setCursor (PostRcvdCmd P e (setCursor s c q)) c p = setCursor (PostRcvdCmd P e s) c p := by
  have hr2 : (setCursor s c q).rcv_cmd_ = some c := hr
  rw [PostRcvdCmd_some P e _ c hr2, PostRcvdCmd_some P e s c hr, setCursor_cmd]
  show setCursor (if load e (s.cmds c).req 4 4 = NBD_CMD_READ then _ else _) c p = _
  rw [if_neg h1, if_neg h2, if_neg h1, if_neg h2, postCall_setCursor]
  split
  · -- disconnect
    rw [setCursor_free, setCursor_markShutdown, setCursor_free, setCursor_markShutdown]
    congr 2
    cases hd : P.disconnect with
    | none => exact setCursor_setCursor _ _ _ _
    | some f =>
      simp only
      have hb : (setCursor (postCall e s c) c q).backend = (postCall e s c).backend := rfl
      have ht : (setCursor (postCall e s c) c q).trace = (postCall e s c).trace := rfl
      rw [setCursor_cmd, hb, ht, hB.2.2 f hd]
      simp only
      have e1 := setCursor_callback (postCall e s c) c
        (f (postCall e s c).backend ((postCall e s c).cmds c)).2 q
        (f (postCall e s c).backend ((postCall e s c).cmds c)).1
        ((postCall e s c).trace ++ [.disconnect c])
      rw [e1, setCursor_setCursor]
  · split
    · exact invoke_setCursor e _ c _ _ q p hB.1
    · split
      · exact invoke_setCursor e _ c _ _ q p hB.2.1
      · rw [setCursor_cmd]
        have : (Blksrv.setCmd (setCursor (postCall e s c) c q) c
            { ({ (postCall e s c).cmds c with cur_io_ptr := q } : NbdCmd) with
              ret_error := EINVAL }) =
            setCursor (Blksrv.setCmd (postCall e s c) c
              { (postCall e s c).cmds c with ret_error := EINVAL }) c q := by
          rw [setCursor_setCmd]
          unfold setCursor
          rw [setCmd_setCmd]
        rw [this, CompletionCb_setCursor]

/-- The dispatch of a read or write request sets the cursor, whatever it was. -/
theorem rcvDispatch_rw_cursor (P : NbdParams β) (e : Endian) (s : NbdServer β) (c : Nat)
    (D : NbdCmd) (q : IoPtr)
    (ht : load e D.req 4 4 = NBD_CMD_READ ∨ load e D.req 4 4 = NBD_CMD_WRITE) :
    rcvDispatch P e s c { D with cur_io_ptr := q } = rcvDispatch P e s c D := by
  unfold NbdServer.rcvDispatch
  have ht2 : load e ({ D with cur_io_ptr := q } : NbdCmd).req 4 4 = NBD_CMD_READ ∨
      load e ({ D with cur_io_ptr := q } : NbdCmd).req 4 4 = NBD_CMD_WRITE := ht
  simp only [if_pos ht, if_pos ht2]
  split
  · have := CompletionCb_setCursor e
      (Blksrv.setCmd s c { ({ D with io_size_remaining := D.io_size } : NbdCmd) with
        ret_error := EINVAL }) c q
    rw [setCursor_setCmd] at this
    exact congrArg (fun t : NbdServer β => ({ t with rcv_cmd_ := none } : NbdServer β)) this
  · rfl

theorem rcvRequest_wire (P : NbdParams β) (e : Endian) (s : NbdServer β) (c : Nat)
    (X : NbdCmd) :
    rcvRequest P e s c X =
      if wireMagic X.req ≠ NBD_REQUEST_MAGIC ∨ 4 < wireOpcode X.req then
        MarkShutdown (setCmd s c (hostType e X)) "Invalid cmd received"
      else rcvDispatch P e s c (decodeFields e (hostType e X)) := by
  unfold NbdServer.rcvRequest
  simp only [hostType_type, hostType_magic, NBD_CMD_TRIM, gt_iff_lt, ne_eq]

/-- The processing of a complete request header, with callbacks that neither use nor
change the cursor: the outcome is the same but for the cursor of the command, whatever the
cursor was. -/
theorem rcvRequest_cursor (P : NbdParams β) (e : Endian) (s : NbdServer β) (c : Nat)
    (X : NbdCmd) (q p : IoPtr) (hB : CursorBlind P) (hr : s.rcv_cmd_ = some c) :
    setCursor (rcvRequest P e s c { X with cur_io_ptr := q }) c p =
      setCursor (rcvRequest P e s c X) c p := by
  rw [rcvRequest_wire, rcvRequest_wire]
  show setCursor (if wireMagic X.req ≠ NBD_REQUEST_MAGIC ∨ 4 < wireOpcode X.req then _ else _)
    c p = _
  split
  · rw [setCursor_markShutdown, setCursor_markShutdown, setCursor_setCmd, setCursor_setCmd]
    rfl
  · have hD : decodeFields e (hostType e { X with cur_io_ptr := q }) =
        { decodeFields e (hostType e X) with cur_io_ptr := q } := rfl
    rw [hD]
    by_cases ht : load e (decodeFields e (hostType e X)).req 4 4 = NBD_CMD_READ ∨
        load e (decodeFields e (hostType e X)).req 4 4 = NBD_CMD_WRITE
    · rw [rcvDispatch_rw_cursor P e s c _ q ht]
    · rw [not_or] at ht
      rw [rcvDispatch_other P e s c (decodeFields e (hostType e X)) ht.1 ht.2,
        rcvDispatch_other P e s c { decodeFields e (hostType e X) with cur_io_ptr := q }
          ht.1 ht.2, ← setCursor_setCmd]
      exact PostRcvdCmd_setCursor P e _ c q p hB hr (by rw [setCmd_same]; exact ht.1)
        (by rw [setCmd_same]; exact ht.2)

/-- The processing of the complete header of a valid read or write request sets the
cursor, whatever it was. -/
theorem rcvRequest_rw (P : NbdParams β) (e : Endian) (s : NbdServer β) (c : Nat)
    (X : NbdCmd) (q : IoPtr) (hm : wireMagic X.req = NBD_REQUEST_MAGIC)
    (ho : wireOpcode X.req = NBD_CMD_READ ∨ wireOpcode X.req = NBD_CMD_WRITE) :
    rcvRequest P e s c { X with cur_io_ptr := q } = rcvRequest P e s c X := by
  rw [rcvRequest_wire, rcvRequest_wire]
  have hv : ¬ (wireMagic X.req ≠ NBD_REQUEST_MAGIC ∨ 4 < wireOpcode X.req) := by
    rw [not_or, not_not, not_lt]
    refine ⟨hm, ?_⟩
    rcases ho with h | h <;> rw [h] <;> decide
  show (if wireMagic X.req ≠ NBD_REQUEST_MAGIC ∨ 4 < wireOpcode X.req then _ else _) = _
  rw [if_neg hv, if_neg hv]
  have hD : decodeFields e (hostType e { X with cur_io_ptr := q }) =
      { decodeFields e (hostType e X) with cur_io_ptr := q } := rfl
  rw [hD]
  exact rcvDispatch_rw_cursor P e s c _ q (by rw [decode_type]; exact ho)

theorem rd_cursorBlind : CursorBlind rd_params :=
  ⟨fun _ _ _ => rfl, fun _ _ _ => rfl, fun _ hf => by cases hf⟩

/-- The fields of a request whose 28 bytes are `wireReq ty h off len`. -/
theorem wireReq_fields (m : Mem) (ty : Nat) (h : List Byte) (off len : Nat)
    (hh : h.length = 8) (hty : ty < 2 ^ 32) (hoff : off < 2 ^ 64) (hlen : len < 2 ^ 32)
    (hm : readAt m 0 sizeof_req = wireReq ty h off len) :
    wireMagic m = NBD_REQUEST_MAGIC ∧ wireType m = ty ∧ readAt m 8 8 = h ∧
      wireFrom m = off ∧ wireLen m = len := by
  have e1 : sizeof_req = 4 + (4 + (8 + (8 + 4))) := rfl
  rw [e1, readAt_add, readAt_add, readAt_add, readAt_add] at hm
  unfold wireReq at hm
  simp only [List.append_assoc, Nat.zero_add] at hm
  obtain ⟨a1, hm⟩ := List.append_inj hm (by rw [readAt_length, beBytes_length])
  obtain ⟨a2, hm⟩ := List.append_inj hm (by rw [readAt_length, beBytes_length])
  obtain ⟨a3, hm⟩ := List.append_inj hm (by rw [readAt_length, hh])
  obtain ⟨a4, a5⟩ := List.append_inj hm (by rw [readAt_length, beBytes_length])
  refine ⟨?_, ?_, a3, ?_, ?_⟩
  · unfold wireMagic; rw [a1, beVal_beBytes]; decide
  · unfold wireType; rw [a2, beVal_beBytes]; exact Nat.mod_eq_of_lt (by simpa using hty)
  · unfold wireFrom; rw [a4, beVal_beBytes]; exact Nat.mod_eq_of_lt (by simpa using hoff)
  · unfold wireLen; rw [a5, beVal_beBytes]; exact Nat.mod_eq_of_lt (by simpa using hlen)

theorem wireReq_length (ty : Nat) (h : List Byte) (off len : Nat) (hh : h.length = 8) :
    (wireReq ty h off len).length = sizeof_req := by
  unfold wireReq
  simp only [List.length_append, beBytes_length, hh]
  rfl

/-- With an object in the cache, `PollRecv` takes the one at the front of the free list. -/
theorem rcvSlot_cached (P : NbdParams β) (e : Endian) {s : NbdServer β}
    {hand snd pnd ys : List Nat} {y : Nat} (nw : Option NbdCmd)
    (hC : Cont s hand snd pnd (y :: ys)) (hr : s.rcv_cmd_ = none) :
    (rcvSlot P e s nw).1 = some y := by
  obtain ⟨m2, e1, hl⟩ := hC.lists.popFront_free
  unfold NbdServer.rcvSlot
  simp only [hr]
  have : (CacheAllocator.Alloc e P.arg s nw).1 = some y := by
    simp only [CacheAllocator.Alloc, e1]
  simp only [this]

theorem rcvDispatch_allocState (P : NbdParams β) (e : Endian) (s : NbdServer β) (c : Nat)
    (D : NbdCmd) (d : DataBuf)
    (ht : load e D.req 4 4 = NBD_CMD_READ ∨ load e D.req 4 4 = NBD_CMD_WRITE)
    (h1 : 1 ≤ D.io_size) (h2 : D.io_size ≤ kMaxNbdIOSize)
    (ha : (P.alloc_data_mem s.backend D.io_size).1 = some d) :
    rcvDispatch P e s c D =
      if load e D.req 4 4 ≠ NBD_CMD_WRITE then PostRcvdCmd P e (allocState P s c D)
      else setCmd (allocState P s c D) c
        { allocCmd D (some d) with cur_state := NBDCMD_STATE_RCV_WRITE_DATA } := by
  rw [rcvDispatch_alloc P e s c D ht h1 h2]
  unfold allocState allocCmd
  simp only [ha]
  split
  · rfl
  · simp only [Blksrv.setCmd]
    congr 1
    funext i
    split_ifs <;> rfl

/-- The poll that receives, into an empty receive slot, the whole header of a read or
write request with a length in 1..1048576, when the allocator returns a buffer. -/
theorem request_header (P : NbdParams β) (e : Endian) (s : NbdServer β) (nw : Option NbdCmd)
    (c ty : Nat) (h : List Byte) (off len : Nat) (d : DataBuf)
    (hs : s.shutdown_ = false) (hr : s.rcv_cmd_ = none) (hc : (rcvSlot P e s nw).1 = some c)
    (hh : h.length = 8) (hty : ty = NBD_CMD_READ ∨ ty = NBD_CMD_WRITE) (hoff : off < 2 ^ 64)
    (h1 : 1 ≤ len) (h2 : len ≤ kMaxNbdIOSize)
    (ha : (P.alloc_data_mem s.backend len).1 = some d) :
    ∃ D : NbdCmd, D.io_offset = off ∧ D.io_size = len ∧ readAt D.req 8 8 = h ∧
      load e D.req 4 4 = ty ∧ wireLen D.req = len ∧
      D.reply = ((rcvSlot P e s nw).2.cmds c).reply ∧
      PollRecv P e s nw (.ok (wireReq ty h off len)) =
        if ty ≠ NBD_CMD_WRITE then PostRcvdCmd P e (allocState P (rcvSlot P e s nw).2 c D)
        else setCmd (allocState P (rcvSlot P e s nw).2 c D) c
          { allocCmd D (some d) with cur_state := NBDCMD_STATE_RCV_WRITE_DATA } := by
  have hl := wireReq_length ty h off len hh
  obtain ⟨hh1, hb⟩ := RcvHeader.of_fresh P e s nw c (wireReq ty h off len) hs hr hc
    (le_of_eq hl.symm)
  rw [List.take_of_length_le (le_of_eq hl)] at hb
  have hty2 : ty < 2 ^ 32 := by
    rcases hty with h | h <;> rw [h] <;> decide
  have hlen : len < 2 ^ 32 := lt_of_le_of_lt h2 (by decide)
  obtain ⟨w1, w2, w3, w4, w5⟩ := wireReq_fields _ ty h off len hh hty2 hoff hlen hb
  have wo : wireOpcode (hdrCmd (rcvSlot P e s nw).2 c (wireReq ty h off len)).req = ty := by
    unfold wireOpcode
    rw [w2]
    rcases hty with h | h <;> rw [h] <;> decide
  have hsz := decode_size e (hdrCmd (rcvSlot P e s nw).2 c (wireReq ty h off len))
  rw [w5] at hsz
  have htyD := decode_type e (hdrCmd (rcvSlot P e s nw).2 c (wireReq ty h off len))
  rw [wo] at htyD
  have hb1 : (rcvSlot P e s nw).2.backend = s.backend := (rcvSlot_same P e s nw).2.2.2.1
  refine ⟨decodeFields e (hostType e (hdrCmd (rcvSlot P e s nw).2 c (wireReq ty h off len))),
    ?_, hsz, ?_, htyD, ?_, rfl, ?_⟩
  · rw [decode_offset, w4]
  · rw [decode_handle, w3]
  · show beVal (readAt (hostType e _).req 24 4) = len
    rw [hostType_readAt e _ 24 4 (Or.inr (by omega))]
    exact w5
  · rw [PollRecv_valid P e s nw c _ hh1 w1 (by rw [wo]; rcases hty with h | h <;> rw [h] <;> decide),
      rcvDispatch_allocState P e _ c _ d (by rw [htyD]; exact hty) (by rw [hsz]; exact h1)
        (by rw [hsz]; exact h2) (by rw [hsz, hb1]; exact ha), htyD]

/-- The read that delivers the last byte of the payload hands the command, with the
payload in its buffer, to the write callback. -/
theorem rcvData_done (P : NbdParams β) (e : Endian) (s : NbdServer β) (c : Nat) (d : DataBuf)
    (off rem : Nat) (nw : Option NbdCmd) (bs : List Byte) (h : RcvData e s c d off rem)
    (h0 : 0 < rem) (hk : bs.length = rem) :
    PollRecv P e s nw (.ok bs) =
      invoke e (postPend (setCmd s c (fillCmd (s.cmds c) d off bs)) c) c (.write c) P.write := by
  obtain ⟨h1, h2, h3, h4, h5, h6, h7⟩ := h
  rw [PollRecv_some P e nw _ h1 h2]
  unfold NbdServer.rcvBytes
  simp only
  have ht : List.take rem bs = bs := List.take_of_length_le (le_of_eq hk)
  rw [h7, ht, hk, if_neg (by omega), h5, poke_data _ d off _ h6, Nat.sub_self]
  rw [if_neg (by simp), if_pos h3]
  have e1 : ({ ({ s.cmds c with
        data_buf := some { d with bytes := writeAt d.bytes off bs } } : NbdCmd) with
      io_size_remaining := 0 } : NbdCmd) = fillCmd (s.cmds c) d off bs := rfl
  rw [e1]
  exact (PostRcvdCmd_call P e _ c (show (Blksrv.setCmd s c _).rcv_cmd_ = some c from h2)).2.1
    (by rw [setCmd_same]; exact h4)

/-- A callback that completes on the caller's stack. -/
theorem invoke_completed (e : Endian) (s : NbdServer β) (c : Nat) (ev : Event)
    (f : β → NbdCmd → CbResult β) (hf : (f s.backend (s.cmds c)).completed = true) :
    invoke e s c ev f =
      CompletionCb e (calledState s c ev (f s.backend (s.cmds c)).cmd
        (f s.backend (s.cmds c)).backend) c := by
  unfold NbdServer.invoke calledState
  simp only [hf, if_true]

theorem rd_write_ok (b : RamDisk) (cmd : NbdCmd) (h : cmd.io_offset + cmd.io_size ≤ kMemSize) :
    rd_write b cmd =
      ⟨⟨writeAt b.mem cmd.io_offset (readAt (cmd.mem .data) 0 cmd.io_size), b.brk⟩,
        { cmd with ret_error := 0 }, true⟩ := by
  unfold rd_write
  have : (cmd.io_offset + cmd.io_size) % 2 ^ 64 = cmd.io_offset + cmd.io_size :=
    Nat.mod_eq_of_lt (lt_of_le_of_lt h (by decide))
  rw [this, if_neg (by omega)]

theorem rd_read_ok (b : RamDisk) (cmd : NbdCmd) (d : DataBuf) (hd : cmd.data_buf = some d)
    (h : cmd.io_offset + cmd.io_size ≤ kMemSize) :
    rd_read b cmd =
      ⟨b, { cmd with
          data_buf := some ⟨d.addr, d.size,
            writeAt d.bytes 0 (readAt b.mem cmd.io_offset cmd.io_size)⟩
          ret_error := 0 }, true⟩ := by
  unfold rd_read
  have : (cmd.io_offset + cmd.io_size) % 2 ^ 64 = cmd.io_offset + cmd.io_size :=
    Nat.mod_eq_of_lt (lt_of_le_of_lt h (by decide))
  rw [this, if_neg (by omega), hd]
  rfl

/-- The hook on the only command at the backend: it becomes the only one in the send
queue. -/
theorem hook_queued (e : Endian) {T : NbdServer β} {c : Nat} {fre : List Nat}
    (hC : Cont T [] [] [c] fre) :
    Cont (CompletionCb e T c) [] [c] [] fre ∧
    (CompletionCb e T c).cmds c = replyCmd e (T.cmds c) ∧
    (CompletionCb e T c).shutdown_ = T.shutdown_ ∧ (CompletionCb e T c).tx = T.tx ∧
    (CompletionCb e T c).rcv_cmd_ = T.rcv_cmd_ ∧ (CompletionCb e T c).send_cmd_ = T.send_cmd_ ∧
    (CompletionCb e T c).backend = T.backend := by
  obtain ⟨a1, a2, a3, a4, a5, a6, a7⟩ := CompletionCb_same e T c
  exact ⟨Cont.completion_pnd e [] [] hC, CompletionCb_cmd e T c, a1, a5, a6, a7, a4⟩

/-- The 16 reply bytes of a command the completion hook has run on. -/
theorem replyCmd_bytes (e : Endian) (cmd : NbdCmd)
    (hm : readAt cmd.reply 0 4 = beBytes 4 NBD_REPLY_MAGIC) :
    readAt (replyCmd e cmd).reply 0 sizeof_reply =
      beBytes 4 NBD_REPLY_MAGIC ++ beBytes 4 cmd.ret_error ++ readAt cmd.req 8 8 := by
  have e1 : sizeof_reply = 4 + (4 + 8) := rfl
  rw [e1, readAt_add, readAt_add, replyCmd_magic, hm]
  show _ ++ (readAt (replyCmd e cmd).reply 4 4 ++ readAt (replyCmd e cmd).reply 8 8) = _
  rw [replyCmd_error, replyCmd_handle, List.append_assoc]

theorem sendSlot_keep (s : NbdServer β) :
    (sendSlot s).2.shutdown_ = s.shutdown_ ∧ (sendSlot s).2.rcv_cmd_ = s.rcv_cmd_ ∧
      (sendSlot s).2.backend = s.backend := by
  unfold NbdServer.sendSlot
  split
  · exact ⟨rfl, rfl, rfl⟩
  · split <;> exact ⟨rfl, rfl, rfl⟩

/-- What a `write` that the kernel takes bytes of leaves alone. -/
theorem sendBytes_keep (P : NbdParams β) (e : Endian) (s : NbdServer β) (c k : Nat)
    (hk : min k (s.cmds c).io_size_remaining ≠ 0) (hfree : ∀ b d, P.free_data_mem b d = b) :
    (sendBytes P e s c (.ok k)).shutdown_ = s.shutdown_ ∧
    (sendBytes P e s c (.ok k)).rcv_cmd_ = s.rcv_cmd_ ∧
    (sendBytes P e s c (.ok k)).backend = s.backend := by
  show Sat (fun r : NbdServer β => r.shutdown_ = s.shutdown_ ∧ r.rcv_cmd_ = s.rcv_cmd_ ∧
    r.backend = s.backend) _
  unfold NbdServer.sendBytes
  simp only
  refine Sat.branch (fun h => absurd h hk) (fun _ =>
    Sat.branch (fun _ => ⟨rfl, rfl, rfl⟩) (fun _ => Sat.branch (fun _ => ?_)
      (fun _ => ⟨rfl, rfl, rfl⟩)))
  cases hdb : (s.cmds c).data_buf with
  | none =>
    have e0 : ({ s.cmds c with io_size_remaining :=
        (s.cmds c).io_size_remaining - min k (s.cmds c).io_size_remaining } :
        NbdCmd).data_buf = none := hdb
    simp only [e0]
    exact ⟨rfl, rfl, rfl⟩
  | some d =>
    have e0 : ({ s.cmds c with io_size_remaining :=
        (s.cmds c).io_size_remaining - min k (s.cmds c).io_size_remaining } :
        NbdCmd).data_buf = some d := hdb
    simp only [e0]
    exact ⟨rfl, rfl, hfree _ _⟩

theorem rd_free_id : ∀ (b : RamDisk) (d : DataBuf), rd_params.free_data_mem b d = b :=
  fun _ _ => rfl

/-- The RAM disk serving a write request: the header, then the payload, then the `write`
that takes the reply. -/
theorem txn_write (e : Endian) (s : NbdServer RamDisk) (nw : Option NbdCmd) (c : Nat)
    (fre : List Nat) (hW : List Byte) (off : Nat) (payload : List Byte)
    (hg : Good e s) (hC : Cont s [] [] [] fre) (hs : s.shutdown_ = false)
    (hr : s.rcv_cmd_ = none) (hsn : s.send_cmd_ = none)
    (hnw : nw.isSome → s.ncmds + 1 < 2 ^ 32) (hc : (rcvSlot rd_params e s nw).1 = some c)
    (hhW : hW.length = 8) (h1 : 1 ≤ payload.length) (h2 : payload.length ≤ kMaxNbdIOSize)
    (h3 : off + payload.length ≤ kMemSize) (r : NbdServer RamDisk)
    (hr3 : r = PollSend rd_params e (PollRecv rd_params e
      (PollRecv rd_params e s nw (.ok (wireReq NBD_CMD_WRITE hW off payload.length)))
      none (.ok payload)) (.ok sizeof_reply)) :
    (∃ fre3, Cont r [] [] [] (c :: fre3)) ∧ Good e r ∧ r.shutdown_ = false ∧
    r.rcv_cmd_ = none ∧ r.send_cmd_ = none ∧
    r.tx = s.tx ++ (beBytes 4 NBD_REPLY_MAGIC ++ beBytes 4 0 ++ hW) ∧
    r.backend.mem = writeAt s.backend.mem off payload := by
  have hoff : off < 2 ^ 64 := lt_of_le_of_lt (Nat.le_of_add_right_le h3) (by decide)
  obtain ⟨D, d1, d2, d3, d4, d5, d6, e1⟩ := request_header rd_params e s nw c NBD_CMD_WRITE hW
    off payload.length ⟨s.backend.brk, payload.length, fun _ => 0⟩ hs hr hc hhW (Or.inr rfl)
    hoff h1 h2 rfl
  rw [if_neg (not_not.2 rfl)] at e1
  obtain ⟨fre2, hCS⟩ := (hC.rcvSlot rd_params e nw hnw).1
  have hrS := (hC.rcvSlot rd_params e nw hnw).2 c hc
  obtain ⟨q1, _, q3, q4, q5, q6, _⟩ := rcvSlot_same rd_params e s nw
  have hgS := good_rcvSlot rd_params nw hnw hg
  have hmag : readAt D.reply 0 4 = beBytes 4 NBD_REPLY_MAGIC := by
    rw [d6]
    obtain ⟨_, _, _, _, hF⟩ := hgS
    exact hF.magic c (hCS.rcv_facts hrS).1
  -- the states
  have hg1 := good_pollRecv nw (.ok (wireReq NBD_CMD_WRITE hW off payload.length))
    rd_wellBehaved hnw hg
  obtain ⟨s1, hs1⟩ : ∃ s1, s1 = PollRecv rd_params e s nw
    (.ok (wireReq NBD_CMD_WRITE hW off payload.length)) := ⟨_, rfl⟩
  rw [← hs1] at hr3 hg1
  rw [e1] at hs1
  have c1 : s1.cmds c = { allocCmd D (some ⟨s.backend.brk, payload.length, fun _ => 0⟩) with
      cur_state := NBDCMD_STATE_RCV_WRITE_DATA } := by
    rw [hs1, setCmd_same]
  have hC1 : Cont s1 [] [] [] fre2 := by
    rw [hs1]
    exact (hCS.backend c _ _ _).setCmd c _
  have k1 : s1.shutdown_ = false := by rw [hs1]; exact q1.trans hs
  have k2 : s1.rcv_cmd_ = some c := by rw [hs1]; exact hrS
  have k3 : s1.tx = s.tx := by rw [hs1]; exact q5
  have k4 : s1.send_cmd_ = none := by rw [hs1]; exact q6.trans hsn
  have k5 : s1.backend.mem = s.backend.mem := by
    rw [hs1]
    show (rd_alloc_mem (rcvSlot rd_params e s nw).2.backend D.io_size).2.mem = _
    rw [q4]
    rfl
  have hRD : RcvData e s1 c ⟨s.backend.brk, payload.length, fun _ => 0⟩ 0 payload.length := by
    refine ⟨k1, k2, ?_, ?_, ?_, ?_, ?_⟩ <;> rw [c1] <;> first | rfl | exact d4 | exact d2
  -- the payload
  have hg2 := good_pollRecv none (.ok payload) rd_wellBehaved (fun h => by cases h) hg1
  obtain ⟨s2, hs2⟩ : ∃ s2, s2 = PollRecv rd_params e s1 none (.ok payload) := ⟨_, rfl⟩
  rw [← hs2] at hr3 hg2
  rw [rcvData_done rd_params e s1 c _ 0 payload.length none payload hRD (by omega) rfl] at hs2
  obtain ⟨T, hT⟩ : ∃ T, T = postPend (Blksrv.setCmd s1 c (fillCmd (s1.cmds c)
    ⟨s.backend.brk, payload.length, fun _ => 0⟩ 0 payload)) c := ⟨_, rfl⟩
  rw [← hT] at hs2
  have cT : T.cmds c = { fillCmd (s1.cmds c) ⟨s.backend.brk, payload.length, fun _ => 0⟩ 0
      payload with cur_state := NBDCMD_STATE_CMD_SUBMITTED } := by
    rw [hT]
    show (Blksrv.setCmd _ c _).cmds c = _
    rw [setCmd_same, setCmd_same]
  have hCT : Cont T [] [] [c] fre2 := by
    rw [hT]
    exact Cont.postPend (hC1.setCmd c _) k2
  have t1 : T.shutdown_ = false := by rw [hT]; exact k1
  have t2 : T.rcv_cmd_ = none := by rw [hT]; rfl
  have t3 : T.tx = s.tx := by rw [hT]; exact k3
  have t4 : T.send_cmd_ = none := by rw [hT]; exact k4
  have t5 : T.backend.mem = s.backend.mem := by rw [hT]; exact k5
  have io1 : (T.cmds c).io_offset = off := by rw [cT, c1]; exact d1
  have io2 : (T.cmds c).io_size = payload.length := by rw [cT, c1]; exact d2
  have hdat : readAt ((T.cmds c).mem .data) 0 payload.length = payload := by
    rw [cT]
    exact readAt_writeAt_same _ 0 payload
  have hw := rd_write_ok T.backend (T.cmds c) (by rw [io1, io2]; exact h3)
  have hwm : (rd_write T.backend (T.cmds c)).backend.mem = writeAt s.backend.mem off payload := by
    rw [hw]
    show writeAt T.backend.mem (T.cmds c).io_offset
      (readAt ((T.cmds c).mem .data) 0 (T.cmds c).io_size) = _
    rw [io1, io2, hdat, t5]
  have hcomp : (rd_params.write T.backend (T.cmds c)).completed = true := by
    show (rd_write T.backend (T.cmds c)).completed = true
    rw [hw]
  rw [invoke_completed e T c _ _ hcomp] at hs2
  obtain ⟨U, hU⟩ : ∃ U, U = calledState T c (.write c)
    (rd_params.write T.backend (T.cmds c)).cmd
    (rd_params.write T.backend (T.cmds c)).backend := ⟨_, rfl⟩
  rw [← hU] at hs2
  have hCU : Cont U [] [] [c] fre2 := by
    rw [hU]; exact hCT.backend c _ _ _
  have cU : U.cmds c = { T.cmds c with ret_error := 0 } := by
    rw [hU]
    show (Blksrv.setCmd _ c _).cmds c = _
    rw [setCmd_same]
    show (rd_write T.backend (T.cmds c)).cmd = _
    rw [hw]
  obtain ⟨v1, v2, v3, v4, v5, v6, v7⟩ := hook_queued e hCU
  rw [← hs2] at v1 v2 v3 v4 v5 v6 v7
  have u1 : U.shutdown_ = false := by rw [hU]; exact t1
  have u2 : U.rcv_cmd_ = none := by rw [hU]; exact t2
  have u3 : U.tx = s.tx := by rw [hU]; exact t3
  have u4 : U.send_cmd_ = none := by rw [hU]; exact t4
  have u5 : U.backend.mem = writeAt s.backend.mem off payload := by
    rw [hU]
    exact hwm
  -- the reply
  have hnd : ¬ hasData e (s2.cmds c) := by
    intro hd
    have := hd.1
    rw [v2, cU, cT, c1] at this
    have h4 : load e D.req 4 4 = NBD_CMD_READ := this
    rw [d4] at h4
    exact absurd h4 (by decide)
  have hsw : sendWrites e (s2.cmds c) = [.ok sizeof_reply] := by
    unfold sendWrites; rw [if_neg hnd]
  have hwo : wireOut e (s2.cmds c) = beBytes 4 NBD_REPLY_MAGIC ++ beBytes 4 0 ++ hW := by
    unfold wireOut
    rw [if_neg hnd, List.append_nil, v2, replyCmd_bytes e _ (by rw [cU, cT, c1]; exact hmag),
      cU, cT, c1]
    show _ ++ _ ++ readAt D.req 8 8 = _
    rw [d3]
  obtain ⟨w1, w2, w3, _⟩ := send_one rd_params e v1 (v6.trans u4) (by rw [v2]; rfl)
    (by rw [v2]; rfl) (by rw [v2]; rfl)
  rw [hsw] at w1 w2 w3
  have hr3b : r = PollSends rd_params e s2 [.ok sizeof_reply] := hr3
  rw [← hr3b] at w1 w2 w3
  -- what the write leaves alone
  obtain ⟨sp, p1, p2, p3, _, _, _⟩ := sendSlot_pop v1 (v6.trans u4)
  obtain ⟨y1, y2, y3⟩ := sendSlot_keep s2
  rw [p1] at y1 y2 y3
  have hsb : r = sendBytes rd_params e sp c (.ok sizeof_reply) := by
    rw [hr3]
    unfold NbdServer.PollSend
    simp only [p1]
  have hrem : (sp.cmds c).io_size_remaining = sizeof_reply := by
    rw [p3, v2]; rfl
  obtain ⟨z1, z2, z3⟩ := sendBytes_keep rd_params e sp c sizeof_reply
    (by rw [hrem]; decide) rd_free_id
  rw [← hsb] at z1 z2 z3
  have hgr : Good e r := by
    rw [hr3]
    exact good_pollSend _ hg2
  refine ⟨⟨fre2, w1⟩, hgr, ?_, ?_, w2, ?_, ?_⟩
  · rw [z1]; exact y1.trans (v3.trans u1)
  · rw [z2]; exact y2.trans (v5.trans u2)
  · rw [w3, hwo, v4, u3]
  · rw [z3]
    show sp.backend.mem = _
    rw [y3, v7, u5]

/-- The RAM disk serving a read request: the header, then the `write` that takes the
reply and the one that takes the data. -/
theorem txn_read (e : Endian) (s : NbdServer RamDisk) (nw : Option NbdCmd) (c : Nat)
    (fre : List Nat) (hR : List Byte) (off L : Nat)
    (hg : Good e s) (hC : Cont s [] [] [] fre) (hs : s.shutdown_ = false)
    (hr : s.rcv_cmd_ = none) (hsn : s.send_cmd_ = none)
    (hnw : nw.isSome → s.ncmds + 1 < 2 ^ 32) (hc : (rcvSlot rd_params e s nw).1 = some c)
    (hhR : hR.length = 8) (h1 : 1 ≤ L) (h2 : L ≤ kMaxNbdIOSize)
    (h3 : off + L ≤ kMemSize) (r : NbdServer RamDisk)
    (hr3 : r = PollSend rd_params e (PollSend rd_params e
      (PollRecv rd_params e s nw (.ok (wireReq NBD_CMD_READ hR off L)))
      (.ok sizeof_reply)) (.ok L)) :
    r.tx = s.tx ++ (beBytes 4 NBD_REPLY_MAGIC ++ beBytes 4 0 ++ hR) ++
      readAt s.backend.mem off L := by
  have hoff : off < 2 ^ 64 := lt_of_le_of_lt (Nat.le_of_add_right_le h3) (by decide)
  obtain ⟨D, d1, d2, d3, d4, d5, d6, e1⟩ := request_header rd_params e s nw c NBD_CMD_READ hR
    off L ⟨s.backend.brk, L, fun _ => 0⟩ hs hr hc hhR (Or.inl rfl) hoff h1 h2 rfl
  rw [if_pos (by decide)] at e1
  obtain ⟨fre2, hCS⟩ := (hC.rcvSlot rd_params e nw hnw).1
  have hrS := (hC.rcvSlot rd_params e nw hnw).2 c hc
  obtain ⟨q1, _, q3, q4, q5, q6, _⟩ := rcvSlot_same rd_params e s nw
  have hgS := good_rcvSlot rd_params nw hnw hg
  have hmag : readAt D.reply 0 4 = beBytes 4 NBD_REPLY_MAGIC := by
    rw [d6]
    obtain ⟨_, _, _, _, hF⟩ := hgS
    exact hF.magic c (hCS.rcv_facts hrS).1
  obtain ⟨s1, hs1⟩ : ∃ s1, s1 = PollRecv rd_params e s nw
    (.ok (wireReq NBD_CMD_READ hR off L)) := ⟨_, rfl⟩
  rw [← hs1] at hr3
  rw [e1] at hs1
  obtain ⟨A, hA⟩ : ∃ A, A = allocState rd_params (rcvSlot rd_params e s nw).2 c D := ⟨_, rfl⟩
  rw [← hA] at hs1
  have cA : A.cmds c = allocCmd D (some ⟨s.backend.brk, D.io_size, fun _ => 0⟩) := by
    rw [hA]
    show (Blksrv.setCmd _ c _).cmds c = _
    rw [setCmd_same, q4]
    rfl
  have hCA : Cont A [] [] [] fre2 := by
    rw [hA]
    exact hCS.backend c _ _ _
  have a1 : A.shutdown_ = false := by rw [hA]; exact q1.trans hs
  have a2 : A.rcv_cmd_ = some c := by rw [hA]; exact hrS
  have a3 : A.tx = s.tx := by rw [hA]; exact q5
  have a4 : A.send_cmd_ = none := by rw [hA]; exact q6.trans hsn
  have a5 : A.backend.mem = s.backend.mem := by
    rw [hA]
    show (rd_alloc_mem (rcvSlot rd_params e s nw).2.backend D.io_size).2.mem = _
    rw [q4]
    rfl
  have hty : load e (A.cmds c).req 4 4 = NBD_CMD_READ := by
    rw [cA]; exact d4
  rw [(PostRcvdCmd_call rd_params e A c a2).1 hty] at hs1
  obtain ⟨T, hT⟩ : ∃ T, T = postPend A c := ⟨_, rfl⟩
  rw [← hT] at hs1
  have cT : T.cmds c = { A.cmds c with cur_state := NBDCMD_STATE_CMD_SUBMITTED } := by
    rw [hT]
    show (Blksrv.setCmd _ c _).cmds c = _
    rw [setCmd_same]
  have hCT : Cont T [] [] [c] fre2 := by
    rw [hT]
    exact Cont.postPend hCA a2
  have t3 : T.tx = s.tx := by rw [hT]; exact a3
  have t4 : T.send_cmd_ = none := by rw [hT]; exact a4
  have t5 : T.backend.mem = s.backend.mem := by rw [hT]; exact a5
  have io1 : (T.cmds c).io_offset = off := by rw [cT, cA]; exact d1
  have io2 : (T.cmds c).io_size = L := by rw [cT, cA]; exact d2
  have hdb : (T.cmds c).data_buf = some ⟨s.backend.brk, D.io_size, fun _ => 0⟩ := by
    rw [cT, cA]; rfl
  have hrd := rd_read_ok T.backend (T.cmds c) _ hdb (by rw [io1, io2]; exact h3)
  have hcomp : (rd_params.read T.backend (T.cmds c)).completed = true := by
    show (rd_read T.backend (T.cmds c)).completed = true
    rw [hrd]
  rw [invoke_completed e T c _ _ hcomp] at hs1
  obtain ⟨U, hU⟩ : ∃ U, U = calledState T c (.read c)
    (rd_params.read T.backend (T.cmds c)).cmd
    (rd_params.read T.backend (T.cmds c)).backend := ⟨_, rfl⟩
  rw [← hU] at hs1
  have hCU : Cont U [] [] [c] fre2 := by
    rw [hU]; exact hCT.backend c _ _ _
  have cU : U.cmds c = (rd_read T.backend (T.cmds c)).cmd := by
    rw [hU]
    show (Blksrv.setCmd _ c _).cmds c = _
    rw [setCmd_same]
    rfl
  rw [hrd] at cU
  simp only at cU
  obtain ⟨v1, v2, v3, v4, v5, v6, v7⟩ := hook_queued e hCU
  rw [← hs1] at v1 v2 v3 v4 v5 v6 v7
  have u3 : U.tx = s.tx := by rw [hU]; exact t3
  have u4 : U.send_cmd_ = none := by rw [hU]; exact t4
  have rq : (s1.cmds c).req = D.req := by rw [v2, cU, cT, cA]; rfl
  have re : (s1.cmds c).ret_error = 0 := by rw [v2, cU]; rfl
  have hd : hasData e (s1.cmds c) := by
    refine ⟨?_, re, ?_⟩
    · rw [rq]; exact d4
    · rw [rq]
      intro h
      rw [load_len_zero, d5] at h
      omega
  have hsw : sendWrites e (s1.cmds c) = [.ok sizeof_reply, .ok L] := by
    unfold sendWrites; rw [if_pos hd, rq, d5]
  have hdat : readAt ((s1.cmds c).mem .data) 0 L = readAt s.backend.mem off L := by
    rw [v2, cU, io1, io2, t5]
    have := readAt_writeAt_same (fun _ => 0) 0 (readAt s.backend.mem off L)
    rw [readAt_length] at this
    exact this
  have hwo : wireOut e (s1.cmds c) = beBytes 4 NBD_REPLY_MAGIC ++ beBytes 4 0 ++ hR ++
      readAt s.backend.mem off L := by
    unfold wireOut
    rw [if_pos hd, rq, d5, hdat, v2, replyCmd_bytes e _ (by rw [cU, cT, cA]; exact hmag),
      cU, cT, cA]
    show _ ++ _ ++ readAt D.req 8 8 ++ _ = _
    rw [d3]
  obtain ⟨_, _, w3, _⟩ := send_one rd_params e v1 (v6.trans u4) (by rw [v2]; rfl)
    (by rw [v2]; rfl) (by rw [v2]; rfl)
  rw [hsw] at w3
  have hr3b : r = PollSends rd_params e s1 [.ok sizeof_reply, .ok L] := hr3
  rw [← hr3b] at w3
  rw [w3, hwo, v4, u3]
  simp only [List.append_assoc]

theorem Decoded.of_eq {e : Endian} {H : Mem} {a b : NbdCmd} (h : Decoded e H a)
    (h1 : b.req = a.req) (h2 : b.fua = a.fua) (h3 : b.io_offset = a.io_offset)
    (h4 : b.io_size = a.io_size) : Decoded e H b := by
  unfold Decoded
  rw [h1, h2, h3, h4]
  exact h

theorem Decoded.decode (e : Endian) (cmd : NbdCmd) :
    Decoded e cmd.req (decodeFields e (hostType e cmd)) :=
  ⟨decode_type e cmd, decode_fua e cmd, decode_offset e cmd, decode_size e cmd⟩

/-- The command the backend has left, after the completion hook if the callback has
completed on the caller's stack. -/
theorem invoke_cmd (e : Endian) (s : NbdServer β) (c : Nat) (ev : Event)
    (f : β → NbdCmd → CbResult β) :
    (invoke e s c ev f).cmds c =
      if (f s.backend (s.cmds c)).completed then replyCmd e (f s.backend (s.cmds c)).cmd
      else (f s.backend (s.cmds c)).cmd := by
  unfold NbdServer.invoke
  simp only
  split
  · rw [CompletionCb_cmd]
    show replyCmd e ((Blksrv.setCmd s c _).cmds c) = _
    rw [setCmd_same]
  · show (Blksrv.setCmd s c _).cmds c = _
    rw [setCmd_same]

/-- A read that delivers less than what remains of the payload leaves the other fields of
the command alone. -/
theorem rcvData_part_cmd (P : NbdParams β) (e : Endian) (s : NbdServer β) (c : Nat)
    (d : DataBuf) (off rem : Nat) (nw : Option NbdCmd) (bs : List Byte)
    (h : RcvData e s c d off rem) (h0 : bs ≠ []) (hk : bs.length < rem) :
    ((PollRecv P e s nw (.ok bs)).cmds c).req = (s.cmds c).req ∧
    ((PollRecv P e s nw (.ok bs)).cmds c).fua = (s.cmds c).fua ∧
    ((PollRecv P e s nw (.ok bs)).cmds c).io_offset = (s.cmds c).io_offset ∧
    ((PollRecv P e s nw (.ok bs)).cmds c).io_size = (s.cmds c).io_size := by
  obtain ⟨h1, h2, h3, h4, h5, h6, h7⟩ := h
  rw [PollRecv_some P e nw _ h1 h2]
  unfold NbdServer.rcvBytes
  simp only
  have ht : List.take (s.cmds c).io_size_remaining bs = bs := by
    rw [h7]; exact List.take_of_length_le (by omega)
  have hb : bs.length ≠ 0 := fun hz => h0 (List.length_eq_zero.1 hz)
  rw [ht, if_neg hb, h5, poke_data _ d off bs h6, h7]
  rw [if_pos (show rem - bs.length ≠ 0 by omega)]
  rw [setCmd_same]
  exact ⟨rfl, rfl, rfl, rfl⟩

theorem rcvData_run_cmd (P : NbdParams β) (e : Endian) (c : Nat) (H : Mem) :
    ∀ (ps : List (Option NbdCmd × List Byte)) (s : NbdServer β) (d : DataBuf) (off rem : Nat),
      RcvData e s c d off rem → (∀ p ∈ ps, p.2 ≠ []) → (chunks ps).length < rem →
      Decoded e H (s.cmds c) → Decoded e H ((PollRecvs P e s (okReads ps)).cmds c)
  | [], _, _, _, _, _, _, _, hD => hD
  | p :: ps, s, d, off, rem, h, hne, hlen, hD => by
    rw [chunks_cons, List.length_append] at hlen
    obtain ⟨k1, _, _, _⟩ := rcvData_part P e s c d off rem p.1 p.2 h
      (hne p (List.mem_cons_self _ _)) (by omega)
    obtain ⟨q1, q2, q3, q4⟩ := rcvData_part_cmd P e s c d off rem p.1 p.2 h
      (hne p (List.mem_cons_self _ _)) (by omega)
    exact rcvData_run_cmd P e c H ps (PollRecv P e s p.1 (.ok p.2)) _ _ _ k1
      (fun q hq => hne q (List.mem_cons_of_mem _ hq)) (by omega) (hD.of_eq q1 q2 q3 q4)

/-- The read that delivers the last byte of the payload: the state in which the write
callback is called, and what the call leaves. -/
theorem rcvData_end (P : NbdParams β) (e : Endian) (s : NbdServer β) (c : Nat) (d : DataBuf)
    (off rem : Nat) (nw : Option NbdCmd) (bs : List Byte) (H : Mem)
    (h : RcvData e s c d off rem) (h0 : 0 < rem) (hk : rem ≤ bs.length)
    (hD : Decoded e H (s.cmds c)) :
    ∃ T : NbdServer β, T.trace = s.trace ∧ T.backend = s.backend ∧ T.rcv_cmd_ = none ∧
      (T.cmds c).cur_state = NBDCMD_STATE_CMD_SUBMITTED ∧
      (∀ snd pnd fre, Cont s [] snd pnd fre → Cont T [] snd (pnd ++ [c]) fre) ∧
      Decoded e H (T.cmds c) ∧
      (T.cmds c).data_buf = some { d with bytes := writeAt d.bytes off (bs.take rem) } ∧
      PollRecv P e s nw (.ok bs) = invoke e T c (.write c) P.write := by
  obtain ⟨h1, h2, h3, h4, h5, h6, h7⟩ := h
  rw [PollRecv_some P e nw _ h1 h2]
  unfold NbdServer.rcvBytes
  simp only
  have hl : (List.take rem bs).length = rem := by
    rw [List.length_take]; omega
  rw [h7, hl, if_neg (by omega), h5, poke_data _ d off _ h6, Nat.sub_self]
  rw [if_neg (by simp), if_pos h3]
  obtain ⟨s2, hs2⟩ : ∃ s2 : NbdServer β, s2 = setCmd s c
    { ({ s.cmds c with
        data_buf := some { d with bytes := writeAt d.bytes off (List.take rem bs) } } : NbdCmd) with
      io_size_remaining := 0 } := ⟨_, rfl⟩
  rw [← hs2]
  have c2 : s2.cmds c = { ({ s.cmds c with
        data_buf := some { d with bytes := writeAt d.bytes off (List.take rem bs) } } : NbdCmd) with
      io_size_remaining := 0 } := by
    rw [hs2, setCmd_same]
  have r2 : s2.rcv_cmd_ = some c := by rw [hs2]; exact h2
  have ecm : (postPend s2 c).cmds c =
      { s2.cmds c with cur_state := NBDCMD_STATE_CMD_SUBMITTED } := by
    show (Blksrv.setCmd _ c _).cmds c = _
    rw [setCmd_same]
  refine ⟨postPend s2 c, by rw [hs2]; rfl, by rw [hs2]; rfl, rfl, by rw [ecm],
    fun snd pnd fre hC => ?_, ?_, by rw [ecm, c2], ?_⟩
  · have : Cont s2 [] snd pnd fre := by rw [hs2]; exact hC.setCmd c _
    exact this.postPend r2
  · rw [ecm, c2]
    exact hD.of_eq rfl rfl rfl rfl
  · exact (PostRcvdCmd_call P e s2 c r2).2.1 (by rw [c2]; exact h4)

/-- The poll that completes the header of a valid write request with a length in
1..1048576 when the allocator returns a buffer: the backend state is the one the
allocator left, and the command carries the decoded fields. -/
theorem PollRecv_write_cmd (P : NbdParams β) (e : Endian) (s : NbdServer β)
    (nw : Option NbdCmd) (c : Nat) (bs : List Byte) (d : DataBuf)
    (h : RcvHeader (rcvSlot P e s nw).2 c bs)
    (hm : wireMagic (hdrCmd (rcvSlot P e s nw).2 c bs).req = NBD_REQUEST_MAGIC)
    (ho : wireOpcode (hdrCmd (rcvSlot P e s nw).2 c bs).req = NBD_CMD_WRITE)
    (h1 : 1 ≤ wireLen (hdrCmd (rcvSlot P e s nw).2 c bs).req)
    (h2 : wireLen (hdrCmd (rcvSlot P e s nw).2 c bs).req ≤ kMaxNbdIOSize)
    (ha : (P.alloc_data_mem s.backend (wireLen (hdrCmd (rcvSlot P e s nw).2 c bs).req)).1 =
      some d) :
    (PollRecv P e s nw (.ok bs)).backend =
      (P.alloc_data_mem s.backend (wireLen (hdrCmd (rcvSlot P e s nw).2 c bs).req)).2 ∧
    Decoded e (hdrCmd (rcvSlot P e s nw).2 c bs).req ((PollRecv P e s nw (.ok bs)).cmds c) := by
  obtain ⟨hs1, _, ht1, hb1, _, _, _⟩ := rcvSlot_same P e s nw
  have hty := decode_type e (hdrCmd (rcvSlot P e s nw).2 c bs)
  rw [ho] at hty
  have hsz := decode_size e (hdrCmd (rcvSlot P e s nw).2 c bs)
  have hpr := PollRecv_valid P e s nw c bs h hm (by rw [ho]; decide)
  have hrd := rcvDispatch_alloc P e (rcvSlot P e s nw).2 c
    (decodeFields e (hostType e (hdrCmd (rcvSlot P e s nw).2 c bs))) (Or.inr hty)
    (by rw [hsz]; exact h1) (by rw [hsz]; exact h2)
  rw [hsz, hb1, ha] at hrd
  simp only at hrd
  rw [if_neg (not_not.2 hty)] at hrd
  obtain ⟨r, hr⟩ : ∃ r, r = PollRecv P e s nw (.ok bs) := ⟨_, rfl⟩
  rw [← hr]
  rw [hpr, hrd] at hr
  refine ⟨by rw [hr], ?_⟩
  rw [hr]
  show Decoded e _ ((Blksrv.setCmd _ c _).cmds c)
  rw [setCmd_same]
  exact (Decoded.decode e _).of_eq rfl rfl rfl hsz.symm

theorem rd_keepsHeader : KeepsHeader rd_params := by
  refine ⟨?_, ?_, ?_, ?_, ?_⟩
  · intro b cmd
    show SameHeader cmd (rd_read b cmd).cmd
    unfold rd_read
    split <;> exact ⟨rfl, rfl, rfl, rfl⟩
  · intro b cmd
    show SameHeader cmd (rd_write b cmd).cmd
    unfold rd_write
    split <;> exact ⟨rfl, rfl, rfl, rfl⟩
  · intro b cmd
    exact ⟨rfl, rfl, rfl, rfl⟩
  · intro b cmd
    exact ⟨rfl, rfl, rfl, rfl⟩
  · intro f hf
    cases hf

theorem Decoded.same {e : Endian} {H : Mem} {a b : NbdCmd} (h : Decoded e H a)
    (hs : SameHeader a b) : Decoded e H b :=
  h.of_eq hs.1 hs.2.1 hs.2.2.1 hs.2.2.2

theorem Decoded.when_handed {e : Endian} {H : Mem} {a : NbdCmd} (h : Decoded e H a) :
    Decoded e H (handed a) :=
  h.of_eq rfl rfl rfl rfl

theorem Decoded.after_hook {e : Endian} {H : Mem} {a : NbdCmd} (h : Decoded e H a) :
    Decoded e H (replyCmd e a) :=
  h.of_eq rfl rfl rfl rfl

theorem Decoded.after_call {e : Endian} {H : Mem} {res : CbResult β} (h : Decoded e H res.cmd) :
    Decoded e H (afterCall e res) := by
  unfold Blksrv.afterCall
  split
  · exact h.after_hook
  · exact h

theorem postPend_cmd (s : NbdServer β) (c : Nat) :
    (postPend s c).cmds c = handed (s.cmds c) ∧ (postPend s c).backend = s.backend := by
  refine ⟨?_, rfl⟩
  show (Blksrv.setCmd _ c _).cmds c = _
  rw [setCmd_same]
  rfl

/-- The backend state and the command after a call of an asynchronous callback. -/
theorem invoke_called (e : Endian) (s : NbdServer β) (c : Nat) (ev : Event)
    (f : β → NbdCmd → CbResult β) :
    (invoke e (postPend s c) c ev f).backend = (f s.backend (handed (s.cmds c))).backend ∧
    (invoke e (postPend s c) c ev f).cmds c = afterCall e (f s.backend (handed (s.cmds c))) := by
  obtain ⟨p1, p2⟩ := postPend_cmd s c
  refine ⟨?_, ?_⟩
  · rw [(invoke_same e _ c ev f).2.2.2.1, p1, p2]
  · rw [invoke_cmd, p1, p2]
    rfl

/-- What `PostRcvdCmd` leaves of the backend state and of the command, operation by
operation: the result of the callback on the command it was handed. -/
theorem PostRcvdCmd_called (P : NbdParams β) (e : Endian) (s : NbdServer β) (c : Nat)
    (hr : s.rcv_cmd_ = some c) :
    (load e (s.cmds c).req 4 4 = NBD_CMD_READ →
      (PostRcvdCmd P e s).backend = (P.read s.backend (handed (s.cmds c))).backend ∧
      (PostRcvdCmd P e s).cmds c = afterCall e (P.read s.backend (handed (s.cmds c)))) ∧
    (load e (s.cmds c).req 4 4 = NBD_CMD_WRITE →
      (PostRcvdCmd P e s).backend = (P.write s.backend (handed (s.cmds c))).backend ∧
      (PostRcvdCmd P e s).cmds c = afterCall e (P.write s.backend (handed (s.cmds c)))) ∧
    (load e (s.cmds c).req 4 4 = NBD_CMD_FLUSH →
      (PostRcvdCmd P e s).backend = (P.flush s.backend (handed (s.cmds c))).backend ∧
      (PostRcvdCmd P e s).cmds c = afterCall e (P.flush s.backend (handed (s.cmds c)))) ∧
    (load e (s.cmds c).req 4 4 = NBD_CMD_TRIM →
      (PostRcvdCmd P e s).backend = (P.trim s.backend (handed (s.cmds c))).backend ∧
      (PostRcvdCmd P e s).cmds c = afterCall e (P.trim s.backend (handed (s.cmds c)))) ∧
    (load e (s.cmds c).req 4 4 = NBD_CMD_DISC →
      (∀ f, P.disconnect = some f →
        (PostRcvdCmd P e s).backend = (f s.backend (handed (s.cmds c))).1 ∧
        (PostRcvdCmd P e s).cmds c = (f s.backend (handed (s.cmds c))).2) ∧
      (P.disconnect = none →
        (PostRcvdCmd P e s).backend = s.backend ∧
        (PostRcvdCmd P e s).cmds c = handed (s.cmds c))) := by
  obtain ⟨k1, k2, k3, k4⟩ := PostRcvdCmd_call P e s c hr
  refine ⟨fun h => ?_, fun h => ?_, fun h => ?_, fun h => ?_, fun h => ?_⟩
  · rw [k1 h]; exact invoke_called e s c _ _
  · rw [k2 h]; exact invoke_called e s c _ _
  · rw [k3 h]; exact invoke_called e s c _ _
  · rw [k4 h]; exact invoke_called e s c _ _
  · have hd := PostRcvdCmd_disc P e s c hr h
    have hsub : (postSub s c).cmds c = handed (s.cmds c) ∧ (postSub s c).backend = s.backend := by
      refine ⟨?_, rfl⟩
      show (Blksrv.setCmd _ c _).cmds c = _
      rw [setCmd_same]
      rfl
    refine ⟨fun f hf => ?_, fun hn => ?_⟩
    · rw [hd, hf]
      simp only
      refine ⟨?_, ?_⟩
      · show (MarkShutdown _ _).backend = _
        rw [(MarkShutdown_rest _ _).2.2.2.2.2.2.2.2, hsub.1, hsub.2]
      · show (MarkShutdown _ _).cmds c = _
        rw [(MarkShutdown_rest _ _).1]
        show (Blksrv.setCmd _ c _).cmds c = _
        rw [setCmd_same, hsub.1, hsub.2]
    · rw [hd, hn]
      simp only
      refine ⟨?_, ?_⟩
      · show (MarkShutdown _ _).backend = _
        rw [(MarkShutdown_rest _ _).2.2.2.2.2.2.2.2, hsub.2]
      · show (MarkShutdown _ _).cmds c = _
        rw [(MarkShutdown_rest _ _).1, hsub.1]

/-- What the dispatch of a decoded request leaves of the backend state and of the
command, path by path. -/
theorem rcvDispatch_called (P : NbdParams β) (e : Endian) (s : NbdServer β) (c : Nat)
    (D : NbdCmd) (hr : s.rcv_cmd_ = some c) :
    (load e D.req 4 4 = NBD_CMD_FLUSH →
      (rcvDispatch P e s c D).backend = (P.flush s.backend (handed D)).backend ∧
      (rcvDispatch P e s c D).cmds c = afterCall e (P.flush s.backend (handed D))) ∧
    (load e D.req 4 4 = NBD_CMD_TRIM →
      (rcvDispatch P e s c D).backend = (P.trim s.backend (handed D)).backend ∧
      (rcvDispatch P e s c D).cmds c = afterCall e (P.trim s.backend (handed D))) ∧
    (load e D.req 4 4 = NBD_CMD_DISC →
      (∀ f, P.disconnect = some f →
        (rcvDispatch P e s c D).backend = (f s.backend (handed D)).1 ∧
        (rcvDispatch P e s c D).cmds c = (f s.backend (handed D)).2) ∧
      (P.disconnect = none → (rcvDispatch P e s c D).cmds c = handed D)) ∧
    (load e D.req 4 4 = NBD_CMD_READ ∨ load e D.req 4 4 = NBD_CMD_WRITE →
      (D.io_size = 0 ∨ kMaxNbdIOSize < D.io_size →
        (rcvDispatch P e s c D).cmds c =
          replyCmd e { D with io_size_remaining := D.io_size, ret_error := EINVAL }) ∧
      (1 ≤ D.io_size → D.io_size ≤ kMaxNbdIOSize →
        ((P.alloc_data_mem s.backend D.io_size).1 = none →
          (rcvDispatch P e s c D).cmds c = allocCmd D none) ∧
        ∀ d, (P.alloc_data_mem s.backend D.io_size).1 = some d →
          (load e D.req 4 4 = NBD_CMD_WRITE →
            (rcvDispatch P e s c D).cmds c =
              { allocCmd D (some d) with cur_state := NBDCMD_STATE_RCV_WRITE_DATA }) ∧
          (load e D.req 4 4 = NBD_CMD_READ →
            (rcvDispatch P e s c D).backend =
              (P.read (P.alloc_data_mem s.backend D.io_size).2
                (handed (allocCmd D (some d)))).backend ∧
            (rcvDispatch P e s c D).cmds c =
              afterCall e (P.read (P.alloc_data_mem s.backend D.io_size).2
                (handed (allocCmd D (some d))))))) := by
  have hr2 : (Blksrv.setCmd s c D).rcv_cmd_ = some c := hr
  obtain ⟨_, _, k3, k4, k5⟩ := PostRcvdCmd_called P e (Blksrv.setCmd s c D) c hr2
  rw [setCmd_same] at k3 k4 k5
  refine ⟨fun h => ?_, fun h => ?_, fun h => ?_, fun h => ⟨fun hl => ?_, fun h1 h2 => ⟨?_, ?_⟩⟩⟩
  · rw [rcvDispatch_other P e s c D (by rw [h]; decide) (by rw [h]; decide)]
    exact k3 h
  · rw [rcvDispatch_other P e s c D (by rw [h]; decide) (by rw [h]; decide)]
    exact k4 h
  · rw [rcvDispatch_other P e s c D (by rw [h]; decide) (by rw [h]; decide)]
    exact ⟨(k5 h).1, fun hn => ((k5 h).2 hn).2⟩
  · rw [rcvDispatch_reject P e s c D h hl]
    show (CompletionCb e _ c).cmds c = _
    rw [CompletionCb_cmd, setCmd_same]
  · intro hn
    rw [rcvDispatch_alloc P e s c D h h1 h2, hn]
    show (MarkShutdown _ _).cmds c = _
    rw [(MarkShutdown_rest _ _).1]
    show (Blksrv.setCmd _ c _).cmds c = _
    rw [setCmd_same]
    rfl
  · intro d hd
    have ea := rcvDispatch_allocState P e s c D d h h1 h2 hd
    have ec : (allocState P s c D).cmds c = allocCmd D (some d) := by
      show (Blksrv.setCmd _ c _).cmds c = _
      rw [setCmd_same, hd]
    refine ⟨fun hw => ?_, fun hrd => ?_⟩
    · rw [ea, if_neg (not_not.2 hw), setCmd_same]
    · rw [ea, if_pos (by rw [hrd]; decide)]
      have := (PostRcvdCmd_called P e (allocState P s c D) c hr).1 (by rw [ec]; exact hrd)
      rw [ec] at this
      exact this

/-- With a backend that leaves the request and the decoded fields alone, the command
carries the decoded fields after the dispatch, whatever the path; without a callback it
does so for any backend. -/
theorem rcvDispatch_decoded (P : NbdParams β) (e : Endian) (s : NbdServer β) (c : Nat)
    (D : NbdCmd) (H : Mem) (hr : s.rcv_cmd_ = some c) (hD : Decoded e H D)
    (ho : load e D.req 4 4 ≤ 4) :
    (KeepsHeader P → Decoded e H ((rcvDispatch P e s c D).cmds c)) ∧
    (load e D.req 4 4 = NBD_CMD_READ ∨ load e D.req 4 4 = NBD_CMD_WRITE →
      D.io_size = 0 ∨ kMaxNbdIOSize < D.io_size ∨
        (P.alloc_data_mem s.backend D.io_size).1 = none ∨ load e D.req 4 4 = NBD_CMD_WRITE →
      Decoded e H ((rcvDispatch P e s c D).cmds c)) := by
  obtain ⟨k1, k2, k3, k4⟩ := rcvDispatch_called P e s c D hr
  have hrej : load e D.req 4 4 = NBD_CMD_READ ∨ load e D.req 4 4 = NBD_CMD_WRITE →
      D.io_size = 0 ∨ kMaxNbdIOSize < D.io_size →
      Decoded e H ((rcvDispatch P e s c D).cmds c) := by
    intro h hl
    rw [(k4 h).1 hl]
    exact hD.of_eq rfl rfl rfl rfl
  have hnone : load e D.req 4 4 = NBD_CMD_READ ∨ load e D.req 4 4 = NBD_CMD_WRITE →
      ¬ (D.io_size = 0 ∨ kMaxNbdIOSize < D.io_size) →
      (P.alloc_data_mem s.backend D.io_size).1 = none →
      Decoded e H ((rcvDispatch P e s c D).cmds c) := by
    intro h hl hn
    rw [((k4 h).2 (by omega) (by omega)).1 hn]
    exact hD.of_eq rfl rfl rfl rfl
  have hwr : load e D.req 4 4 = NBD_CMD_WRITE →
      ¬ (D.io_size = 0 ∨ kMaxNbdIOSize < D.io_size) →
      ∀ d, (P.alloc_data_mem s.backend D.io_size).1 = some d →
      Decoded e H ((rcvDispatch P e s c D).cmds c) := by
    intro h hl d hd
    rw [(((k4 (Or.inr h)).2 (by omega) (by omega)).2 d hd).1 h]
    exact hD.of_eq rfl rfl rfl rfl
  refine ⟨fun hK => ?_, fun h hc => ?_⟩
  · have h5 : load e D.req 4 4 = NBD_CMD_READ ∨ load e D.req 4 4 = NBD_CMD_WRITE ∨
        load e D.req 4 4 = NBD_CMD_DISC ∨ load e D.req 4 4 = NBD_CMD_FLUSH ∨
        load e D.req 4 4 = NBD_CMD_TRIM := by
      unfold NBD_CMD_READ NBD_CMD_WRITE NBD_CMD_DISC NBD_CMD_FLUSH NBD_CMD_TRIM
      omega
    have hrw : load e D.req 4 4 = NBD_CMD_READ ∨ load e D.req 4 4 = NBD_CMD_WRITE →
        Decoded e H ((rcvDispatch P e s c D).cmds c) := by
      intro h
      by_cases hl : D.io_size = 0 ∨ kMaxNbdIOSize < D.io_size
      · exact hrej h hl
      · cases hd : (P.alloc_data_mem s.backend D.io_size).1 with
        | none => exact hnone h hl hd
        | some d =>
          rcases h with h | h
          · rw [((((k4 (Or.inl h)).2 (by omega) (by omega)).2 d hd).2 h).2]
            exact Decoded.after_call ((hD.of_eq rfl rfl rfl rfl).same (hK.read _ _))
          · exact hwr h hl d hd
    rcases h5 with h | h | h | h | h
    · exact hrw (Or.inl h)
    · exact hrw (Or.inr h)
    · cases hf : P.disconnect with
      | none =>
        rw [(k3 h).2 hf]
        exact hD.when_handed
      | some f =>
        rw [((k3 h).1 f hf).2]
        exact hD.when_handed.same (hK.disconnect f hf _ _)
    · rw [(k1 h).2]
      exact Decoded.after_call (hD.when_handed.same (hK.flush _ _))
    · rw [(k2 h).2]
      exact Decoded.after_call (hD.when_handed.same (hK.trim _ _))
  · by_cases hl : D.io_size = 0 ∨ kMaxNbdIOSize < D.io_size
    · exact hrej h hl
    · cases hd : (P.alloc_data_mem s.backend D.io_size).1 with
      | none => exact hnone h hl hd
      | some d =>
        rcases hc with hc | hc | hc | hc
        · exact absurd (Or.inl hc) hl
        · exact absurd (Or.inr hc) hl
        · rw [hd] at hc; cases hc
        · exact hwr hc hl d hd

/-- The processing of a complete request header takes the same decision whatever the
cursor of the command was: the same shutdown mark and reported reason, the same calls of
the allocator and the callbacks, the same receive slot. -/
theorem rcvRequest_decision (P : NbdParams β) (e : Endian) (s : NbdServer β) (c : Nat)
    (X : NbdCmd) (q : IoPtr) (hr : s.rcv_cmd_ = some c) (hs : s.shutdown_ = false) :
    (∀ r0, CheckShutdown (rcvRequest P e s c { X with cur_io_ptr := q }) r0 =
      CheckShutdown (rcvRequest P e s c X) r0) ∧
    (rcvRequest P e s c { X with cur_io_ptr := q }).trace = (rcvRequest P e s c X).trace ∧
    (rcvRequest P e s c { X with cur_io_ptr := q }).rcv_cmd_ =
      (rcvRequest P e s c X).rcv_cmd_ ∧
    (rcvRequest P e s c { X with cur_io_ptr := q }).tx = (rcvRequest P e s c X).tx := by
  rw [rcvRequest_wire, rcvRequest_wire]
  show (∀ r0, CheckShutdown
      (if wireMagic X.req ≠ NBD_REQUEST_MAGIC ∨ 4 < wireOpcode X.req then _ else _ :
        NbdServer β) r0 = _) ∧
    (if wireMagic X.req ≠ NBD_REQUEST_MAGIC ∨ 4 < wireOpcode X.req then _ else _ :
      NbdServer β).trace = _ ∧
    (if wireMagic X.req ≠ NBD_REQUEST_MAGIC ∨ 4 < wireOpcode X.req then _ else _ :
      NbdServer β).rcv_cmd_ = _ ∧
    (if wireMagic X.req ≠ NBD_REQUEST_MAGIC ∨ 4 < wireOpcode X.req then _ else _ :
      NbdServer β).tx = _
  by_cases hv : wireMagic X.req ≠ NBD_REQUEST_MAGIC ∨ 4 < wireOpcode X.req
  · rw [if_pos hv, if_pos hv, MarkShutdown_fresh _ _ (show (Blksrv.setCmd s c _).shutdown_ = false from hs),
      MarkShutdown_fresh _ _ (show (Blksrv.setCmd s c _).shutdown_ = false from hs)]
    exact ⟨fun _ => rfl, rfl, rfl, rfl⟩
  · rw [if_neg hv, if_neg hv]
    have hD : decodeFields e (hostType e { X with cur_io_ptr := q }) =
        { decodeFields e (hostType e X) with cur_io_ptr := q } := rfl
    rw [hD]
    by_cases ht : load e (decodeFields e (hostType e X)).req 4 4 = NBD_CMD_READ ∨
        load e (decodeFields e (hostType e X)).req 4 4 = NBD_CMD_WRITE
    · rw [rcvDispatch_rw_cursor P e s c _ q ht]
      exact ⟨fun _ => rfl, rfl, rfl, rfl⟩
    · rw [not_or] at ht
      rw [rcvDispatch_other P e s c (decodeFields e (hostType e X)) ht.1 ht.2,
        rcvDispatch_other P e s c { decodeFields e (hostType e X) with cur_io_ptr := q }
          ht.1 ht.2]
      obtain ⟨a1, a2, a3⟩ := PostRcvdCmd_same P e
        (Blksrv.setCmd s c { decodeFields e (hostType e X) with cur_io_ptr := q }) c hr hs
      obtain ⟨b1, b2, b3⟩ := PostRcvdCmd_same P e
        (Blksrv.setCmd s c (decodeFields e (hostType e X))) c hr hs
      rw [setCmd_same] at a3 b3
      have a3 : if load e (decodeFields e (hostType e X)).req 4 4 = NBD_CMD_DISC then _
        else _ := a3
      refine ⟨fun r0 => ?_, ?_, a1.trans b1.symm, a2.trans b2.symm⟩
      · by_cases hd : load e (decodeFields e (hostType e X)).req 4 4 = NBD_CMD_DISC
        · rw [if_pos hd] at a3 b3
          rw [CheckShutdown_of _ _ r0 a3.1 a3.2.1, CheckShutdown_of _ _ r0 b3.1 b3.2.1]
        · rw [if_neg hd] at a3 b3
          unfold CheckShutdown
          rw [a3.1, b3.1]
          simp only [Bool.false_eq_true, if_false]
      · by_cases hd : load e (decodeFields e (hostType e X)).req 4 4 = NBD_CMD_DISC
        · rw [if_pos hd] at a3 b3
          rw [a3.2.2, b3.2.2]
          rfl
        · rw [if_neg hd] at a3 b3
          rw [a3.2, b3.2]
          rfl

theorem exDeferred_wellBehaved : WellBehaved exDeferred :=
  ⟨rd_wellBehaved.read, rd_wellBehaved.write, rd_wellBehaved.trim,
    fun _ _ => ⟨rfl, rfl, rfl, rfl⟩, fun _ hf => by cases hf⟩

theorem exMidway_reachable : Reachable rd_params .little Touch exMidway :=
  Reachable.step (Reachable.step (Reachable.step (Reachable.init 3 exDisk)
    (Step.data_poll exServer false false (some exRaw)
      (.ok (wireReq NBD_CMD_READ [1, 2, 3, 4, 5, 6, 7, 8] 0 4)) (.ok 16) (fun _ => by decide)))
    (Step.data_poll exReading false false (some exRaw)
      (.ok (wireReq NBD_CMD_WRITE [8, 7, 6, 5, 4, 3, 2, 1] 16 2)) (.ok 1) (fun _ => by decide)))
    (Step.data_poll exOverlap false false none (.ok [0xAA]) .again (fun h => by cases h))

theorem exQueued_reachable : Reachable exDeferred .little Touch exQueued :=
  Reachable.step (Reachable.step (Reachable.init 3 exDisk)
    (Step.data_poll exServer false false (some exRaw)
      (.ok (wireReq NBD_CMD_FLUSH [1, 2, 3, 4, 5, 6, 7, 8] 0 0)) .again (fun _ => by decide)))
    (Step.data_poll _ false false (some exRaw)
      (.ok (wireReq NBD_CMD_FLUSH [8, 7, 6, 5, 4, 3, 2, 1] 0 0)) .again (fun _ => by decide))

theorem exDeferred_cursorBlind : CursorBlind exDeferred :=
  ⟨fun _ _ _ => rfl, fun _ _ _ => rfl, fun _ hf => by cases hf⟩

/-- After a valid disconnect request delivered as 4 bytes and then 24 bytes, `cur_io_ptr`
of the command, which is back in the cache, is at offset 4 of the header; after the same 28
bytes delivered by a single read it is at offset 0.  The two end states agree but for this
field, which nothing reads before it is set again. -/
theorem cursor_after_chunks :
    PollRecvs rd_params .little exServer
        [(some exRaw, .ok (beBytes 4 NBD_REQUEST_MAGIC)),
          (none, .ok (beBytes 4 NBD_CMD_DISC ++ List.replicate 20 0))] ≠
      PollRecv rd_params .little exServer (some exRaw)
        (.ok (beBytes 4 NBD_REQUEST_MAGIC ++
          (beBytes 4 NBD_CMD_DISC ++ List.replicate 20 0))) := by
  intro h
  have h2 := congrArg (fun t : NbdServer RamDisk => (t.cmds 0).cur_io_ptr.off) h
  revert h2
  decide

end EngineLemmas

/-! ## The claims -/

section Claims

variable {β : Type}

open NbdServer

/-- C11 (as amended): `MarkShutdown` twice is `MarkShutdown` once, whatever the state and the two
reasons, and `CheckShutdown` then reports true with the reason installed first: the one
the engine already had, else `r1`; on an engine `t` that was never marked the reason
reported is `r1`, and before the marking `CheckShutdown` returns false and leaves the
caller's string `r0` as it was. -/
theorem C11_MarkShutdown_idempotent (s t : NbdServer β) (r1 r2 r0 : String)
    (ht : t.shutdown_ = false) :
    MarkShutdown (MarkShutdown s r1) r2 = MarkShutdown s r1 ∧
    CheckShutdown (MarkShutdown (MarkShutdown s r1) r2) r0 =
      (true, if s.shutdown_ then s.shutdown_reason_ else r1) ∧
    CheckShutdown (MarkShutdown (MarkShutdown t r1) r2) r0 = (true, r1) ∧
    CheckShutdown t r0 = (false, r0) := by
  refine ⟨?_, ?_, ?_, ?_⟩
  · unfold MarkShutdown; split <;> simp_all
  · unfold MarkShutdown CheckShutdown; cases h : s.shutdown_ <;> simp [h]
  · simp [MarkShutdown, CheckShutdown, ht]
  · simp [CheckShutdown, ht]

theorem C11_MarkShutdown_idempotent_witness :
    (ctor ()).shutdown_ = false ∧
    (MarkShutdown (MarkShutdown (ctor ()) "a") "b" = MarkShutdown (ctor ()) "a" ∧
    CheckShutdown (MarkShutdown (MarkShutdown (ctor ()) "a") "b") "c" =
      (true, if (ctor ()).shutdown_ then (ctor ()).shutdown_reason_ else "a") ∧
    CheckShutdown (MarkShutdown (MarkShutdown (ctor ()) "a") "b") "c" = (true, "a") ∧
    CheckShutdown (ctor ()) "c" = (false, "c")) :=
  ⟨rfl, C11_MarkShutdown_idempotent (ctor ()) (ctor ()) "a" "b" "c" rfl⟩

/-- C11, the claim as it stands: on the example engine after a disconnect request, which
is marked with "Disconnect received", `MarkShutdown "a"` followed by `MarkShutdown "b"`
leaves `CheckShutdown` reporting the earlier reason, not "a". -/
theorem C11_marked_before :
    CheckShutdown (MarkShutdown (MarkShutdown
      (PollRecv rd_params .little exServer (some exRaw)
        (.ok (wireReq NBD_CMD_DISC [1, 2, 3, 4, 5, 6, 7, 8] 0 0))) "a") "b") "c" =
      (true, "Disconnect received") ∧
    CheckShutdown (MarkShutdown (MarkShutdown
      (PollRecv rd_params .little exServer (some exRaw)
        (.ok (wireReq NBD_CMD_DISC [1, 2, 3, 4, 5, 6, 7, 8] 0 0))) "a") "b") "c" ≠
      (true, "a") := by
  decide

/-- C20: on a well-formed list holding `xs`, for an object `x` whose link is in this
list or self-linked, `Remove` returns true exactly when `x` is in the list; then the
size counter drops by one, the link of `x` is self-linked and the list holds the
other objects in their old order; when it returns false, links and list are unchanged. -/
theorem C20_Remove (m : LinkMem) (L : ListT) (xs : List Nat) (x : Nat)
    (h : IsList m L xs) (hx : x ∈ xs ∨ Unlinked m x) :
    ((L.Remove m x).1 = true ↔ x ∈ xs) ∧
    ((L.Remove m x).1 = true →
      (L.Remove m x).2.2.size_ + 1 = L.size_ ∧ Unlinked (L.Remove m x).2.1 x ∧
      IsList (L.Remove m x).2.1 (L.Remove m x).2.2 (xs.filter fun y => decide (y ≠ x))) ∧
    ((L.Remove m x).1 = false → (L.Remove m x).2 = (m, L)) := by
  by_cases hm : x ∈ xs
  · obtain ⟨as, bs, rfl⟩ := List.append_of_mem hm
    have hn := h.2.1
    have hxb : x ∉ bs := (List.nodup_cons.1 (List.nodup_append.1 hn).2.1).1
    have hxa : x ∉ as := fun hm => (List.nodup_append.1 hn).2.2 hm (List.mem_cons_self x bs)
    obtain ⟨m2, e, hl, hu, _⟩ := Remove_spec h
    rw [e, filter_ne_mid hxa hxb]
    refine ⟨by simp, fun _ => ⟨?_, hu, hl⟩, by simp⟩
    have := h.2.2.1
    simp only [List.length_append, List.length_cons] at this ⊢
    omega
  · have hu : Unlinked m x := hx.resolve_left hm
    rw [Remove_unlinked hu]
    simp [hm]

theorem C20_Remove_witness :
    (IsList exList.1 exList.2 [5, 9] ∧ (5 ∈ [5, 9] ∨ Unlinked exList.1 5)) ∧
    (((exList.2.Remove exList.1 5).1 = true ↔ 5 ∈ [5, 9]) ∧
    ((exList.2.Remove exList.1 5).1 = true →
      (exList.2.Remove exList.1 5).2.2.size_ + 1 = exList.2.size_ ∧
      Unlinked (exList.2.Remove exList.1 5).2.1 5 ∧
      IsList (exList.2.Remove exList.1 5).2.1 (exList.2.Remove exList.1 5).2.2
        ([5, 9].filter fun y => decide (y ≠ 5))) ∧
    ((exList.2.Remove exList.1 5).1 = false →
      (exList.2.Remove exList.1 5).2 = (exList.1, exList.2))) :=
  ⟨⟨by decide, Or.inl (by decide)⟩,
    C20_Remove exList.1 exList.2 [5, 9] 5 (by decide) (Or.inl (by decide))⟩

/-- C12: on an engine marked shut down `DataPoll` and `ConfigPoll` return false and
leave the whole state as it is, whatever the socket would deliver or accept: the slots,
the send queue, the pending set, the cache, the last-run time, the calls made on the
client and the bytes sent are unchanged; and on every engine `u` either poll returns
false exactly when `u` is shut down when the poll returns. -/
theorem C12_shutdown_polls (P : NbdParams β) (e : Endian) (s u : NbdServer β) (t : Int)
    (sp sp1 sp2 : Bool) (nw : Option NbdCmd) (rd : RecvRes) (wr : SendRes)
    (h : s.shutdown_ = true) :
    DataPoll P e s sp1 sp2 nw rd wr = (false, s) ∧ ConfigPoll s t sp = (false, s) ∧
    ((DataPoll P e u sp1 sp2 nw rd wr).1 = false ↔
      (DataPoll P e u sp1 sp2 nw rd wr).2.shutdown_ = true) ∧
    ((ConfigPoll u t sp).1 = false ↔ (ConfigPoll u t sp).2.shutdown_ = true) := by
  refine ⟨by simp [DataPoll, h], by simp [ConfigPoll, h], ?_, ?_⟩
  · by_cases hu : u.shutdown_ = true
    · simp [DataPoll, hu]
    · simp only [DataPoll, hu]
      split_ifs <;> simp_all
  · by_cases hu : u.shutdown_ = true
    · simp [ConfigPoll, hu]
    · simp only [ConfigPoll, hu]
      split_ifs <;> simp_all

theorem C12_shutdown_polls_witness :
    (MarkShutdown exServer "x").shutdown_ = true ∧
    (DataPoll rd_params .little (MarkShutdown exServer "x") false false none (.ok [1]) (.ok 1) =
      (false, MarkShutdown exServer "x") ∧
    ConfigPoll (MarkShutdown exServer "x") 5 false = (false, MarkShutdown exServer "x") ∧
    ((DataPoll rd_params .little exServer false false none (.ok [1]) (.ok 1)).1 = false ↔
      (DataPoll rd_params .little exServer false false none (.ok [1]) (.ok 1)).2.shutdown_ = true) ∧
    ((ConfigPoll exServer 5 false).1 = false ↔ (ConfigPoll exServer 5 false).2.shutdown_ = true)) :=
  ⟨rfl, C12_shutdown_polls rd_params .little (MarkShutdown exServer "x") exServer 5 false false
    false none (.ok [1]) (.ok 1) rfl⟩

/-- C13: the code does not do what the claim says.  On an engine that is not shut
down, with the config flag free and no spurious failure, `ConfigPoll t` with `t` later
than the recorded last run returns true and leaves the whole state as it was: the test
`(last_config_run_ - t) > 0` is false, the last-run time is not set and `HouseKeeping`
is not called. -/
theorem C13_ConfigPoll_later_skips (s : NbdServer β) (t : Int)
    (hs : s.shutdown_ = false) (hc : s.config_running_ = false)
    (ht : s.last_config_run_ < t) :
    ConfigPoll s t false = (true, s) := by
  have h1 : ¬ (s.last_config_run_ - t > 0) := by omega
  cases s
  simp only at hs hc h1
  subst hs hc
  simp [ConfigPoll, compare_exchange_weak, h1]

theorem C13_ConfigPoll_later_skips_witness :
    ((ctor ()).shutdown_ = false ∧ (ctor ()).config_running_ = false ∧
      (ctor ()).last_config_run_ < 1) ∧ ConfigPoll (ctor ()) 1 false = (true, ctor ()) :=
  ⟨⟨rfl, rfl, by decide⟩, C13_ConfigPoll_later_skips (ctor ()) 1 rfl rfl (by decide)⟩

/-- C14, counterexample: on the constructed engine the first `ConfigPoll (-5)` fails
its `compare_exchange_weak` spuriously and does nothing; the second one runs
`HouseKeeping`, which sets the cache's last housekeeping time. -/
theorem C14_second_call_runs :
    (ConfigPoll (ConfigPoll (ctor ()) (-5) true).2 (-5) false).2.cmd_cache_.last_time_ ≠
      (ConfigPoll (ctor ()) (-5) true).2.cmd_cache_.last_time_ := by
  decide

/-- C14, amended: of two consecutive `ConfigPoll t` calls either the first fails its
`compare_exchange_weak` spuriously and leaves the engine as it was, or the second
leaves the link memory, the cache (free list, `cur_allocations_`, `max_allocations_`,
`last_time_`), the deleted objects and the last-run time as the first left them; so
`HouseKeeping` runs in at most one of the two. -/
theorem C14_ConfigPoll_same_time (s : NbdServer β) (t : Int) (sp1 sp2 : Bool) :
    (sp1 = true ∧ (ConfigPoll s t sp1).2 = s) ∨
    ((ConfigPoll (ConfigPoll s t sp1).2 t sp2).2.cmd_cache_ = (ConfigPoll s t sp1).2.cmd_cache_ ∧
     (ConfigPoll (ConfigPoll s t sp1).2 t sp2).2.links = (ConfigPoll s t sp1).2.links ∧
     (ConfigPoll (ConfigPoll s t sp1).2 t sp2).2.deleted = (ConfigPoll s t sp1).2.deleted ∧
     (ConfigPoll (ConfigPoll s t sp1).2 t sp2).2.last_config_run_ =
       (ConfigPoll s t sp1).2.last_config_run_) := by
  cases sp1
  · right
    by_cases hs : s.shutdown_ = true
    · simp [ConfigPoll, hs]
    · by_cases hc : s.config_running_ = true
      · simp [ConfigPoll, compare_exchange_weak, hs, hc]
      · by_cases ht : s.last_config_run_ - t > 0
        · cases sp2 <;> simp [ConfigPoll, compare_exchange_weak, hs, hc, ht]
        · cases sp2 <;> simp [ConfigPoll, compare_exchange_weak, hs, hc, ht]
  · left
    refine ⟨rfl, ?_⟩
    by_cases hs : s.shutdown_ = true
    · simp [ConfigPoll, hs]
    · cases s
      simp only [Bool.not_eq_true] at hs
      subst hs
      simp [ConfigPoll, compare_exchange_weak]

/-- C15: the code does not do what the claim says.  A `DataPoll` call on an engine that
is not shut down and has `rcv_running_` and `send_running_` both true skips the receive
path, but its second `compare_exchange_weak` expects the value the first one stored in
`flg`, which is true, and succeeds: `PollSend` runs although `send_running_` was
already true, and the flag is false when the call returns. -/
theorem C15_DataPoll_enters_send (P : NbdParams β) (e : Endian) (s : NbdServer β)
    (sp1 : Bool) (nw : Option NbdCmd) (rd : RecvRes) (wr : SendRes)
    (hs : s.shutdown_ = false) (hr : s.rcv_running_ = true) (hw : s.send_running_ = true) :
    DataPoll P e s sp1 false nw rd wr =
      (!(PollSend P e s wr).shutdown_, { PollSend P e s wr with send_running_ := false }) ∧
    (DataPoll P e s sp1 false nw rd wr).2.send_running_ = false ∧
    (DataPoll P e s sp1 false nw rd wr).2.rcv_running_ = (PollSend P e s wr).rcv_running_ := by
  have e1 : DataPoll P e s sp1 false nw rd wr =
      (!(PollSend P e s wr).shutdown_, { PollSend P e s wr with send_running_ := false }) := by
    cases s
    simp only at hs hr hw
    subst hs hr hw
    simp [DataPoll, compare_exchange_weak]
  rw [e1]
  exact ⟨rfl, rfl, rfl⟩

theorem C15_DataPoll_enters_send_witness :
    (exBusy.shutdown_ = false ∧ exBusy.rcv_running_ = true ∧ exBusy.send_running_ = true) ∧
    (DataPoll rd_params .little exBusy false false none .again (.ok 16) =
      (!(PollSend rd_params .little exBusy (.ok 16)).shutdown_,
        { PollSend rd_params .little exBusy (.ok 16) with send_running_ := false }) ∧
    (DataPoll rd_params .little exBusy false false none .again (.ok 16)).2.send_running_ = false ∧
    (DataPoll rd_params .little exBusy false false none .again (.ok 16)).2.rcv_running_ =
      (PollSend rd_params .little exBusy (.ok 16)).rcv_running_) :=
  ⟨⟨rfl, rfl, rfl⟩,
    C15_DataPoll_enters_send rd_params .little exBusy false none .again (.ok 16) rfl rfl rfl⟩

section HouseKeepingClaims

open CacheAllocator

/-- C18: on a cache whose free list holds `xs`, with `cur_allocations_ ≤
max_allocations_ ≤ free size + cur_allocations_`, `HouseKeeping t` at a time other than
the last one sets `max_allocations_` to `cur_allocations_`, keeps `cur_allocations_`
and records `t`.  With `excess = free size + cur_allocations_ - max_allocations_`: if
`excess ≤ 2` the links and the free list are unchanged and `free_func_` is called on
nothing; otherwise the free list holds `xs` without its first `excess / 2` objects, and
`free_func_` was called on exactly those objects, once each, each self-linked. -/
theorem C18_HouseKeeping (C : CacheAllocator) (m : LinkMem) (xs : List Nat) (t : Int)
    (fh : Nat) (hl : IsList m C.free_objs_ xs) (hfh : fh ≠ C.free_objs_.hd)
    (h1 : C.cur_allocations_ ≤ C.max_allocations_)
    (h2 : C.max_allocations_ ≤ xs.length + C.cur_allocations_)
    (h3 : C.max_allocations_ < 2 ^ 32) (ht : t ≠ C.last_time_) :
    (C.HouseKeeping m t fh).2.1.max_allocations_ = C.cur_allocations_ ∧
    (C.HouseKeeping m t fh).2.1.cur_allocations_ = C.cur_allocations_ ∧
    (C.HouseKeeping m t fh).2.1.last_time_ = t ∧
    (xs.length + C.cur_allocations_ - C.max_allocations_ ≤ 2 →
      (C.HouseKeeping m t fh).1 = m ∧
      (C.HouseKeeping m t fh).2.1.free_objs_ = C.free_objs_ ∧
      (C.HouseKeeping m t fh).2.2 = []) ∧
    (2 < xs.length + C.cur_allocations_ - C.max_allocations_ →
      IsList (C.HouseKeeping m t fh).1 (C.HouseKeeping m t fh).2.1.free_objs_
        (xs.drop ((xs.length + C.cur_allocations_ - C.max_allocations_) / 2)) ∧
      (xs.take ((xs.length + C.cur_allocations_ - C.max_allocations_) / 2)).length =
        (xs.length + C.cur_allocations_ - C.max_allocations_) / 2 ∧
      (C.HouseKeeping m t fh).2.2 =
        (xs.take ((xs.length + C.cur_allocations_ - C.max_allocations_) / 2)).reverse ∧
      (C.HouseKeeping m t fh).2.2.Nodup ∧
      ∀ z ∈ (C.HouseKeeping m t fh).2.2, Unlinked (C.HouseKeeping m t fh).1 z) := by
  by_cases hE : xs.length + C.cur_allocations_ - C.max_allocations_ ≤ 2
  · rw [HouseKeeping_small fh hl h1 h2 h3 ht hE]
    refine ⟨rfl, rfl, rfl, fun _ => ⟨rfl, rfl, rfl⟩, fun h => absurd hE (by omega)⟩
  · obtain ⟨m2, e, hl2, hu, _⟩ := HouseKeeping_trim hl hfh h1 h2 h3 ht (by omega)
    rw [e]
    refine ⟨rfl, rfl, rfl, fun h => absurd h hE, fun _ => ⟨hl2, ?_, rfl, ?_, ?_⟩⟩
    · rw [List.length_take]; omega
    · exact List.nodup_reverse.2 (hl.2.1.sublist (List.take_sublist _ _))
    · intro z hz
      exact hu z (List.mem_reverse.1 hz)

theorem C18_HouseKeeping_witness :
    (IsList (ringLinks 2 6) (CacheAllocator.mk 0 ⟨2, 6, 0⟩ 0 0).free_objs_ (List.range 6) ∧
      3 ≠ (CacheAllocator.mk 0 ⟨2, 6, 0⟩ 0 0).free_objs_.hd ∧
      (CacheAllocator.mk 0 ⟨2, 6, 0⟩ 0 0).cur_allocations_ ≤
        (CacheAllocator.mk 0 ⟨2, 6, 0⟩ 0 0).max_allocations_ ∧
      (CacheAllocator.mk 0 ⟨2, 6, 0⟩ 0 0).max_allocations_ ≤
        (List.range 6).length + (CacheAllocator.mk 0 ⟨2, 6, 0⟩ 0 0).cur_allocations_ ∧
      (CacheAllocator.mk 0 ⟨2, 6, 0⟩ 0 0).max_allocations_ < 2 ^ 32 ∧
      (1 : Int) ≠ (CacheAllocator.mk 0 ⟨2, 6, 0⟩ 0 0).last_time_) ∧
    ((CacheAllocator.mk 0 ⟨2, 6, 0⟩ 0 0).HouseKeeping (ringLinks 2 6) 1 3).2.2 =
      ((List.range 6).take (((List.range 6).length + 0 - 0) / 2)).reverse :=
  ⟨⟨by decide, by decide, by decide, by decide, by decide, by decide⟩,
    (C18_HouseKeeping (CacheAllocator.mk 0 ⟨2, 6, 0⟩ 0 0) (ringLinks 2 6) (List.range 6) 1 3
      (by decide) (by decide) (by decide) (by decide) (by decide) (by decide)).2.2.2.2
      (by decide) |>.2.2.1⟩

/-- C19: on a cache whose free list holds `xs`, with `cur_allocations_ ≤
max_allocations_ ≤ free size + cur_allocations_`, under `HouseKeeping` calls at pairwise
distinct times `ts`, all other than the last housekeeping time, with no `Alloc` or
`Free` in between: the size of the free list never increases; each call after the
first takes a size `a > 2` to `a - a / 2` and leaves a size `a ≤ 2` alone; from the 33rd
call on the size is at most 2; and from 100 idle objects after a peak of 100 the
sizes go 100, 100, 50, 25, 13, 7, 4, 2. -/
theorem C19_cache_decay (C : CacheAllocator) (m : LinkMem) (xs : List Nat) (ts : List Int)
    (fh : Nat) (hl : IsList m C.free_objs_ xs) (hfh : fh ≠ C.free_objs_.hd)
    (h1 : C.cur_allocations_ ≤ C.max_allocations_)
    (h2 : C.max_allocations_ ≤ xs.length + C.cur_allocations_)
    (h3 : C.max_allocations_ < 2 ^ 32) (hts : (C.last_time_ :: ts).Nodup) :
    (hkSizes fh m C ts).Chain' (fun a b => b ≤ a) ∧
    (hkSizes fh m C ts).tail.Chain' (fun a b => b = if 2 < a then a - a / 2 else a) ∧
    (∀ n ∈ (hkSizes fh m C ts).drop 33, n ≤ 2) ∧
    (xs.length = 100 → C.cur_allocations_ = 0 → C.max_allocations_ = 100 → 7 ≤ ts.length →
      (hkSizes fh m C ts).take 8 = [100, 100, 50, 25, 13, 7, 4, 2]) := by
  have hch : List.Chain (fun a b => a ≠ b) C.last_time_ ts := List.Pairwise.chain hts
  match ts, hch with
  | [], _ => simp [hkSizes, hkRun]
  | t :: ts, hch =>
    rw [hkSizes_eq fh t ts m C xs hl hfh h1 h2 h3 hch]
    have hlen := hl.2.2.2
    generalize ha : (if 2 < xs.length + C.cur_allocations_ - C.max_allocations_ then
          xs.length - (xs.length + C.cur_allocations_ - C.max_allocations_) / 2
         else xs.length) = a1
    have ha1 : a1 ≤ xs.length := by rw [← ha]; split <;> omega
    have hc2 := iterate_chain (fun a => if 2 < a then a - a / 2 else a) (ts.length + 1) a1
    refine ⟨?_, hc2, ?_, ?_⟩
    · refine List.chain'_cons'.2 ⟨?_, hc2.imp ?_⟩
      · intro y hy
        simp only [List.iterate, List.head?_cons, Option.mem_def, Option.some.injEq] at hy
        omega
      · rintro x y rfl
        exact decay_le x
    · intro n hn
      simp only [List.drop_succ_cons] at hn
      obtain ⟨i, hi, rfl⟩ := mem_drop_iterate _ _ _ _ _ hn
      exact decay_iter_small a1 i (by omega) hi
    · intro e1 e2 e3 e4
      have : a1 = 100 := by rw [← ha, e1, e2, e3]; rfl
      subst this
      simp only [List.length_cons] at e4
      rw [List.take_succ_cons, List.take_iterate]
      have : min 7 (ts.length + 1) = 7 := by omega
      rw [this, e1]
      rfl

set_option maxRecDepth 100000 in
theorem C19_cache_decay_witness :
    (IsList (ringLinks 2 100) exCache.free_objs_ (List.range 100) ∧
      3 ≠ exCache.free_objs_.hd ∧ exCache.cur_allocations_ ≤ exCache.max_allocations_ ∧
      exCache.max_allocations_ ≤ (List.range 100).length + exCache.cur_allocations_ ∧
      exCache.max_allocations_ < 2 ^ 32 ∧
      (exCache.last_time_ :: [1, 2, 3, 4, 5, 6, 7]).Nodup) ∧
    (hkSizes 3 (ringLinks 2 100) exCache [1, 2, 3, 4, 5, 6, 7]).take 8 =
      [100, 100, 50, 25, 13, 7, 4, 2] :=
  ⟨⟨by decide, by decide, by decide, by decide, by decide, by decide⟩,
    (C19_cache_decay exCache (ringLinks 2 100) (List.range 100) [1, 2, 3, 4, 5, 6, 7] 3
      (by decide) (by decide) (by decide) (by decide) (by decide) (by decide)).2.2.2
      (by decide) (by decide) (by decide) (by decide)⟩

end HouseKeepingClaims

/-- C16: in every state reachable from a freshly constructed engine by `DataPoll` steps
with arbitrary socket results, completions of commands that are in the pending set, and
`ConfigPoll` steps, the send queue, the pending set and the free list are well-formed
lists whose `size_` is the number of objects they hold, and every object that `new`
returned and that was not deleted is held exactly once by the receive slot, the send
slot and the three lists together; no other object is held at all. -/
theorem C16_single_containment (P : NbdParams β) (e : Endian) (T : NbdCmd → NbdCmd → Prop)
    (s : NbdServer β) (h : Reachable P e T s) :
    ∃ snd pnd fre, IsList s.links s.send_cmds_ snd ∧
      IsList s.links s.pending_backend_cmds_ pnd ∧
      IsList s.links s.cmd_cache_.free_objs_ fre ∧
      s.send_cmds_.size_ = snd.length ∧ s.pending_backend_cmds_.size_ = pnd.length ∧
      s.cmd_cache_.free_objs_.size_ = fre.length ∧
      ∀ c, slotCount s.rcv_cmd_ c + slotCount s.send_cmd_ c + snd.count c + pnd.count c +
        fre.count c = if c < s.ncmds ∧ c ∉ s.deleted then 1 else 0 := by
  obtain ⟨snd, pnd, fre, hc⟩ := h.invariant
  refine ⟨snd, pnd, fre, hc.lists.send, hc.lists.pend, hc.lists.free, hc.lists.send.2.2.1,
    hc.lists.pend.2.2.1, hc.lists.free.2.2.1, ?_⟩
  intro c
  have h1 := hc.count c
  simp only [List.count_nil, zero_add] at h1
  by_cases hd : c ∈ s.deleted
  · have h2 := List.count_pos_iff.2 hd
    have h3 := ite_le_one (c < s.ncmds)
    rw [if_neg (fun h4 => h4.2 hd)]
    omega
  · have h2 := List.count_eq_zero.2 hd
    by_cases hn : c < s.ncmds
    · rw [if_pos ⟨hn, hd⟩]
      rw [if_pos hn] at h1
      omega
    · rw [if_neg (fun h4 => hn h4.1)]
      rw [if_neg hn] at h1
      omega

theorem C16_single_containment_witness :
    ∃ snd pnd fre,
      IsList (DataPoll rd_params .little exServer false false (some exRaw)
        (.ok (wireReq 0 [1, 2, 3, 4, 5, 6, 7, 8] 4096 0)) .again).2.links
        (DataPoll rd_params .little exServer false false (some exRaw)
        (.ok (wireReq 0 [1, 2, 3, 4, 5, 6, 7, 8] 4096 0)) .again).2.send_cmds_ snd ∧
      IsList (DataPoll rd_params .little exServer false false (some exRaw)
        (.ok (wireReq 0 [1, 2, 3, 4, 5, 6, 7, 8] 4096 0)) .again).2.links
        (DataPoll rd_params .little exServer false false (some exRaw)
        (.ok (wireReq 0 [1, 2, 3, 4, 5, 6, 7, 8] 4096 0)) .again).2.pending_backend_cmds_ pnd ∧
      IsList (DataPoll rd_params .little exServer false false (some exRaw)
        (.ok (wireReq 0 [1, 2, 3, 4, 5, 6, 7, 8] 4096 0)) .again).2.links
        (DataPoll rd_params .little exServer false false (some exRaw)
        (.ok (wireReq 0 [1, 2, 3, 4, 5, 6, 7, 8] 4096 0)) .again).2.cmd_cache_.free_objs_ fre :=
  (C16_single_containment rd_params .little (fun _ _ => True) _
    (Reachable.step (Reachable.init 3 exDisk)
      (Step.data_poll exServer false false (some exRaw)
        (.ok (wireReq 0 [1, 2, 3, 4, 5, 6, 7, 8] 4096 0)) .again (fun _ => by decide)))).imp
    fun _ h => h.imp fun _ h => h.imp fun _ h => ⟨h.1, h.2.1, h.2.2.1⟩

/-- C1: when a read completes the 28-byte request header `H` of the command in the
receive slot, the magic test of the code is the test of bytes 0..3 against 25 60 95 13;
if the magic is wrong or the opcode (low 16 bits of the big-endian type) is above 4 the
poll marks the engine shut down with the reason of the code, the send queue and the
pending set hold what they held, and no callback ran (trace, backend and socket output
are unchanged); if the magic is right and the opcode is at most 4 the poll is the dispatch
of the decoded request, and a shutdown mark it leaves comes from the dispatch (allocator
failure or disconnect), not from the validation. -/
theorem C1_invalid_header (P : NbdParams β) (e : Endian) (s : NbdServer β)
    (nw : Option NbdCmd) (c : Nat) (bs : List Byte) (snd pnd fre : List Nat)
    (hC : Cont s [] snd pnd fre) (hnw : nw.isSome → s.ncmds + 1 < 2 ^ 32)
    (h : RcvHeader (rcvSlot P e s nw).2 c bs) :
    (wireMagic (hdrCmd (rcvSlot P e s nw).2 c bs).req = NBD_REQUEST_MAGIC ↔
      readAt (hdrCmd (rcvSlot P e s nw).2 c bs).req 0 4 = [0x25, 0x60, 0x95, 0x13]) ∧
    (wireMagic (hdrCmd (rcvSlot P e s nw).2 c bs).req ≠ NBD_REQUEST_MAGIC ∨
        4 < wireOpcode (hdrCmd (rcvSlot P e s nw).2 c bs).req →
      (PollRecv P e s nw (.ok bs)).shutdown_ = true ∧
      (PollRecv P e s nw (.ok bs)).shutdown_reason_ = "Invalid cmd received" ∧
      (∃ fre2, Cont (PollRecv P e s nw (.ok bs)) [] snd pnd fre2) ∧
      (PollRecv P e s nw (.ok bs)).trace = s.trace ∧
      (PollRecv P e s nw (.ok bs)).backend = s.backend ∧
      (PollRecv P e s nw (.ok bs)).tx = s.tx) ∧
    (wireMagic (hdrCmd (rcvSlot P e s nw).2 c bs).req = NBD_REQUEST_MAGIC →
        wireOpcode (hdrCmd (rcvSlot P e s nw).2 c bs).req ≤ 4 →
      PollRecv P e s nw (.ok bs) = rcvDispatch P e (rcvSlot P e s nw).2 c
        (decodeFields e (hostType e (hdrCmd (rcvSlot P e s nw).2 c bs))) ∧
      ((PollRecv P e s nw (.ok bs)).shutdown_ = true →
        (PollRecv P e s nw (.ok bs)).shutdown_reason_ = "Failed to allocate DMA memory" ∨
        (PollRecv P e s nw (.ok bs)).shutdown_reason_ = "Disconnect received")) := by
  have hv := PollRecv_validate P e s nw c bs h
  obtain ⟨⟨fre2, hC1⟩, _⟩ := hC.rcvSlot P e nw hnw
  obtain ⟨hs1, hr1, _⟩ := h
  obtain ⟨_, _, q3, q4, q5, _, _⟩ := rcvSlot_same P e s nw
  refine ⟨wireMagic_bytes _, ?_, ?_⟩
  · intro hb
    rw [hv, if_pos hb, MarkShutdown_fresh (Blksrv.setCmd _ c _) _ hs1]
    refine ⟨rfl, rfl, ⟨fre2, ?_⟩, q3, q4, q5⟩
    exact hC1.congr rfl rfl rfl rfl rfl rfl rfl rfl
  · intro h1 h2
    rw [hv, if_neg (by rw [not_or, not_not, not_lt]; exact ⟨h1, h2⟩)]
    exact ⟨rfl, rcvDispatch_shutdown P e _ c _ hr1 hs1⟩

theorem C1_invalid_header_witness :
    (Cont exServer [] [] [] [] ∧ ((some exRaw).isSome → exServer.ncmds + 1 < 2 ^ 32) ∧
      RcvHeader (rcvSlot rd_params .little exServer (some exRaw)).2 0
        (wireReq 5 [1, 2, 3, 4, 5, 6, 7, 8] 4096 3)) ∧
    (PollRecv rd_params .little exServer (some exRaw)
      (.ok (wireReq 5 [1, 2, 3, 4, 5, 6, 7, 8] 4096 3))).shutdown_ = true :=
  ⟨⟨Cont.fresh_engine 3 exDisk, fun _ => by decide,
      ⟨rfl, rfl, rfl, rfl, rfl, by decide, by decide, by decide⟩⟩,
    ((C1_invalid_header rd_params .little exServer (some exRaw) 0
      (wireReq 5 [1, 2, 3, 4, 5, 6, 7, 8] 4096 3) [] [] [] (Cont.fresh_engine 3 exDisk)
      (fun _ => by decide)
      ⟨rfl, rfl, rfl, rfl, rfl, by decide, by decide, by decide⟩).2.1
      (Or.inr (by decide))).1⟩

/-- C4: when a read completes a request header `H` that passes validation, the 28 header
bytes are those received, the poll is the dispatch of the decoded command, and the decoded
fields are the reference decoding of the wire format: the opcode stored in `req.type` is
the low 16 bits of the big-endian type field, `fua` is bit 16 of it, `io_offset` is bytes
16..23 and `io_size` bytes 24..27 read big-endian; the opcode depends on bytes 6..7 only
and `fua` on the low bit of byte 5, so no other flag bit has an effect.  The command object
of the engine carries these fields after the poll: on every path without a callback (a
write waiting for its payload, a rejected length, a failed allocation), and on every path
if the callbacks leave the request and the decoded fields alone.  A callback the poll makes
(read, flush, trim, disconnect) is handed the decoded command in state `SUBMITTED`: the
poll ends with the backend state the callback returned for it and with the command as the
callback left it, after the completion hook if it completed on the caller's stack; a
disconnect with no callback configured leaves the decoded command in state `SUBMITTED`. -/
theorem C4_header_decode (P : NbdParams β) (e : Endian) (s : NbdServer β)
    (nw : Option NbdCmd) (c : Nat) (bs : List Byte) (H : Mem) (D : NbdCmd) (r : NbdServer β)
    (h : RcvHeader (rcvSlot P e s nw).2 c bs)
    (hH : H = (hdrCmd (rcvSlot P e s nw).2 c bs).req)
    (hD : D = decodeFields e (hostType e (hdrCmd (rcvSlot P e s nw).2 c bs)))
    (hr : r = PollRecv P e s nw (.ok bs))
    (hm : wireMagic H = NBD_REQUEST_MAGIC) (ho : wireOpcode H ≤ 4) :
    readAt H 0 sizeof_req =
      readAt ((rcvSlot P e s nw).2.cmds c).req 0
          (sizeof_req - ((rcvSlot P e s nw).2.cmds c).io_size_remaining) ++
        bs.take ((rcvSlot P e s nw).2.cmds c).io_size_remaining ∧
    r = rcvDispatch P e (rcvSlot P e s nw).2 c D ∧
    load e D.req 4 4 = wireOpcode H ∧ D.fua = wireFua H ∧
    D.io_offset = wireFrom H ∧ D.io_size = wireLen H ∧
    wireOpcode H = beVal (readAt H 6 2) ∧ wireFua H = (H 5).val % 2 ∧
    (KeepsHeader P → Decoded e H (r.cmds c)) ∧
    (wireOpcode H = NBD_CMD_READ ∨ wireOpcode H = NBD_CMD_WRITE →
      wireLen H = 0 ∨ kMaxNbdIOSize < wireLen H ∨
        (P.alloc_data_mem s.backend (wireLen H)).1 = none ∨ wireOpcode H = NBD_CMD_WRITE →
      Decoded e H (r.cmds c)) ∧
    (wireOpcode H = NBD_CMD_READ → 1 ≤ wireLen H → wireLen H ≤ kMaxNbdIOSize →
      ∀ d, (P.alloc_data_mem s.backend (wireLen H)).1 = some d →
        r.backend = (P.read (P.alloc_data_mem s.backend (wireLen H)).2
          (handed (allocCmd D (some d)))).backend ∧
        r.cmds c = afterCall e (P.read (P.alloc_data_mem s.backend (wireLen H)).2
          (handed (allocCmd D (some d))))) ∧
    (wireOpcode H = NBD_CMD_FLUSH →
      r.backend = (P.flush s.backend (handed D)).backend ∧
      r.cmds c = afterCall e (P.flush s.backend (handed D))) ∧
    (wireOpcode H = NBD_CMD_TRIM →
      r.backend = (P.trim s.backend (handed D)).backend ∧
      r.cmds c = afterCall e (P.trim s.backend (handed D))) ∧
    (wireOpcode H = NBD_CMD_DISC →
      (∀ f, P.disconnect = some f →
        r.backend = (f s.backend (handed D)).1 ∧ r.cmds c = (f s.backend (handed D)).2) ∧
      (P.disconnect = none → r.cmds c = handed D)) := by
  subst hH hD hr
  have hv := PollRecv_validate P e s nw c bs h
  rw [if_neg (by rw [not_or, not_not, not_lt]; exact ⟨hm, ho⟩)] at hv
  have hb : (rcvSlot P e s nw).2.backend = s.backend := (rcvSlot_same P e s nw).2.2.2.1
  have hty := decode_type e (hdrCmd (rcvSlot P e s nw).2 c bs)
  have hsz := decode_size e (hdrCmd (rcvSlot P e s nw).2 c bs)
  obtain ⟨k1, k2, k3, k4⟩ := rcvDispatch_called P e (rcvSlot P e s nw).2 c
    (decodeFields e (hostType e (hdrCmd (rcvSlot P e s nw).2 c bs))) h.2.1
  obtain ⟨g1, g2⟩ := rcvDispatch_decoded P e (rcvSlot P e s nw).2 c
    (decodeFields e (hostType e (hdrCmd (rcvSlot P e s nw).2 c bs)))
    (hdrCmd (rcvSlot P e s nw).2 c bs).req h.2.1 (Decoded.decode e _) (by rw [hty]; exact ho)
  rw [hty, hb] at k1 k2 k3
  rw [hty, hsz, hb] at k4 g2
  rw [← hv] at k1 k2 k3 k4 g1 g2
  refine ⟨hdrCmd_readAt _ c bs h, hv, hty, decode_fua e _, decode_offset e _, hsz,
    wireOpcode_low _, wireFua_bit _, g1, g2, fun h0 h1 h2 d hd => ?_, k1, k2,
    k3⟩
  exact ((((k4 (Or.inl h0)).2 h1 h2).2 d hd).2 h0)

theorem C4_header_decode_witness :
    load .little ((PollRecv rd_params .little exServer (some exRaw)
      (.ok (wireReq 0x10000 [1, 2, 3, 4, 5, 6, 7, 8] 4096 3))).cmds 0).req 4 4 = NBD_CMD_READ ∧
    ((PollRecv rd_params .little exServer (some exRaw)
      (.ok (wireReq 0x10000 [1, 2, 3, 4, 5, 6, 7, 8] 4096 3))).cmds 0).fua = 1 ∧
    ((PollRecv rd_params .little exServer (some exRaw)
      (.ok (wireReq 0x10000 [1, 2, 3, 4, 5, 6, 7, 8] 4096 3))).cmds 0).io_offset = 4096 ∧
    ((PollRecv rd_params .little exServer (some exRaw)
      (.ok (wireReq 0x10000 [1, 2, 3, 4, 5, 6, 7, 8] 4096 3))).cmds 0).io_size = 3 := by
  obtain ⟨d1, d2, d3, d4⟩ := (C4_header_decode rd_params .little exServer (some exRaw) 0
    (wireReq 0x10000 [1, 2, 3, 4, 5, 6, 7, 8] 4096 3) _ _ _
    ⟨rfl, rfl, rfl, rfl, rfl, by decide, by decide, by decide⟩ rfl rfl rfl
    (by decide) (by decide)).2.2.2.2.2.2.2.2.1 rd_keepsHeader
  exact ⟨d1.trans (by decide), d2.trans (by decide), d3.trans (by decide),
    d4.trans (by decide)⟩

/-- C21, with the texts of the code: on an engine that is not shut down and whose receive
slot holds a command for the read, `CheckShutdown` reports after the poll: "Remote end
closed connection during read" when the read returned 0, "Failed to read from socket"
when it failed with an error other than `EAGAIN`/`EWOULDBLOCK` (and no shutdown after
`EAGAIN`), and, when the read completes a request header, "Invalid cmd received" for a
wrong magic or an opcode above 4, "Disconnect received" for a valid disconnect request,
and "Failed to allocate DMA memory" for a valid read or write of 1..1048576 bytes for which
`alloc_data_mem` returns null. -/
theorem C21_shutdown_reasons (P : NbdParams β) (e : Endian) (s : NbdServer β)
    (nw : Option NbdCmd) (c : Nat) (r0 : String)
    (hs : s.shutdown_ = false) (hc : (rcvSlot P e s nw).1 = some c) :
    CheckShutdown (PollRecv P e s nw (.ok [])) r0 =
      (true, "Remote end closed connection during read") ∧
    CheckShutdown (PollRecv P e s nw .fail) r0 = (true, "Failed to read from socket") ∧
    CheckShutdown (PollRecv P e s nw .again) r0 = (false, r0) ∧
    ∀ bs, RcvHeader (rcvSlot P e s nw).2 c bs →
      (wireMagic (hdrCmd (rcvSlot P e s nw).2 c bs).req ≠ NBD_REQUEST_MAGIC ∨
          4 < wireOpcode (hdrCmd (rcvSlot P e s nw).2 c bs).req →
        CheckShutdown (PollRecv P e s nw (.ok bs)) r0 = (true, "Invalid cmd received")) ∧
      (wireMagic (hdrCmd (rcvSlot P e s nw).2 c bs).req = NBD_REQUEST_MAGIC →
        wireOpcode (hdrCmd (rcvSlot P e s nw).2 c bs).req = NBD_CMD_DISC →
        CheckShutdown (PollRecv P e s nw (.ok bs)) r0 = (true, "Disconnect received")) ∧
      (wireMagic (hdrCmd (rcvSlot P e s nw).2 c bs).req = NBD_REQUEST_MAGIC →
        wireOpcode (hdrCmd (rcvSlot P e s nw).2 c bs).req = NBD_CMD_READ ∨
          wireOpcode (hdrCmd (rcvSlot P e s nw).2 c bs).req = NBD_CMD_WRITE →
        1 ≤ wireLen (hdrCmd (rcvSlot P e s nw).2 c bs).req →
        wireLen (hdrCmd (rcvSlot P e s nw).2 c bs).req ≤ kMaxNbdIOSize →
        (P.alloc_data_mem s.backend (wireLen (hdrCmd (rcvSlot P e s nw).2 c bs).req)).1 = none →
        CheckShutdown (PollRecv P e s nw (.ok bs)) r0 =
          (true, "Failed to allocate DMA memory")) := by
  have hs1 : (rcvSlot P e s nw).2.shutdown_ = false := by
    rw [(rcvSlot_same P e s nw).1]; exact hs
  have hb1 : (rcvSlot P e s nw).2.backend = s.backend := (rcvSlot_same P e s nw).2.2.2.1
  refine ⟨?_, ?_, ?_, ?_⟩
  · rw [PollRecv_slot P e s nw _ c hs hc, rcvBytes_closed]
    exact CheckShutdown_mark _ _ _ hs1
  · rw [PollRecv_slot P e s nw _ c hs hc, rcvBytes_fail]
    exact CheckShutdown_mark _ _ _ hs1
  · rw [PollRecv_slot P e s nw _ c hs hc, rcvBytes_again]
    simp [CheckShutdown, hs1]
  · intro bs h
    refine ⟨?_, ?_, ?_⟩
    · intro hbad
      rw [PollRecv_validate P e s nw c bs h, if_pos hbad]
      exact CheckShutdown_mark _ _ _ hs1
    · intro hm ho
      rw [PollRecv_valid P e s nw c bs h hm (by rw [ho]; decide)]
      have ht := decode_type e (hdrCmd (rcvSlot P e s nw).2 c bs)
      rw [ho] at ht
      rw [rcvDispatch_other P e _ c _ (by rw [ht]; decide) (by rw [ht]; decide)]
      have hp := (PostRcvdCmd_same P e (Blksrv.setCmd (rcvSlot P e s nw).2 c
        (decodeFields e (hostType e (hdrCmd (rcvSlot P e s nw).2 c bs)))) c h.2.1 hs1).2.2
      have hcm : (Blksrv.setCmd (rcvSlot P e s nw).2 c
        (decodeFields e (hostType e (hdrCmd (rcvSlot P e s nw).2 c bs)))).cmds c =
          decodeFields e (hostType e (hdrCmd (rcvSlot P e s nw).2 c bs)) := by
        simp [Blksrv.setCmd]
      rw [hcm, if_pos ht] at hp
      exact CheckShutdown_of _ _ _ hp.1 hp.2.1
    · intro hm ho h1 h2 ha
      have ht := decode_type e (hdrCmd (rcvSlot P e s nw).2 c bs)
      have hz := decode_size e (hdrCmd (rcvSlot P e s nw).2 c bs)
      rw [PollRecv_valid P e s nw c bs h hm (by rcases ho with ho | ho <;> rw [ho] <;> decide),
        rcvDispatch_alloc P e _ c _ (by rw [ht]; exact ho) (by rw [hz]; exact h1)
          (by rw [hz]; exact h2), hz, hb1, ha]
      exact CheckShutdown_mark _ _ _ hs1

theorem C21_shutdown_reasons_witness :
    CheckShutdown (PollRecv rd_params .little exServer (some exRaw) .fail) "" =
      (true, "Failed to read from socket") :=
  (C21_shutdown_reasons rd_params .little exServer (some exRaw) 0 "" rfl rfl).2.1

/-- C21 as stated fails: the reasons the engine installs start with a capital letter, so
`CheckShutdown` does not report "invalid cmd received", "disconnect received", "remote end
closed connection during read" or "failed to read from socket". -/
theorem C21_reason_text :
    CheckShutdown (PollRecv rd_params .little exServer (some exRaw)
        (.ok (wireReq 5 [1, 2, 3, 4, 5, 6, 7, 8] 4096 3))) "" ≠
      (true, "invalid cmd received") ∧
    CheckShutdown (PollRecv rd_params .little exServer (some exRaw)
        (.ok (wireReq NBD_CMD_DISC [1, 2, 3, 4, 5, 6, 7, 8] 0 0))) "" ≠
      (true, "disconnect received") ∧
    CheckShutdown (PollRecv rd_params .little exServer (some exRaw) (.ok [])) "" ≠
      (true, "remote end closed connection during read") ∧
    CheckShutdown (PollRecv rd_params .little exServer (some exRaw) .fail) "" ≠
      (true, "failed to read from socket") := by
  decide

/-- C22: `rd_read` and `rd_write` call the completion hook once, and for a 64-bit
`io_offset` and a 32-bit `io_size` whose sum is below `2 ^ 64` they do what the claim
says: past the end of the 104857600-byte block they set `ENOSPC` and copy nothing,
otherwise they copy `io_size` bytes at `io_offset` and set 0.  When the sum reaches
`2 ^ 64` (and `io_size` is at most the block size) the 64-bit addition of the test wraps
around: although `io_offset + io_size` exceeds the block size, both functions set
`ret_error = 0` and copy `io_size` bytes at `io_offset`. -/
theorem C22_rd_bounds_wrap (b : RamDisk) (cmd : NbdCmd)
    (h1 : cmd.io_offset < 2 ^ 64) (h2 : cmd.io_size < 2 ^ 32) :
    (rd_read b cmd).completed = true ∧ (rd_write b cmd).completed = true ∧
    (cmd.io_offset + cmd.io_size < 2 ^ 64 →
      (kMemSize < cmd.io_offset + cmd.io_size →
        rd_read b cmd = ⟨b, { cmd with ret_error := ENOSPC }, true⟩ ∧
        rd_write b cmd = ⟨b, { cmd with ret_error := ENOSPC }, true⟩) ∧
      (cmd.io_offset + cmd.io_size ≤ kMemSize →
        rd_read b cmd = ⟨b, { cmd with
          data_buf := cmd.data_buf.map fun d =>
            { d with bytes := writeAt d.bytes 0 (readAt b.mem cmd.io_offset cmd.io_size) }
          ret_error := 0 }, true⟩ ∧
        rd_write b cmd =
          ⟨{ b with mem := writeAt b.mem cmd.io_offset (readAt (cmd.mem .data) 0 cmd.io_size) },
           { cmd with ret_error := 0 }, true⟩)) ∧
    (2 ^ 64 ≤ cmd.io_offset + cmd.io_size → cmd.io_size ≤ kMemSize →
      kMemSize < cmd.io_offset + cmd.io_size ∧
      rd_read b cmd = ⟨b, { cmd with
        data_buf := cmd.data_buf.map fun d =>
          { d with bytes := writeAt d.bytes 0 (readAt b.mem cmd.io_offset cmd.io_size) }
        ret_error := 0 }, true⟩ ∧
      rd_write b cmd =
        ⟨{ b with mem := writeAt b.mem cmd.io_offset (readAt (cmd.mem .data) 0 cmd.io_size) },
         { cmd with ret_error := 0 }, true⟩) := by
  have hk : kMemSize = 104857600 := by decide
  refine ⟨?_, ?_, ?_, ?_⟩
  · unfold rd_read; split <;> rfl
  · unfold rd_write; split <;> rfl
  · intro h3
    have e : (cmd.io_offset + cmd.io_size) % 2 ^ 64 = cmd.io_offset + cmd.io_size :=
      Nat.mod_eq_of_lt h3
    refine ⟨fun h4 => ?_, fun h4 => ?_⟩
    · simp only [rd_read, rd_write, e, gt_iff_lt, if_pos h4, and_self]
    · simp only [rd_read, rd_write, e, gt_iff_lt, if_neg (not_lt.2 h4), and_self]
  · intro h3 h4
    have e : ¬ (cmd.io_offset + cmd.io_size) % 2 ^ 64 > kMemSize := by
      rw [hk] at h4 ⊢
      omega
    refine ⟨by rw [hk]; omega, ?_, ?_⟩
    · simp only [rd_read, if_neg e]
    · simp only [rd_write, if_neg e]

theorem C22_rd_bounds_wrap_witness :
    (rd_read exDisk { exRaw with io_offset := 2 ^ 64 - 1, io_size := 2 }).cmd.ret_error = 0 ∧
    (rd_write exDisk { exRaw with io_offset := 2 ^ 64 - 1, io_size := 2 }).backend.mem
        (2 ^ 64 - 1) =
      ({ exRaw with io_offset := 2 ^ 64 - 1, io_size := 2 } : NbdCmd).mem .data 0 := by
  have h := (C22_rd_bounds_wrap exDisk { exRaw with io_offset := 2 ^ 64 - 1, io_size := 2 }
    (by decide) (by decide)).2.2.2 (by decide) (by decide)
  refine ⟨?_, ?_⟩
  · rw [h.2.1]
  · rw [h.2.2]
    decide

/-- C26: when device numbers exist, the block size is valid and the available set is not
empty, `NbdLoopbackStart` with an explicit device number `n ≥ 0` that is not in the
available set returns `ENOENT` and leaves `*nbd_num` and `*ret_nbd_dev` alone; but the
destructor of its temporary `ServerInfo`, whose `nbd_num` is already `n`, runs `Cleanup`,
which inserts every `nbd_num > 0` into the available set: for `n > 0` the set after the
call holds `n` and so is not the set before the call.  Only for `n = 0` are the globals
unchanged. -/
theorem C26_failed_start_inserts (P : NbdParams β) (n : Int) (dev : String) (env : StartEnv)
    (g : Loopback) (h0 : g.g_num_nbds ≠ 0)
    (hb : ¬ ((P.block_size % 2 ^ 32) &&& ((P.block_size % 2 ^ 32 + 2 ^ 32 - 1) % 2 ^ 32) ≠ 0 ∨
      P.block_size % 2 ^ 32 < 512 ∨ P.block_size % 2 ^ 32 > 65536))
    (ha : g.g_nbds_avail ≠ []) (hn : 0 ≤ n) (hm : toU32 n ∉ g.g_nbds_avail) :
    (0 < n →
      NbdLoopbackStart P n dev env g =
        some (ENOENT, n, dev, { g with g_nbds_avail := setInsert (toU32 n) g.g_nbds_avail }) ∧
      toU32 n ∈ setInsert (toU32 n) g.g_nbds_avail ∧
      setInsert (toU32 n) g.g_nbds_avail ≠ g.g_nbds_avail) ∧
    (n = 0 → NbdLoopbackStart P n dev env g = some (ENOENT, n, dev, g)) := by
  have hl : ¬ g.g_nbds_avail.length = 0 := by
    rw [List.length_eq_zero]; exact ha
  have e1 : NbdLoopbackStart P n dev env g =
      startFail ENOENT { ServerInfo.ctor with nbd_num := n } n dev g := by
    unfold NbdLoopbackStart
    simp only [if_neg h0, if_neg hb, if_neg hl]
    rw [if_pos ⟨hn, hm⟩]
  refine ⟨fun hp => ⟨?_, mem_setInsert _ _, ?_⟩, fun hz => ?_⟩
  · rw [e1]
    simp [startFail, ServerInfo.Cleanup, ServerInfo.ctor, hp]
  · intro h
    rw [← h] at hm
    exact hm (mem_setInsert _ _)
  · rw [e1]
    subst hz
    simp [startFail, ServerInfo.Cleanup, ServerInfo.ctor]

theorem C26_failed_start_inserts_witness :
    NbdLoopbackStart rd_params 1 "" exEnv exPool = some (ENOENT, 1, "", ⟨4, [0, 1, 2, 3], []⟩) :=
  ((C26_failed_start_inserts rd_params 1 "" exEnv exPool (by decide) (by decide) (by decide)
    (by decide) (by decide)).1 (by decide)).1

/-- C24: in every state of the cache reached from the fresh cache by `Alloc` calls that
succeed or fail, `Free` of objects that `Alloc` returned and that were not freed since, and
`HouseKeeping` at any times, `cur_allocations_ ≤ max_allocations_ ≤ free_objs_.size() +
cur_allocations_` holds.  So the `unsigned` arithmetic of `HouseKeeping` does not wrap: the
sum is below `2 ^ 32` and the excess the code computes, plus `max_allocations_`, is the
sum; half the excess is at most the size of the free list, and a `HouseKeeping` call that
trims calls the destructor on exactly that many objects and takes that many off the free
list (the loop never ends early); and an `Alloc` that returns null leaves the whole state,
so the two counters and the free list, as it was. -/
theorem C24_cache_counters (e : Endian) (arg : Nat) (s : NbdServer β) (out : List Nat)
    (h : CacheReach e arg s out) :
    s.cmd_cache_.cur_allocations_ ≤ s.cmd_cache_.max_allocations_ ∧
    s.cmd_cache_.max_allocations_ ≤
      s.cmd_cache_.free_objs_.size_ + s.cmd_cache_.cur_allocations_ ∧
    s.cmd_cache_.free_objs_.size_ + s.cmd_cache_.cur_allocations_ < 2 ^ 32 ∧
    ((s.cmd_cache_.free_objs_.size_ + s.cmd_cache_.cur_allocations_) % 2 ^ 32 + 2 ^ 32 -
        s.cmd_cache_.max_allocations_) % 2 ^ 32 + s.cmd_cache_.max_allocations_ =
      s.cmd_cache_.free_objs_.size_ + s.cmd_cache_.cur_allocations_ ∧
    (((s.cmd_cache_.free_objs_.size_ + s.cmd_cache_.cur_allocations_) % 2 ^ 32 + 2 ^ 32 -
        s.cmd_cache_.max_allocations_) % 2 ^ 32) >>> 1 ≤ s.cmd_cache_.free_objs_.size_ ∧
    (∀ t, t ≠ s.cmd_cache_.last_time_ →
      2 < ((s.cmd_cache_.free_objs_.size_ + s.cmd_cache_.cur_allocations_) % 2 ^ 32 + 2 ^ 32 -
        s.cmd_cache_.max_allocations_) % 2 ^ 32 →
      (s.cmd_cache_.HouseKeeping s.links t freedHead).2.2.length =
        (((s.cmd_cache_.free_objs_.size_ + s.cmd_cache_.cur_allocations_) % 2 ^ 32 + 2 ^ 32 -
          s.cmd_cache_.max_allocations_) % 2 ^ 32) >>> 1 ∧
      (s.cmd_cache_.HouseKeeping s.links t freedHead).2.1.free_objs_.size_ +
        (((s.cmd_cache_.free_objs_.size_ + s.cmd_cache_.cur_allocations_) % 2 ^ 32 + 2 ^ 32 -
          s.cmd_cache_.max_allocations_) % 2 ^ 32) >>> 1 = s.cmd_cache_.free_objs_.size_) ∧
    ∀ nw, (CacheAllocator.Alloc e arg s nw).1 = none → (CacheAllocator.Alloc e arg s nw).2 = s := by
  obtain ⟨fre, hI⟩ := h.counters
  have hl := hI.cont.lists.free
  have hsz : s.cmd_cache_.free_objs_.size_ = fre.length := hl.2.2.1
  have ht := hI.total
  have hb := hI.cont.bound
  have hcur := hI.cur
  have hlo := hI.lo
  have hhi := hI.hi
  have hmx : s.cmd_cache_.max_allocations_ < 2 ^ 32 := by omega
  have hE := excess_eq hl.2.2.2 hlo hhi hmx
  rw [hsz, hE]
  refine ⟨hlo, hhi, by omega, by omega, ?_, ?_, fun nw hn => Alloc_none hI.cont e arg nw hn⟩
  · rw [Nat.shiftRight_eq_div_pow]; omega
  · intro t htl h2
    obtain ⟨m2, e1, _⟩ := HouseKeeping_trim (t := t) (m := s.links) hl
      (show freedHead ≠ s.cmd_cache_.free_objs_.hd by rw [hI.cont.lists.hF]; decide)
      hlo hhi hmx htl h2
    rw [e1, Nat.shiftRight_eq_div_pow]
    simp only [List.length_reverse, List.length_take, List.length_drop, pow_one]
    omega

theorem C24_cache_counters_witness :
    (CacheAllocator.Free (CacheAllocator.Alloc .little 0 (NbdServer.ctor exDisk) (some exRaw)).2 0).cmd_cache_.max_allocations_ ≤
      (CacheAllocator.Free (CacheAllocator.Alloc .little 0 (NbdServer.ctor exDisk) (some exRaw)).2 0).cmd_cache_.free_objs_.size_ +
      (CacheAllocator.Free (CacheAllocator.Alloc .little 0 (NbdServer.ctor exDisk) (some exRaw)).2 0).cmd_cache_.cur_allocations_ :=
  (C24_cache_counters .little 0 _ _
    (CacheReach.free 0
      (CacheReach.alloc (some exRaw) 0 (CacheReach.init exDisk) (fun _ => by decide) rfl)
      (List.mem_singleton.2 rfl))).2.1

/-- C2: let a read complete the header `H` of a valid read or write request in the
receive slot.  If the decoded length is 0 or above 1048576, the poll calls neither the
allocator nor a backend callback (trace and backend are unchanged), does not mark
shutdown, empties the receive slot, and the command is the new tail of the send queue,
the pending set being as before; it is in state `SEND_REPLY` with the cursor at the start
of the 16 reply bytes, its reply carries the error bytes 00 00 00 16 (`EINVAL`) and the
handle of the request, and its `data_buf` is null.  If the length is in 1..1048576 the
first call the poll makes is `alloc_data_mem` with exactly that length, and the only call
after it is the read callback, made when the request is a read and the allocator
returned a buffer. -/
theorem C2_bad_length (P : NbdParams β) (e : Endian) (s : NbdServer β)
    (nw : Option NbdCmd) (c : Nat) (bs : List Byte) (snd pnd fre : List Nat)
    (H : Mem) (r : NbdServer β)
    (hC : Cont s [] snd pnd fre) (hnw : nw.isSome → s.ncmds + 1 < 2 ^ 32)
    (h : RcvHeader (rcvSlot P e s nw).2 c bs)
    (hH : H = (hdrCmd (rcvSlot P e s nw).2 c bs).req)
    (hr : r = PollRecv P e s nw (.ok bs))
    (hm : wireMagic H = NBD_REQUEST_MAGIC)
    (ho : wireOpcode H = NBD_CMD_READ ∨ wireOpcode H = NBD_CMD_WRITE) :
    (wireLen H = 0 ∨ kMaxNbdIOSize < wireLen H →
      r.trace = s.trace ∧ r.backend = s.backend ∧ r.shutdown_ = false ∧ r.rcv_cmd_ = none ∧
      (∃ fre2, Cont r [] (snd ++ [c]) pnd fre2) ∧
      (r.cmds c).cur_state = NBDCMD_STATE_SEND_REPLY ∧
      (r.cmds c).cur_io_ptr = ⟨.reply, 0⟩ ∧ (r.cmds c).io_size_remaining = sizeof_reply ∧
      readAt (r.cmds c).reply 4 4 = [0, 0, 0, 22] ∧
      readAt (r.cmds c).reply 8 8 = wireHandle H ∧
      (r.cmds c).data_buf = none) ∧
    (1 ≤ wireLen H → wireLen H ≤ kMaxNbdIOSize →
      r.trace = s.trace ++
        [.alloc_data_mem (wireLen H)
          ((P.alloc_data_mem s.backend (wireLen H)).1.map DataBuf.addr)] ++
        if (P.alloc_data_mem s.backend (wireLen H)).1.isSome ∧ wireOpcode H = NBD_CMD_READ
        then [.read c] else []) := by
  subst hH hr
  obtain ⟨hs1, _, ht1, hb1, _, _, _⟩ := rcvSlot_same P e s nw
  have hsf : (rcvSlot P e s nw).2.shutdown_ = false := h.1
  have hty := decode_type e (hdrCmd (rcvSlot P e s nw).2 c bs)
  have hsz := decode_size e (hdrCmd (rcvSlot P e s nw).2 c bs)
  refine ⟨fun hl => ?_, fun h1 h2 => ?_⟩
  · rw [PollRecv_reject P e s nw c bs h hm ho hl]
    obtain ⟨fre2, hC1⟩ := (hC.rcvSlot P e nw hnw).1
    refine ⟨?_, ?_, ?_, rfl, ⟨fre2, Cont.completion_rcv e (hC1.setCmd c _) h.2.1⟩, ?_⟩
    · show (CompletionCb e _ c).trace = _
      rw [(CompletionCb_same e _ c).2.2.1]; exact ht1
    · show (CompletionCb e _ c).backend = _
      rw [(CompletionCb_same e _ c).2.2.2.1]; exact hb1
    · show (CompletionCb e _ c).shutdown_ = _
      rw [(CompletionCb_same e _ c).1]; exact hsf
    · show (fun x : NbdCmd => x.cur_state = NBDCMD_STATE_SEND_REPLY ∧
        x.cur_io_ptr = ⟨.reply, 0⟩ ∧ x.io_size_remaining = sizeof_reply ∧
        readAt x.reply 4 4 = [0, 0, 0, 22] ∧ readAt x.reply 8 8 = wireHandle _ ∧
        x.data_buf = none) ((CompletionCb e _ c).cmds c)
      rw [CompletionCb_cmd, setCmd_same]
      refine ⟨rfl, rfl, rfl, ?_, ?_, ?_⟩
      · rw [replyCmd_error]
        show beBytes 4 EINVAL = _
        decide
      · rw [replyCmd_handle]
        exact decode_handle e _
      · show (hdrCmd (rcvSlot P e s nw).2 c bs).data_buf = none
        exact h.2.2.2.1
  · rw [PollRecv_valid P e s nw c bs h hm (by rcases ho with ho | ho <;> rw [ho] <;> decide),
      rcvDispatch_alloc_trace P e _ c _ h.2.1 hsf (by rw [hty]; exact ho) (by rw [hsz]; exact h1)
        (by rw [hsz]; exact h2), hsz, hb1, ht1, hty]

theorem C2_bad_length_witness :
    readAt ((PollRecv rd_params .little exServer (some exRaw)
      (.ok (wireReq NBD_CMD_WRITE [1, 2, 3, 4, 5, 6, 7, 8] 0 2097152))).cmds 0).reply 4 4 =
      [0, 0, 0, 22] :=
  ((C2_bad_length rd_params .little exServer (some exRaw) 0
    (wireReq NBD_CMD_WRITE [1, 2, 3, 4, 5, 6, 7, 8] 0 2097152) [] [] [] _ _
    (Cont.fresh_engine 3 exDisk) (fun _ => by decide)
    ⟨rfl, rfl, rfl, rfl, rfl, by decide, by decide, by decide⟩ rfl rfl
    (by decide) (Or.inr (by decide))).1 (Or.inr (by decide))).2.2.2.2.2.2.2.2.1

/-- C9: let a read complete the header `H` of a valid disconnect request (opcode 2) in
the receive slot.  After the poll the send queue and the pending set hold what they held
and the command is at the head of the cache free list; the receive slot is empty and the
send slot untouched; the engine is marked shut down with "Disconnect received"; the only
callback made is `disconnect`, made exactly when one is configured; and nothing was
written to the socket. -/
theorem C9_disconnect (P : NbdParams β) (e : Endian) (s : NbdServer β)
    (nw : Option NbdCmd) (c : Nat) (bs : List Byte) (snd pnd fre : List Nat)
    (H : Mem) (r : NbdServer β)
    (hC : Cont s [] snd pnd fre) (hnw : nw.isSome → s.ncmds + 1 < 2 ^ 32)
    (h : RcvHeader (rcvSlot P e s nw).2 c bs)
    (hH : H = (hdrCmd (rcvSlot P e s nw).2 c bs).req)
    (hr : r = PollRecv P e s nw (.ok bs))
    (hm : wireMagic H = NBD_REQUEST_MAGIC) (ho : wireOpcode H = NBD_CMD_DISC) :
    (∃ fre2, Cont r [] snd pnd (c :: fre2)) ∧
    r.rcv_cmd_ = none ∧ r.send_cmd_ = s.send_cmd_ ∧
    r.shutdown_ = true ∧ r.shutdown_reason_ = "Disconnect received" ∧
    r.trace = s.trace ++ (if P.disconnect.isSome then [.disconnect c] else []) ∧
    r.tx = s.tx := by
  subst hH hr
  obtain ⟨hs1, _, ht1, hb1, hx1, hn1, _⟩ := rcvSlot_same P e s nw
  have hsf : (rcvSlot P e s nw).2.shutdown_ = false := h.1
  have hty := decode_type e (hdrCmd (rcvSlot P e s nw).2 c bs)
  rw [ho] at hty
  obtain ⟨fre2, hC1⟩ := (hC.rcvSlot P e nw hnw).1
  rw [PollRecv_valid P e s nw c bs h hm (by rw [ho]; decide),
    rcvDispatch_other P e _ c _ (by rw [hty]; decide) (by rw [hty]; decide)]
  have hrc : (Blksrv.setCmd (rcvSlot P e s nw).2 c
      (decodeFields e (hostType e (hdrCmd (rcvSlot P e s nw).2 c bs)))).rcv_cmd_ = some c := h.2.1
  have htd : load e ((Blksrv.setCmd (rcvSlot P e s nw).2 c
      (decodeFields e (hostType e (hdrCmd (rcvSlot P e s nw).2 c bs)))).cmds c).req 4 4 =
      NBD_CMD_DISC := by rw [setCmd_same]; exact hty
  have hp := PostRcvdCmd_same P e _ c hrc hsf
  rw [if_pos htd] at hp
  refine ⟨⟨fre2, Cont.postRcvdCmd_disc P e (hC1.setCmd c _) hrc htd⟩, hp.1, ?_, hp.2.2.1,
    hp.2.2.2.1, ?_, ?_⟩
  · rw [PostRcvdCmd_send]; exact hn1
  · rw [hp.2.2.2.2]
    show (rcvSlot P e s nw).2.trace ++ _ = _
    rw [ht1]
  · rw [hp.2.1]; exact hx1

theorem C9_disconnect_witness :
    (PollRecv rd_params .little exServer (some exRaw)
      (.ok (wireReq NBD_CMD_DISC [1, 2, 3, 4, 5, 6, 7, 8] 0 0))).shutdown_reason_ =
      "Disconnect received" :=
  (C9_disconnect rd_params .little exServer (some exRaw) 0
    (wireReq NBD_CMD_DISC [1, 2, 3, 4, 5, 6, 7, 8] 0 0) [] [] [] _ _
    (Cont.fresh_engine 3 exDisk) (fun _ => by decide)
    ⟨rfl, rfl, rfl, rfl, rfl, by decide, by decide, by decide⟩ rfl rfl
    (by decide) (by decide)).2.2.2.2.1

/-- C25: let a read complete the header `H` of a valid write request whose length is
above 1048576.  The poll stores only the header bytes, empties the receive slot and
does not mark shutdown; `data_buf` stays null, so no byte of the payload has a place to
go.  In the next poll `PollRecv` puts a command `c2` into the slot, reset to state
`RCV_REQ` with the cursor at the start of the request header and 28 bytes remaining, and
a read that delivers at least 28 bytes `bs2` (the start of the payload, if the sender
transmits it) stores the first 28 as the header of `c2`, which the poll validates and
dispatches as a request. -/
theorem C25_payload_as_header (P : NbdParams β) (e : Endian) (s : NbdServer β)
    (nw : Option NbdCmd) (c : Nat) (bs : List Byte) (H : Mem) (r : NbdServer β)
    (h : RcvHeader (rcvSlot P e s nw).2 c bs)
    (hH : H = (hdrCmd (rcvSlot P e s nw).2 c bs).req)
    (hr : r = PollRecv P e s nw (.ok bs))
    (hm : wireMagic H = NBD_REQUEST_MAGIC) (ho : wireOpcode H = NBD_CMD_WRITE)
    (hl : kMaxNbdIOSize < wireLen H) :
    r.rcv_cmd_ = none ∧ r.shutdown_ = false ∧ (r.cmds c).data_buf = none ∧
    ∀ (nw2 : Option NbdCmd) (c2 : Nat) (bs2 : List Byte),
      (rcvSlot P e r nw2).1 = some c2 → sizeof_req ≤ bs2.length →
      ((rcvSlot P e r nw2).2.cmds c2).cur_state = NBDCMD_STATE_RCV_REQ ∧
      ((rcvSlot P e r nw2).2.cmds c2).cur_io_ptr = ⟨.req, 0⟩ ∧
      ((rcvSlot P e r nw2).2.cmds c2).io_size_remaining = sizeof_req ∧
      readAt (hdrCmd (rcvSlot P e r nw2).2 c2 bs2).req 0 sizeof_req = bs2.take sizeof_req ∧
      PollRecv P e r nw2 (.ok bs2) =
        if wireMagic (hdrCmd (rcvSlot P e r nw2).2 c2 bs2).req ≠ NBD_REQUEST_MAGIC ∨
            4 < wireOpcode (hdrCmd (rcvSlot P e r nw2).2 c2 bs2).req then
          MarkShutdown
            (setCmd (rcvSlot P e r nw2).2 c2 (hostType e (hdrCmd (rcvSlot P e r nw2).2 c2 bs2)))
            "Invalid cmd received"
        else
          rcvDispatch P e (rcvSlot P e r nw2).2 c2
            (decodeFields e (hostType e (hdrCmd (rcvSlot P e r nw2).2 c2 bs2))) := by
  subst hH
  have hrj := PollRecv_reject P e s nw c bs h hm (Or.inr ho) (Or.inr hl)
  rw [hrj] at hr
  have h1 : r.rcv_cmd_ = none := by rw [hr]
  have h2 : r.shutdown_ = false := by
    rw [hr]
    show (CompletionCb e _ c).shutdown_ = _
    rw [(CompletionCb_same e _ c).1]
    exact h.1
  have h3 : (r.cmds c).data_buf = none := by
    rw [hr]
    show ((CompletionCb e _ c).cmds c).data_buf = _
    rw [CompletionCb_cmd, setCmd_same]
    exact h.2.2.2.1
  refine ⟨h1, h2, h3, fun nw2 c2 bs2 hc hl2 => ?_⟩
  obtain ⟨hh, hb⟩ := RcvHeader.of_fresh P e r nw2 c2 bs2 h2 h1 hc hl2
  obtain ⟨_, f2, _, f4, f5⟩ := rcvSlot_fresh P e r nw2 c2 h1 hc
  exact ⟨f2, f4, f5, hb, PollRecv_validate P e r nw2 c2 bs2 hh⟩

theorem C25_payload_as_header_witness :
    (PollRecv rd_params .little
      (PollRecv rd_params .little exServer (some exRaw)
        (.ok (wireReq NBD_CMD_WRITE [1, 2, 3, 4, 5, 6, 7, 8] 0 2097152)))
      (some exRaw) (.ok (List.replicate 28 0xAA))).shutdown_reason_ = "Invalid cmd received" := by
  have h := (C25_payload_as_header rd_params .little exServer (some exRaw) 0
    (wireReq NBD_CMD_WRITE [1, 2, 3, 4, 5, 6, 7, 8] 0 2097152) _ _
    ⟨rfl, rfl, rfl, rfl, rfl, by decide, by decide, by decide⟩ rfl rfl
    (by decide) (by decide) (by decide)).2.2.2 (some exRaw) 1 (List.replicate 28 0xAA) rfl
    (by decide)
  rw [h.2.2.2.2, if_pos (Or.inl (by decide))]
  rfl

/-- C23: let the backend be well behaved (its callbacks and completions leave the request,
the reply, `io_size` and the buffer address of a command alone).  In every reachable state:
when `PollRecv` issues its `read` (the engine is not shut down and the receive slot holds
or gets a command), the command has `io_size_remaining > 0` (the assertion holds) and
either is in state `RCV_REQ` with the cursor in the request and offset plus remaining
equal to 28, or is in state `RCV_WRITE_DATA` with the cursor in `data_buf`, which is
non-null and was asked for with the decoded request length, and offset plus remaining
equal to that length; when `PollSend` issues its `write` the same holds with `SEND_REPLY`
and the 16 bytes of the reply, and `SEND_READ_DATA` and the data buffer. -/
theorem C23_cursor (P : NbdParams β) (e : Endian) (hP : WellBehaved P) (s : NbdServer β)
    (h : Reachable P e Touch s) :
    (∀ nw c, (nw.isSome → s.ncmds + 1 < 2 ^ 32) → s.shutdown_ = false →
      (rcvSlot P e s nw).1 = some c →
      0 < ((rcvSlot P e s nw).2.cmds c).io_size_remaining ∧
      ((((rcvSlot P e s nw).2.cmds c).cur_state = NBDCMD_STATE_RCV_REQ ∧
          ((rcvSlot P e s nw).2.cmds c).cur_io_ptr.region = .req ∧
          ((rcvSlot P e s nw).2.cmds c).cur_io_ptr.off +
            ((rcvSlot P e s nw).2.cmds c).io_size_remaining = sizeof_req) ∨
        (((rcvSlot P e s nw).2.cmds c).cur_state = NBDCMD_STATE_RCV_WRITE_DATA ∧
          ((rcvSlot P e s nw).2.cmds c).cur_io_ptr.region = .data ∧
          ((rcvSlot P e s nw).2.cmds c).cur_io_ptr.off +
            ((rcvSlot P e s nw).2.cmds c).io_size_remaining =
              wireLen ((rcvSlot P e s nw).2.cmds c).req ∧
          ∃ d, ((rcvSlot P e s nw).2.cmds c).data_buf = some d ∧
            Event.alloc_data_mem (wireLen ((rcvSlot P e s nw).2.cmds c).req) (some d.addr) ∈
              (rcvSlot P e s nw).2.trace))) ∧
    (∀ c, (sendSlot s).1 = some c →
      0 < ((sendSlot s).2.cmds c).io_size_remaining ∧
      ((((sendSlot s).2.cmds c).cur_state = NBDCMD_STATE_SEND_REPLY ∧
          ((sendSlot s).2.cmds c).cur_io_ptr.region = .reply ∧
          ((sendSlot s).2.cmds c).cur_io_ptr.off +
            ((sendSlot s).2.cmds c).io_size_remaining = sizeof_reply) ∨
        (((sendSlot s).2.cmds c).cur_state = NBDCMD_STATE_SEND_READ_DATA ∧
          ((sendSlot s).2.cmds c).cur_io_ptr.region = .data ∧
          ((sendSlot s).2.cmds c).cur_io_ptr.off +
            ((sendSlot s).2.cmds c).io_size_remaining = wireLen ((sendSlot s).2.cmds c).req ∧
          ∃ d, ((sendSlot s).2.cmds c).data_buf = some d ∧
            Event.alloc_data_mem (wireLen ((sendSlot s).2.cmds c).req) (some d.addr) ∈
              (sendSlot s).2.trace))) := by
  have hg := h.good hP
  refine ⟨fun nw c hnw hs hc => ?_, fun c hc => ?_⟩
  · obtain ⟨snd, pnd, fre, hC, _⟩ := hg
    obtain ⟨snd1, pnd1, fre1, hC1, h1⟩ := good_rcvSlot P nw hnw (h.good hP)
    have hr := (hC.rcvSlot P e nw hnw).2 c hc
    exact (h1.rcv c hr (by rw [(rcvSlot_same P e s nw).1]; exact hs)).cursor_rcv
      (fun d hd => h1.data c d (hC1.rcv_facts hr).1 hd)
  · obtain ⟨snd, pnd, fre, hC, _⟩ := hg
    obtain ⟨snd1, pnd1, fre1, hC1, h1⟩ := good_sendSlot (h.good hP)
    have hr := hC.sendSlot.2 c hc
    exact (h1.send c hr).cursor_send (fun d hd => h1.data c d (hC1.send_facts hr).1 hd)

theorem C23_cursor_witness :
    (((rcvSlot rd_params .little exMidway none).2.cmds 1).cur_io_ptr = ⟨.data, 1⟩ ∧
      ((rcvSlot rd_params .little exMidway none).2.cmds 1).io_size_remaining = 1 ∧
      ((sendSlot exMidway).2.cmds 0).cur_io_ptr = ⟨.data, 1⟩ ∧
      ((sendSlot exMidway).2.cmds 0).io_size_remaining = 3) ∧
    (0 < ((rcvSlot rd_params .little exMidway none).2.cmds 1).io_size_remaining ∧
      ((rcvSlot rd_params .little exMidway none).2.cmds 1).cur_io_ptr.off +
        ((rcvSlot rd_params .little exMidway none).2.cmds 1).io_size_remaining =
        wireLen ((rcvSlot rd_params .little exMidway none).2.cmds 1).req) ∧
    (0 < ((sendSlot exMidway).2.cmds 0).io_size_remaining ∧
      ((sendSlot exMidway).2.cmds 0).cur_io_ptr.off +
        ((sendSlot exMidway).2.cmds 0).io_size_remaining =
        wireLen ((sendSlot exMidway).2.cmds 0).req) := by
  have T := C23_cursor rd_params .little rd_wellBehaved exMidway exMidway_reachable
  have T1 := T.1 none 1 (fun h => by cases h) (by decide) (by decide)
  have T2 := T.2 0 (by decide)
  refine ⟨by decide, ⟨T1.1, ?_⟩, ⟨T2.1, ?_⟩⟩
  · rcases T1.2 with h | h
    · exact absurd h.1 (by decide)
    · exact h.2.2.1
  · rcases T2.2 with h | h
    · exact absurd h.1 (by decide)
    · exact h.2.2.1

/-- C3: let the backend be well behaved.  In every reachable state, every command in the
send queue (the completion hook has run on it; the object may have been through the cache
any number of times) is in state `SEND_REPLY` with the cursor at the start of its 16 reply
bytes, and these are the magic 67 44 66 98, its `ret_error` as a 4-byte big-endian integer,
and bytes 8..15 of its request header; the same 16 bytes are the reply of the command of
the send slot in state `SEND_REPLY`, and a `write` of `PollSend` that the kernel accepts
`k` bytes of puts on the socket the next `min k remaining` of them, from where the earlier
writes stopped. -/
theorem C3_reply_bytes (P : NbdParams β) (e : Endian) (hP : WellBehaved P) (s : NbdServer β)
    (h : Reachable P e Touch s) :
    beBytes 4 NBD_REPLY_MAGIC = [0x67, 0x44, 0x66, 0x98] ∧
    (∀ snd c, IsList s.links s.send_cmds_ snd → c ∈ snd →
      (s.cmds c).cur_state = NBDCMD_STATE_SEND_REPLY ∧ (s.cmds c).cur_io_ptr = ⟨.reply, 0⟩ ∧
      (s.cmds c).io_size_remaining = sizeof_reply ∧
      readAt (s.cmds c).reply 0 sizeof_reply =
        beBytes 4 NBD_REPLY_MAGIC ++ beBytes 4 (s.cmds c).ret_error ++
          readAt (s.cmds c).req 8 8) ∧
    (∀ c k, (sendSlot s).1 = some c →
      ((sendSlot s).2.cmds c).cur_state = NBDCMD_STATE_SEND_REPLY →
      (PollSend P e s (.ok k)).tx =
        s.tx ++ ((beBytes 4 NBD_REPLY_MAGIC ++ beBytes 4 ((sendSlot s).2.cmds c).ret_error ++
          readAt ((sendSlot s).2.cmds c).req 8 8).drop
            (sizeof_reply - ((sendSlot s).2.cmds c).io_size_remaining)).take
          (min k ((sendSlot s).2.cmds c).io_size_remaining)) := by
  obtain ⟨snd, pnd, fre, hC, hF⟩ := h.good hP
  refine ⟨by decide, fun snd1 c hl hc => ?_, fun c k hc hst => ?_⟩
  · have := IsList.unique hl hC.lists.send
    subst this
    have hq := hF.queue c hc
    exact ⟨hq.1, hq.2.1, hq.2.2.1, hq.2.2.2.bytes (hF.magic c (hC.snd_facts hc).1)⟩
  · obtain ⟨snd1, pnd1, fre1, hC1, h1⟩ := good_sendSlot (h.good hP)
    have hr := hC.sendSlot.2 c hc
    have hlt := (hC1.send_facts hr).1
    have hPS : PollSend P e s (.ok k) = sendBytes P e (sendSlot s).2 c (.ok k) := by
      unfold NbdServer.PollSend
      simp only [hc]
    rw [hPS, sendBytes_tx, sendSlot_tx]
    congr 1
    rcases h1.send c hr with hk | hk
    · rw [hk.2.1, ← hk.2.2.2.2.bytes (h1.magic c hlt)]
      show readAt ((sendSlot s).2.cmds c).reply
        (sizeof_reply - ((sendSlot s).2.cmds c).io_size_remaining) _ = _
      have h3 := hk.2.2.2.1
      have h4 := Nat.min_le_right k ((sendSlot s).2.cmds c).io_size_remaining
      exact readAt_drop_take _ _ _ _ (by omega)
    · rw [hk.1] at hst
      cases hst

theorem C3_reply_bytes_witness :
    (PollSend rd_params .little exFlushed (.ok 16)).tx =
      [0x67, 0x44, 0x66, 0x98, 0, 0, 0, 0, 1, 2, 3, 4, 5, 6, 7, 8] := by
  have h := (C3_reply_bytes rd_params .little rd_wellBehaved exFlushed
    (Reachable.step (Reachable.init 3 exDisk)
      (Step.data_poll exServer false false (some exRaw)
        (.ok (wireReq NBD_CMD_FLUSH [1, 2, 3, 4, 5, 6, 7, 8] 0 0)) .again
        (fun _ => by decide)))).2.2 0 16 rfl rfl
  rw [h]
  decide

/-- C8: let a read complete the header `H` of a valid write request with length `L` in
1..1048576, and let the allocator return the buffer `d`.  After the poll the receive slot
holds the command in state `RCV_WRITE_DATA` with the cursor at the start of `data_buf = d`
and `L` bytes remaining; the only call made was `alloc_data_mem` and the backend state is
the one it left, so the backend was not invoked.  While the reads that follow deliver less
than `L` bytes in all, no callback is made: trace and backend state stay as they are.  The
poll whose read delivers the `L`-th byte calls the write callback, once, and this is the
only call since the header: the engine is then in a state `T` where the command is in state
`SUBMITTED`, at the tail of the pending set, the receive slot is empty, the command carries
the opcode, offset and length of the header, and the first `L` bytes of `data_buf` are the
first `L` payload bytes in the order received; the poll ends with the backend state the
callback returned for `T`, and with the command as the callback left it, after the
completion hook if the callback completed on the caller's stack. -/
theorem C8_write_payload (P : NbdParams β) (e : Endian) (s : NbdServer β)
    (nw : Option NbdCmd) (c : Nat) (bs : List Byte) (snd pnd fre : List Nat)
    (H : Mem) (r : NbdServer β) (d : DataBuf)
    (hC : Cont s [] snd pnd fre) (hnw : nw.isSome → s.ncmds + 1 < 2 ^ 32)
    (h : RcvHeader (rcvSlot P e s nw).2 c bs)
    (hH : H = (hdrCmd (rcvSlot P e s nw).2 c bs).req)
    (hr : r = PollRecv P e s nw (.ok bs))
    (hm : wireMagic H = NBD_REQUEST_MAGIC) (ho : wireOpcode H = NBD_CMD_WRITE)
    (h1 : 1 ≤ wireLen H) (h2 : wireLen H ≤ kMaxNbdIOSize)
    (ha : (P.alloc_data_mem s.backend (wireLen H)).1 = some d) :
    RcvData e r c d 0 (wireLen H) ∧
    r.trace = s.trace ++ [.alloc_data_mem (wireLen H) (some d.addr)] ∧
    r.backend = (P.alloc_data_mem s.backend (wireLen H)).2 ∧
    (∃ fre2, Cont r [] snd pnd fre2) ∧
    ∀ (ps : List (Option NbdCmd × List Byte)) (nw2 : Option NbdCmd) (last : List Byte),
      (∀ p ∈ ps, p.2 ≠ []) → (chunks ps).length < wireLen H →
      wireLen H ≤ (chunks ps).length + last.length →
      (PollRecvs P e r (okReads ps)).trace = r.trace ∧
      (PollRecvs P e r (okReads ps)).backend = r.backend ∧
      ∃ T : NbdServer β, T.trace = r.trace ∧ T.backend = r.backend ∧ T.rcv_cmd_ = none ∧
        (T.cmds c).cur_state = NBDCMD_STATE_CMD_SUBMITTED ∧
        (∃ fre2, Cont T [] snd (pnd ++ [c]) fre2) ∧
        load e (T.cmds c).req 4 4 = NBD_CMD_WRITE ∧
        (T.cmds c).io_offset = wireFrom H ∧ (T.cmds c).io_size = wireLen H ∧
        (∃ d2, (T.cmds c).data_buf = some d2 ∧ d2.addr = d.addr ∧
          readAt d2.bytes 0 (wireLen H) = (chunks ps ++ last).take (wireLen H)) ∧
        PollRecvs P e r (okReads ps ++ [(nw2, .ok last)]) = invoke e T c (.write c) P.write ∧
        (PollRecvs P e r (okReads ps ++ [(nw2, .ok last)])).trace = r.trace ++ [.write c] ∧
        (PollRecvs P e r (okReads ps ++ [(nw2, .ok last)])).backend =
          (P.write T.backend (T.cmds c)).backend ∧
        (PollRecvs P e r (okReads ps ++ [(nw2, .ok last)])).cmds c =
          if (P.write T.backend (T.cmds c)).completed then
            replyCmd e (P.write T.backend (T.cmds c)).cmd
          else (P.write T.backend (T.cmds c)).cmd := by
  subst hH hr
  obtain ⟨k1, k2, k3⟩ := PollRecv_write P e s nw c bs d h hm ho h1 h2 ha
  obtain ⟨k4, k5⟩ := PollRecv_write_cmd P e s nw c bs d h hm ho h1 h2 ha
  obtain ⟨fre2, hC1⟩ := (hC.rcvSlot P e nw hnw).1
  generalize hH : (hdrCmd (rcvSlot P e s nw).2 c bs).req = H at *
  generalize hL : wireLen H = L at *
  refine ⟨k1, k2, k4, ⟨fre2, k3 _ _ _ hC1⟩, fun ps nw2 last hne hlt hle => ?_⟩
  obtain ⟨r1, r2, r3, r4⟩ := rcvData_run P e c ps _ d 0 _ k1 hne hlt
  have r5 := rcvData_run_cmd P e c H ps _ d 0 _ k1 hne hlt k5
  refine ⟨r2, r3, ?_⟩
  obtain ⟨T, q1, q2, q3, q4, q5, q6, q7, q8⟩ := rcvData_end P e _ c _ _ _ nw2 last H r1
    (by omega) (by omega) r5
  have efin : PollRecvs P e (PollRecv P e s nw (.ok bs)) (okReads ps ++ [(nw2, .ok last)]) =
      invoke e T c (.write c) P.write := by
    rw [PollRecvs_append]
    exact q8
  obtain ⟨i1, i2, i3, i4, i5, i6⟩ := invoke_same e T c (.write c) P.write
  refine ⟨T, q1.trans r2, q2.trans r3, q3, q4, ⟨fre2, q5 _ _ _ (r4 _ _ _ (k3 _ _ _ hC1))⟩,
    q6.1.trans ho, q6.2.2.1, ?_,
    ⟨(⟨d.addr, d.size, writeAt (writeAt d.bytes 0 (chunks ps)) (0 + (chunks ps).length)
      (last.take (L - (chunks ps).length))⟩ : DataBuf), q7, rfl, ?_⟩, efin, ?_, ?_, ?_⟩
  · exact q6.2.2.2.trans hL
  · show readAt (writeAt (writeAt d.bytes 0 (chunks ps)) (0 + (chunks ps).length)
      (last.take (L - (chunks ps).length))) 0 L = _
    rw [writeAt_writeAt]
    have el : (chunks ps ++ last).take L = chunks ps ++ last.take (L - (chunks ps).length) := by
      rw [List.take_append_eq_append_take, List.take_of_length_le (by omega)]
    rw [el]
    have hlen : (chunks ps ++ last.take (L - (chunks ps).length)).length = L := by
      rw [List.length_append, List.length_take]
      omega
    have := readAt_writeAt_same d.bytes 0 (chunks ps ++ last.take (L - (chunks ps).length))
    rw [hlen] at this
    exact this
  · rw [efin, i3, q1, r2]
  · rw [efin, i4]
  · rw [efin, invoke_cmd]

theorem C8_write_payload_witness :
    readAt (PollRecvs rd_params .little (PollRecv rd_params .little exServer (some exRaw)
      (.ok (wireReq NBD_CMD_WRITE [1, 2, 3, 4, 5, 6, 7, 8] 16 4)))
      (okReads [(none, [1, 2])] ++ [(none, .ok [3, 4])])).backend.mem 16 4 = [1, 2, 3, 4] ∧
    (PollRecvs rd_params .little (PollRecv rd_params .little exServer (some exRaw)
      (.ok (wireReq NBD_CMD_WRITE [1, 2, 3, 4, 5, 6, 7, 8] 16 4)))
      (okReads [(none, [1, 2])] ++ [(none, .ok [3, 4])])).trace =
      [.alloc_data_mem 4 (some 1000), .write 0] := by
  have W := C8_write_payload rd_params .little exServer (some exRaw) 0
    (wireReq NBD_CMD_WRITE [1, 2, 3, 4, 5, 6, 7, 8] 16 4) [] [] [] _ _ ⟨1000, 4, fun _ => 0⟩
    (Cont.fresh_engine 3 exDisk) (fun _ => by decide)
    ⟨rfl, rfl, rfl, rfl, rfl, by decide, by decide, by decide⟩ rfl rfl
    (by decide) (by decide) (by decide) (by decide) rfl
  obtain ⟨_, w2, _, _, W⟩ := W
  obtain ⟨_, _, T, t1, t2, t3, t4, t5, t6, t7, t8, ⟨d2, t9, t10, t11⟩, t12, t13, t14, t15⟩ :=
    W [(none, [1, 2])] none [3, 4] (by simp) (by decide) (by decide)
  refine ⟨?_, ?_⟩
  · rw [t14]
    have e7 : (T.cmds 0).io_offset = 16 := t7.trans (by decide)
    have e8 : (T.cmds 0).io_size = 4 := t8.trans (by decide)
    have e11 : readAt d2.bytes 0 4 = [1, 2, 3, 4] := by
      have : wireLen (hdrCmd (rcvSlot rd_params .little exServer (some exRaw)).2 0
          (wireReq NBD_CMD_WRITE [1, 2, 3, 4, 5, 6, 7, 8] 16 4)).req = 4 := by decide
      rw [this] at t11
      exact t11
    have hw := rd_write_ok T.backend (T.cmds 0) (by rw [e7, e8]; decide)
    show readAt (rd_write T.backend (T.cmds 0)).backend.mem 16 4 = _
    rw [hw]
    show readAt (writeAt T.backend.mem (T.cmds 0).io_offset
      (readAt ((T.cmds 0).mem .data) 0 (T.cmds 0).io_size)) 16 4 = _
    have hm : (T.cmds 0).mem .data = d2.bytes := by
      unfold NbdCmd.mem
      simp only [t9]
    rw [e7, e8, hm, e11]
    exact readAt_writeAt_same _ 16 [1, 2, 3, 4]
  · rw [t13, w2]
    decide

/-- C10: in a state whose send queue is `snd` and whose pending set is `pnd`, in any order.
A call of the completion hook by the backend on a command of the pending set removes it
from the pending set and makes it the tail of the send queue, in state `SEND_REPLY` with
the cursor at the start of the reply and 16 bytes remaining.  After hook calls on distinct
commands of the pending set, in any order, the send queue is `snd` followed by these
commands in the order of the calls.  With an empty send slot, the send path (with writes
that take each part whole) then puts on the socket the transmissions of the commands of
`snd` followed by the transmissions of the completed commands in the order of the hook
calls, whatever their order in the pending set was. -/
theorem C10_completion_order (P : NbdParams β) (e : Endian) (s : NbdServer β)
    (ps : List (Nat × NbdCmd)) (snd pnd fre : List Nat)
    (hC : Cont s [] snd pnd fre) (hn : (ps.map Prod.fst).Nodup) (hm : ∀ p ∈ ps, p.1 ∈ pnd) :
    (∀ c cmd, c ∈ pnd →
      Cont (CompletionCb e (setCmd s c cmd) c) [] (snd ++ [c]) (pnd.erase c) fre ∧
      ((CompletionCb e (setCmd s c cmd) c).cmds c).cur_state = NBDCMD_STATE_SEND_REPLY ∧
      ((CompletionCb e (setCmd s c cmd) c).cmds c).cur_io_ptr = ⟨.reply, 0⟩ ∧
      ((CompletionCb e (setCmd s c cmd) c).cmds c).io_size_remaining = sizeof_reply) ∧
    Cont (Completions e s ps) [] (snd ++ ps.map Prod.fst) (pnd.diff (ps.map Prod.fst)) fre ∧
    (∀ p ∈ ps, (Completions e s ps).cmds p.1 = replyCmd e p.2) ∧
    (s.send_cmd_ = none →
      (∀ c ∈ snd, (s.cmds c).cur_state = NBDCMD_STATE_SEND_REPLY ∧
        (s.cmds c).cur_io_ptr = ⟨.reply, 0⟩ ∧ (s.cmds c).io_size_remaining = sizeof_reply) →
      (PollSends P e (Completions e s ps)
        ((snd.flatMap fun c => sendWrites e (s.cmds c)) ++
          ps.flatMap fun p => sendWrites e (replyCmd e p.2))).tx =
        s.tx ++ (snd.flatMap fun c => wireOut e (s.cmds c)) ++
          ps.flatMap fun p => wireOut e (replyCmd e p.2)) := by
  obtain ⟨r1, r2, r3, r4, r5, r6⟩ := hook_run e ps s snd pnd hC hn hm
  refine ⟨fun c cmd hc => ?_, r1, r2, fun hs hq => ?_⟩
  · obtain ⟨k1, k2, _⟩ := hook_one e c cmd hC hc
    rw [k2]
    exact ⟨k1, rfl, rfl, rfl⟩
  · have hsnd : ∀ c ∈ snd, (Completions e s ps).cmds c = s.cmds c := by
      intro c hc
      apply r3
      intro hx
      obtain ⟨p, hp, rfl⟩ := List.mem_map.1 hx
      exact hC.lists.dsp _ hc (hm p hp)
    have run := send_run P e (snd ++ ps.map Prod.fst) (Completions e s ps) fre r1
      (r5.trans hs) (fun c hc => by
        rcases List.mem_append.1 hc with h | h
        · rw [hsnd c h]; exact hq c h
        · obtain ⟨p, hp, rfl⟩ := List.mem_map.1 h
          rw [r2 p hp]
          exact ⟨rfl, rfl, rfl⟩)
    have e1 : ∀ f : NbdCmd → List SendRes,
        ((snd ++ ps.map Prod.fst).flatMap fun c => f ((Completions e s ps).cmds c)) =
          (snd.flatMap fun c => f (s.cmds c)) ++ ps.flatMap fun p => f (replyCmd e p.2) := by
      intro f
      rw [List.flatMap_append, List.flatMap_map]
      congr 1
      · apply List.flatMap_congr
        intro c hc
        rw [hsnd c hc]
      · apply List.flatMap_congr
        intro p hp
        rw [r2 p hp]
    have e2 : ∀ f : NbdCmd → List Byte,
        ((snd ++ ps.map Prod.fst).flatMap fun c => f ((Completions e s ps).cmds c)) =
          (snd.flatMap fun c => f (s.cmds c)) ++ ps.flatMap fun p => f (replyCmd e p.2) := by
      intro f
      rw [List.flatMap_append, List.flatMap_map]
      congr 1
      · apply List.flatMap_congr
        intro c hc
        rw [hsnd c hc]
      · apply List.flatMap_congr
        intro p hp
        rw [r2 p hp]
    rw [e1 (sendWrites e), e2 (wireOut e), r4, ← List.append_assoc] at run
    exact run

theorem C10_completion_order_witness :
    (PollSends exDeferred .little
      (Completions .little exQueued [(1, exQueued.cmds 1), (0, exQueued.cmds 0)])
      [.ok 16, .ok 16]).tx =
      [0x67, 0x44, 0x66, 0x98, 0, 0, 0, 0, 8, 7, 6, 5, 4, 3, 2, 1] ++
        [0x67, 0x44, 0x66, 0x98, 0, 0, 0, 0, 1, 2, 3, 4, 5, 6, 7, 8] := by
  obtain ⟨snd, pnd, fre, hC, _⟩ := exQueued_reachable.good exDeferred_wellBehaved
  have e1 : snd = [] := IsList.unique hC.lists.send (by decide)
  have e2 : pnd = [0, 1] := IsList.unique hC.lists.pend (by decide)
  subst e1 e2
  have h := (C10_completion_order exDeferred .little exQueued
    [(1, exQueued.cmds 1), (0, exQueued.cmds 0)] [] [0, 1] fre hC (by decide)
    (by simp)).2.2.2 (by decide) (fun c hc => by cases hc)
  have hw : (([] : List Nat).flatMap fun c => sendWrites .little (exQueued.cmds c)) ++
      ([(1, exQueued.cmds 1), (0, exQueued.cmds 0)].flatMap fun p =>
        sendWrites .little (replyCmd .little p.2)) = [.ok 16, .ok 16] := by
    have n1 : ¬ hasData .little (replyCmd .little (exQueued.cmds 1)) := by decide
    have n0 : ¬ hasData .little (replyCmd .little (exQueued.cmds 0)) := by decide
    simp only [List.flatMap_nil, List.nil_append, List.flatMap_cons, sendWrites, if_neg n1,
      if_neg n0, List.append_nil, List.singleton_append]
    rfl
  rw [hw] at h
  rw [h]
  decide

/-- C5: let the receive slot hold the command `c` part-way through a request header of
which `rem` bytes remain, and let reads deliver these bytes in chunks of positive length,
with any number of `EAGAIN` results among them, the last chunk being `last`; `A` is the
engine after these reads, `B` the engine after a single read that delivers all the bytes.
Every read that returns a positive count reduces `io_size_remaining` by exactly that
count: a read of `k < rem` bytes leaves `rem - k`, and a read that delivers the rest
enters the processing of the request with 0 remaining.  `A` and `B` are the processing of
the same 28 header bytes in the same engine state, the command differing in `cur_io_ptr`
only (where the last chunk started instead of where the first did), so the decoded command
is the same but for that field.  The decision is the same for any backend: the same
shutdown mark and reason reported by `CheckShutdown`, the same allocator and callback calls
in the same order, the same receive slot, the same bytes sent.  For a valid read or write
request `A = B`.  For every header, if the flush, trim and disconnect callbacks neither use
nor change `cur_io_ptr`, then `A` and `B` are the same but for `cur_io_ptr` of the command
`c`: the same lists and the same other fields of every command.  A poll with an empty
receive slot is the poll on the state with the slot filled.  If the header is valid and the
callbacks leave the request and the decoded fields alone, the command carries the reference
decoding of the header in `A` and in `B`. -/
theorem C5_chunked_header (P : NbdParams β) (e : Endian) (s : NbdServer β) (c : Nat)
    (pre : List (Option NbdCmd × RecvRes)) (nw nw2 : Option NbdCmd) (last : List Byte)
    (A B : NbdServer β)
    (h : RcvHeader s c (delivered pre ++ last))
    (hv : ∀ r ∈ pre, r.2 ≠ .fail ∧ r.2 ≠ .ok [])
    (hlast : last ≠ [])
    (hlen : (delivered pre ++ last).length = (s.cmds c).io_size_remaining)
    (hA : A = PollRecvs P e s (pre ++ [(nw2, .ok last)]))
    (hB : B = PollRecv P e s nw (.ok (delivered pre ++ last))) :
    (∀ nw3 b, b ≠ [] → b.length < (s.cmds c).io_size_remaining →
      ((PollRecv P e s nw3 (.ok b)).cmds c).io_size_remaining =
        (s.cmds c).io_size_remaining - b.length) ∧
    (∀ nw3 b, (s.cmds c).io_size_remaining ≤ b.length →
      PollRecv P e s nw3 (.ok b) = rcvRequest P e s c (hdrCmd s c b) ∧
      (hdrCmd s c b).io_size_remaining =
        (s.cmds c).io_size_remaining - (b.take (s.cmds c).io_size_remaining).length) ∧
    B = rcvRequest P e s c (hdrCmd s c (delivered pre ++ last)) ∧
    A = rcvRequest P e s c { hdrCmd s c (delivered pre ++ last) with
      cur_io_ptr := ⟨.req, sizeof_req - (s.cmds c).io_size_remaining +
        (delivered pre).length⟩ } ∧
    decodeFields e (hostType e { hdrCmd s c (delivered pre ++ last) with
        cur_io_ptr := ⟨.req, sizeof_req - (s.cmds c).io_size_remaining +
          (delivered pre).length⟩ }) =
      { decodeFields e (hostType e (hdrCmd s c (delivered pre ++ last))) with
        cur_io_ptr := ⟨.req, sizeof_req - (s.cmds c).io_size_remaining +
          (delivered pre).length⟩ } ∧
    (∀ r0, CheckShutdown A r0 = CheckShutdown B r0) ∧
    A.trace = B.trace ∧ A.rcv_cmd_ = B.rcv_cmd_ ∧ A.tx = B.tx ∧
    (wireMagic (hdrCmd s c (delivered pre ++ last)).req = NBD_REQUEST_MAGIC →
      wireOpcode (hdrCmd s c (delivered pre ++ last)).req = NBD_CMD_READ ∨
        wireOpcode (hdrCmd s c (delivered pre ++ last)).req = NBD_CMD_WRITE → A = B) ∧
    (CursorBlind P → (∀ p, setCursor A c p = setCursor B c p) ∧
      A.shutdown_ = B.shutdown_ ∧ A.shutdown_reason_ = B.shutdown_reason_ ∧
      A.trace = B.trace ∧ A.backend = B.backend ∧ A.rcv_cmd_ = B.rcv_cmd_ ∧
      A.links = B.links ∧ A.send_cmds_ = B.send_cmds_ ∧
      A.pending_backend_cmds_ = B.pending_backend_cmds_ ∧ A.cmd_cache_ = B.cmd_cache_ ∧
      (∀ i, i ≠ c → A.cmds i = B.cmds i) ∧
      ({ A.cmds c with cur_io_ptr := ⟨.req, 0⟩ } : NbdCmd) =
        { B.cmds c with cur_io_ptr := ⟨.req, 0⟩ }) ∧
    (∀ s0 nw0 rd, s0.shutdown_ = false → (rcvSlot P e s0 nw0).2 = s →
      PollRecv P e s0 nw0 rd = PollRecv P e s nw rd) ∧
    (KeepsHeader P →
      wireMagic (hdrCmd s c (delivered pre ++ last)).req = NBD_REQUEST_MAGIC →
      wireOpcode (hdrCmd s c (delivered pre ++ last)).req ≤ 4 →
      Decoded e (hdrCmd s c (delivered pre ++ last)).req (A.cmds c) ∧
      Decoded e (hdrCmd s c (delivered pre ++ last)).req (B.cmds c)) := by
  obtain ⟨h1, h2, h3, h4, h5, h6, h7, h8⟩ := h
  have hn : (delivered pre).length < (s.cmds c).io_size_remaining := by
    rw [List.length_append] at hlen
    have : 0 < last.length := List.length_pos.2 hlast
    omega
  have hll : last.length = (s.cmds c).io_size_remaining - (delivered pre).length := by
    rw [List.length_append] at hlen
    omega
  -- the single read
  have eB : B = rcvRequest P e s c (hdrCmd s c (delivered pre ++ last)) := by
    rw [hB, PollRecv_some P e nw _ h1 h2,
      rcvBytes_header_last P e s c _ _ _ rfl h3 h5
        (fun hz => hlast (List.append_eq_nil.1 hz).2) hlen]
    unfold hdrCmd
    rw [List.take_of_length_le (by omega)]
  -- the reads in chunks
  have eA : A = rcvRequest P e s c { hdrCmd s c (delivered pre ++ last) with
      cur_io_ptr := ⟨.req, sizeof_req - (s.cmds c).io_size_remaining +
        (delivered pre).length⟩ } := by
    rw [hA, PollRecvs_append]
    have hrun := header_run P e c pre s _ _ rfl h1 h2 h5 hv hn
    obtain ⟨s1, hs1⟩ : ∃ s1, s1 = PollRecvs P e s pre := ⟨_, rfl⟩
    rw [← hs1]
    rw [hrun] at hs1
    have c1 : s1.cmds c = { s.cmds c with
        req := writeAt (s.cmds c).req (sizeof_req - (s.cmds c).io_size_remaining)
          (delivered pre)
        io_size_remaining := (s.cmds c).io_size_remaining - (delivered pre).length
        cur_io_ptr := ⟨.req, sizeof_req - (s.cmds c).io_size_remaining +
          (delivered pre).length⟩ } := by
      rw [hs1, setCmd_same]
    show PollRecv P e s1 nw2 (.ok last) = _
    rw [PollRecv_some P e nw2 _ (show s1.shutdown_ = false by rw [hs1]; exact h1)
        (show s1.rcv_cmd_ = some c by rw [hs1]; exact h2),
      rcvBytes_header_last P e s1 c (sizeof_req - (s.cmds c).io_size_remaining +
        (delivered pre).length) last _ c1 h3 rfl hlast hll, hs1, rcvRequest_setCmd]
    congr 1
    unfold hdrCmd
    rw [List.take_of_length_le (by omega)]
    show ({ s.cmds c with
        req := writeAt (writeAt (s.cmds c).req (sizeof_req - (s.cmds c).io_size_remaining)
          (delivered pre)) (sizeof_req - (s.cmds c).io_size_remaining +
            (delivered pre).length) last
        io_size_remaining := 0
        cur_io_ptr := ⟨.req, sizeof_req - (s.cmds c).io_size_remaining +
          (delivered pre).length⟩ } : NbdCmd) = _
    rw [writeAt_writeAt]
  have hcur : ∀ p, CursorBlind P → setCursor A c p = setCursor B c p := by
    intro p hP
    rw [eA, eB]
    exact rcvRequest_cursor P e s c _ _ p hP h2
  obtain ⟨g1, g2, g3, g4⟩ := rcvRequest_decision P e s c (hdrCmd s c (delivered pre ++ last))
    ⟨.req, sizeof_req - (s.cmds c).io_size_remaining + (delivered pre).length⟩ h2 h1
  rw [← eA, ← eB] at g1 g2 g3 g4
  refine ⟨fun nw3 b hb hk => ?_, fun nw3 b hk => ⟨?_, ?_⟩, eB, eA, rfl, g1, g2, g3, g4,
    fun hm ho => ?_, fun hP => ?_, fun s0 nw0 rd hs0 hs => ?_, fun hK hm ho => ?_⟩
  · rw [PollRecv_some P e nw3 _ h1 h2, rcvBytes_header_part P e s c _ b _ rfl h5 hb hk,
      setCmd_same]
  · have hh : RcvHeader (rcvSlot P e s nw3).2 c b := by
      rw [rcvSlot_some P e nw3 h2]
      exact ⟨h1, h2, h3, h4, h5, h6, h7, hk⟩
    have := PollRecv_header P e s nw3 c b h1 hh
    rw [rcvSlot_some P e nw3 h2] at this
    exact this
  · show 0 = _
    rw [List.length_take, Nat.min_eq_left hk, Nat.sub_self]
  · rw [eA, eB]
    exact rcvRequest_rw P e s c _ _ hm ho
  · have k := hcur ⟨.req, 0⟩ hP
    have f : ∀ {γ : Type} (g : NbdServer β → γ),
        (∀ t : NbdServer β, g (setCursor t c ⟨.req, 0⟩) = g t) → g A = g B := by
      intro γ g hg
      rw [← hg A, ← hg B, k]
    refine ⟨fun p => hcur p hP, f (·.shutdown_) (fun _ => rfl),
      f (·.shutdown_reason_) (fun _ => rfl), f (·.trace) (fun _ => rfl),
      f (·.backend) (fun _ => rfl), f (·.rcv_cmd_) (fun _ => rfl), f (·.links) (fun _ => rfl),
      f (·.send_cmds_) (fun _ => rfl), f (·.pending_backend_cmds_) (fun _ => rfl),
      f (·.cmd_cache_) (fun _ => rfl), fun i hi => ?_, ?_⟩
    · have := congrArg (fun t : NbdServer β => t.cmds i) k
      simp only [setCursor] at this
      rw [setCmd_other _ _ _ _ hi, setCmd_other _ _ _ _ hi] at this
      exact this
    · have := congrArg (fun t : NbdServer β => t.cmds c) k
      simp only [setCursor] at this
      rw [setCmd_same, setCmd_same] at this
      exact this
  · have hc : (rcvSlot P e s0 nw0).1 = some c := by
      rw [rcvSlot_fst, hs]; exact h2
    rw [PollRecv_slot P e s0 nw0 rd c hs0 hc, hs, PollRecv_some P e nw rd h1 h2]
  · have hv2 : ¬ (wireMagic (hdrCmd s c (delivered pre ++ last)).req ≠ NBD_REQUEST_MAGIC ∨
        4 < wireOpcode (hdrCmd s c (delivered pre ++ last)).req) := by
      rw [not_or, not_not, not_lt]
      exact ⟨hm, ho⟩
    have hty := decode_type e (hdrCmd s c (delivered pre ++ last))
    refine ⟨?_, ?_⟩
    · rw [eA, rcvRequest_wire]
      show Decoded e _ ((if wireMagic (hdrCmd s c (delivered pre ++ last)).req ≠
        NBD_REQUEST_MAGIC ∨ 4 < wireOpcode (hdrCmd s c (delivered pre ++ last)).req then _
        else _ : NbdServer β).cmds c)
      rw [if_neg hv2]
      exact (rcvDispatch_decoded P e s c _ _ h2 (Decoded.decode e _)
        (by rw [decode_type]; exact ho)).1 hK
    · rw [eB, rcvRequest_wire, if_neg hv2]
      exact (rcvDispatch_decoded P e s c _ _ h2 (Decoded.decode e _)
        (by rw [hty]; exact ho)).1 hK

theorem C5_chunked_header_witness :
    (∀ p, setCursor (PollRecvs exDeferred .little
        (rcvSlot exDeferred .little exServer (some exRaw)).2
        ([(none, .ok (beBytes 4 NBD_REQUEST_MAGIC)), (none, .again),
          (none, .ok (beBytes 4 NBD_CMD_FLUSH))] ++
          [(none, .ok ([1, 2, 3, 4, 5, 6, 7, 8] ++ List.replicate 12 0))])) 0 p =
      setCursor (PollRecv exDeferred .little
        (rcvSlot exDeferred .little exServer (some exRaw)).2 none
        (.ok (delivered [(none, .ok (beBytes 4 NBD_REQUEST_MAGIC)), (none, .again),
          (none, .ok (beBytes 4 NBD_CMD_FLUSH))] ++
          ([1, 2, 3, 4, 5, 6, 7, 8] ++ List.replicate 12 0)))) 0 p) ∧
    (PollRecvs exDeferred .little (rcvSlot exDeferred .little exServer (some exRaw)).2
        ([(none, .ok (beBytes 4 NBD_REQUEST_MAGIC)), (none, .again),
          (none, .ok (beBytes 4 NBD_CMD_FLUSH))] ++
          [(none, .ok ([1, 2, 3, 4, 5, 6, 7, 8] ++ List.replicate 12 0))])).trace =
      (PollRecv exDeferred .little (rcvSlot exDeferred .little exServer (some exRaw)).2 none
        (.ok (delivered [(none, .ok (beBytes 4 NBD_REQUEST_MAGIC)), (none, .again),
          (none, .ok (beBytes 4 NBD_CMD_FLUSH))] ++
          ([1, 2, 3, 4, 5, 6, 7, 8] ++ List.replicate 12 0)))).trace := by
  have W := C5_chunked_header exDeferred .little
    (rcvSlot exDeferred .little exServer (some exRaw)).2 0
    [(none, .ok (beBytes 4 NBD_REQUEST_MAGIC)), (none, .again),
      (none, .ok (beBytes 4 NBD_CMD_FLUSH))] none none
    ([1, 2, 3, 4, 5, 6, 7, 8] ++ List.replicate 12 0) _ _
    ⟨rfl, rfl, rfl, rfl, rfl, by decide, by decide, by decide⟩
    (fun r hr => by
      simp only [List.mem_cons, List.mem_singleton, List.not_mem_nil, or_false] at hr
      rcases hr with rfl | rfl | rfl
      · exact ⟨(fun h => by cases h), fun h => absurd (RecvRes.ok.inj h) (by decide)⟩
      · exact ⟨(fun h => by cases h), fun h => by cases h⟩
      · exact ⟨(fun h => by cases h), fun h => absurd (RecvRes.ok.inj h) (by decide)⟩)
    (by decide) (by decide) rfl rfl
  exact ⟨(W.2.2.2.2.2.2.2.2.2.2.1 exDeferred_cursorBlind).1, W.2.2.2.2.2.2.1⟩

/-- C6: on the example RAM disk (`rd_params`: `rd_read` and `rd_write` complete
synchronously, `rd_alloc_mem` returns a buffer), for every offset `off` and every payload
of length `L` with `1 ≤ L ≤ kMaxNbdIOSize` (1048576) and `off + L ≤ kMemSize` (104857600).
The engine `s` is idle: running, nothing in the receive slot, the send slot, the send queue
or at the backend, and `PollRecv` gets the command object `c`.  The reads deliver the write
request with handle `hW` and then the `L` payload bytes, a `write` takes the reply, a read
delivers the read request with handle `hR`, the same offset and the length `L`, and two
`write` calls take the reply and the data.  What the engine has then put on the socket,
after what it had sent before, is in this order: the reply with error 0 and the handle
`hW`, the reply with error 0 and the handle `hR`, and exactly the `L` bytes of the
payload. -/
theorem C6_write_then_read (e : Endian) (s : NbdServer RamDisk) (nw : Option NbdCmd) (c : Nat)
    (fre : List Nat) (hW hR : List Byte) (off : Nat) (payload : List Byte)
    (hg : Good e s) (hC : Cont s [] [] [] fre) (hs : s.shutdown_ = false)
    (hr : s.rcv_cmd_ = none) (hsn : s.send_cmd_ = none)
    (hnw : nw.isSome → s.ncmds + 1 < 2 ^ 32) (hc : (rcvSlot rd_params e s nw).1 = some c)
    (hhW : hW.length = 8) (hhR : hR.length = 8)
    (h1 : 1 ≤ payload.length) (h2 : payload.length ≤ kMaxNbdIOSize)
    (h3 : off + payload.length ≤ kMemSize) :
    (PollSend rd_params e (PollSend rd_params e
      (PollRecv rd_params e
        (PollSend rd_params e
          (PollRecv rd_params e
            (PollRecv rd_params e s nw (.ok (wireReq NBD_CMD_WRITE hW off payload.length)))
            none (.ok payload))
          (.ok sizeof_reply))
        none (.ok (wireReq NBD_CMD_READ hR off payload.length)))
      (.ok sizeof_reply)) (.ok payload.length)).tx =
      s.tx ++ (beBytes 4 NBD_REPLY_MAGIC ++ beBytes 4 0 ++ hW) ++
        (beBytes 4 NBD_REPLY_MAGIC ++ beBytes 4 0 ++ hR) ++ payload := by
  obtain ⟨⟨fre3, y1⟩, y2, y3, y4, y5, y6, y7⟩ := txn_write e s nw c fre hW off payload hg hC hs
    hr hsn hnw hc hhW h1 h2 h3 _ rfl
  rw [txn_read e _ none c (c :: fre3) hR off payload.length y2 y1 y3 y4 y5
    (fun h => by cases h) (rcvSlot_cached rd_params e none y1 y4) hhR h1 h2 h3 _ rfl,
    y6, y7, readAt_writeAt_same]

theorem C6_write_then_read_witness :
    (PollSend rd_params .little (PollSend rd_params .little
      (PollRecv rd_params .little
        (PollSend rd_params .little
          (PollRecv rd_params .little
            (PollRecv rd_params .little exServer (some exRaw)
              (.ok (wireReq NBD_CMD_WRITE [1, 2, 3, 4, 5, 6, 7, 8] 16 [170, 171].length)))
            none (.ok [170, 171]))
          (.ok sizeof_reply))
        none (.ok (wireReq NBD_CMD_READ [8, 7, 6, 5, 4, 3, 2, 1] 16 [170, 171].length)))
      (.ok sizeof_reply)) (.ok [170, 171].length)).tx =
      exServer.tx ++ (beBytes 4 NBD_REPLY_MAGIC ++ beBytes 4 0 ++ [1, 2, 3, 4, 5, 6, 7, 8]) ++
        (beBytes 4 NBD_REPLY_MAGIC ++ beBytes 4 0 ++ [8, 7, 6, 5, 4, 3, 2, 1]) ++ [170, 171] :=
  C6_write_then_read .little exServer (some exRaw) 0 [] [1, 2, 3, 4, 5, 6, 7, 8]
    [8, 7, 6, 5, 4, 3, 2, 1] 16 [170, 171] (good_init .little 3 exDisk)
    (Cont.fresh_engine 3 exDisk) rfl rfl rfl (fun _ => by decide) rfl rfl rfl
    (by decide) (by decide) (by decide)

end Claims

end Blksrv
